import Mathlib

/-!
# rbuild MinGW backend: directory tree and toolchain probe

A shallow embedding of `tools/rbuild/backend/mingw/mingw.cpp`.

* A C string (`const char*`, `std::string`) is the list of its characters up to,
  and not including, the terminating NUL; every `Char` stands for one byte and
  is compared by its code.
* `std::map<std::string, Directory*>` is an association list kept in increasing
  key order, the order `std::less<std::string>` gives (`strcmp` below).
* A member function that mutates `*this` returns the new value of the object
  together with the exception it raised, if any: the state an exception leaves
  behind is part of the result.
-/

/-- Contents of a NUL-terminated string. -/
abbrev CStr := List Char

/-- Modelled from the spec: the exception classes the backend throws, declared
outside this file: a configuration error, an access-denied error and an
unsupported-toolchain error. -/
inductive Exception where
  | InvalidOperationException (path : CStr)
  | AccessDeniedException (path : CStr)
  | UnsupportedBuildToolException (tool : CStr) (version : CStr)

/-- Modelled from the spec: class `Directory`, declared in the header of the
backend: a name and `subdirs`, the ordered-by-name mapping from child name to
child, each child owned by its parent alone. -/
inductive Directory where
  | mk (name : CStr) (subdirs : List (CStr × Directory)) : Directory

/-- Member `name`. -/
def Directory.name : Directory → CStr
  | .mk n _ => n

/-- Member `subdirs`. -/
def Directory.subdirs : Directory → List (CStr × Directory)
  | .mk _ m => m

/-- Constructor `Directory::Directory ( name_ )`: the given name, no child. -/
def Directory.new (name_ : CStr) : Directory := .mk name_ []

/-- Byte-wise three-way comparison, the sign of `strcmp` (and of
`std::string::compare`): negative, zero or positive. -/
def strcmp : CStr → CStr → Int
  | [], [] => 0
  | [], _ :: _ => -1
  | _ :: _, [] => 1
  | a :: as, b :: bs =>
    if a.toNat < b.toNat then -1
    else if b.toNat < a.toNat then 1
    else strcmp as bs

/-- Lookup `subdirs.find(s)`: `none` stands for `subdirs.end()`. Two keys are
the same key when neither is below the other, which for `strcmp` is equality
(`strcmp_eq_zero`). -/
def mapFind {α : Type} : List (CStr × α) → CStr → Option α
  | [], _ => none
  | (k, v) :: rest, s => if k = s then some v else mapFind rest s

/-- Assignment `subdirs[s] = v`: replaces the value stored under `s`, or
inserts the entry in front of the first greater key. -/
def mapPut {α : Type} : List (CStr × α) → CStr → α → List (CStr × α)
  | [], s, v => [(s, v)]
  | (k, w) :: rest, s, v =>
    if k = s then (s, v) :: rest
    else if strcmp s k < 0 then (s, v) :: (k, w) :: rest
    else (k, w) :: mapPut rest s v

/-- Write through the pointer `subdirs[s]`: the node stored under the key `s`
is replaced by its new state; the keys do not change. -/
def mapSet {α : Type} : List (CStr × α) → CStr → α → List (CStr × α)
  | [], _, _ => []
  | (k, w) :: rest, s, v =>
    if k = s then (k, v) :: rest else (k, w) :: mapSet rest s v

/-- The accept set of `strpbrk ( subdir, "/\\" )`. -/
def isSep (c : Char) : Bool := c == '/' || c == '\\'

/-- The body of `Directory::Add`, with `recurse` standing for the recursive
call `subdirs[s]->Add ( p )`. The pointer `p` is the pair of `s`, the
characters in front of it, and the characters from it on; `sc` is the map
after the `if` that creates a missing node, with the node `subdirs[s]` points
to. -/
def Directory.AddBody (recurse : Directory → CStr → Directory × Option Exception) :
    Directory → CStr → Directory × Option Exception
  | .mk name subdirs, subdir =>
    if '$' ∈ subdir then
      (.mk name subdirs, some (.InvalidOperationException subdir))
    else
      let s := subdir.takeWhile (fun c => !isSep c)
      let sc : List (CStr × Directory) × Directory :=
        match mapFind subdirs s with
        | some c => (subdirs, c)
        | none => (mapPut subdirs s (Directory.new s), Directory.new s)
      match subdir.dropWhile (fun c => !isSep c) with
      | _ :: c :: p =>
        let r := recurse sc.2 (c :: p)
        (.mk name (mapSet sc.1 s r.1), r.2)
      | _ => (.mk name sc.1, none)

/-- `Directory::Add` unfolded to a given depth of recursion; at depth zero the
tree is returned as it is. -/
def Directory.AddFuel : Nat → Directory → CStr → Directory × Option Exception
  | 0 => fun d _ => (d, none)
  | fuel + 1 => Directory.AddBody (Directory.AddFuel fuel)

/-- `Directory::Add ( subdir )`: the tree after the call and the exception
thrown, if any. Every recursive call is on a strictly shorter string, so the
depth never exceeds the length of `subdir` plus one; `Directory.Add_eq` is the
source's recursion without the bound. -/
def Directory.Add (d : Directory) (subdir : CStr) : Directory × Option Exception :=
  Directory.AddFuel (subdir.length + 1) d subdir

/-- A sequence of `Add` calls on one tree, as the backend makes them; the
first exception ends the sequence. -/
def Directory.AddAll : Directory → List CStr → Directory × Option Exception
  | d, [] => (d, none)
  | d, p :: ps =>
    match d.Add p with
    | (d1, none) => Directory.AddAll d1 ps
    | (d1, some e) => (d1, some e)

mutual
/-- Paths of the nodes below the root, each the list of the names from the
root's child down to the node. -/
def Directory.paths : Directory → List (List CStr)
  | .mk _ m => pathsList m
/-- Paths of the nodes of a list of children. -/
def pathsList : List (CStr × Directory) → List (List CStr)
  | [] => []
  | (_, c) :: rest => ([c.name] :: (c.paths).map (fun q => c.name :: q)) ++ pathsList rest
end

mutual
/-- All nodes of the tree, the root first. -/
def Directory.nodes : Directory → List Directory
  | .mk n m => .mk n m :: nodesList m
/-- All nodes of a list of children. -/
def nodesList : List (CStr × Directory) → List Directory
  | [] => []
  | (_, c) :: rest => c.nodes ++ nodesList rest
end

/-- Keys strictly increasing: the ordering invariant of one `std::map`. -/
def keysIncreasing {α : Type} : List (CStr × α) → Bool
  | [] => true
  | (k, _) :: rest => rest.all (fun kv => decide (strcmp k kv.1 < 0)) && keysIncreasing rest

mutual
/-- Every `subdirs` map of the tree is in strictly increasing key order. -/
def Directory.ordered : Directory → Bool
  | .mk _ m => keysIncreasing m && orderedList m
/-- Every tree of the list is ordered. -/
def orderedList : List (CStr × Directory) → Bool
  | [] => true
  | (_, c) :: rest => c.ordered && orderedList rest
end

mutual
/-- Every child of every node is stored under its own name. -/
def Directory.keyed : Directory → Bool
  | .mk _ m => keyedList m
/-- Every entry of the list has its child's name as key, and so below. -/
def keyedList : List (CStr × Directory) → Bool
  | [] => true
  | (k, c) :: rest => decide (k = c.name) && c.keyed && keyedList rest
end

/-- Trees the program can hold: a freshly constructed `Directory` and whatever
a call of `Add`, failing or not, leaves behind. -/
inductive Directory.Reachable : Directory → Prop where
  | fresh (name_ : CStr) : Directory.Reachable (Directory.new name_)
  | add (d : Directory) (subdir : CStr) :
      Directory.Reachable d → Directory.Reachable (d.Add subdir).1


/-- Modelled from the spec: the path separator character `CSEP`, a macro
declared outside this file; the spec calls the paths slash-delimited. -/
def CSEP : Char := '/'

/-- Modelled from the spec: the path separator as a string, `SSEP`. -/
def SSEP : CStr := [CSEP]

/-- `Directory::EscapeSpaces ( path )`: every space gets a backslash in front. -/
def Directory.EscapeSpaces : CStr → CStr
  | [] => []
  | c :: p =>
    if c = ' ' then '\\' :: ' ' :: Directory.EscapeSpaces p
    else c :: Directory.EscapeSpaces p

/-- One build rule as `Directory::CreateRule` writes it: the target, the
order-only prerequisite after `: | `, and the recipe lines. -/
structure Rule where
  target : CStr
  prereq : CStr
  recipe : List CStr
  deriving DecidableEq

/-- The text of a rule in the makefile. -/
def Rule.text (r : Rule) : CStr :=
  r.target ++ ": | ".toList ++ r.prereq ++ "\n".toList ++ r.recipe.flatten

/-- The two recipe lines `CreateRule` writes under every rule. -/
def mkdirRecipe : List CStr := ["\t$(ECHO_MKDIR)\n".toList, "\t$\x7bmkdir\x7d $@\n".toList]

mutual
/-- `Directory::CreateRule ( f, parent )`: the rules appended to the file `f`,
in the order they are written. -/
def Directory.CreateRule : Directory → CStr → List Rule
  | .mk name subdirs, parent =>
    if parent.length > 0 then
      { target := Directory.EscapeSpaces parent ++ [CSEP] ++ Directory.EscapeSpaces name,
        prereq := Directory.EscapeSpaces parent,
        recipe := mkdirRecipe }
        :: CreateRuleList subdirs (parent ++ SSEP ++ name)
    else
      CreateRuleList subdirs name
/-- The loop of `CreateRule` over `subdirs`, with `path` for every child. -/
def CreateRuleList : List (CStr × Directory) → CStr → List Rule
  | [], _ => []
  | (_, c) :: rest, path => c.CreateRule path ++ CreateRuleList rest path
end

/-- `MingwBackend::IsSupportedBinutilsVersion ( binutilsVersion )`. -/
def MingwBackend.IsSupportedBinutilsVersion (binutilsVersion : CStr) : Bool :=
  if (strcmp binutilsVersion "20040902".toList ≥ 0 ∧
      strcmp binutilsVersion "20041008".toList ≤ 0) ∨
      strcmp binutilsVersion "20031001".toList < 0 then
    false
  else
    true

/-- Byte-wise lexicographic order on strings, as the spec words it: at the
first position where two strings differ the smaller byte decides, and a
string is greater than each of its proper leading parts. -/
def byteLex (a b : CStr) : Prop := List.Lex (fun x y : Char => x.toNat < y.toNat) a b

/-- The tokens successive `strtok` calls return on a buffer, `cur` being the
part of the current token already read: separators are skipped and every
maximal run of other characters is one token. -/
def strtokAux (separators : CStr) : CStr → CStr → List CStr
  | [], cur => if cur = [] then [] else [cur]
  | c :: cs, cur =>
    if c ∈ separators then
      if cur = [] then strtokAux separators cs [] else cur :: strtokAux separators cs []
    else strtokAux separators cs (cur ++ [c])

/-- The scan behind `std::string::find_last_not_of`: `i` is the index of the
next character and `last` the greatest index seen so far of a character
outside `set`. -/
def findLastNotOfFrom (set : CStr) : CStr → Int → Int → Int
  | [], _, last => last
  | c :: cs, i, last => findLastNotOfFrom set cs (i + 1) (if c ∈ set then last else i)

/-- `version.find_last_not_of ( set )` stored in an `int`: the greatest index
of a character outside `set`, and `-1` (`npos`) when there is none. -/
def find_last_not_of (version set : CStr) : Int := findLastNotOfFrom set version 0 (-1)

/-- What is in `buffer` after the read loop of `GetBinutilsVersion`: at most
80 characters of the output of the command, ending at the first NUL if the
output has one (the buffer is used as a C string). -/
def MingwBackend.readBuffer (output : CStr) : CStr :=
  (output.take 80).takeWhile (fun c => c != Char.ofNat 0)

/-- `MingwBackend::GetBinutilsVersion ( binutilsCommand )`, with `popen` giving
what a command line prints on its standard output. `none` is `string ( NULL )`,
reached when `strtok` finds no token: the language defines no result there,
and the GNU C++ library throws `std::logic_error`. -/
def MingwBackend.GetBinutilsVersion (popen : CStr → CStr) (binutilsCommand : CStr) :
    Option CStr :=
  let versionCommand := binutilsCommand ++ " -v".toList
  let buffer := MingwBackend.readBuffer (popen versionCommand)
  match (strtokAux " ".toList buffer []).getLast? with
  | none => none
  | some version =>
    let lastDigit := find_last_not_of version "\t\r\n".toList
    if lastDigit ≠ -1 then some (version.take (lastDigit + 1).toNat)
    else some version


/-- The tree after the segments `segs` have been walked from the root, each
found among the children of the node reached or created there: what `Add` does
once its argument is cut into segments. -/
def Directory.insertPath : Directory → List CStr → Directory
  | d, [] => d
  | .mk n m, s :: rest =>
    match mapFind m s with
    | some c => .mk n (mapSet m s (Directory.insertPath c rest))
    | none => .mk n (mapPut m s (Directory.insertPath (Directory.new s) rest))

/-- The segments `Add` cuts `subdir` into, `cur` being the part of the current
segment already read: a separator ends a segment, and a separator that ends
the string is dropped. -/
def addSegmentsAux : CStr → CStr → List CStr
  | [], cur => [cur]
  | c :: cs, cur =>
    if isSep c then
      match cs with
      | [] => [cur]
      | _ :: _ => cur :: addSegmentsAux cs []
    else addSegmentsAux cs (cur ++ [c])

/-- The segments `Add` cuts `subdir` into. -/
def addSegments (subdir : CStr) : List CStr := addSegmentsAux subdir []

/-- `v2s ( v, wrap_at )`, the loop: `wrap_count` and `s` are the locals of the
source. The test `wrap_count++ == wrap_at` is only evaluated, and the counter
only advanced, when `wrap_at > 0`. -/
def v2sLoop (wrap_at : Int) : List CStr → Int → CStr → CStr
  | [], _, s => s
  | x :: rest, wrap_count, s =>
    if x.length = 0 then v2sLoop wrap_at rest wrap_count s
    else if wrap_at > 0 then
      if wrap_count = wrap_at then
        v2sLoop wrap_at rest (wrap_count + 1) (s ++ " \\\n\t\t".toList ++ x)
      else if s.length > 0 then
        v2sLoop wrap_at rest (wrap_count + 1) (s ++ " ".toList ++ x)
      else
        v2sLoop wrap_at rest (wrap_count + 1) (s ++ x)
    else if s.length > 0 then
      v2sLoop wrap_at rest wrap_count (s ++ " ".toList ++ x)
    else
      v2sLoop wrap_at rest wrap_count (s ++ x)

/-- `v2s ( v, wrap_at )`: the non-empty strings of `v` in one string. -/
def v2s (v : List CStr) (wrap_at : Int) : CStr :=
  if v.length = 0 then [] else v2sLoop wrap_at v 0 []

/-- Modelled from the spec: the type of a module, a closed set of variants:
program, dynamic library, static library, driver kinds, boot sector, ISO
image, live-ISO image, build tool, test, alias, and the variants the spec
leaves unnamed (`Other`). -/
inductive ModuleType where
  | BuildTool
  | Program
  | DynamicLibrary
  | StaticLibrary
  | Driver
  | BootSector
  | Iso
  | LiveIso
  | Test
  | Alias
  | Other (tag : Nat)
  deriving DecidableEq

/-- Modelled from the spec: a module of the project: name, type, enabled flag,
install name and install base, and the name of the module it is an alias of
(empty when it is none). The source calls the class `Module`. -/
structure Project.Module where
  name : CStr
  type : ModuleType
  enabled : Bool
  installName : CStr
  installBase : CStr
  aliasedModuleName : CStr
  deriving DecidableEq

/-- Functions of the repository that `mingw.cpp` calls and does not define;
every definition below takes them as they come. `LocateModule` is
`ProjectNode.LocateModule`, `none` standing for `NULL`; `InstanciateHandler`
gives the exception `MingwModuleHandler::InstanciateHandler` throws for the
module, `none` when it returns a handler. -/
structure External where
  NormalizeFilename : CStr → CStr
  GetTargetMacro : Project.Module → CStr
  GetPath : Project.Module → CStr
  GetDependencyPath : Project.Module → CStr
  ReferenceObjects : Project.Module → Bool
  LocateModule : CStr → Option Project.Module
  InstanciateHandler : Project.Module → Option Exception

/-- The machine the generator runs on: whether it was built with `WIN32`
defined, the environment variables (`Environment::GetVariable`), the exit
status `system` returns for a command line and the standard output `popen`
reads from one. -/
structure World where
  win32 : Bool
  GetVariable : CStr → CStr
  system : CStr → Int
  popen : CStr → CStr

/-- Modelled from the spec: `NUL`, the name of the null device, a macro
declared outside this file. -/
def NUL (win32 : Bool) : CStr := if win32 then "NUL".toList else "/dev/null".toList

/-- The members of `MingwBackend` the toolchain probe assigns. -/
structure MingwBackend where
  compilerPrefix : CStr
  compilerCommand : CStr
  binutilsPrefix : CStr
  binutilsCommand : CStr
  nasmCommand : CStr
  deriving DecidableEq

/-- What a `Detect...` function leaves behind: the members of the backend, the
command lines it handed to `system`, in order, the local `detected...` flag it
reports on standard output, and the exception it threw, if any. -/
structure Detection where
  backend : MingwBackend
  commands : List CStr
  detected : Bool
  exception : Option Exception

/-- `MingwBackend::TryToDetectThisCompiler ( compiler )`: the result, and the
command line it ran. -/
def MingwBackend.TryToDetectThisCompiler (w : World) (compiler : CStr) : Bool × CStr :=
  let command := compiler ++ " -v 1>".toList ++ NUL w.win32 ++ " 2>".toList ++ NUL w.win32
  let exitcode := w.system command
  (exitcode == 0, command)

/-- `MingwBackend::TryToDetectThisNetwideAssembler ( assembler )`: the result,
and the command line it ran. -/
def MingwBackend.TryToDetectThisNetwideAssembler (w : World) (assembler : CStr) : Bool × CStr :=
  let command := assembler ++ " -h 1>".toList ++ NUL w.win32 ++ " 2>".toList ++ NUL w.win32
  let exitcode := w.system command
  (exitcode == 0, command)

/-- `MingwBackend::TryToDetectThisBinutils ( binutils )`: the result, and the
command line it ran. The format has one `%s` for `NUL`; the second `NUL`
passed to `ssprintf` is not used. -/
def MingwBackend.TryToDetectThisBinutils (w : World) (binutils : CStr) : Bool × CStr :=
  let command := binutils ++ " -v 1>".toList ++ NUL w.win32
  let exitcode := w.system command
  (exitcode == 0, command)

/-- `MingwBackend::DetectCompiler ()`. -/
def MingwBackend.DetectCompiler (w : World) (b : MingwBackend) : Detection :=
  let ROS_PREFIXValue := w.GetVariable "ROS_PREFIX".toList
  let d0 : Detection := { backend := b, commands := [], detected := false, exception := none }
  let d1 : Detection :=
    if ROS_PREFIXValue.length > 0 then
      let compilerCommand := ROS_PREFIXValue ++ "-gcc".toList
      let t := MingwBackend.TryToDetectThisCompiler w compilerCommand
      { d0 with
        backend := { d0.backend with
          compilerPrefix := ROS_PREFIXValue, compilerCommand := compilerCommand },
        commands := d0.commands ++ [t.2], detected := t.1 }
    else d0
  let d2 : Detection :=
    if w.win32 && !d1.detected then
      let t := MingwBackend.TryToDetectThisCompiler w "gcc".toList
      { d1 with
        backend := { d1.backend with compilerPrefix := [], compilerCommand := "gcc".toList },
        commands := d1.commands ++ [t.2], detected := t.1 }
    else d1
  let d3 : Detection :=
    if !d2.detected then
      let compilerCommand := "mingw32".toList ++ "-gcc".toList
      let t := MingwBackend.TryToDetectThisCompiler w compilerCommand
      { d2 with
        backend := { d2.backend with
          compilerPrefix := "mingw32".toList, compilerCommand := compilerCommand },
        commands := d2.commands ++ [t.2], detected := t.1 }
    else d2
  d3

/-- The first part of `MingwBackend::DetectBinutils ()`, down to the test of
`detectedBinutils`: the probing of the candidates. -/
def MingwBackend.DetectBinutilsCommand (w : World) (b : MingwBackend) : Detection :=
  let ROS_PREFIXValue := w.GetVariable "ROS_PREFIX".toList
  let d0 : Detection := { backend := b, commands := [], detected := false, exception := none }
  let d1 : Detection :=
    if ROS_PREFIXValue.length > 0 then
      let binutilsCommand := ROS_PREFIXValue ++ "-ld".toList
      let t := MingwBackend.TryToDetectThisBinutils w binutilsCommand
      { d0 with
        backend := { d0.backend with
          binutilsPrefix := ROS_PREFIXValue, binutilsCommand := binutilsCommand },
        commands := d0.commands ++ [t.2], detected := t.1 }
    else d0
  let d2 : Detection :=
    if w.win32 && !d1.detected then
      let t := MingwBackend.TryToDetectThisBinutils w "ld".toList
      { d1 with
        backend := { d1.backend with binutilsPrefix := [], binutilsCommand := "ld".toList },
        commands := d1.commands ++ [t.2], detected := t.1 }
    else d1
  let d3 : Detection :=
    if !d2.detected then
      let binutilsCommand := "mingw32".toList ++ "-ld".toList
      let t := MingwBackend.TryToDetectThisBinutils w binutilsCommand
      { d2 with
        backend := { d2.backend with
          binutilsPrefix := "mingw32".toList, binutilsCommand := binutilsCommand },
        commands := d2.commands ++ [t.2], detected := t.1 }
    else d2
  d3

/-- `MingwBackend::DetectBinutils ()`: the probing of the candidates, then the
test of the version. `none` is the call of `string ( NULL )` inside
`GetBinutilsVersion`, for which the language defines no behaviour and the GNU
C++ library throws `std::logic_error`: the function does not return, and what
ends it is no UnsupportedBuildToolException. -/
def MingwBackend.DetectBinutils (w : World) (b : MingwBackend) : Option Detection :=
  let d3 := MingwBackend.DetectBinutilsCommand w b
  if d3.detected then
    match MingwBackend.GetBinutilsVersion w.popen d3.backend.binutilsCommand with
    | none => none
    | some binutilsVersion =>
      if MingwBackend.IsSupportedBinutilsVersion binutilsVersion then some d3
      else
        some { d3 with
          exception := some (Exception.UnsupportedBuildToolException
            d3.backend.binutilsCommand binutilsVersion) }
  else some d3

/-- `MingwBackend::DetectNetwideAssembler ()`. -/
def MingwBackend.DetectNetwideAssembler (w : World) (b : MingwBackend) : Detection :=
  let t0 := MingwBackend.TryToDetectThisNetwideAssembler w "nasm".toList
  let d1 : Detection :=
    { backend := { b with nasmCommand := "nasm".toList }, commands := [t0.2],
      detected := t0.1, exception := none }
  let d2 : Detection :=
    if w.win32 && !d1.detected then
      let t := MingwBackend.TryToDetectThisNetwideAssembler w "nasmw".toList
      { d1 with
        backend := { d1.backend with nasmCommand := "nasmw".toList },
        commands := d1.commands ++ [t.2], detected := t.1 }
    else d1
  let d3 : Detection :=
    if !d2.detected then
      let t := MingwBackend.TryToDetectThisNetwideAssembler w "yasm".toList
      { d2 with
        backend := { d2.backend with nasmCommand := "yasm".toList },
        commands := d2.commands ++ [t.2], detected := t.1 }
    else d2
  d3

/-- The candidate commands of a tool in the order the spec gives: the command
built from `ROS_PREFIX` when that is not empty, then the built-in defaults
(`plain` on a `WIN32` build, then the `mingw32` one). -/
def candidateCommands (w : World) (plain suffix : CStr) : List CStr :=
  (if (w.GetVariable "ROS_PREFIX".toList).length > 0 then
    [w.GetVariable "ROS_PREFIX".toList ++ suffix] else []) ++
  (if w.win32 then [plain] else []) ++ ["mingw32".toList ++ suffix]

/-- The candidate commands of the assembler in the order the source tries
them. -/
def assemblerCandidates (w : World) : List CStr :=
  ["nasm".toList] ++ (if w.win32 then ["nasmw".toList] else []) ++ ["yasm".toList]

/-- The candidates that get probed when probing stops at the first success:
the failing ones in front and the first that succeeds. -/
def probedUntilSuccess (succeeds : CStr → Bool) : List CStr → List CStr
  | [] => []
  | c :: cs => if succeeds c then [c] else c :: probedUntilSuccess succeeds cs

/-- The member functions of `MingwModuleHandler` that `ProcessModules` calls;
each writes to the makefile, and is defined outside this file. -/
inductive HandlerMethod where
  | GenerateObjectMacro
  | GenerateTargetMacro
  | GenerateOtherMacros
  | GeneratePreconditionDependencies
  | Process
  | GenerateInvocations
  | GenerateCleanTarget
  | GenerateInstallTarget
  | GenerateDependsTarget
  deriving DecidableEq

/-- One write to `fMakefile`: a call of `fprintf` with its format and its
string arguments, or a call of a handler member function for a module, which
writes through the same file. The makefile is the list of its writes. -/
inductive Emit where
  | fprintf (format : CStr) (args : List CStr)
  | handler (method : HandlerMethod) (module : Project.Module)
  deriving DecidableEq

/-- The text `fprintf` writes for a format whose conversions are all `%s`. -/
def sprintf : CStr → List CStr → CStr
  | [], _ => []
  | [c], _ => [c]
  | c :: d :: rest, args =>
    if c = '%' ∧ d = 's' then
      match args with
      | [] => sprintf rest []
      | a :: as => a ++ sprintf rest as
    else c :: sprintf (d :: rest) args

/-- The text of a write, `handlerText` giving what the handler member
functions write. -/
def Emit.text (handlerText : HandlerMethod → Project.Module → CStr) : Emit → CStr
  | .fprintf format args => sprintf format args
  | .handler method module => handlerText method module

/-- A `MingwModuleHandler`: the handler of one module, which it keeps in its
member `module`. -/
structure MingwModuleHandler where
  module : Project.Module
  deriving DecidableEq

/-- The first loop of `ProcessModules`: the vector `v` of the handlers of the
enabled modules, or the exception `InstanciateHandler` throws. The default of
`module.host`, set in the same loop, is written to no file and is left out. -/
def MingwBackend.InstanciateHandlers (ext : External) :
    List Project.Module → Except Exception (List MingwModuleHandler)
  | [] => .ok []
  | module :: rest =>
    if !module.enabled then MingwBackend.InstanciateHandlers ext rest
    else
      match ext.InstanciateHandler module with
      | some e => .error e
      | none =>
        match MingwBackend.InstanciateHandlers ext rest with
        | .error e => .error e
        | .ok v => .ok ({ module := module } :: v)

/-- `MingwBackend::IncludeInAllTarget ( module )`. -/
def MingwBackend.IncludeInAllTarget (ext : External) (module : Project.Module) : Bool :=
  if ext.ReferenceObjects module then false
  else if module.type = ModuleType.BootSector then false
  else if module.type = ModuleType.Iso then false
  else if module.type = ModuleType.LiveIso then false
  else if module.type = ModuleType.Test then false
  else if module.type = ModuleType.Alias then false
  else true

/-- The loop of `GenerateAllTarget` from a given handler on, `wrap_count` being
the local of the source. -/
def MingwBackend.GenerateAllTargetLoop (ext : External) :
    List MingwModuleHandler → Int → List Emit
  | [], _ => []
  | h :: rest, wrap_count =>
    if MingwBackend.IncludeInAllTarget ext h.module then
      if wrap_count = 5 then
        Emit.fprintf " \\\n\t\t".toList [] ::
          Emit.fprintf " %s".toList [ext.GetTargetMacro h.module] ::
          MingwBackend.GenerateAllTargetLoop ext rest 0
      else
        Emit.fprintf " %s".toList [ext.GetTargetMacro h.module] ::
          MingwBackend.GenerateAllTargetLoop ext rest (wrap_count + 1)
    else MingwBackend.GenerateAllTargetLoop ext rest wrap_count

/-- `MingwBackend::GenerateAllTarget ( handlers )`. -/
def MingwBackend.GenerateAllTarget (ext : External) (handlers : List MingwModuleHandler) :
    List Emit :=
  [Emit.fprintf "all:".toList []] ++ MingwBackend.GenerateAllTargetLoop ext handlers 0 ++
    [Emit.fprintf "\n\t\n\n".toList []]

/-- The loop of `GetBuildToolDependencies`, `dependencies` being the string
built so far. -/
def MingwBackend.GetBuildToolDependenciesLoop (ext : External) :
    List Project.Module → CStr → CStr
  | [], dependencies => dependencies
  | module :: rest, dependencies =>
    if !module.enabled then MingwBackend.GetBuildToolDependenciesLoop ext rest dependencies
    else if module.type = ModuleType.BuildTool then
      MingwBackend.GetBuildToolDependenciesLoop ext rest
        ((if dependencies.length > 0 then dependencies ++ " ".toList else dependencies) ++
          ext.GetDependencyPath module)
    else MingwBackend.GetBuildToolDependenciesLoop ext rest dependencies

/-- `MingwBackend::GetBuildToolDependencies ()`. -/
def MingwBackend.GetBuildToolDependencies (ext : External) (modules : List Project.Module) :
    CStr :=
  MingwBackend.GetBuildToolDependenciesLoop ext modules []

/-- `MingwBackend::GenerateInitTarget ()`. -/
def MingwBackend.GenerateInitTarget (ext : External) (modules : List Project.Module) :
    List Emit :=
  [Emit.fprintf "INIT = %s\n".toList [MingwBackend.GetBuildToolDependencies ext modules],
   Emit.fprintf "\n".toList []]

/-- `MingwBackend::GenerateRegTestsRunTarget ()`. -/
def MingwBackend.GenerateRegTestsRunTarget : List Emit :=
  [Emit.fprintf "REGTESTS_RUN_TARGET = regtests.dll\n".toList [],
   Emit.fprintf "$(REGTESTS_RUN_TARGET): $(REGTESTS_TARGET)\n".toList [],
   Emit.fprintf "\t$(cp) $(REGTESTS_TARGET) $(REGTESTS_RUN_TARGET)\n".toList [],
   Emit.fprintf "\n".toList []]

/-- The calls the last loop of `ProcessModules` makes for one handler. -/
def MingwBackend.ruleBlocks (h : MingwModuleHandler) : List Emit :=
  [Emit.handler HandlerMethod.GeneratePreconditionDependencies h.module,
   Emit.handler HandlerMethod.Process h.module,
   Emit.handler HandlerMethod.GenerateInvocations h.module,
   Emit.handler HandlerMethod.GenerateCleanTarget h.module,
   Emit.handler HandlerMethod.GenerateInstallTarget h.module,
   Emit.handler HandlerMethod.GenerateDependsTarget h.module]

/-- `MingwBackend::ProcessModules ()` on the modules of the project: the writes
to the makefile, in order, and the exception thrown, if any. -/
def MingwBackend.ProcessModules (ext : External) (modules : List Project.Module) :
    List Emit × Option Exception :=
  match MingwBackend.InstanciateHandlers ext modules with
  | .error e => ([], some e)
  | .ok v =>
    (v.map (fun h => Emit.handler HandlerMethod.GenerateObjectMacro h.module) ++
      [Emit.fprintf "\n".toList []] ++
      v.map (fun h => Emit.handler HandlerMethod.GenerateTargetMacro h.module) ++
      [Emit.fprintf "\n".toList []] ++
      MingwBackend.GenerateAllTarget ext v ++
      MingwBackend.GenerateInitTarget ext modules ++
      MingwBackend.GenerateRegTestsRunTarget ++
      v.map (fun h => Emit.handler HandlerMethod.GenerateOtherMacros h.module) ++
      v.flatMap MingwBackend.ruleBlocks, none)

/-- `MingwBackend::GetModuleTestTargets ( out )`: the vector `out` after the
call. -/
def MingwBackend.GetModuleTestTargets : List Project.Module → List CStr → List CStr
  | [], out => out
  | module :: rest, out =>
    if !module.enabled then MingwBackend.GetModuleTestTargets rest out
    else if module.type = ModuleType.Test then
      MingwBackend.GetModuleTestTargets rest (out ++ [module.name])
    else MingwBackend.GetModuleTestTargets rest out

/-- `MingwBackend::GenerateTestTarget ()`. -/
def MingwBackend.GenerateTestTarget (modules : List Project.Module) : List Emit :=
  let vTestTargets := MingwBackend.GetModuleTestTargets modules []
  let testTargets := v2s vTestTargets 5
  [Emit.fprintf "test: %s\n".toList [testTargets], Emit.fprintf "\n".toList []]

/-- Modelled from the spec: `MingwModuleHandler::PassThruCacheDirectory ( file,
directoryTree )`, defined outside this file: the path of `file` under the root
the tree stands for, the root joined with `file`. Only the string it returns
is modelled; that it enters the directory of the file into the tree is not. -/
def PassThruCacheDirectory (file : CStr) (directoryTree : Directory) : CStr :=
  directoryTree.name ++ SSEP ++ file

/-- `MingwBackend::GetModuleInstallTargetFiles ( out )`: the vector `out` after
the call. -/
def MingwBackend.GetModuleInstallTargetFiles (ext : External) (installDirectory : Directory) :
    List Project.Module → List CStr → List CStr
  | [], out => out
  | module :: rest, out =>
    if !module.enabled then
      MingwBackend.GetModuleInstallTargetFiles ext installDirectory rest out
    else if module.installName.length > 0 then
      let targetFilenameNoFixup :=
        if module.installBase.length > 0 then module.installBase ++ SSEP ++ module.installName
        else module.installName
      let targetFilename :=
        PassThruCacheDirectory (ext.NormalizeFilename targetFilenameNoFixup) installDirectory
      MingwBackend.GetModuleInstallTargetFiles ext installDirectory rest (out ++ [targetFilename])
    else MingwBackend.GetModuleInstallTargetFiles ext installDirectory rest out

/-- `MingwBackend::OutputInstallTarget ( sourceFilename, targetFilename,
targetDirectory )`. -/
def MingwBackend.OutputInstallTarget (ext : External) (installDirectory : Directory)
    (sourceFilename targetFilename targetDirectory : CStr) : List Emit :=
  let fullTargetFilename :=
    if targetDirectory.length > 0 then targetDirectory ++ SSEP ++ targetFilename
    else targetFilename
  let normalizedTargetFilename :=
    PassThruCacheDirectory (ext.NormalizeFilename fullTargetFilename) installDirectory
  let normalizedTargetDirectory :=
    PassThruCacheDirectory (ext.NormalizeFilename targetDirectory) installDirectory
  [Emit.fprintf "%s: %s | %s\n".toList
     [normalizedTargetFilename, sourceFilename, normalizedTargetDirectory],
   Emit.fprintf "\t$(ECHO_CP)\n".toList [],
   Emit.fprintf "\t$\x7bcp\x7d %s %s 1>$(NUL)\n".toList [sourceFilename, normalizedTargetFilename]]

/-- `MingwBackend::GetAliasedModuleOrModule ( module )`; `none` is the failure
of `assert ( aliasedModule )`, which ends the run. -/
def MingwBackend.GetAliasedModuleOrModule (ext : External) (module : Project.Module) :
    Option Project.Module :=
  if module.aliasedModuleName.length > 0 then ext.LocateModule module.aliasedModuleName
  else some module

/-- `MingwBackend::OutputModuleInstallTargets ()`: the writes to the makefile,
and whether the loop ran to its end (`false` when an assertion stopped it). -/
def MingwBackend.OutputModuleInstallTargets (ext : External)
    (outputDirectory installDirectory : Directory) : List Project.Module → List Emit × Bool
  | [] => ([], true)
  | module :: rest =>
    if !module.enabled then
      MingwBackend.OutputModuleInstallTargets ext outputDirectory installDirectory rest
    else if module.installName.length > 0 then
      match MingwBackend.GetAliasedModuleOrModule ext module with
      | none => ([], false)
      | some aliasedModule =>
        let sourceFilename :=
          PassThruCacheDirectory (ext.NormalizeFilename (ext.GetPath aliasedModule))
            outputDirectory
        let r := MingwBackend.OutputModuleInstallTargets ext outputDirectory installDirectory rest
        (MingwBackend.OutputInstallTarget ext installDirectory sourceFilename
            module.installName module.installBase ++ r.1, r.2)
    else MingwBackend.OutputModuleInstallTargets ext outputDirectory installDirectory rest

/-- The `%s` arguments of the writes with the format `" %s"`, in order: the
prerequisites `GenerateAllTarget` puts behind `all:`. -/
def allTargetPrerequisites : List Emit → List CStr
  | [] => []
  | Emit.fprintf format args :: rest =>
    if format = " %s".toList then args ++ allTargetPrerequisites rest
    else allTargetPrerequisites rest
  | Emit.handler _ _ :: rest => allTargetPrerequisites rest

/-- A stand-in for the functions defined outside this file, for evaluating the
definitions on examples: names are taken as paths and `$(name_TARGET)` as the
target macro, no module is reference-only, none is located, no handler
fails. -/
def External.sample : External where
  NormalizeFilename := fun f => f
  GetTargetMacro := fun m => "$(".toList ++ m.name ++ "_TARGET)".toList
  GetPath := fun m => m.name
  GetDependencyPath := fun m => m.name
  ReferenceObjects := fun _ => false
  LocateModule := fun _ => none
  InstanciateHandler := fun _ => none

/-- A write that is one of the six rule blocks of a module: a call of a
handler member function of the last loop of `ProcessModules`. -/
def Emit.isRuleBlock : Emit → Bool
  | .handler .GeneratePreconditionDependencies _ => true
  | .handler .Process _ => true
  | .handler .GenerateInvocations _ => true
  | .handler .GenerateCleanTarget _ => true
  | .handler .GenerateInstallTarget _ => true
  | .handler .GenerateDependsTarget _ => true
  | _ => false

/-- The modules that take part in the per-module install output: enabled,
with a non-empty install name. -/
def installsModule (module : Project.Module) : Bool :=
  module.enabled && decide (module.installName.length > 0)

/-- The install rule `OutputModuleInstallTargets` writes for one module, its
source taken from the module `aliasedModule` the alias resolves to. -/
def MingwBackend.moduleInstallRule (ext : External) (outputDirectory installDirectory : Directory)
    (module aliasedModule : Project.Module) : List Emit :=
  MingwBackend.OutputInstallTarget ext installDirectory
    (PassThruCacheDirectory (ext.NormalizeFilename (ext.GetPath aliasedModule)) outputDirectory)
    module.installName module.installBase

/-- `path.find ( name )` of `std::string`: the lowest index at which `name`
occurs in `path`, `none` for `npos`. The empty string occurs at index 0. -/
def stringFind : CStr → CStr → Option Nat
  | [], name => if name.isPrefixOf [] then some 0 else none
  | c :: rest, name =>
    if name.isPrefixOf (c :: rest) then some 0
    else (stringFind rest name).map (fun i => i + 1)

/-- `path.replace ( i, n, value )` of `std::string`: the `n` characters from
index `i` on give way to `value`. -/
def stringReplace (path : CStr) (i n : Nat) (value : CStr) : CStr :=
  path.take i ++ value ++ path.drop (i + n)

/-- `Directory::ReplaceVariable ( name, value, path )`. -/
def Directory.ReplaceVariable (name value path : CStr) : CStr :=
  match stringFind path name with
  | some i => stringReplace path i name.length value
  | none => path

/-- The root paths `Directory::ResolveVariablesInPath` asks `Environment` for;
the three functions are defined outside this file. -/
structure Environment where
  GetIntermediatePath : CStr
  GetOutputPath : CStr
  GetInstallPath : CStr

/-- `Directory::ResolveVariablesInPath ( buf, path )`: the string left in
`buf`. The caller passes a `char buf[256]`, and `strcpy` writes the string and
its terminator: `none` stands for a string that does not fit, for which the
source defines no behaviour. -/
def Directory.ResolveVariablesInPath (env : Environment) (path : CStr) : Option CStr :=
  let s := Directory.ReplaceVariable "$(INTERMEDIATE)".toList env.GetIntermediatePath path
  let s := Directory.ReplaceVariable "$(OUTPUT)".toList env.GetOutputPath s
  let s := Directory.ReplaceVariable "$(INSTALL)".toList env.GetInstallPath s
  if s.length < 256 then some s else none

mutual
/-- The nodes a walk of `CreateRule` or `GenerateTree` over a tree comes to,
each with the parent path it gets passed, in the order of the walk: the node
itself, then the walks of its children with the path the node hands down. -/
def Directory.visits : Directory → CStr → List (CStr × Directory)
  | .mk name subdirs, parent =>
    (parent, .mk name subdirs) ::
      visitsList subdirs (if parent.length > 0 then parent ++ SSEP ++ name else name)
/-- The walks of the children in `subdirs`, each with `path`. -/
def visitsList : List (CStr × Directory) → CStr → List (CStr × Directory)
  | [], _ => []
  | (_, c) :: rest, path => c.visits path ++ visitsList rest path
end

/-- The path a node visited with `parent` hands down to its children. -/
def Directory.pathUnder (d : Directory) (parent : CStr) : CStr :=
  if parent.length > 0 then parent ++ SSEP ++ d.name else d.name

/-- `path.find ( c, pos )` of `std::string`: the lowest index from `pos` on at
which the character `c` stands, `none` for `npos`. -/
def stringFindChar : CStr → Char → Nat → Option Nat
  | [], _, _ => none
  | x :: rest, c, 0 =>
    if x = c then some 0 else (stringFindChar rest c 0).map (fun i => i + 1)
  | _ :: rest, c, pos + 1 => (stringFindChar rest c pos).map (fun i => i + 1)

/-- The value of `errno` after a failed `mkdir`. -/
inductive Errno where
  | EEXIST
  | ENOENT
  | ENOTDIR
  | EACCES
  deriving DecidableEq

/-- What stands at a place of the file system: a directory `opendir` can open,
a directory the process may not read, for which `opendir` gives `NULL`, or
something that is no directory, such as a plain file. -/
inductive FileKind where
  | directory
  | closedDirectory
  | file
  deriving DecidableEq

/-- A model of the part of the file system `mkdir_p` works on. A place is the
list of names that leads to it from the root directory, which is the empty
list. `cwd` is the place of the current directory, `nodes` are the places at
which something exists beside the root, each with its kind and in the order
they came into being, and `denied` tells the places at which the process may
not create a directory. Paths are resolved as POSIX does it, without symbolic
links, in the build with `_MSC_VER` too. -/
structure FileSystem where
  cwd : List CStr
  nodes : List (List CStr × FileKind)
  denied : List CStr → Bool

/-- The directory a path lies in, as a string: the path up to its last
separator; `none` for a path without a separator, which lies in the current
directory, and the empty path for a path directly under the root. -/
def parentPath (path : CStr) : Option CStr :=
  if CSEP ∈ path then
    some ((path.reverse.dropWhile (fun c => c != CSEP)).drop 1).reverse
  else none

/-- The names in the rest of a path, `cur` being the part of a name read so
far: the pieces between separators, the empty ones left out, so that a doubled
separator and a separator at the end count for nothing. -/
def pathComponentsFrom (cur : CStr) : CStr → List CStr
  | [] => if cur = [] then [] else [cur]
  | c :: rest =>
    if c = CSEP then
      if cur = [] then pathComponentsFrom [] rest else cur :: pathComponentsFrom [] rest
    else pathComponentsFrom (cur ++ [c]) rest

/-- The names a path is made of, in order. -/
def pathComponents (path : CStr) : List CStr := pathComponentsFrom [] path

/-- What stands at a place: the root is a directory, another place has the
kind `nodes` gives it, and `none` is a place where nothing exists. -/
def FileSystem.kind (fs : FileSystem) (node : List CStr) : Option FileKind :=
  if node = [] then some FileKind.directory
  else (fs.nodes.find? (fun x => decide (x.1 = node))).map (fun x => x.2)

/-- One name of a path, looked up in the place `cur`: `cur` has to exist and to
be a directory; `.` is `cur` itself, `..` the place above it (the root is above
itself), and another name the place of that name in `cur`, whether something
exists there or not. -/
def FileSystem.step (fs : FileSystem) (cur : List CStr) (c : CStr) :
    Except Errno (List CStr) :=
  match fs.kind cur with
  | none => .error Errno.ENOENT
  | some FileKind.file => .error Errno.ENOTDIR
  | some _ =>
    if c = ".".toList then .ok cur
    else if c = "..".toList then .ok cur.dropLast
    else .ok (cur ++ [c])

/-- The names of a path looked up one after the other, from `cur` on. -/
def FileSystem.walk (fs : FileSystem) : List CStr → List CStr → Except Errno (List CStr)
  | cur, [] => .ok cur
  | cur, c :: rest =>
    match fs.step cur c with
    | .error e => .error e
    | .ok next => fs.walk next rest

/-- The place a path names: the empty path names nothing, a path that starts
with a separator is looked up from the root and another one from the current
directory. Every name but the last has to lead to a directory that exists;
whether something exists at the place found is for the caller to see. -/
def FileSystem.resolve (fs : FileSystem) (path : CStr) : Except Errno (List CStr) :=
  if path = [] then .error Errno.ENOENT
  else fs.walk (if path.head? = some CSEP then [] else fs.cwd) (pathComponents path)

/-- `opendir ( path ) != NULL`: the path names a directory that exists and
that the process may read, under whatever spelling. -/
def FileSystem.opendir (fs : FileSystem) (path : CStr) : Bool :=
  match fs.resolve path with
  | .ok node => decide (fs.kind node = some FileKind.directory)
  | .error _ => false

/-- `MKDIR ( path )`, that is `mkdir`: the file system after the call, and
`none` for the return value 0, or the `errno` of a failure. `mkdir` fails with
`EEXIST` when anything exists at the place the path names, a directory under
another spelling and a plain file included; a directory is created only under
a directory that exists and where this is not denied. -/
def FileSystem.MKDIR (fs : FileSystem) (path : CStr) : FileSystem × Option Errno :=
  match fs.resolve path with
  | .error errno => (fs, some errno)
  | .ok node =>
    if (fs.kind node).isSome then (fs, some Errno.EEXIST)
    else if fs.denied node then (fs, some Errno.EACCES)
    else ({ fs with nodes := fs.nodes ++ [(node, FileKind.directory)] }, none)

/-- `Directory::mkdir_p ( path )`: the file system after the call, and the
value returned or the exception thrown. `msvc` tells whether `_MSC_VER` is
defined: without it an existing directory is found by `opendir`, with it by
`errno == EEXIST` after the failed `mkdir`. -/
def Directory.mkdir_p (msvc : Bool) (fs : FileSystem) (path : CStr) :
    FileSystem × Except Exception Bool :=
  if !msvc && fs.opendir path then (fs, .ok false)
  else
    match fs.MKDIR path with
    | (fs2, none) => (fs2, .ok true)
    | (fs2, some errno) =>
      if msvc && decide (errno = Errno.EEXIST) then (fs2, .ok false)
      else (fs2, .error (Exception.AccessDeniedException path))

/-- The character `path[i]` of a `std::string`: the terminating NUL at
`i = path.size ()`. -/
def stringAt (path : CStr) (i : Nat) : Char := path.getD i (Char.ofNat 0)

/-- The test `isalpha ( path[0] ) && path[1] == ':' && path[2] == CSEP` of
`CreateDirectory`: the path starts with a drive letter. -/
def Directory.hasDrive (path : CStr) : Bool :=
  (stringAt path 0).isAlpha && stringAt path 1 == ':' && stringAt path 2 == CSEP

/-- The loop of `Directory::CreateDirectory`, with its locals `nextIndex`,
`index` and `directoryWasCreated`; the first argument bounds the number of
turns, which `index` going up by one or more each turn keeps below the length
of the path. -/
def Directory.CreateDirectoryLoop (msvc : Bool) (path : CStr) :
    Nat → FileSystem → Option Nat → Nat → Bool → FileSystem × Except Exception Bool
  | 0, fs, _, _, directoryWasCreated => (fs, .ok directoryWasCreated)
  | fuel + 1, fs, nextIndex, index, directoryWasCreated =>
    match nextIndex with
    | none => (fs, .ok directoryWasCreated)
    | some _ =>
      let nextIndex2 := stringFindChar path CSEP (index + 1)
      let substr := match nextIndex2 with
        | some n => path.take n
        | none => path
      match Directory.mkdir_p msvc fs substr with
      | (fs2, .error e) => (fs2, .error e)
      | (fs2, .ok created) =>
        match nextIndex2 with
        | some n => Directory.CreateDirectoryLoop msvc path fuel fs2 nextIndex2 n created
        | none => (fs2, .ok created)

/-- `Directory::CreateDirectory ( path )`: the file system after the call, and
the value returned or the exception thrown. -/
def Directory.CreateDirectory (msvc : Bool) (fs : FileSystem) (path : CStr) :
    FileSystem × Except Exception Bool :=
  let nextIndex :=
    if Directory.hasDrive path then stringFindChar path CSEP 3
    else stringFindChar path CSEP 0
  Directory.CreateDirectoryLoop msvc path (path.length + 1) fs nextIndex 0 false

mutual
/-- `Directory::GenerateTree ( parent, verbose )`: the file system after the
call and the exception thrown, if any; `none` when a path does not fit `buf`.
The message `verbose` asks for goes to standard output and is left out. -/
def Directory.GenerateTree (msvc : Bool) (env : Environment) :
    Directory → CStr → FileSystem → Option (FileSystem × Option Exception)
  | .mk name subdirs, parent, fs =>
    if parent.length > 0 then
      match Directory.ResolveVariablesInPath env (parent ++ SSEP ++ name) with
      | none => none
      | some buf =>
        match Directory.CreateDirectory msvc fs buf with
        | (fs2, .error e) => some (fs2, some e)
        | (fs2, .ok _) => GenerateTreeList msvc env subdirs (parent ++ SSEP ++ name) fs2
    else GenerateTreeList msvc env subdirs name fs
/-- The loop of `GenerateTree` over `subdirs`, with `path` for every child. -/
def GenerateTreeList (msvc : Bool) (env : Environment) :
    List (CStr × Directory) → CStr → FileSystem → Option (FileSystem × Option Exception)
  | [], _, fs => some (fs, none)
  | (_, c) :: rest, path, fs =>
    match c.GenerateTree msvc env path fs with
    | none => none
    | some (fs2, some e) => some (fs2, some e)
    | some (fs2, none) => GenerateTreeList msvc env rest path fs2
end

/-- The prefixes `CreateDirectory` hands to `mkdir_p` while it goes over the
rest of a path of which `pre` is behind it: `pre` joined with the rest up to
each separator, and the whole path last. -/
def prefixesFrom (pre : CStr) : CStr → List CStr
  | [] => [pre]
  | c :: rest =>
    if c = CSEP then pre :: prefixesFrom (pre ++ [c]) rest
    else prefixesFrom (pre ++ [c]) rest

/-- The paths `CreateDirectory ( path )` hands to `mkdir_p`, in order: none
when the loop is not entered, else the prefixes of `path` that end in front of
a separator other than a leading one, in increasing length, and `path`. -/
def createAttempts (path : CStr) : List CStr :=
  if ((if Directory.hasDrive path then stringFindChar path CSEP 3
       else stringFindChar path CSEP 0)).isSome then
    match path with
    | [] => []
    | c :: rest => prefixesFrom [c] rest
  else []

/-- One call of `mkdir_p` after the other on a list of paths, up to the first
that throws: the file system left behind and the exception. -/
def mkdirAll (msvc : Bool) : FileSystem → List CStr → FileSystem × Option Exception
  | fs, [] => (fs, none)
  | fs, p :: rest =>
    match Directory.mkdir_p msvc fs p with
    | (fs2, .error e) => (fs2, some e)
    | (fs2, .ok _) => mkdirAll msvc fs2 rest

/-- The paths `GenerateTree` hands to `mkdir_p` at a node it visits with the
parent path `v.1`: none at a node visited with the empty path. -/
def visitAttempts (env : Environment) (v : CStr × Directory) : List CStr :=
  if v.1.length > 0 then
    match Directory.ResolveVariablesInPath env (v.1 ++ SSEP ++ v.2.name) with
    | none => []
    | some buf => createAttempts buf
  else []

/-- The exception a call ended with, if it ended with one. -/
def exceptionOf {α : Type} : Except Exception α → Option Exception
  | .error e => some e
  | .ok _ => none

/-- The file system with a directory at the place `node`: as it was when
something existed there, with the directory as its newest node otherwise. -/
def FileSystem.add (fs : FileSystem) (node : List CStr) : FileSystem :=
  if (fs.kind node).isSome then fs
  else { fs with nodes := fs.nodes ++ [(node, FileKind.directory)] }

/-- A file system in order: the current directory is a directory that can be
opened, everything that exists is one too, everything came into being after
the directory it lies in, and nothing is denied. -/
def FileSystem.inOrder (fs : FileSystem) : Prop :=
  fs.kind fs.cwd = some FileKind.directory ∧
  (∀ x ∈ fs.nodes, x.2 = FileKind.directory) ∧
  (∀ pre x post, fs.nodes = pre ++ x :: post →
    x.1.dropLast = [] ∨ x.1.dropLast ∈ pre.map Prod.fst) ∧
  ∀ node, fs.denied node = false

/-- The file system `fs2` is a later state of `fs`: the same current directory,
the same denials, and the old nodes in front of the new ones. -/
def FileSystem.grows (fs fs2 : FileSystem) : Prop :=
  fs2.cwd = fs.cwd ∧ fs2.denied = fs.denied ∧ fs.nodes <+: fs2.nodes

/-- The file system `fs2` is what calls of `mkdir_p` on the paths `l` made of
`fs`: it is in order and a later state of `fs`, no place is in it twice if
none was, every path of `l` names a directory in it that can be opened, and
every node in it is an old one or stands at the place a path of `l` names. -/
def FileSystem.madeFrom (fs2 fs : FileSystem) (l : List CStr) : Prop :=
  fs2.inOrder ∧ fs.grows fs2 ∧
  ((fs.nodes.map Prod.fst).Nodup → (fs2.nodes.map Prod.fst).Nodup) ∧
  (∀ q ∈ l, fs2.opendir q = true) ∧
  ∀ x ∈ fs2.nodes, x ∈ fs.nodes ∨ ∃ q ∈ l, fs2.resolve q = .ok x.1

/-- A file system for evaluating the definitions on examples: the root is the
current directory, one node `obj` of the kind `k` lies under it, and nothing
is denied. -/
def FileSystem.withObj (k : FileKind) : FileSystem :=
  { cwd := [], nodes := [(["obj".toList], k)], denied := fun _ => false }

/-- Root paths for evaluating the definitions on examples. -/
def Environment.sample : Environment :=
  { GetIntermediatePath := "obj-i386".toList,
    GetOutputPath := "output-i386".toList,
    GetInstallPath := "reactos".toList }

/-- The file system with nothing but the root, which is the current
directory, and nothing denied. -/
def FileSystem.empty : FileSystem := { cwd := [], nodes := [], denied := fun _ => false }

/-- Modelled from the spec: `Project::LocateModule ( name )`, defined outside
this file: the lookup of a module of the project by its name, the first
module declared with that name, and none (`NULL`) when no module has it. -/
def Project.LocateModule (modules : List Project.Module) (name : CStr) :
    Option Project.Module :=
  modules.find? (fun m => decide (m.name = name))

/-- A machine for evaluating the definitions on examples: not a `WIN32` build,
no environment variable set, every command failing with status 1 and printing
nothing. -/
def World.sample : World where
  win32 := false
  GetVariable := fun _ => []
  system := fun _ => 1
  popen := fun _ => []

/-- Modelled from the spec: an include directory of a data block, class
`Include`, declared outside this file. -/
structure Include where
  directory : CStr
  deriving DecidableEq

/-- Modelled from the spec: a define of a data block, class `Define`, declared
outside this file. -/
structure Define where
  name : CStr
  value : CStr
  deriving DecidableEq

/-- Modelled from the spec: a property of a data block, class `Property`,
declared outside this file; the backend reads its `name` and `value`. -/
structure Property where
  name : CStr
  value : CStr
  deriving DecidableEq

/-- Modelled from the spec: a compiler flag of a data block, class
`CompilerFlag`, declared outside this file; the backend reads its `flag`. -/
structure CompilerFlag where
  flag : CStr
  deriving DecidableEq

mutual
/-- Modelled from the spec: class `IfableData`, declared outside this file:
flat lists of includes, defines, properties and compiler flags, and the list
`ifs` of the conditional blocks nested in it. -/
inductive IfableData where
  | mk (includes : List Include) (defines : List Define) (properties : List Property)
      (compilerFlags : List CompilerFlag) (ifs : List If)
/-- Modelled from the spec: class `If`, declared outside this file: a
conditional block, with the `property` and the `value` of its condition and
the `data` nested under it. -/
inductive If where
  | mk (property : CStr) (value : CStr) (data : IfableData)
end

/-- Member `includes`. -/
def IfableData.includes : IfableData → List Include
  | .mk i _ _ _ _ => i

/-- Member `defines`. -/
def IfableData.defines : IfableData → List Define
  | .mk _ d _ _ _ => d

/-- Member `properties`. -/
def IfableData.properties : IfableData → List Property
  | .mk _ _ p _ _ => p

/-- Member `compilerFlags`. -/
def IfableData.compilerFlags : IfableData → List CompilerFlag
  | .mk _ _ _ c _ => c

/-- Member `ifs`. -/
def IfableData.ifs : IfableData → List If
  | .mk _ _ _ _ i => i

/-- Member `property`. -/
def If.property : If → CStr
  | .mk p _ _ => p

/-- Member `value`. -/
def If.value : If → CStr
  | .mk _ v _ => v

/-- Member `data`. -/
def If.data : If → IfableData
  | .mk _ _ d => d

/-- The functions of `MingwModuleHandler` that turn the includes and the
defines of a data block into compiler parameters; both are defined outside
this file. -/
structure GccParameters where
  GenerateGccIncludeParametersFromVector : List Include → CStr
  GenerateGccDefineParametersFromVector : List Define → CStr

/-- `MingwBackend::GenerateIncludesAndDefines ( data )`. -/
def MingwBackend.GenerateIncludesAndDefines (gcc : GccParameters) (data : IfableData) : CStr :=
  let includeParameters := gcc.GenerateGccIncludeParametersFromVector data.includes
  let defineParameters := gcc.GenerateGccDefineParametersFromVector data.defines
  includeParameters ++ " ".toList ++ defineParameters

/-- `MingwBackend::GenerateProjectCFlagsMacro ( assignmentOperation, data )`. -/
def MingwBackend.GenerateProjectCFlagsMacro (gcc : GccParameters) (assignmentOperation : CStr)
    (data : IfableData) : List Emit :=
  [Emit.fprintf "PROJECT_CFLAGS %s".toList [assignmentOperation],
   Emit.fprintf " %s".toList [MingwBackend.GenerateIncludesAndDefines gcc data],
   Emit.fprintf "\n".toList []]

mutual
/-- `MingwBackend::GenerateGlobalCFlagsAndProperties ( assignmentOperation,
data )`: the writes to the makefile, in order. -/
def MingwBackend.GenerateGlobalCFlagsAndProperties (gcc : GccParameters) :
    CStr → IfableData → List Emit
  | assignmentOperation, .mk includes defines properties compilerFlags ifs =>
    properties.map (fun prop => Emit.fprintf "%s := %s\n".toList [prop.name, prop.value]) ++
    (if includes.length > 0 ∨ defines.length > 0 then
      MingwBackend.GenerateProjectCFlagsMacro gcc assignmentOperation
        (.mk includes defines properties compilerFlags ifs)
     else []) ++
    GenerateGlobalCFlagsAndPropertiesIfs gcc ifs
/-- The loop of `GenerateGlobalCFlagsAndProperties` over `data.ifs`. -/
def GenerateGlobalCFlagsAndPropertiesIfs (gcc : GccParameters) : List If → List Emit
  | [] => []
  | rIf :: rest =>
    GenerateGlobalCFlagsAndPropertiesIf gcc rIf ++ GenerateGlobalCFlagsAndPropertiesIfs gcc rest
/-- One turn of that loop, for the conditional block `rIf`. -/
def GenerateGlobalCFlagsAndPropertiesIf (gcc : GccParameters) : If → List Emit
  | .mk property value data =>
    if data.defines.length > 0 ∨ data.includes.length > 0 ∨ data.ifs.length > 0 then
      [Emit.fprintf "ifeq (\"$(%s)\",\"%s\")\n".toList [property, value]] ++
      MingwBackend.GenerateGlobalCFlagsAndProperties gcc "+=".toList data ++
      [Emit.fprintf "endif\n\n".toList []]
    else []
end

/-- `MingwBackend::GenerateProjectGccOptionsMacro ( assignmentOperation,
data )`. -/
def MingwBackend.GenerateProjectGccOptionsMacro (assignmentOperation : CStr)
    (data : IfableData) : List Emit :=
  [Emit.fprintf "PROJECT_GCCOPTIONS %s".toList [assignmentOperation]] ++
  data.compilerFlags.map (fun compilerFlag => Emit.fprintf " %s".toList [compilerFlag.flag]) ++
  [Emit.fprintf "\n".toList []]

mutual
/-- `MingwBackend::GenerateProjectGccOptions ( assignmentOperation, data )`:
the writes to the makefile, in order. -/
def MingwBackend.GenerateProjectGccOptions : CStr → IfableData → List Emit
  | assignmentOperation, .mk includes defines properties compilerFlags ifs =>
    (if compilerFlags.length > 0 then
      MingwBackend.GenerateProjectGccOptionsMacro assignmentOperation
        (.mk includes defines properties compilerFlags ifs)
     else []) ++
    GenerateProjectGccOptionsIfs ifs
/-- The loop of `GenerateProjectGccOptions` over `data.ifs`. -/
def GenerateProjectGccOptionsIfs : List If → List Emit
  | [] => []
  | rIf :: rest => GenerateProjectGccOptionsIf rIf ++ GenerateProjectGccOptionsIfs rest
/-- One turn of that loop, for the conditional block `rIf`. -/
def GenerateProjectGccOptionsIf : If → List Emit
  | .mk property value data =>
    if data.compilerFlags.length > 0 ∨ data.ifs.length > 0 then
      [Emit.fprintf "ifeq (\"$(%s)\",\"%s\")\n".toList [property, value]] ++
      MingwBackend.GenerateProjectGccOptions "+=".toList data ++
      [Emit.fprintf "endif\n\n".toList []]
    else []
end

mutual
/-- The conditional blocks of a data block, at every depth: each block of
`ifs`, followed by the blocks nested in it, in declaration order. -/
def IfableData.blocks : IfableData → List If
  | .mk _ _ _ _ ifs => blocksList ifs
/-- The blocks of a list of conditional blocks, at every depth. -/
def blocksList : List If → List If
  | [] => []
  | rIf :: rest => If.blocks rIf ++ blocksList rest
/-- A conditional block and the blocks nested in it. -/
def If.blocks : If → List If
  | .mk property value data => .mk property value data :: data.blocks
end

/-- Compiler parameters for evaluating the definitions on examples: the
directories behind `-I`, the defines behind `-D`. -/
def GccParameters.sample : GccParameters where
  GenerateGccIncludeParametersFromVector := fun v =>
    (v.map (fun i => " -I".toList ++ i.directory)).flatten
  GenerateGccDefineParametersFromVector := fun v =>
    (v.map (fun d => " -D".toList ++ d.name)).flatten

/-- Modelled from the spec: an entry of the XML build file list, class
`XMLInclude`, declared outside this file; the backend reads `fileExists` and
`topIncludeFilename`. -/
structure XMLInclude where
  fileExists : Bool
  topIncludeFilename : CStr
  deriving DecidableEq

/-- Modelled from the spec: a non-module install file, class `InstallFile`,
declared outside this file: the base directory and the new name it is
installed under, and the source path its member function `GetPath ()`
returns. -/
structure InstallFile where
  base : CStr
  newname : CStr
  GetPath : CStr
  deriving DecidableEq

/-- Modelled from the spec: a linker flag of the project, class `LinkerFlag`,
declared outside this file; the backend reads its `flag`. -/
structure LinkerFlag where
  flag : CStr
  deriving DecidableEq

/-- Modelled from the spec: class `Project`, declared outside this file, as
far as the backend reads it: the name of the makefile, the name
`GetProjectFilename ()` returns, the global data block, the linker flags, the
XML build files, the install files and the modules. -/
structure Project where
  makefile : CStr
  GetProjectFilename : CStr
  non_if_data : IfableData
  linkerFlags : List LinkerFlag
  xmlbuildfiles : List XMLInclude
  installfiles : List InstallFile
  modules : List Project.Module

/-- Modelled from the spec: class `Configuration`, declared outside this file,
as far as `ProcessNormal` reads it. -/
structure Configuration where
  Verbose : Bool
  AutomaticDependencies : Bool
  MakeHandlesInstallDirectories : Bool
  deriving DecidableEq

/-- `MingwBackend::GenerateHeader ()`. -/
def MingwBackend.GenerateHeader : List Emit :=
  [Emit.fprintf
    "# THIS FILE IS AUTOMATICALLY GENERATED, EDIT \x27ReactOS.xml\x27 INSTEAD\n\n".toList []]

/-- The loop of `MingwBackend::GenerateProjectLFLAGS ()`, with its local
`lflags`. -/
def MingwBackend.GenerateProjectLFLAGSLoop : List LinkerFlag → CStr → CStr
  | [], lflags => lflags
  | linkerFlag :: rest, lflags =>
    let lflags := if lflags.length > 0 then lflags ++ " ".toList else lflags
    MingwBackend.GenerateProjectLFLAGSLoop rest (lflags ++ linkerFlag.flag)

/-- `MingwBackend::GenerateProjectLFLAGS ()`. -/
def MingwBackend.GenerateProjectLFLAGS (ProjectNode : Project) : CStr :=
  MingwBackend.GenerateProjectLFLAGSLoop ProjectNode.linkerFlags []

/-- `MingwBackend::GenerateGlobalVariables ()`. -/
def MingwBackend.GenerateGlobalVariables (gcc : GccParameters) (b : MingwBackend)
    (ProjectNode : Project) : List Emit :=
  [Emit.fprintf "PREFIX := %s\n".toList [b.compilerPrefix],
   Emit.fprintf "nasm := %s\n".toList [b.nasmCommand]] ++
  MingwBackend.GenerateGlobalCFlagsAndProperties gcc "=".toList ProjectNode.non_if_data ++
  MingwBackend.GenerateProjectGccOptions "=".toList ProjectNode.non_if_data ++
  [Emit.fprintf "PROJECT_RCFLAGS := $(PROJECT_CFLAGS)\n".toList [],
   Emit.fprintf "PROJECT_WIDLFLAGS := $(PROJECT_CFLAGS)\n".toList [],
   Emit.fprintf "PROJECT_LFLAGS := %s\n".toList [MingwBackend.GenerateProjectLFLAGS ProjectNode],
   Emit.fprintf "PROJECT_CFLAGS += -Wall\n".toList [],
   Emit.fprintf "PROJECT_CFLAGS += $(PROJECT_GCCOPTIONS)\n".toList [],
   Emit.fprintf "\n".toList []]

/-- The loop of `MingwBackend::GenerateXmlBuildFilesMacro ()` from the index
`i` on, `size` being `ProjectNode.xmlbuildfiles.size ()`, with its locals
`xmlbuildFilenames` and `numberOfExistingFiles`; the counter goes up twice for
a file that exists. -/
def MingwBackend.GenerateXmlBuildFilesMacroLoop (ext : External) (size : Nat) :
    List XMLInclude → Nat → CStr → Int → List Emit
  | [], _, _, _ => []
  | xmlbuildfile :: rest, i, xmlbuildFilenames, numberOfExistingFiles =>
    if !xmlbuildfile.fileExists then
      MingwBackend.GenerateXmlBuildFilesMacroLoop ext size rest (i + 1) xmlbuildFilenames
        numberOfExistingFiles
    else
      let numberOfExistingFiles := numberOfExistingFiles + 1
      let xmlbuildFilenames :=
        if xmlbuildFilenames.length > 0 then xmlbuildFilenames ++ " ".toList
        else xmlbuildFilenames
      let xmlbuildFilenames :=
        xmlbuildFilenames ++ ext.NormalizeFilename xmlbuildfile.topIncludeFilename
      if numberOfExistingFiles % 5 = 4 ∨ i = size - 1 then
        [Emit.fprintf "\t%s".toList [xmlbuildFilenames]] ++
        (if i = size - 1 then [Emit.fprintf "\n".toList []]
         else [Emit.fprintf " \\\n".toList []]) ++
        MingwBackend.GenerateXmlBuildFilesMacroLoop ext size rest (i + 1) []
          (numberOfExistingFiles + 1)
      else
        MingwBackend.GenerateXmlBuildFilesMacroLoop ext size rest (i + 1) xmlbuildFilenames
          (numberOfExistingFiles + 1)

/-- `MingwBackend::GenerateXmlBuildFilesMacro ()`. -/
def MingwBackend.GenerateXmlBuildFilesMacro (ext : External) (ProjectNode : Project) :
    List Emit :=
  [Emit.fprintf "XMLBUILDFILES = %s \\\n".toList [ProjectNode.GetProjectFilename]] ++
  MingwBackend.GenerateXmlBuildFilesMacroLoop ext ProjectNode.xmlbuildfiles.length
    ProjectNode.xmlbuildfiles 0 [] 0 ++
  [Emit.fprintf "\n".toList []]

/-- `MingwBackend::GetNonModuleInstallTargetFiles ( out )`: the vector `out`
after the call. -/
def MingwBackend.GetNonModuleInstallTargetFiles (ext : External) (installDirectory : Directory) :
    List InstallFile → List CStr → List CStr
  | [], out => out
  | installfile :: rest, out =>
    let targetFilenameNoFixup := installfile.base ++ SSEP ++ installfile.newname
    let targetFilename :=
      PassThruCacheDirectory (ext.NormalizeFilename targetFilenameNoFixup) installDirectory
    MingwBackend.GetNonModuleInstallTargetFiles ext installDirectory rest (out ++ [targetFilename])

/-- `MingwBackend::GetInstallTargetFiles ( out )`: the vector `out` after the
call. -/
def MingwBackend.GetInstallTargetFiles (ext : External) (installDirectory : Directory)
    (ProjectNode : Project) (out : List CStr) : List CStr :=
  MingwBackend.GetModuleInstallTargetFiles ext installDirectory ProjectNode.modules
    (MingwBackend.GetNonModuleInstallTargetFiles ext installDirectory ProjectNode.installfiles out)

/-- `MingwBackend::OutputNonModuleInstallTargets ()`. -/
def MingwBackend.OutputNonModuleInstallTargets (ext : External) (installDirectory : Directory) :
    List InstallFile → List Emit
  | [] => []
  | installfile :: rest =>
    MingwBackend.OutputInstallTarget ext installDirectory installfile.GetPath
      installfile.newname installfile.base ++
    MingwBackend.OutputNonModuleInstallTargets ext installDirectory rest

/-- `MingwBackend::GetRegistrySourceFiles ()`. -/
def MingwBackend.GetRegistrySourceFiles : CStr :=
  "bootdata".toList ++ SSEP ++ "hivecls.inf ".toList ++
  "bootdata".toList ++ SSEP ++ "hivedef.inf ".toList ++
  "bootdata".toList ++ SSEP ++ "hiveinst.inf ".toList ++
  "bootdata".toList ++ SSEP ++ "hivesft.inf ".toList ++
  "bootdata".toList ++ SSEP ++ "hivesys.inf".toList

/-- The local `system32ConfigDirectory` of `GetRegistryTargetFiles` and of
`OutputRegistryInstallTarget`. -/
def MingwBackend.system32ConfigDirectory (ext : External) (installDirectory : Directory) :
    CStr :=
  ext.NormalizeFilename
    (PassThruCacheDirectory ("system32".toList ++ SSEP ++ "config".toList ++ SSEP)
      installDirectory)

/-- `MingwBackend::GetRegistryTargetFiles ()`. -/
def MingwBackend.GetRegistryTargetFiles (ext : External) (installDirectory : Directory) : CStr :=
  let system32ConfigDirectory := MingwBackend.system32ConfigDirectory ext installDirectory
  system32ConfigDirectory ++ SSEP ++ "default ".toList ++
  system32ConfigDirectory ++ SSEP ++ "sam ".toList ++
  system32ConfigDirectory ++ SSEP ++ "security ".toList ++
  system32ConfigDirectory ++ SSEP ++ "software ".toList ++
  system32ConfigDirectory ++ SSEP ++ "system".toList

/-- `MingwBackend::OutputRegistryInstallTarget ()`. -/
def MingwBackend.OutputRegistryInstallTarget (ext : External) (installDirectory : Directory) :
    List Emit :=
  let system32ConfigDirectory := MingwBackend.system32ConfigDirectory ext installDirectory
  let registrySourceFiles := MingwBackend.GetRegistrySourceFiles
  let registryTargetFiles := MingwBackend.GetRegistryTargetFiles ext installDirectory
  [Emit.fprintf "install_registry: %s\n".toList [registryTargetFiles],
   Emit.fprintf "%s: %s %s $(MKHIVE_TARGET)\n".toList
     [registryTargetFiles, registrySourceFiles, system32ConfigDirectory],
   Emit.fprintf "\t$(ECHO_MKHIVE)\n".toList [],
   Emit.fprintf ("\t$(MKHIVE_TARGET) bootdata %s bootdata".toList ++ SSEP ++
     "hiveinst.inf\n".toList) [system32ConfigDirectory],
   Emit.fprintf "\n".toList []]

/-- `MingwBackend::GenerateInstallTarget ()`: the writes to the makefile, and
whether the function ran to its end (`false` when the assertion of
`GetAliasedModuleOrModule` stopped it). -/
def MingwBackend.GenerateInstallTarget (ext : External)
    (outputDirectory installDirectory : Directory) (ProjectNode : Project) : List Emit × Bool :=
  let vInstallTargetFiles := MingwBackend.GetInstallTargetFiles ext installDirectory ProjectNode []
  let installTargetFiles := v2s vInstallTargetFiles 5
  let registryTargetFiles := MingwBackend.GetRegistryTargetFiles ext installDirectory
  let head :=
    [Emit.fprintf "install: %s %s\n".toList [installTargetFiles, registryTargetFiles]] ++
    MingwBackend.OutputNonModuleInstallTargets ext installDirectory ProjectNode.installfiles
  match MingwBackend.OutputModuleInstallTargets ext outputDirectory installDirectory
      ProjectNode.modules with
  | (rules, false) => (head ++ rules, false)
  | (rules, true) =>
    (head ++ rules ++ MingwBackend.OutputRegistryInstallTarget ext installDirectory ++
      [Emit.fprintf "\n".toList []], true)

/-- `MingwBackend::GenerateDirectoryTargets ()`: the rules written, those of
the intermediate tree, of the output tree and of the install tree. -/
def MingwBackend.GenerateDirectoryTargets
    (intermediateDirectory outputDirectory installDirectory : Directory) : List Rule :=
  intermediateDirectory.CreateRule [] ++ outputDirectory.CreateRule [] ++
  installDirectory.CreateRule []

/-- `MingwBackend::GenerateDirectories ()`: the file system after the call and
the exception thrown, if any; `none` when a path does not fit its buffer. The
messages on standard output are left out. -/
def MingwBackend.GenerateDirectories (msvc : Bool) (env : Environment)
    (configuration : Configuration)
    (intermediateDirectory outputDirectory installDirectory : Directory) (fs : FileSystem) :
    Option (FileSystem × Option Exception) :=
  match intermediateDirectory.GenerateTree msvc env [] fs with
  | none => none
  | some (fs1, some e) => some (fs1, some e)
  | some (fs1, none) =>
    match outputDirectory.GenerateTree msvc env [] fs1 with
    | none => none
    | some (fs2, some e) => some (fs2, some e)
    | some (fs2, none) =>
      if !configuration.MakeHandlesInstallDirectories then
        installDirectory.GenerateTree msvc env [] fs2
      else some (fs2, none)

/-- One step of a run of `ProcessNormal` that is seen from outside: a write of
`fprintf` or of a handler to the makefile, a rule `CreateRule` writes to it,
or the call of one of the functions that come after the text, none of which
is handed the makefile. -/
inductive Step where
  | write (e : Emit)
  | rule (r : Rule)
  | GenerateDirectories
  | UnpackWineResources
  | GenerateTestSupportCode
  | GenerateProxyMakefiles
  | CheckAutomaticDependencies
  | CloseMakefile
  deriving DecidableEq

/-- Whether a step puts text into the makefile. -/
def Step.isWrite : Step → Bool
  | .write _ => true
  | .rule _ => true
  | _ => false

/-- How a run of the backend ends: it returns, it throws, an assertion stops
it, or it comes to a call for which the source defines no behaviour. -/
inductive Outcome where
  | returned
  | raised (e : Exception)
  | aborted
  | undefined

/-- What a run of `ProcessNormal` leaves behind: the members the probe
assigned, the file system, the steps in order, and how the run ended. -/
structure Run where
  backend : MingwBackend
  fs : FileSystem
  log : List Step
  outcome : Outcome

/-- What a run of the backend is given: the machine and the root paths, the
build (`msvc` for `_MSC_VER`), whether `fopen` can open a file for writing,
the functions defined outside this file, the configuration, the project, and
the three directory trees as they stand when the directory targets are
written. -/
structure Setting where
  world : World
  env : Environment
  msvc : Bool
  fopen : CStr → Bool
  ext : External
  gcc : GccParameters
  configuration : Configuration
  ProjectNode : Project
  intermediateDirectory : Directory
  outputDirectory : Directory
  installDirectory : Directory

/-- `MingwBackend::ProcessNormal ()`. `DetectPipeSupport` and
`DetectPCHSupport` set `usePipe` and `use_pch`, which only the handlers read,
and are left out, as are the messages on standard output. -/
def MingwBackend.ProcessNormal (s : Setting) (b : MingwBackend) (fs : FileSystem) : Run :=
  let d1 := MingwBackend.DetectCompiler s.world b
  match MingwBackend.DetectBinutils s.world d1.backend with
  | none => { backend := d1.backend, fs := fs, log := [], outcome := Outcome.undefined }
  | some d2 =>
    match d2.exception with
    | some e => { backend := d2.backend, fs := fs, log := [], outcome := Outcome.raised e }
    | none =>
      let d3 := MingwBackend.DetectNetwideAssembler s.world d2.backend
      if !s.fopen s.ProjectNode.makefile then
        { backend := d3.backend, fs := fs, log := [],
          outcome := Outcome.raised (Exception.AccessDeniedException s.ProjectNode.makefile) }
      else
        let front :=
          MingwBackend.GenerateHeader ++
          MingwBackend.GenerateGlobalVariables s.gcc d3.backend s.ProjectNode ++
          MingwBackend.GenerateXmlBuildFilesMacro s.ext s.ProjectNode
        match MingwBackend.ProcessModules s.ext s.ProjectNode.modules with
        | (modules, some e) =>
          { backend := d3.backend, fs := fs, log := (front ++ modules).map Step.write,
            outcome := Outcome.raised e }
        | (modules, none) =>
          match MingwBackend.GenerateInstallTarget s.ext s.outputDirectory s.installDirectory
              s.ProjectNode with
          | (install, false) =>
            { backend := d3.backend, fs := fs,
              log := (front ++ modules ++ install).map Step.write,
              outcome := Outcome.aborted }
          | (install, true) =>
            let text :=
              (front ++ modules ++ install ++
                MingwBackend.GenerateTestTarget s.ProjectNode.modules).map Step.write ++
              (MingwBackend.GenerateDirectoryTargets s.intermediateDirectory s.outputDirectory
                s.installDirectory).map Step.rule
            match MingwBackend.GenerateDirectories s.msvc s.env s.configuration
                s.intermediateDirectory s.outputDirectory s.installDirectory fs with
            | none =>
              { backend := d3.backend, fs := fs, log := text ++ [Step.GenerateDirectories],
                outcome := Outcome.undefined }
            | some (fs2, some e) =>
              { backend := d3.backend, fs := fs2, log := text ++ [Step.GenerateDirectories],
                outcome := Outcome.raised e }
            | some (fs2, none) =>
              { backend := d3.backend, fs := fs2,
                log := text ++
                  [Step.GenerateDirectories, Step.UnpackWineResources,
                   Step.GenerateTestSupportCode, Step.GenerateProxyMakefiles] ++
                  (if s.configuration.AutomaticDependencies then
                    [Step.CheckAutomaticDependencies] else []) ++
                  [Step.CloseMakefile],
                outcome := Outcome.returned }

/-- A setting for evaluating the definitions on examples: a project of a
library, an alias of it and a test, with one install file and one include. -/
def Setting.sample : Setting where
  world := World.sample
  env := Environment.sample
  msvc := false
  fopen := fun _ => true
  ext := { External.sample with
    LocateModule := Project.LocateModule
      [Project.Module.mk "hal".toList ModuleType.DynamicLibrary true "hal.dll".toList
        "system32".toList []] }
  gcc := GccParameters.sample
  configuration :=
    { Verbose := false, AutomaticDependencies := true, MakeHandlesInstallDirectories := false }
  ProjectNode :=
    { makefile := "makefile.auto".toList,
      GetProjectFilename := "ReactOS.xml".toList,
      non_if_data := IfableData.mk [Include.mk "include".toList] [] [] [] [],
      linkerFlags := [],
      xmlbuildfiles := [XMLInclude.mk true "lib/lib.xml".toList],
      installfiles := [InstallFile.mk "system32".toList "boot.ini".toList "media/boot.ini".toList],
      modules :=
        [Project.Module.mk "hal".toList ModuleType.DynamicLibrary true "hal.dll".toList
           "system32".toList [],
         Project.Module.mk "halup".toList ModuleType.Alias true "halup.dll".toList
           "system32".toList "hal".toList,
         Project.Module.mk "t1".toList ModuleType.Test true [] [] []] }
  intermediateDirectory :=
    Directory.mk "$(INTERMEDIATE)".toList [("lib".toList, Directory.new "lib".toList)]
  outputDirectory := Directory.new "$(OUTPUT)".toList
  installDirectory :=
    Directory.mk "$(INSTALL)".toList [("system32".toList, Directory.new "system32".toList)]

/-- A write of the guard line that opens a conditional region. -/
def Emit.isIfeq : Emit → Bool
  | .fprintf format _ => decide (format = "ifeq (\"$(%s)\",\"%s\")\n".toList)
  | .handler _ _ => false

/-- A write of the line that closes a conditional region. -/
def Emit.isEndif : Emit → Bool
  | .fprintf format _ => decide (format = "endif\n\n".toList)
  | .handler _ _ => false

/-- The guard lines of a list of writes are balanced and properly nested: as
many `endif` as `ifeq` lines, and in no front part more `endif` than `ifeq`
lines. -/
def guardsBalanced (l : List Emit) : Prop :=
  l.countP Emit.isEndif = l.countP Emit.isIfeq ∧
  ∀ n, (l.take n).countP Emit.isEndif ≤ (l.take n).countP Emit.isIfeq

/-- The targets of the install rules in a list of writes: the first argument
of every write of the rule line `%s: %s | %s`, in order. -/
def installRuleTargets : List Emit → List CStr
  | [] => []
  | Emit.fprintf format args :: rest =>
    if format = "%s: %s | %s\n".toList then
      match args with
      | target :: _ => target :: installRuleTargets rest
      | [] => installRuleTargets rest
    else installRuleTargets rest
  | Emit.handler _ _ :: rest => installRuleTargets rest

/-- The names of a group as `GenerateXmlBuildFilesMacro` collects them in
`xmlbuildFilenames`: one after the other, with a space in front of a name when
the string is not empty. -/
def spaceJoin (names : List CStr) : CStr :=
  names.foldl (fun s x => (if s.length > 0 then s ++ " ".toList else s) ++ x) []

/-- The groups of names written into the `XMLBUILDFILES` macro: the argument
of every write of the format `\t%s`, in order. -/
def flushedNames : List Emit → List CStr
  | [] => []
  | Emit.fprintf format args :: rest =>
    if format = "\t%s".toList then args ++ flushedNames rest else flushedNames rest
  | Emit.handler _ _ :: rest => flushedNames rest

/-- The separator `v2s` is said to put before a non-empty element that has
`k` non-empty elements before it: nothing before the first, the
line-continuation sequence when `wrap_at > 0` and `k = wrap_at`, one space
otherwise. This is the spec-side description, to compare with `v2sLoop`. -/
def v2sSeparator (wrap_at : Int) (k : Nat) : CStr :=
  if k = 0 then []
  else if wrap_at > 0 ∧ (k : Int) = wrap_at then " \\\n\t\t".toList
  else " ".toList

/-- The string `v2s` is said to produce: the non-empty elements of `v` in
order, each after its separator. This is the spec-side description, to
compare with `v2s`. -/
def v2sJoined (v : List CStr) (wrap_at : Int) : CStr :=
  (((v.filter (fun x => !x.isEmpty)).enum).map
    (fun kx => v2sSeparator wrap_at kx.1 ++ kx.2)).flatten

/-! ## Physical connection registration (`connection.cpp`) -/

/-- Modelled from the spec: the `NTSTATUS` codes `connection.cpp` names; the
numeric values are declared in headers that are not among the sources at hand,
and a code the file does not name is `other`. -/
inductive NTSTATUS where
  | STATUS_SUCCESS
  | STATUS_UNSUCCESSFUL
  | STATUS_NOT_IMPLEMENTED
  | STATUS_INVALID_PARAMETER
  | STATUS_INSUFFICIENT_RESOURCES
  | other (code : Nat)
  deriving DecidableEq, Repr

/-- A `PDEVICE_OBJECT`: `none` is the null pointer, `some a` the object at
address `a`. -/
abbrev PDEVICE_OBJECT := Option Nat

/-- A `PUNKNOWN`: `none` is the null pointer. -/
abbrev PUNKNOWN := Option Nat

/-- A `PUNICODE_STRING`: `none` is the null pointer. -/
abbrev PUNICODE_STRING := Option Nat

/-- The seven arguments `RegisterConnection` and `UnRegisterConnection` take. -/
structure ConnectionArguments where
  DeviceObject : PDEVICE_OBJECT
  FromUnknown : PUNKNOWN
  FromString : PUNICODE_STRING
  FromPin : Nat
  ToUnknown : PUNKNOWN
  ToString : PUNICODE_STRING
  ToPin : Nat
  deriving DecidableEq, Repr

/-- A call of one of the two workers of `connection.cpp`, with its arguments. -/
inductive ConnectionCall where
  | RegisterConnection (arguments : ConnectionArguments)
  | UnRegisterConnection (arguments : ConnectionArguments)
  deriving DecidableEq, Repr

/-- The static `UnRegisterConnection` of `connection.cpp`: `UNIMPLEMENTED`
(a debug print) and `return STATUS_NOT_IMPLEMENTED`. The result is the status
and the calls of the workers made, this one included. -/
def UnRegisterConnection (DeviceObject : PDEVICE_OBJECT) (FromUnknown : PUNKNOWN)
    (FromString : PUNICODE_STRING) (FromPin : Nat) (ToUnknown : PUNKNOWN)
    (ToString : PUNICODE_STRING) (ToPin : Nat) : NTSTATUS × List ConnectionCall :=
  (NTSTATUS.STATUS_NOT_IMPLEMENTED,
   [ConnectionCall.UnRegisterConnection
     ⟨DeviceObject, FromUnknown, FromString, FromPin, ToUnknown, ToString, ToPin⟩])

/-- `CUnregisterPhysicalConnection::UnregisterPhysicalConnection`. -/
def CUnregisterPhysicalConnection.UnregisterPhysicalConnection (DeviceObject : PDEVICE_OBJECT)
    (FromUnknown : PUNKNOWN) (FromPin : Nat) (ToUnknown : PUNKNOWN) (ToPin : Nat) :
    NTSTATUS × List ConnectionCall :=
  if DeviceObject.isNone || FromUnknown.isNone || ToUnknown.isNone then
    (NTSTATUS.STATUS_INVALID_PARAMETER, [])
  else
    UnRegisterConnection DeviceObject FromUnknown none FromPin ToUnknown none ToPin

/-- `CUnregisterPhysicalConnection::UnregisterPhysicalConnectionToExternal`. -/
def CUnregisterPhysicalConnection.UnregisterPhysicalConnectionToExternal
    (DeviceObject : PDEVICE_OBJECT) (FromUnknown : PUNKNOWN) (FromPin : Nat)
    (ToString : PUNICODE_STRING) (ToPin : Nat) : NTSTATUS × List ConnectionCall :=
  if DeviceObject.isNone || FromUnknown.isNone || ToString.isNone then
    (NTSTATUS.STATUS_INVALID_PARAMETER, [])
  else
    UnRegisterConnection DeviceObject FromUnknown none FromPin none ToString ToPin

/-- `CUnregisterPhysicalConnection::UnregisterPhysicalConnectionFromExternal`. -/
def CUnregisterPhysicalConnection.UnregisterPhysicalConnectionFromExternal
    (DeviceObject : PDEVICE_OBJECT) (FromString : PUNICODE_STRING) (FromPin : Nat)
    (ToUnknown : PUNKNOWN) (ToPin : Nat) : NTSTATUS × List ConnectionCall :=
  if DeviceObject.isNone || FromString.isNone || ToUnknown.isNone then
    (NTSTATUS.STATUS_INVALID_PARAMETER, [])
  else
    UnRegisterConnection DeviceObject none FromString FromPin ToUnknown none ToPin

/-- `RegisterConnection` as its callers see it: a call with seven arguments
that gives back a status. The body (lines 149 to 255) works on the COM
interfaces of the two subdevices and on the kernel lists of their descriptors,
which are declared outside the sources at hand; `status` is the status the
body comes to on the given arguments, and the call is recorded. -/
def RegisterConnection (status : ConnectionArguments → NTSTATUS) (DeviceObject : PDEVICE_OBJECT)
    (FromUnknown : PUNKNOWN) (FromString : PUNICODE_STRING) (FromPin : Nat)
    (ToUnknown : PUNKNOWN) (ToString : PUNICODE_STRING) (ToPin : Nat) :
    NTSTATUS × List ConnectionCall :=
  (status ⟨DeviceObject, FromUnknown, FromString, FromPin, ToUnknown, ToString, ToPin⟩,
   [ConnectionCall.RegisterConnection
     ⟨DeviceObject, FromUnknown, FromString, FromPin, ToUnknown, ToString, ToPin⟩])

/-- `PcRegisterPhysicalConnection`. The function starts with
`PC_ASSERT_IRQL_EQUAL(PASSIVE_LEVEL)`, a macro declared outside the sources at
hand: `atPassiveLevel` tells whether the asserted condition holds, and `none`
is the failed assertion. -/
def PcRegisterPhysicalConnection (status : ConnectionArguments → NTSTATUS)
    (atPassiveLevel : Bool) (DeviceObject : PDEVICE_OBJECT) (FromUnknown : PUNKNOWN)
    (FromPin : Nat) (ToUnknown : PUNKNOWN) (ToPin : Nat) :
    Option (NTSTATUS × List ConnectionCall) :=
  if !atPassiveLevel then none
  else if DeviceObject.isNone || FromUnknown.isNone || ToUnknown.isNone then
    some (NTSTATUS.STATUS_INVALID_PARAMETER, [])
  else
    some (RegisterConnection status DeviceObject FromUnknown none FromPin ToUnknown none ToPin)

/-- `PcRegisterPhysicalConnectionFromExternal`, with the assertion on the IRQL
as in `PcRegisterPhysicalConnection`. -/
def PcRegisterPhysicalConnectionFromExternal (status : ConnectionArguments → NTSTATUS)
    (atPassiveLevel : Bool) (DeviceObject : PDEVICE_OBJECT) (FromString : PUNICODE_STRING)
    (FromPin : Nat) (ToUnknown : PUNKNOWN) (ToPin : Nat) :
    Option (NTSTATUS × List ConnectionCall) :=
  if !atPassiveLevel then none
  else if DeviceObject.isNone || FromString.isNone || ToUnknown.isNone then
    some (NTSTATUS.STATUS_INVALID_PARAMETER, [])
  else
    some (RegisterConnection status DeviceObject none FromString FromPin ToUnknown none ToPin)

/-- `PcRegisterPhysicalConnectionToExternal`, with the assertion on the IRQL
as in `PcRegisterPhysicalConnection`. -/
def PcRegisterPhysicalConnectionToExternal (status : ConnectionArguments → NTSTATUS)
    (atPassiveLevel : Bool) (DeviceObject : PDEVICE_OBJECT) (FromUnknown : PUNKNOWN)
    (FromPin : Nat) (ToString : PUNICODE_STRING) (ToPin : Nat) :
    Option (NTSTATUS × List ConnectionCall) :=
  if !atPassiveLevel then none
  else if DeviceObject.isNone || FromUnknown.isNone || ToString.isNone then
    some (NTSTATUS.STATUS_INVALID_PARAMETER, [])
  else
    some (RegisterConnection status DeviceObject FromUnknown none FromPin none ToString ToPin)

/-! ## The SQL parser helpers (`sql.tab.c`) -/

/-- What `SQL_MarkPrimaryKeys` takes from headers that are not among the
sources at hand: the string comparison `lstrcmpW` (zero when the two strings
compare equal) and the bit mask `MSITYPE_KEY`. -/
structure Msi where
  lstrcmpW : List Nat → List Nat → Int
  MSITYPE_KEY : Nat

/-- Modelled from the spec: a `column_info` node of a column list: its column
name (wide characters) and its type bits; the `next` pointer is the tail of
the list the node is in. -/
structure column_info where
  column : List Nat
  type : Nat
  deriving DecidableEq, Repr

/-- The inner loop of `SQL_MarkPrimaryKeys` for the key `k`, over the columns
from `c` on: `found` and the column list as the loop leaves them. The first
column `lstrcmpW` finds equal to the key gets `type |= MSITYPE_KEY` and ends
the loop. -/
def SQL_MarkPrimaryKeysColumns (msi : Msi) (k : column_info) :
    List column_info → Bool × List column_info
  | [] => (false, [])
  | c :: rest =>
    if msi.lstrcmpW k.column c.column ≠ 0 then
      ((SQL_MarkPrimaryKeysColumns msi k rest).1, c :: (SQL_MarkPrimaryKeysColumns msi k rest).2)
    else
      (true, { c with type := c.type ||| msi.MSITYPE_KEY } :: rest)

/-- The outer loop of `SQL_MarkPrimaryKeys`, `for( k = keys; k && found; k = k->next )`,
from the key `k` on with the current `found` and columns. -/
def SQL_MarkPrimaryKeysLoop (msi : Msi) :
    List column_info → Bool → List column_info → Bool × List column_info
  | [], found, cols => (found, cols)
  | k :: rest, found, cols =>
    if !found then (found, cols)
    else
      SQL_MarkPrimaryKeysLoop msi rest (SQL_MarkPrimaryKeysColumns msi k cols).1
        (SQL_MarkPrimaryKeysColumns msi k cols).2

/-- `SQL_MarkPrimaryKeys( cols, keys )`: the value returned and the column
list after the call. -/
def SQL_MarkPrimaryKeys (msi : Msi) (cols keys : List column_info) : Bool × List column_info :=
  SQL_MarkPrimaryKeysLoop msi keys true cols

/-- The relation between a column `c` before a call and the column `c2` in its
place after it that leaves every bit outside `MSITYPE_KEY` alone: the name is
the same, and the type is the same or has got the bits of `MSITYPE_KEY`. -/
def keyMarked (msi : Msi) (c c2 : column_info) : Prop :=
  c2.column = c.column ∧ (c2.type = c.type ∨ c2.type = c.type ||| msi.MSITYPE_KEY)

instance keyMarked.decidable (msi : Msi) (c c2 : column_info) :
    Decidable (keyMarked msi c c2) := by
  unfold keyMarked
  infer_instance

/-- A stand-in for the headers in examples: `lstrcmpW` compares the two
strings code unit by code unit, and `MSITYPE_KEY` is `0x2000`. -/
def Msi.sample : Msi where
  lstrcmpW := fun a b => if a = b then 0 else if a < b then -1 else 1
  MSITYPE_KEY := 0x2000

/-- A signed 32-bit `INT` holding the mathematical value `x`: the value
between `-2^31` and `2^31 - 1` that differs from `x` by a multiple of `2^32`. -/
def wrapInt32 (x : Int) : Int :=
  (x + 2 ^ 31) % 2 ^ 32 - 2 ^ 31

/-- The fields of `SQL_input` that `SQL_getint` reads: the command (wide
characters, the terminating zero left out), the start `n` and the length `len`
of the current token. -/
structure SQL_input where
  command : List Nat
  n : Nat
  len : Nat
  deriving DecidableEq, Repr

/-- The loop of `SQL_getint`: `p` gives the character `p[i]`, `remaining` is
`sql->len - i`, and every operation of `r = (p[i]-'0') + r*10` is done in
`INT`, wrapping around. -/
def SQL_getintLoop (p : Nat → Nat) : Nat → Nat → Int → Int
  | 0, _, r => r
  | remaining + 1, i, r =>
    if 48 > p i ∨ 57 < p i then r
    else SQL_getintLoop p remaining (i + 1) (wrapInt32 (((p i : Int) - 48) + wrapInt32 (r * 10)))

/-- `SQL_getint( info )`; a character read at the end of the command is the
terminating zero. -/
def SQL_getint (sql : SQL_input) : Int :=
  SQL_getintLoop (fun i => sql.command.getD (sql.n + i) 0) sql.len 0 0

/-- The current token of `sql`: the `len` characters from `n` on. -/
def SQL_input.token (sql : SQL_input) : List Nat :=
  (sql.command.drop sql.n).take sql.len

/-- The decimal value of a list of digit characters, first digit first. -/
def decimalValue (digits : List Nat) : Nat :=
  digits.foldl (fun v c => 10 * v + (c - 48)) 0

/-- Whether the wide character `c` is a decimal digit, `'0'` to `'9'`. -/
def isDecimalDigit (c : Nat) : Bool :=
  decide (48 ≤ c ∧ c ≤ 57)
/-! ## The order on strings -/

theorem char_eq_of_toNat_eq {x y : Char} (h : x.toNat = y.toNat) : x = y := by
  apply Char.ext
  apply UInt32.ext
  exact h

theorem strcmp_self (a : CStr) : strcmp a a = 0 := by
  induction a with
  | nil => rfl
  | cons x xs ih => simp [strcmp, ih]

theorem strcmp_eq_zero {a b : CStr} : strcmp a b = 0 ↔ a = b := by
  constructor
  · intro h
    induction a generalizing b with
    | nil => cases b with
      | nil => rfl
      | cons y ys => simp [strcmp] at h
    | cons x xs ih => cases b with
      | nil => simp [strcmp] at h
      | cons y ys =>
        simp only [strcmp] at h
        split at h
        · omega
        · split at h
          · omega
          · have hxy : x.toNat = y.toNat := by omega
            have : x = y := char_eq_of_toNat_eq hxy
            rw [this, ih h]
  · rintro rfl
    exact strcmp_self a

theorem strcmp_neg_iff_pos {a b : CStr} : strcmp a b < 0 ↔ 0 < strcmp b a := by
  induction a generalizing b with
  | nil => cases b <;> simp [strcmp]
  | cons x xs ih => cases b with
    | nil => simp [strcmp]
    | cons y ys =>
      simp only [strcmp]
      split
      · have : ¬ y.toNat < x.toNat := by omega
        simp [*]
      · split
        · simp
        · exact ih

theorem strcmp_trichotomy (a b : CStr) : strcmp a b < 0 ∨ a = b ∨ strcmp b a < 0 := by
  rcases lt_trichotomy (strcmp a b) 0 with h | h | h
  · exact Or.inl h
  · exact Or.inr (Or.inl (strcmp_eq_zero.mp h))
  · exact Or.inr (Or.inr (strcmp_neg_iff_pos.mpr h))

theorem strcmp_trans {a b c : CStr} (hab : strcmp a b < 0) (hbc : strcmp b c < 0) :
    strcmp a c < 0 := by
  induction a generalizing b c with
  | nil => cases b with
    | nil => simp [strcmp] at hab
    | cons y ys => cases c with
      | nil => simp [strcmp] at hbc
      | cons z zs => simp [strcmp]
  | cons x xs ih => cases b with
    | nil => simp [strcmp] at hab
    | cons y ys => cases c with
      | nil => simp [strcmp] at hbc
      | cons z zs =>
        simp only [strcmp] at hab hbc ⊢
        split at hab
        · split at hbc
          · have : x.toNat < z.toNat := by omega
            simp [this]
          · split at hbc
            · omega
            · have : x.toNat < z.toNat := by omega
              simp [this]
        · split at hab
          · omega
          · split at hbc
            · have : x.toNat < z.toNat := by omega
              simp [this]
            · split at hbc
              · omega
              · have h1 : ¬ x.toNat < z.toNat := by omega
                have h2 : ¬ z.toNat < x.toNat := by omega
                simp only [h1, h2, if_false]
                exact ih hab hbc

theorem strcmp_irrefl (a : CStr) : ¬ strcmp a a < 0 := by
  rw [strcmp_self]; omega

theorem strcmp_asymm {a b : CStr} (h : strcmp a b < 0) : ¬ strcmp b a < 0 := by
  intro h2
  exact strcmp_irrefl a (strcmp_trans h h2)

/-! ## The map operations -/

theorem mapFind_mapPut_same {α : Type} (m : List (CStr × α)) (s : CStr) (v : α) :
    mapFind (mapPut m s v) s = some v := by
  induction m with
  | nil => simp [mapPut, mapFind]
  | cons kw rest ih =>
    obtain ⟨k, w⟩ := kw
    simp only [mapPut]
    split
    · simp [mapFind]
    · split
      · simp [mapFind]
      · simp [mapFind, *]

theorem mapFind_mapPut_ne {α : Type} (m : List (CStr × α)) {s t : CStr} (v : α) (h : s ≠ t) :
    mapFind (mapPut m s v) t = mapFind m t := by
  induction m with
  | nil => simp [mapPut, mapFind, h]
  | cons kw rest ih =>
    obtain ⟨k, w⟩ := kw
    simp only [mapPut]
    split
    · next hk => subst hk; simp [mapFind, h]
    · split
      · simp [mapFind, h]
      · simp [mapFind, ih]

theorem mapFind_mapSet_same {α : Type} (m : List (CStr × α)) (s : CStr) (v c : α)
    (h : mapFind m s = some c) : mapFind (mapSet m s v) s = some v := by
  induction m with
  | nil => simp [mapFind] at h
  | cons kw rest ih =>
    obtain ⟨k, w⟩ := kw
    simp only [mapFind] at h
    simp only [mapSet]
    split
    · next hk => simp [mapFind, hk]
    · next hk => simp [hk] at h; simp [mapFind, hk, ih h]

theorem mapFind_mapSet_ne {α : Type} (m : List (CStr × α)) {s t : CStr} (v : α) (h : s ≠ t) :
    mapFind (mapSet m s v) t = mapFind m t := by
  induction m with
  | nil => simp [mapSet]
  | cons kw rest ih =>
    obtain ⟨k, w⟩ := kw
    simp only [mapSet]
    split
    · next hk => subst hk; simp [mapFind, h]
    · simp [mapFind, ih]

theorem mapSet_mapSet {α : Type} (m : List (CStr × α)) (s : CStr) (v w : α) :
    mapSet (mapSet m s v) s w = mapSet m s w := by
  induction m with
  | nil => simp [mapSet]
  | cons kx rest ih =>
    obtain ⟨k, x⟩ := kx
    simp only [mapSet]
    split
    · next hk => simp [mapSet, hk]
    · next hk => simp [mapSet, hk, ih]

theorem mapSet_mapPut {α : Type} (m : List (CStr × α)) (s : CStr) (v w : α) :
    mapSet (mapPut m s v) s w = mapPut m s w := by
  induction m with
  | nil => simp [mapSet, mapPut]
  | cons kx rest ih =>
    obtain ⟨k, x⟩ := kx
    simp only [mapPut]
    split
    · simp [mapSet]
    · next hk =>
      split
      · simp [mapSet]
      · simp [mapSet, hk, ih]

theorem mapSet_of_mapFind {α : Type} (m : List (CStr × α)) (s : CStr) (c : α)
    (h : mapFind m s = some c) : mapSet m s c = m := by
  induction m with
  | nil => simp [mapFind] at h
  | cons kx rest ih =>
    obtain ⟨k, x⟩ := kx
    simp only [mapFind] at h
    simp only [mapSet]
    split
    · next hk => simp [hk] at h; simp [h]
    · next hk => simp [hk] at h; simp [ih h]

theorem mapSet_comm {α : Type} (m : List (CStr × α)) {s t : CStr} (v w : α) (h : s ≠ t) :
    mapSet (mapSet m s v) t w = mapSet (mapSet m t w) s v := by
  have h' : t ≠ s := fun e => h e.symm
  induction m with
  | nil => simp [mapSet]
  | cons kx rest ih =>
    obtain ⟨k, x⟩ := kx
    by_cases hs : k = s
    · subst hs
      simp [mapSet, h]
    · by_cases ht : k = t
      · subst ht
        simp [mapSet, h']
      · simp [mapSet, hs, ht, ih]

theorem mapSet_mapPut_comm {α : Type} (m : List (CStr × α)) {s t : CStr} (v w : α)
    (h : s ≠ t) : mapSet (mapPut m t w) s v = mapPut (mapSet m s v) t w := by
  have h' : t ≠ s := fun e => h e.symm
  induction m with
  | nil => simp [mapSet, mapPut, h']
  | cons kx rest ih =>
    obtain ⟨k, x⟩ := kx
    by_cases hs : k = s
    · subst hs
      by_cases hlt : strcmp t k < 0
      · simp [mapSet, mapPut, h, h', hlt]
      · simp [mapSet, mapPut, h, h', hlt]
    · by_cases ht : k = t
      · subst ht
        simp [mapSet, mapPut, h']
      · by_cases hlt : strcmp t k < 0
        · simp [mapSet, mapPut, hs, ht, h', hlt]
        · simp [mapSet, mapPut, hs, ht, h', hlt, ih]

theorem mapPut_comm {α : Type} (m : List (CStr × α)) {s t : CStr} (v w : α) (h : s ≠ t) :
    mapPut (mapPut m s v) t w = mapPut (mapPut m t w) s v := by
  have h' : t ≠ s := fun e => h e.symm
  have tri : (strcmp s t < 0 ∧ ¬ strcmp t s < 0) ∨ (strcmp t s < 0 ∧ ¬ strcmp s t < 0) := by
    rcases strcmp_trichotomy s t with hst | hst | hst
    · exact Or.inl ⟨hst, strcmp_asymm hst⟩
    · exact absurd hst h
    · exact Or.inr ⟨hst, strcmp_asymm hst⟩
  induction m with
  | nil =>
    rcases tri with ⟨h1, h2⟩ | ⟨h1, h2⟩ <;> simp [mapPut, h, h', h1, h2]
  | cons kx rest ih =>
    obtain ⟨k, x⟩ := kx
    by_cases hs : k = s
    · subst hs
      rcases tri with ⟨h1, h2⟩ | ⟨h1, h2⟩ <;> simp [mapPut, h, h', h1, h2]
    · by_cases ht : k = t
      · subst ht
        rcases tri with ⟨h1, h2⟩ | ⟨h1, h2⟩ <;> simp [mapPut, h, h', h1, h2]
      · by_cases hsk : strcmp s k < 0
        · by_cases htk : strcmp t k < 0
          · rcases tri with ⟨h1, h2⟩ | ⟨h1, h2⟩ <;>
              simp [mapPut, h, h', h1, h2, hs, ht, hsk, htk]
          · have hkt : strcmp k t < 0 := by
              rcases strcmp_trichotomy k t with c | c | c
              · exact c
              · exact absurd c ht
              · exact absurd c htk
            have h1 : strcmp s t < 0 := strcmp_trans hsk hkt
            have h2 := strcmp_asymm h1
            simp [mapPut, h, h', h1, h2, hs, ht, hsk, htk]
        · by_cases htk : strcmp t k < 0
          · have hks : strcmp k s < 0 := by
              rcases strcmp_trichotomy k s with c | c | c
              · exact c
              · exact absurd c hs
              · exact absurd c hsk
            have h1 : strcmp t s < 0 := strcmp_trans htk hks
            have h2 := strcmp_asymm h1
            simp [mapPut, h, h', h1, h2, hs, ht, hsk, htk]
          · simp [mapPut, hs, ht, hsk, htk, ih]

theorem mem_mapPut {α : Type} (m : List (CStr × α)) (s : CStr) (v : α) (kv : CStr × α)
    (h : kv ∈ mapPut m s v) : kv = (s, v) ∨ kv ∈ m := by
  induction m with
  | nil => simp [mapPut] at h; exact Or.inl h
  | cons kx rest ih =>
    obtain ⟨k, x⟩ := kx
    simp only [mapPut] at h
    split at h
    · simp at h; rcases h with h | h
      · exact Or.inl h
      · exact Or.inr (List.mem_cons_of_mem _ h)
    · split at h
      · simp at h; rcases h with h | h | h
        · exact Or.inl h
        · exact Or.inr (by simp [h])
        · exact Or.inr (List.mem_cons_of_mem _ h)
      · simp at h; rcases h with h | h
        · exact Or.inr (by simp [h])
        · rcases ih h with h | h
          · exact Or.inl h
          · exact Or.inr (List.mem_cons_of_mem _ h)

theorem mem_mapSet {α : Type} (m : List (CStr × α)) (s : CStr) (v : α) (kv : CStr × α)
    (h : kv ∈ mapSet m s v) : kv = (s, v) ∨ kv ∈ m := by
  induction m with
  | nil => simp [mapSet] at h
  | cons kx rest ih =>
    obtain ⟨k, x⟩ := kx
    simp only [mapSet] at h
    split at h
    · next hk =>
      simp at h; rcases h with h | h
      · exact Or.inl (by rw [h, hk])
      · exact Or.inr (List.mem_cons_of_mem _ h)
    · simp at h; rcases h with h | h
      · exact Or.inr (by simp [h])
      · rcases ih h with h | h
        · exact Or.inl h
        · exact Or.inr (List.mem_cons_of_mem _ h)

theorem map_fst_mapSet {α : Type} (m : List (CStr × α)) (s : CStr) (v : α) :
    (mapSet m s v).map Prod.fst = m.map Prod.fst := by
  induction m with
  | nil => simp [mapSet]
  | cons kx rest ih =>
    obtain ⟨k, x⟩ := kx
    simp only [mapSet]
    split <;> simp [ih]

theorem mem_of_mapFind {α : Type} (m : List (CStr × α)) (s : CStr) (c : α)
    (h : mapFind m s = some c) : (s, c) ∈ m := by
  induction m with
  | nil => simp [mapFind] at h
  | cons kx rest ih =>
    obtain ⟨k, x⟩ := kx
    simp only [mapFind] at h
    split at h
    · next hk => simp at h; simp [hk, h]
    · exact List.mem_cons_of_mem _ (ih h)

/-! ## `Directory::Add` -/

theorem length_dropWhile_le {α : Type} (p : α → Bool) (l : List α) :
    (l.dropWhile p).length ≤ l.length := by
  induction l with
  | nil => simp
  | cons a l ih =>
    simp only [List.dropWhile]
    split
    · simp; omega
    · simp

theorem addSegmentsAux_eq (l cur : CStr) :
    addSegmentsAux l cur = (cur ++ l.takeWhile (fun c => !isSep c)) ::
      (match l.dropWhile (fun c => !isSep c) with
       | _ :: c :: p => addSegmentsAux (c :: p) []
       | _ => []) := by
  induction l generalizing cur with
  | nil => simp [addSegmentsAux]
  | cons x xs ih =>
    by_cases hx : isSep x = true
    · cases xs with
      | nil => simp [addSegmentsAux, hx, List.takeWhile, List.dropWhile]
      | cons y ys => simp [addSegmentsAux, hx, List.takeWhile, List.dropWhile]
    · have hx2 : isSep x = false := by simpa using hx
      have key : addSegmentsAux (x :: xs) cur = addSegmentsAux xs (cur ++ [x]) := by
        simp [addSegmentsAux, hx2]
      rw [key, ih]
      simp [List.takeWhile, List.dropWhile, hx2]

theorem addSegments_eq (l : CStr) :
    addSegments l = l.takeWhile (fun c => !isSep c) ::
      (match l.dropWhile (fun c => !isSep c) with
       | _ :: c :: p => addSegments (c :: p)
       | _ => []) := by
  unfold addSegments
  rw [addSegmentsAux_eq]
  simp

theorem not_mem_of_dropWhile {l : CStr} {x c : Char} {p : CStr} {f : Char → Bool}
    (h : l.dropWhile f = x :: c :: p) (hd : '$' ∉ l) : '$' ∉ c :: p := by
  intro hm
  apply hd
  have hs : (l.dropWhile f) <:+ l := List.dropWhile_suffix f
  rw [h] at hs
  exact hs.subset (List.mem_cons_of_mem _ hm)

theorem AddFuel_eq_insertPath (n : Nat) (d : Directory) (subdir : CStr)
    (hn : subdir.length < n) (hd : '$' ∉ subdir) :
    Directory.AddFuel n d subdir = (d.insertPath (addSegments subdir), none) := by
  induction n generalizing d subdir with
  | zero => omega
  | succ n ih =>
    obtain ⟨name, m⟩ := d
    rw [addSegments_eq]
    simp only [Directory.AddFuel, Directory.AddBody, hd, if_false]
    have hlen := length_dropWhile_le (fun c => !isSep c) subdir
    cases hdw : subdir.dropWhile (fun c => !isSep c) with
    | nil =>
      simp only [Directory.insertPath]
      cases h : mapFind m (subdir.takeWhile (fun c => !isSep c)) with
      | none => simp [Directory.new]
      | some c => simp [mapSet_of_mapFind m _ c h]
    | cons x rest =>
      cases rest with
      | nil =>
        simp only [Directory.insertPath]
        cases h : mapFind m (subdir.takeWhile (fun c => !isSep c)) with
        | none => simp [Directory.new]
        | some c => simp [mapSet_of_mapFind m _ c h]
      | cons c p =>
        rw [hdw] at hlen
        have hd2 : '$' ∉ c :: p := not_mem_of_dropWhile hdw hd
        have hlen2 : (c :: p).length < n := by simp at hlen ⊢; omega
        simp only [Directory.insertPath]
        cases h : mapFind m (subdir.takeWhile (fun c => !isSep c)) with
        | none => simp [ih _ _ hlen2 hd2, mapSet_mapPut, Directory.new]
        | some c0 => simp [ih _ _ hlen2 hd2]

theorem Directory.Add_eq_insertPath (d : Directory) (subdir : CStr) (hd : '$' ∉ subdir) :
    d.Add subdir = (d.insertPath (addSegments subdir), none) :=
  AddFuel_eq_insertPath _ d subdir (Nat.lt_succ_self _) hd

theorem Directory.Add_of_mem (d : Directory) (subdir : CStr) (hd : '$' ∈ subdir) :
    d.Add subdir = (d, some (.InvalidOperationException subdir)) := by
  obtain ⟨name, m⟩ := d
  simp [Directory.Add, Directory.AddFuel, Directory.AddBody, hd]

theorem AddFuel_eq_Add (n : Nat) (d : Directory) (subdir : CStr) (hn : subdir.length < n) :
    Directory.AddFuel n d subdir = d.Add subdir := by
  by_cases hd : '$' ∈ subdir
  · rw [Directory.Add_of_mem d subdir hd]
    obtain ⟨name, m⟩ := d
    cases n with
    | zero => omega
    | succ k => simp [Directory.AddFuel, Directory.AddBody, hd]
  · rw [Directory.Add_eq_insertPath d subdir hd, AddFuel_eq_insertPath n d subdir hn hd]

/-- The recursion of `Directory::Add` as the source writes it: `Add` is its
own body with `Add` for the recursive call, whatever the depth. -/
theorem Directory.Add_eq (d : Directory) (subdir : CStr) :
    d.Add subdir = Directory.AddBody Directory.Add d subdir := by
  obtain ⟨name, m⟩ := d
  by_cases hd : '$' ∈ subdir
  · simp [Directory.Add_of_mem _ subdir hd, Directory.AddBody, hd]
  · have hlen := length_dropWhile_le (fun c => !isSep c) subdir
    simp only [Directory.Add, Directory.AddFuel, Directory.AddBody, hd, if_false]
    cases hdw : subdir.dropWhile (fun c => !isSep c) with
    | nil => rfl
    | cons x rest =>
      cases rest with
      | nil => rfl
      | cons c p =>
        rw [hdw] at hlen
        have hk : (c :: p).length < subdir.length := by simp at hlen ⊢; omega
        have e := AddFuel_eq_Add subdir.length
        simp only [e _ _ hk]
        rfl

/-! ## Walking a list of segments -/

theorem insertPath_nil (d : Directory) : d.insertPath [] = d := by
  cases d; simp [Directory.insertPath]

theorem insertPath_cons_some {n : CStr} {m : List (CStr × Directory)} {s : CStr}
    {c : Directory} (r : List CStr) (h : mapFind m s = some c) :
    (Directory.mk n m).insertPath (s :: r) = .mk n (mapSet m s (c.insertPath r)) := by
  simp [Directory.insertPath, h]

theorem insertPath_cons_none {n : CStr} {m : List (CStr × Directory)} {s : CStr}
    (r : List CStr) (h : mapFind m s = none) :
    (Directory.mk n m).insertPath (s :: r) =
      .mk n (mapPut m s ((Directory.new s).insertPath r)) := by
  simp [Directory.insertPath, h]

theorem insertPath_name (d : Directory) (a : List CStr) : (d.insertPath a).name = d.name := by
  cases a with
  | nil => rw [insertPath_nil]
  | cons s r =>
    obtain ⟨n, m⟩ := d
    cases h : mapFind m s with
    | none => rw [insertPath_cons_none r h]; rfl
    | some c => rw [insertPath_cons_some r h]; rfl

theorem insertPath_idem (d : Directory) (a : List CStr) :
    (d.insertPath a).insertPath a = d.insertPath a := by
  induction a generalizing d with
  | nil => simp [insertPath_nil]
  | cons s r ih =>
    obtain ⟨n, m⟩ := d
    cases h : mapFind m s with
    | none =>
      rw [insertPath_cons_none r h, insertPath_cons_some r (mapFind_mapPut_same m s _), ih,
        mapSet_mapPut]
    | some c =>
      rw [insertPath_cons_some r h, insertPath_cons_some r (mapFind_mapSet_same m s _ c h), ih,
        mapSet_mapSet]

theorem insertPath_comm (d : Directory) (a b : List CStr) :
    (d.insertPath a).insertPath b = (d.insertPath b).insertPath a := by
  induction a generalizing d b with
  | nil => simp [insertPath_nil]
  | cons s a ih =>
    cases b with
    | nil => simp [insertPath_nil]
    | cons t b =>
      obtain ⟨n, m⟩ := d
      by_cases hst : s = t
      · subst hst
        cases h : mapFind m s with
        | none =>
          rw [insertPath_cons_none a h, insertPath_cons_none b h,
            insertPath_cons_some b (mapFind_mapPut_same m s _),
            insertPath_cons_some a (mapFind_mapPut_same m s _), ih, mapSet_mapPut, mapSet_mapPut]
        | some c =>
          rw [insertPath_cons_some a h, insertPath_cons_some b h,
            insertPath_cons_some b (mapFind_mapSet_same m s _ c h),
            insertPath_cons_some a (mapFind_mapSet_same m s _ c h), ih, mapSet_mapSet,
            mapSet_mapSet]
      · have hts : t ≠ s := fun e => hst e.symm
        cases hs : mapFind m s with
        | none =>
          cases ht : mapFind m t with
          | none =>
            rw [insertPath_cons_none a hs, insertPath_cons_none b ht,
              insertPath_cons_none b ((mapFind_mapPut_ne m _ hst).trans ht),
              insertPath_cons_none a ((mapFind_mapPut_ne m _ hts).trans hs),
              mapPut_comm m _ _ hst]
          | some e =>
            rw [insertPath_cons_none a hs, insertPath_cons_some b ht,
              insertPath_cons_some b ((mapFind_mapPut_ne m _ hst).trans ht),
              insertPath_cons_none a ((mapFind_mapSet_ne m _ hts).trans hs),
              mapSet_mapPut_comm m _ _ hts]
        | some c =>
          cases ht : mapFind m t with
          | none =>
            rw [insertPath_cons_some a hs, insertPath_cons_none b ht,
              insertPath_cons_none b ((mapFind_mapSet_ne m _ hst).trans ht),
              insertPath_cons_some a ((mapFind_mapPut_ne m _ hts).trans hs),
              mapSet_mapPut_comm m _ _ hst]
          | some e =>
            rw [insertPath_cons_some a hs, insertPath_cons_some b ht,
              insertPath_cons_some b ((mapFind_mapSet_ne m _ hst).trans ht),
              insertPath_cons_some a ((mapFind_mapSet_ne m _ hts).trans hs),
              mapSet_comm m _ _ hst]

theorem AddAll_eq_foldl (d : Directory) (ps : List CStr) (h : ∀ p ∈ ps, '$' ∉ p) :
    d.AddAll ps = (List.foldl Directory.insertPath d (ps.map addSegments), none) := by
  induction ps generalizing d with
  | nil => rfl
  | cons p ps ih =>
    have hp : '$' ∉ p := h p (List.mem_cons_self _ _)
    simp only [Directory.AddAll, Directory.Add_eq_insertPath d p hp, List.map_cons,
      List.foldl_cons]
    exact ih _ (fun q hq => h q (List.mem_cons_of_mem _ hq))

theorem foldl_insertPath_perm (d : Directory) (xs ys : List (List CStr)) (h : xs.Perm ys) :
    List.foldl Directory.insertPath d xs = List.foldl Directory.insertPath d ys := by
  induction h generalizing d with
  | nil => rfl
  | cons x _ ih => simp only [List.foldl_cons]; exact ih _
  | swap x y l => simp only [List.foldl_cons]; rw [insertPath_comm]
  | trans _ _ ih1 ih2 => exact (ih1 d).trans (ih2 d)

/-! ## Node paths -/

theorem pathsList_cons (k : CStr) (c : Directory) (rest : List (CStr × Directory)) :
    pathsList ((k, c) :: rest) =
      ([c.name] :: (c.paths).map (fun q => c.name :: q)) ++ pathsList rest := by
  simp [pathsList]

theorem keyedList_cons (k : CStr) (c : Directory) (rest : List (CStr × Directory)) :
    keyedList ((k, c) :: rest) = true ↔
      k = c.name ∧ c.keyed = true ∧ keyedList rest = true := by
  simp [keyedList, and_assoc]

theorem keyedList_mem {m : List (CStr × Directory)} (h : keyedList m = true)
    {kc : CStr × Directory} (hm : kc ∈ m) : kc.1 = kc.2.name ∧ kc.2.keyed = true := by
  induction m with
  | nil => simp at hm
  | cons x rest ih =>
    obtain ⟨k, c⟩ := x
    rw [keyedList_cons] at h
    rcases List.mem_cons.mp hm with e | e
    · subst e; exact ⟨h.1, h.2.1⟩
    · exact ih h.2.2 e

theorem keyedList_of_mem {m : List (CStr × Directory)}
    (h : ∀ kc ∈ m, kc.1 = kc.2.name ∧ kc.2.keyed = true) : keyedList m = true := by
  induction m with
  | nil => simp [keyedList]
  | cons x rest ih =>
    obtain ⟨k, c⟩ := x
    rw [keyedList_cons]
    have h1 := h (k, c) (List.mem_cons_self _ _)
    exact ⟨h1.1, h1.2, ih (fun kc hk => h kc (List.mem_cons_of_mem _ hk))⟩

theorem mem_pathsList_mapSet {m : List (CStr × Directory)} {s : CStr} {c c2 : Directory}
    (X : List CStr → Prop) (hf : mapFind m s = some c) (hn : c2.name = c.name)
    (hp : ∀ q, q ∈ c2.paths ↔ q ∈ c.paths ∨ X q) (q : List CStr) :
    q ∈ pathsList (mapSet m s c2) ↔
      q ∈ pathsList m ∨ ∃ r, X r ∧ q = c.name :: r := by
  induction m with
  | nil => simp [mapFind] at hf
  | cons x rest ih =>
    obtain ⟨k, y⟩ := x
    simp only [mapFind] at hf
    by_cases hk : k = s
    · simp only [hk, if_true, Option.some.injEq] at hf
      subst hf
      simp only [mapSet, hk, if_true, pathsList_cons, List.mem_append, List.mem_cons,
        List.mem_map, hn, hp]
      constructor
      · rintro ((h | ⟨r, h | h, e⟩) | h)
        · exact Or.inl (Or.inl (Or.inl h))
        · exact Or.inl (Or.inl (Or.inr ⟨r, h, e⟩))
        · exact Or.inr ⟨r, h, e.symm⟩
        · exact Or.inl (Or.inr h)
      · rintro (((h | ⟨r, h, e⟩) | h) | ⟨r, h, e⟩)
        · exact Or.inl (Or.inl h)
        · exact Or.inl (Or.inr ⟨r, Or.inl h, e⟩)
        · exact Or.inr h
        · exact Or.inl (Or.inr ⟨r, Or.inr h, e.symm⟩)
    · simp only [hk, if_false] at hf
      simp only [mapSet, hk, if_false, pathsList_cons, List.mem_append, ih hf]
      tauto

theorem mem_pathsList_mapPut {m : List (CStr × Directory)} {s : CStr} (c2 : Directory)
    (hf : mapFind m s = none) (q : List CStr) :
    q ∈ pathsList (mapPut m s c2) ↔
      q ∈ pathsList m ∨ q = [c2.name] ∨ ∃ r, r ∈ c2.paths ∧ q = c2.name :: r := by
  induction m with
  | nil =>
    simp only [mapPut, pathsList_cons, pathsList, List.mem_append, List.mem_cons, List.mem_map]
    constructor
    · rintro ((h | ⟨r, h, e⟩) | h)
      · exact Or.inr (Or.inl h)
      · exact Or.inr (Or.inr ⟨r, h, e.symm⟩)
      · simp at h
    · rintro (h | h | ⟨r, h, e⟩)
      · simp at h
      · exact Or.inl (Or.inl h)
      · exact Or.inl (Or.inr ⟨r, h, e.symm⟩)
  | cons x rest ih =>
    obtain ⟨k, y⟩ := x
    simp only [mapFind] at hf
    by_cases hk : k = s
    · simp [hk] at hf
    · simp only [hk, if_false] at hf
      simp only [mapPut, hk, if_false]
      split
      · simp only [pathsList_cons, List.mem_append, List.mem_cons, List.mem_map]
        constructor
        · rintro ((h | ⟨r, h, e⟩) | h)
          · exact Or.inr (Or.inl h)
          · exact Or.inr (Or.inr ⟨r, h, e.symm⟩)
          · exact Or.inl h
        · rintro (h | h | ⟨r, h, e⟩)
          · exact Or.inr h
          · exact Or.inl (Or.inl h)
          · exact Or.inl (Or.inr ⟨r, h, e.symm⟩)
      · simp only [pathsList_cons, List.mem_append, ih hf]
        tauto

theorem mem_pathsList_of_mem {m : List (CStr × Directory)} {kc : CStr × Directory}
    (h : kc ∈ m) : [kc.2.name] ∈ pathsList m := by
  induction m with
  | nil => simp at h
  | cons x rest ih =>
    obtain ⟨k, y⟩ := x
    rw [pathsList_cons]
    rcases List.mem_cons.mp h with e | e
    · subst e; simp
    · exact List.mem_append_right _ (ih e)

theorem mem_paths_insertPath (d : Directory) (segs : List CStr) (hk : d.keyed = true)
    (q : List CStr) :
    q ∈ (d.insertPath segs).paths ↔ q ∈ d.paths ∨ (q ≠ [] ∧ q <+: segs) := by
  induction segs generalizing d q with
  | nil =>
    rw [insertPath_nil]
    constructor
    · exact Or.inl
    · rintro (h | ⟨h1, h2⟩)
      · exact h
      · exact absurd (List.prefix_nil.mp h2) h1
  | cons s r ih =>
    obtain ⟨n, m⟩ := d
    have hkm : keyedList m = true := by simpa [Directory.keyed] using hk
    have key : ∀ q : List CStr, (q ≠ [] ∧ q <+: s :: r) ↔
        q = [s] ∨ ∃ t, (t ≠ [] ∧ t <+: r) ∧ q = s :: t := by
      intro q
      constructor
      · rintro ⟨h1, h2⟩
        cases q with
        | nil => exact absurd rfl h1
        | cons a t =>
          rw [List.cons_prefix_cons] at h2
          obtain ⟨e, h3⟩ := h2
          subst e
          by_cases ht : t = []
          · exact Or.inl (by rw [ht])
          · exact Or.inr ⟨t, ⟨ht, h3⟩, rfl⟩
      · rintro (h | ⟨t, ⟨_, h3⟩, e⟩)
        · subst h
          exact ⟨by simp, by rw [List.cons_prefix_cons]; exact ⟨rfl, List.nil_prefix⟩⟩
        · subst e
          exact ⟨by simp, by rw [List.cons_prefix_cons]; exact ⟨rfl, h3⟩⟩
    cases h : mapFind m s with
    | none =>
      rw [insertPath_cons_none r h]
      have hnm : ((Directory.new s).insertPath r).name = s := by
        rw [insertPath_name]; rfl
      have hnew : (Directory.new s).keyed = true := by simp [Directory.new, Directory.keyed, keyedList]
      have hp := ih (Directory.new s) hnew
      have hemp : (Directory.new s).paths = [] := by simp [Directory.new, Directory.paths, pathsList]
      simp only [Directory.paths]
      rw [mem_pathsList_mapPut _ h, hnm, key]
      simp only [hp, hemp, List.not_mem_nil, false_or]
    | some c =>
      rw [insertPath_cons_some r h]
      have hmem := mem_of_mapFind m s c h
      have hc := keyedList_mem hkm hmem
      simp only at hc
      have hp := ih c hc.2
      simp only [Directory.paths]
      rw [mem_pathsList_mapSet (fun t => t ≠ [] ∧ t <+: r) h (insertPath_name c r) hp, key,
        ← hc.1]
      constructor
      · rintro (h1 | h1)
        · exact Or.inl h1
        · exact Or.inr (Or.inr h1)
      · rintro (h1 | h1 | h1)
        · exact Or.inl h1
        · refine Or.inl ?_
          have := mem_pathsList_of_mem hmem
          simp only at this
          rw [h1, hc.1]
          exact this
        · exact Or.inr h1

/-! ## Segments and components -/

theorem addSegmentsAux_eq_splitOnP (l cur : CStr)
    (h : ∀ c ∈ (l.splitOnP isSep).tail, c ≠ []) :
    addSegmentsAux l cur = (l.splitOnP isSep).modifyHead (fun t => cur ++ t) := by
  induction l generalizing cur with
  | nil => simp [addSegmentsAux, List.splitOnP_nil, List.modifyHead]
  | cons x xs ih =>
    rw [List.splitOnP_cons] at h ⊢
    by_cases hx : isSep x = true
    · simp only [hx, if_true, List.tail_cons] at h
      simp only [hx, if_true, List.modifyHead, List.append_nil]
      cases xs with
      | nil =>
        exact absurd rfl (h [] (by simp [List.splitOnP_nil]))
      | cons y ys =>
        have h2 : ∀ c ∈ ((y :: ys).splitOnP isSep).tail, c ≠ [] :=
          fun c hc => h c (List.mem_of_mem_tail hc)
        have e := ih [] h2
        have key : addSegmentsAux (x :: y :: ys) cur = cur :: addSegmentsAux (y :: ys) [] := by
          simp [addSegmentsAux, hx]
        rw [key, e]
        cases hs : (y :: ys).splitOnP isSep <;> simp [List.modifyHead]
    · have hx2 : isSep x = false := by simpa using hx
      simp only [hx2, Bool.false_eq_true, if_false] at h ⊢
      have h2 : ∀ c ∈ (xs.splitOnP isSep).tail, c ≠ [] := by
        intro c hc
        apply h c
        cases hs : xs.splitOnP isSep with
        | nil => rw [hs] at hc; simp at hc
        | cons a t => rw [hs] at hc; simpa [List.modifyHead] using hc
      have key : addSegmentsAux (x :: xs) cur = addSegmentsAux xs (cur ++ [x]) := by
        simp [addSegmentsAux, hx2]
      rw [key, ih _ h2]
      cases hs : xs.splitOnP isSep <;> simp [List.modifyHead]

theorem addSegments_eq_splitOnP (l : CStr) (h : ∀ c ∈ l.splitOnP isSep, c ≠ []) :
    addSegments l = l.splitOnP isSep := by
  unfold addSegments
  rw [addSegmentsAux_eq_splitOnP l [] (fun c hc => h c (List.mem_of_mem_tail hc))]
  cases hs : l.splitOnP isSep <;> simp [List.modifyHead]

/-! ## The invariants of the tree -/

theorem keysIncreasing_cons {α : Type} (k : CStr) (v : α) (rest : List (CStr × α)) :
    keysIncreasing ((k, v) :: rest) = true ↔
      (∀ kv ∈ rest, strcmp k kv.1 < 0) ∧ keysIncreasing rest = true := by
  simp only [keysIncreasing, Bool.and_eq_true, List.all_eq_true, decide_eq_true_eq]

theorem keysIncreasing_mapSet {α : Type} (m : List (CStr × α)) (s : CStr) (v : α)
    (h : keysIncreasing m = true) : keysIncreasing (mapSet m s v) = true := by
  induction m with
  | nil => simp [mapSet, keysIncreasing]
  | cons x rest ih =>
    obtain ⟨k, w⟩ := x
    rw [keysIncreasing_cons] at h
    simp only [mapSet]
    split
    · rw [keysIncreasing_cons]; exact h
    · rw [keysIncreasing_cons]
      refine ⟨?_, ih h.2⟩
      intro kv hkv
      rcases mem_mapSet rest s v kv hkv with e | e
      · have : (s, v).1 ∈ (mapSet rest s v).map Prod.fst := by
          rw [← e]; exact List.mem_map_of_mem _ hkv
        rw [map_fst_mapSet] at this
        obtain ⟨kv2, h2, e2⟩ := List.mem_map.mp this
        rw [e]
        simp only at e2 ⊢
        rw [← e2]
        exact h.1 kv2 h2
      · exact h.1 kv e

theorem keysIncreasing_mapPut {α : Type} (m : List (CStr × α)) (s : CStr) (v : α)
    (h : keysIncreasing m = true) : keysIncreasing (mapPut m s v) = true := by
  induction m with
  | nil => simp [mapPut, keysIncreasing]
  | cons x rest ih =>
    obtain ⟨k, w⟩ := x
    rw [keysIncreasing_cons] at h
    simp only [mapPut]
    split
    · next hk => subst hk; rw [keysIncreasing_cons]; exact h
    · next hk =>
      split
      · next hlt =>
        rw [keysIncreasing_cons]
        refine ⟨?_, ?_⟩
        · intro kv hkv
          rcases List.mem_cons.mp hkv with e | e
          · rw [e]; exact hlt
          · exact strcmp_trans hlt (h.1 kv e)
        · rw [keysIncreasing_cons]; exact h
      · next hlt =>
        rw [keysIncreasing_cons]
        refine ⟨?_, ih h.2⟩
        intro kv hkv
        rcases mem_mapPut rest s v kv hkv with e | e
        · rw [e]
          rcases strcmp_trichotomy k s with c | c | c
          · exact c
          · exact absurd c hk
          · exact absurd c hlt
        · exact h.1 kv e

theorem orderedList_iff (m : List (CStr × Directory)) :
    orderedList m = true ↔ ∀ kc ∈ m, kc.2.ordered = true := by
  induction m with
  | nil => simp [orderedList]
  | cons x rest ih =>
    obtain ⟨k, c⟩ := x
    simp only [orderedList, Bool.and_eq_true, ih, List.mem_cons, forall_eq_or_imp]

theorem keyedList_iff (m : List (CStr × Directory)) :
    keyedList m = true ↔ ∀ kc ∈ m, kc.1 = kc.2.name ∧ kc.2.keyed = true :=
  ⟨fun h _ hk => keyedList_mem h hk, keyedList_of_mem⟩

theorem ordered_mk (n : CStr) (m : List (CStr × Directory)) :
    (Directory.mk n m).ordered = true ↔
      keysIncreasing m = true ∧ ∀ kc ∈ m, kc.2.ordered = true := by
  simp only [Directory.ordered, Bool.and_eq_true, orderedList_iff]

theorem keyed_mk (n : CStr) (m : List (CStr × Directory)) :
    (Directory.mk n m).keyed = true ↔ ∀ kc ∈ m, kc.1 = kc.2.name ∧ kc.2.keyed = true := by
  simp only [Directory.keyed, keyedList_iff]

theorem insertPath_ordered (d : Directory) (segs : List CStr) (h : d.ordered = true) :
    (d.insertPath segs).ordered = true := by
  induction segs generalizing d with
  | nil => rw [insertPath_nil]; exact h
  | cons s r ih =>
    obtain ⟨n, m⟩ := d
    rw [ordered_mk] at h
    cases hf : mapFind m s with
    | none =>
      rw [insertPath_cons_none r hf, ordered_mk]
      refine ⟨keysIncreasing_mapPut m s _ h.1, ?_⟩
      intro kc hkc
      rcases mem_mapPut m s _ kc hkc with e | e
      · rw [e]
        exact ih _ (by simp [Directory.new, Directory.ordered, keysIncreasing, orderedList])
      · exact h.2 kc e
    | some c =>
      rw [insertPath_cons_some r hf, ordered_mk]
      refine ⟨keysIncreasing_mapSet m s _ h.1, ?_⟩
      intro kc hkc
      rcases mem_mapSet m s _ kc hkc with e | e
      · rw [e]
        exact ih _ (h.2 _ (mem_of_mapFind m s c hf))
      · exact h.2 kc e

theorem insertPath_keyed (d : Directory) (segs : List CStr) (h : d.keyed = true) :
    (d.insertPath segs).keyed = true := by
  induction segs generalizing d with
  | nil => rw [insertPath_nil]; exact h
  | cons s r ih =>
    obtain ⟨n, m⟩ := d
    rw [keyed_mk] at h
    cases hf : mapFind m s with
    | none =>
      rw [insertPath_cons_none r hf, keyed_mk]
      intro kc hkc
      rcases mem_mapPut m s _ kc hkc with e | e
      · rw [e]
        refine ⟨?_, ih _ (by simp [Directory.new, Directory.keyed, keyedList])⟩
        simp only [insertPath_name]
        rfl
      · exact h kc e
    | some c =>
      rw [insertPath_cons_some r hf, keyed_mk]
      intro kc hkc
      have hc := h _ (mem_of_mapFind m s c hf)
      rcases mem_mapSet m s _ kc hkc with e | e
      · rw [e]
        refine ⟨?_, ih _ hc.2⟩
        simp only [insertPath_name]
        exact hc.1
      · exact h kc e

theorem Add_ordered (d : Directory) (subdir : CStr) (h : d.ordered = true) :
    (d.Add subdir).1.ordered = true := by
  by_cases hd : '$' ∈ subdir
  · rw [Directory.Add_of_mem d subdir hd]; exact h
  · rw [Directory.Add_eq_insertPath d subdir hd]; exact insertPath_ordered d _ h

theorem Add_keyed (d : Directory) (subdir : CStr) (h : d.keyed = true) :
    (d.Add subdir).1.keyed = true := by
  by_cases hd : '$' ∈ subdir
  · rw [Directory.Add_of_mem d subdir hd]; exact h
  · rw [Directory.Add_eq_insertPath d subdir hd]; exact insertPath_keyed d _ h

theorem Reachable_ordered_keyed (d : Directory) (h : d.Reachable) :
    d.ordered = true ∧ d.keyed = true := by
  induction h with
  | fresh n =>
    simp [Directory.new, Directory.ordered, Directory.keyed, keysIncreasing, orderedList,
      keyedList]
  | add d subdir _ ih => exact ⟨Add_ordered d subdir ih.1, Add_keyed d subdir ih.2⟩

mutual
theorem nodes_ordered_keyed : ∀ (d : Directory), d.ordered = true → d.keyed = true →
    ∀ x ∈ d.nodes, x.ordered = true ∧ x.keyed = true
  | .mk n m, ho, hk => by
    intro x hx
    simp only [Directory.nodes, List.mem_cons] at hx
    rcases hx with e | e
    · rw [e]; exact ⟨ho, hk⟩
    · have ho2 : orderedList m = true := by
        simp only [Directory.ordered, Bool.and_eq_true] at ho; exact ho.2
      have hk2 : keyedList m = true := by simpa [Directory.keyed] using hk
      exact nodesList_ordered_keyed m ho2 hk2 x e
theorem nodesList_ordered_keyed : ∀ (m : List (CStr × Directory)), orderedList m = true →
    keyedList m = true → ∀ x ∈ nodesList m, x.ordered = true ∧ x.keyed = true
  | [], _, _ => by intro x hx; simp [nodesList] at hx
  | (k, c) :: rest, ho, hk => by
    intro x hx
    simp only [nodesList, List.mem_append] at hx
    simp only [orderedList, Bool.and_eq_true] at ho
    rw [keyedList_cons] at hk
    rcases hx with e | e
    · exact nodes_ordered_keyed c ho.1 hk.2.1 x e
    · exact nodesList_ordered_keyed rest ho.2 hk.2.2 x e
end

theorem keysIncreasing_nodup {α : Type} (m : List (CStr × α)) (h : keysIncreasing m = true) :
    (m.map Prod.fst).Nodup := by
  induction m with
  | nil => simp
  | cons x rest ih =>
    obtain ⟨k, v⟩ := x
    rw [keysIncreasing_cons] at h
    simp only [List.map_cons, List.nodup_cons]
    refine ⟨?_, ih h.2⟩
    intro hk
    obtain ⟨kv, h1, h2⟩ := List.mem_map.mp hk
    have := h.1 kv h1
    rw [h2] at this
    exact strcmp_irrefl k this

/-! ## Claims on `Directory::Add` -/

/-- C1: for every tree and every path that contains the character `$`,
`Directory::Add` fails with InvalidOperationException and the tree is exactly
the tree it was called on: no node is created at any depth. -/
theorem Directory.Add_rejects_variable (d : Directory) (subdir : CStr) (h : '$' ∈ subdir) :
    d.Add subdir = (d, some (Exception.InvalidOperationException subdir)) :=
  Directory.Add_of_mem d subdir h

/-- C1, witness: a path with a variable reference, on a tree with one child. -/
theorem Directory.Add_rejects_variable_witness :
    '$' ∈ "obj/$(ARCH)/lib".toList ∧
    (Directory.mk "$(INTERMEDIATE)".toList [("obj".toList, Directory.new "obj".toList)]).Add
        "obj/$(ARCH)/lib".toList =
      (Directory.mk "$(INTERMEDIATE)".toList [("obj".toList, Directory.new "obj".toList)],
        some (Exception.InvalidOperationException "obj/$(ARCH)/lib".toList)) :=
  ⟨by decide, Directory.Add_rejects_variable _ _ (by decide)⟩

/-- C2: for every list of `$`-free paths and every permutation of it, adding
the paths to the same starting tree one after the other raises no exception
and ends in the identical tree, whatever the order. -/
theorem Directory.AddAll_perm (d : Directory) (ps qs : List CStr) (hperm : ps.Perm qs)
    (hd : ∀ p ∈ ps, '$' ∉ p) :
    d.AddAll ps = d.AddAll qs ∧ (d.AddAll ps).2 = none := by
  have hq : ∀ p ∈ qs, '$' ∉ p := fun p hp => hd p (hperm.mem_iff.mpr hp)
  rw [AddAll_eq_foldl d ps hd, AddAll_eq_foldl d qs hq,
    foldl_insertPath_perm d _ _ (hperm.map addSegments)]
  exact ⟨rfl, rfl⟩

/-- C2, witness: three paths and the same three with the first two swapped. -/
theorem Directory.AddAll_perm_witness :
    ["lib/msi".toList, "drivers".toList, "lib\\rtl".toList].Perm
      ["drivers".toList, "lib/msi".toList, "lib\\rtl".toList] ∧
    (∀ p ∈ ["lib/msi".toList, "drivers".toList, "lib\\rtl".toList], '$' ∉ p) ∧
    (Directory.new "$(OUTPUT)".toList).AddAll
        ["lib/msi".toList, "drivers".toList, "lib\\rtl".toList] =
      (Directory.new "$(OUTPUT)".toList).AddAll
        ["drivers".toList, "lib/msi".toList, "lib\\rtl".toList] ∧
    ((Directory.new "$(OUTPUT)".toList).AddAll
        ["lib/msi".toList, "drivers".toList, "lib\\rtl".toList]).2 = none :=
  ⟨List.Perm.swap _ _ _, by decide,
    Directory.AddAll_perm _ _ _ (List.Perm.swap _ _ _) (by decide)⟩

/-- C3: `Directory::Add` is idempotent: for every tree and every `$`-free
path, a second `Add` of the path returns the tree the first one returned, and
raises nothing. A leading segment that is already a child is reused: the keys
of the node stay as they were, and the child stored under the segment is the
old child itself, with the rest of the path added to it when a rest follows. -/
theorem Directory.Add_idempotent (d : Directory) (subdir : CStr) (hd : '$' ∉ subdir) :
    (d.Add subdir).1.Add subdir = d.Add subdir ∧
    ∀ c, mapFind d.subdirs (subdir.takeWhile (fun x => !isSep x)) = some c →
      (d.Add subdir).1.subdirs.map Prod.fst = d.subdirs.map Prod.fst ∧
      mapFind (d.Add subdir).1.subdirs (subdir.takeWhile (fun x => !isSep x)) =
        some (match subdir.dropWhile (fun x => !isSep x) with
              | _ :: x :: r => (c.Add (x :: r)).1
              | _ => c) := by
  constructor
  · rw [Directory.Add_eq_insertPath d subdir hd]
    simp only
    rw [Directory.Add_eq_insertPath _ subdir hd, insertPath_idem]
  · intro c hc
    obtain ⟨n, m⟩ := d
    simp only [Directory.subdirs] at hc
    rw [Directory.Add_eq]
    simp only [Directory.AddBody, hd, if_false, hc]
    cases hdw : subdir.dropWhile (fun x => !isSep x) with
    | nil => simp [Directory.subdirs, hc]
    | cons x rest =>
      cases rest with
      | nil => simp [Directory.subdirs, hc]
      | cons y r =>
        simp only [Directory.subdirs]
        exact ⟨map_fst_mapSet _ _ _, mapFind_mapSet_same m _ _ c hc⟩

/-- C3, witness: a path added twice to a tree that has its first segment. -/
theorem Directory.Add_idempotent_witness :
    '$' ∉ "lib/msi".toList ∧
    (((Directory.new "$(OUTPUT)".toList).Add "lib/rtl".toList).1.Add "lib/msi".toList).1.Add
        "lib/msi".toList =
      ((Directory.new "$(OUTPUT)".toList).Add "lib/rtl".toList).1.Add "lib/msi".toList :=
  ⟨by decide, (Directory.Add_idempotent _ _ (by decide)).1⟩

/-- C4: for every tree whose children are stored under their names and every
`$`-free path whose components, cut at each `/` or `\`, are all non-empty,
`Directory::Add` raises nothing and the node paths of the tree after the call
are exactly the node paths before it together with the non-empty leading parts
`c1`, `c1/c2`, ..., `c1/.../ck` of the component list: every one of them is a
node, nothing else is added and nothing is removed. -/
theorem Directory.Add_paths (d : Directory) (subdir : CStr) (hd : '$' ∉ subdir)
    (hne : ∀ c ∈ subdir.splitOnP isSep, c ≠ []) (hk : d.keyed = true) :
    (d.Add subdir).2 = none ∧
    ∀ q, q ∈ (d.Add subdir).1.paths ↔
      q ∈ d.paths ∨ (q ≠ [] ∧ q <+: subdir.splitOnP isSep) := by
  rw [Directory.Add_eq_insertPath d subdir hd, addSegments_eq_splitOnP subdir hne]
  exact ⟨rfl, fun q => mem_paths_insertPath d _ hk q⟩

/-- C4, witness: a path of two components on a tree that has the first; the
node `lib/msi` is in the tree after the call. -/
theorem Directory.Add_paths_witness :
    '$' ∉ "lib/msi".toList ∧ (∀ c ∈ "lib/msi".toList.splitOnP isSep, c ≠ []) ∧
    (Directory.mk "$(OUTPUT)".toList [("lib".toList, Directory.new "lib".toList)]).keyed = true ∧
    ["lib".toList, "msi".toList] ∈
      ((Directory.mk "$(OUTPUT)".toList [("lib".toList, Directory.new "lib".toList)]).Add
        "lib/msi".toList).1.paths :=
  ⟨by decide, by decide, by decide,
    ((Directory.Add_paths
        (Directory.mk "$(OUTPUT)".toList [("lib".toList, Directory.new "lib".toList)])
        "lib/msi".toList (by decide) (by decide) (by decide)).2
      ["lib".toList, "msi".toList]).mpr (Or.inr ⟨by decide, ⟨[], by decide⟩⟩)⟩

/-- C5: every tree reachable from a freshly constructed `Directory` by calls
of `Directory::Add`, failing ones included, has at each of its nodes children
with pairwise different names, each stored under the key equal to its name.
That the structure is a finite tree without cycles is what the type
`Directory` says: `Add` stores a node only where it has just created it. -/
theorem Directory.Reachable_invariant (d : Directory) (h : d.Reachable) :
    ∀ x ∈ d.nodes,
      (x.subdirs.map (fun kc => kc.2.name)).Nodup ∧ ∀ kc ∈ x.subdirs, kc.1 = kc.2.name := by
  intro x hx
  have hd := Reachable_ordered_keyed d h
  have hxok := nodes_ordered_keyed d hd.1 hd.2 x hx
  obtain ⟨n, m⟩ := x
  simp only [Directory.subdirs]
  have hk := (keyed_mk n m).mp hxok.2
  have ho := (ordered_mk n m).mp hxok.1
  have hnd := keysIncreasing_nodup m ho.1
  have hmap : m.map (fun kc => kc.2.name) = m.map Prod.fst :=
    List.map_congr_left (fun kc hkc => (hk kc hkc).1.symm)
  rw [hmap]
  exact ⟨hnd, fun kc hkc => (hk kc hkc).1⟩

/-- C5, witness: the tree after one successful and one failing call. -/
theorem Directory.Reachable_invariant_witness :
    (((Directory.new "$(OUTPUT)".toList).Add "lib/msi".toList).1.Add "a$b".toList).1.Reachable ∧
    ∀ x ∈ (((Directory.new "$(OUTPUT)".toList).Add "lib/msi".toList).1.Add "a$b".toList).1.nodes,
      (x.subdirs.map (fun kc => kc.2.name)).Nodup ∧ ∀ kc ∈ x.subdirs, kc.1 = kc.2.name :=
  ⟨Directory.Reachable.add _ _ (Directory.Reachable.add _ _ (Directory.Reachable.fresh _)),
    Directory.Reachable_invariant _
      (Directory.Reachable.add _ _ (Directory.Reachable.add _ _ (Directory.Reachable.fresh _)))⟩

/-! ## `Directory::CreateRule` -/

theorem EscapeSpaces_append (a b : CStr) :
    Directory.EscapeSpaces (a ++ b) = Directory.EscapeSpaces a ++ Directory.EscapeSpaces b := by
  induction a with
  | nil => simp [Directory.EscapeSpaces]
  | cons x xs ih =>
    by_cases hx : x = ' '
    · simp [Directory.EscapeSpaces, hx, ih]
    · simp [Directory.EscapeSpaces, hx, ih]

theorem EscapeSpaces_SSEP : Directory.EscapeSpaces SSEP = [CSEP] := by decide

theorem CreateRule_of_ne (name : CStr) (subdirs : List (CStr × Directory)) (parent : CStr)
    (h : parent ≠ []) :
    (Directory.mk name subdirs).CreateRule parent =
      { target := Directory.EscapeSpaces parent ++ [CSEP] ++ Directory.EscapeSpaces name,
        prereq := Directory.EscapeSpaces parent,
        recipe := mkdirRecipe }
        :: CreateRuleList subdirs (parent ++ SSEP ++ name) := by
  have hl : parent.length > 0 := List.length_pos.mpr h
  simp [Directory.CreateRule, hl]

theorem CreateRule_nil (name : CStr) (subdirs : List (CStr × Directory)) :
    (Directory.mk name subdirs).CreateRule [] = CreateRuleList subdirs name := by
  simp [Directory.CreateRule]

mutual
theorem CreateRule_length_of_ne : ∀ (d : Directory) (parent : CStr), parent ≠ [] →
    (d.CreateRule parent).length = d.nodes.length
  | .mk n m, parent, h => by
    rw [CreateRule_of_ne n m parent h]
    simp only [Directory.nodes, List.length_cons]
    rw [CreateRuleList_length_of_ne m (parent ++ SSEP ++ n) (by simp [SSEP])]
theorem CreateRuleList_length_of_ne : ∀ (m : List (CStr × Directory)) (path : CStr),
    path ≠ [] → (CreateRuleList m path).length = (nodesList m).length
  | [], _, _ => by simp [CreateRuleList, nodesList]
  | (k, c) :: rest, path, h => by
    simp only [CreateRuleList, nodesList, List.length_append]
    rw [CreateRule_length_of_ne c path h, CreateRuleList_length_of_ne rest path h]
end

/-- Every rule of `rs` has its prerequisite created by a rule in front of it,
unless the prerequisite is `ext`. -/
theorem rules_append {ext : CStr} {a b : List Rule}
    (ha : ∀ pre r post, a = pre ++ r :: post →
      r.prereq = ext ∨ ∃ r0 ∈ pre, r0.target = r.prereq)
    (hb : ∀ pre r post, b = pre ++ r :: post →
      r.prereq = ext ∨ ∃ r0 ∈ pre, r0.target = r.prereq) :
    ∀ pre r post, a ++ b = pre ++ r :: post →
      r.prereq = ext ∨ ∃ r0 ∈ pre, r0.target = r.prereq := by
  intro pre r post h
  rcases List.append_eq_append_iff.mp h with ⟨a2, h1, h2⟩ | ⟨c2, h1, h2⟩
  · rcases hb a2 r post h2 with e | ⟨r0, hr0, e⟩
    · exact Or.inl e
    · exact Or.inr ⟨r0, by rw [h1]; exact List.mem_append_right _ hr0, e⟩
  · cases c2 with
    | nil =>
      simp only [List.nil_append] at h2
      rcases hb [] r post h2.symm with e | ⟨r0, hr0, _⟩
      · exact Or.inl e
      · simp at hr0
    | cons x c3 =>
      simp only [List.cons_append, List.cons.injEq] at h2
      obtain ⟨hx, _⟩ := h2
      subst hx
      exact ha pre r c3 h1

mutual
theorem CreateRule_closed : ∀ (d : Directory) (parent : CStr), parent ≠ [] →
    ∀ pre r post, d.CreateRule parent = pre ++ r :: post →
      (pre = [] ∧ r.prereq = Directory.EscapeSpaces parent) ∨
        ∃ r0 ∈ pre, r0.target = r.prereq
  | .mk n m, parent, h => by
    intro pre r post hrs
    rw [CreateRule_of_ne n m parent h] at hrs
    cases pre with
    | nil =>
      simp only [List.nil_append, List.cons.injEq] at hrs
      exact Or.inl ⟨rfl, by rw [← hrs.1]⟩
    | cons x pre2 =>
      simp only [List.cons_append, List.cons.injEq] at hrs
      obtain ⟨hx, htail⟩ := hrs
      have hcl := CreateRuleList_closed m (parent ++ SSEP ++ n) (by simp [SSEP]) pre2 r post htail
      rcases hcl with e | ⟨r0, hr0, e⟩
      · refine Or.inr ⟨x, List.mem_cons_self _ _, ?_⟩
        rw [e, ← hx, EscapeSpaces_append, EscapeSpaces_append, EscapeSpaces_SSEP]
      · exact Or.inr ⟨r0, List.mem_cons_of_mem _ hr0, e⟩
theorem CreateRuleList_closed : ∀ (m : List (CStr × Directory)) (path : CStr), path ≠ [] →
    ∀ pre r post, CreateRuleList m path = pre ++ r :: post →
      r.prereq = Directory.EscapeSpaces path ∨ ∃ r0 ∈ pre, r0.target = r.prereq
  | [], _, _ => by
    intro pre r post hrs
    simp [CreateRuleList] at hrs
  | (k, c) :: rest, path, h => by
    simp only [CreateRuleList]
    apply rules_append
    · intro pre r post hrs
      rcases CreateRule_closed c path h pre r post hrs with ⟨_, e⟩ | e
      · exact Or.inl e
      · exact Or.inr e
    · exact CreateRuleList_closed rest path h
end

/-! ## Claims on `Directory::CreateRule` -/

/-- C6, the claim as it is written fails for the root the backend passes: called
with the empty parent path, `CreateRule` writes no rule for the root, so the
rule of a child of the root names a prerequisite no rule in front of it
creates. -/
theorem Directory.CreateRule_root_has_no_rule :
    ¬ ∀ pre r post,
      (Directory.mk "$(INTERMEDIATE)".toList
        [("obj".toList, Directory.new "obj".toList)]).CreateRule [] = pre ++ r :: post →
      ∃ r0 ∈ pre, r0.target = r.prereq := by
  intro h
  obtain ⟨r0, hr0, _⟩ := h []
    (Rule.mk "$(INTERMEDIATE)/obj".toList "$(INTERMEDIATE)".toList mkdirRecipe) [] (by decide)
  simp at hr0

/-- C6, amended: in the rules `CreateRule` writes, every rule but the root's
own has in front of it the rule whose target is its prerequisite, that is the
rule of its parent, when the parent path passed in is not empty; with the
empty parent path and a root with a name, the root gets no rule, and every
rule that does not depend on the root's own path has the rule of its parent in
front of it. -/
theorem Directory.CreateRule_parent_first (d : Directory) (parent : CStr)
    (pre : List Rule) (r : Rule) (post : List Rule)
    (h : d.CreateRule parent = pre ++ r :: post) :
    (parent ≠ [] →
      (pre = [] ∧ r.prereq = Directory.EscapeSpaces parent) ∨
        ∃ r0 ∈ pre, r0.target = r.prereq) ∧
    (parent = [] → d.name ≠ [] →
      r.prereq = Directory.EscapeSpaces d.name ∨ ∃ r0 ∈ pre, r0.target = r.prereq) := by
  constructor
  · intro hp
    exact CreateRule_closed d parent hp pre r post h
  · intro hp hn
    subst hp
    obtain ⟨n, m⟩ := d
    rw [CreateRule_nil] at h
    exact CreateRuleList_closed m n hn pre r post h

/-- C6, witness: the rule of a grandchild of the root, behind the rule of its
parent. -/
theorem Directory.CreateRule_parent_first_witness :
    (Directory.mk "$(OUTPUT)".toList
        [("lib".toList, Directory.mk "lib".toList [("msi".toList, Directory.new "msi".toList)])]
      ).CreateRule [] =
      [Rule.mk "$(OUTPUT)/lib".toList "$(OUTPUT)".toList mkdirRecipe] ++
        Rule.mk "$(OUTPUT)/lib/msi".toList "$(OUTPUT)/lib".toList mkdirRecipe :: [] ∧
    ("$(OUTPUT)/lib".toList = Directory.EscapeSpaces "$(OUTPUT)".toList ∨
      ∃ r0 ∈ [Rule.mk "$(OUTPUT)/lib".toList "$(OUTPUT)".toList mkdirRecipe],
        r0.target = "$(OUTPUT)/lib".toList) :=
  ⟨by decide,
    (Directory.CreateRule_parent_first
      (Directory.mk "$(OUTPUT)".toList
        [("lib".toList, Directory.mk "lib".toList [("msi".toList, Directory.new "msi".toList)])])
      [] [Rule.mk "$(OUTPUT)/lib".toList "$(OUTPUT)".toList mkdirRecipe]
      (Rule.mk "$(OUTPUT)/lib/msi".toList "$(OUTPUT)/lib".toList mkdirRecipe) []
      (by decide)).2 rfl (by decide)⟩

/-- C7, the claim as it is written fails for the empty parent path: the root gets
no rule, so a tree of two nodes yields one rule. -/
theorem Directory.CreateRule_root_not_counted :
    ((Directory.mk "$(INTERMEDIATE)".toList
        [("obj".toList, Directory.new "obj".toList)]).CreateRule []).length ≠
      (Directory.mk "$(INTERMEDIATE)".toList
        [("obj".toList, Directory.new "obj".toList)]).nodes.length := by
  decide

/-- C7, amended: called with a non-empty parent path, `CreateRule` writes one
rule per node, so as many rules as the tree has nodes; called with the empty
parent path on a root with a non-empty name, as the backend does for its three
roots, it writes one rule per node except the root, one less than the number
of nodes. -/
theorem Directory.CreateRule_length (d : Directory) (parent : CStr) :
    (parent ≠ [] → (d.CreateRule parent).length = d.nodes.length) ∧
    (parent = [] → d.name ≠ [] → (d.CreateRule parent).length + 1 = d.nodes.length) := by
  constructor
  · exact CreateRule_length_of_ne d parent
  · intro hp hn
    subst hp
    obtain ⟨n, m⟩ := d
    rw [CreateRule_nil, CreateRuleList_length_of_ne m n hn]
    simp [Directory.nodes]

/-- C7, witness: a tree of two nodes under a non-empty and under the empty
parent path. -/
theorem Directory.CreateRule_length_witness :
    "$(OUTPUT)".toList ≠ [] ∧
    ((Directory.mk "lib".toList [("msi".toList, Directory.new "msi".toList)]).CreateRule
      "$(OUTPUT)".toList).length =
      (Directory.mk "lib".toList [("msi".toList, Directory.new "msi".toList)]).nodes.length ∧
    ((Directory.mk "$(OUTPUT)".toList [("lib".toList, Directory.new "lib".toList)]).CreateRule
      []).length + 1 =
      (Directory.mk "$(OUTPUT)".toList [("lib".toList, Directory.new "lib".toList)]).nodes.length :=
  ⟨by decide, (Directory.CreateRule_length _ _).1 (by decide),
    (Directory.CreateRule_length _ _).2 rfl (by decide)⟩

/-! ## The binutils version -/

theorem strcmp_neg_iff_byteLex (a b : CStr) : strcmp a b < 0 ↔ byteLex a b := by
  unfold byteLex
  constructor
  · intro h
    induction a generalizing b with
    | nil => cases b with
      | nil => simp [strcmp] at h
      | cons y ys => exact List.Lex.nil
    | cons x xs ih => cases b with
      | nil => simp [strcmp] at h
      | cons y ys =>
        simp only [strcmp] at h
        split at h
        · next hxy => exact List.Lex.rel hxy
        · split at h
          · omega
          · have hxy : x.toNat = y.toNat := by omega
            have e : x = y := char_eq_of_toNat_eq hxy
            subst e
            exact List.Lex.cons (ih _ h)
  · intro h
    induction h with
    | nil => simp [strcmp]
    | cons _ ih => simpa [strcmp] using ih
    | rel hr => simp [strcmp, hr]

theorem strcmp_nonneg_iff (a b : CStr) : strcmp a b ≥ 0 ↔ a = b ∨ byteLex b a := by
  rw [← strcmp_neg_iff_byteLex]
  constructor
  · intro h
    rcases strcmp_trichotomy a b with c | c | c
    · omega
    · exact Or.inl c
    · exact Or.inr c
  · rintro (h | h)
    · rw [h, strcmp_self]
    · have := strcmp_neg_iff_pos.mp h
      omega

theorem strcmp_nonpos_iff (a b : CStr) : strcmp a b ≤ 0 ↔ a = b ∨ byteLex a b := by
  rw [← strcmp_neg_iff_byteLex]
  constructor
  · intro h
    have hc : strcmp a b < 0 ∨ strcmp a b = 0 := by omega
    rcases hc with c | c
    · exact Or.inr c
    · exact Or.inl (strcmp_eq_zero.mp c)
  · rintro (h | h)
    · rw [h, strcmp_self]
    · omega

theorem strtokAux_cons_mem (S cs cur : CStr) (c : Char) (hc : c ∈ S) :
    strtokAux S (c :: cs) cur =
      if cur = [] then strtokAux S cs [] else cur :: strtokAux S cs [] := by
  simp [strtokAux, hc]

theorem strtokAux_cons_not_mem (S cs cur : CStr) (c : Char) (hc : c ∉ S) :
    strtokAux S (c :: cs) cur = strtokAux S cs (cur ++ [c]) := by
  simp [strtokAux, hc]

theorem strtokAux_seps (S post cur : CStr) (hpost : ∀ c ∈ post, c ∈ S) :
    strtokAux S post cur = if cur = [] then [] else [cur] := by
  induction post generalizing cur with
  | nil => simp [strtokAux]
  | cons c cs ih =>
    have hc : c ∈ S := hpost c (List.mem_cons_self _ _)
    have hcs : ∀ x ∈ cs, x ∈ S := fun x hx => hpost x (List.mem_cons_of_mem _ hx)
    rw [strtokAux_cons_mem S cs cur c hc, ih [] hcs]
    simp

theorem strtokAux_token (S t post cur : CStr) (ht : ∀ c ∈ t, c ∉ S)
    (hpost : ∀ c ∈ post, c ∈ S) :
    strtokAux S (t ++ post) cur = if cur ++ t = [] then [] else [cur ++ t] := by
  induction t generalizing cur with
  | nil => simpa using strtokAux_seps S post cur hpost
  | cons x xs ih =>
    have hx : x ∉ S := ht x (List.mem_cons_self _ _)
    have hxs : ∀ c ∈ xs, c ∉ S := fun c hc => ht c (List.mem_cons_of_mem _ hc)
    rw [List.cons_append, strtokAux_cons_not_mem S _ cur x hx, ih (cur ++ [x]) hxs]
    simp

theorem strtokAux_after_sep (S pre rest cur : CStr) (s : Char) (hs : s ∈ S)
    (hpre : pre.getLast? = some s) :
    ∃ X, strtokAux S (pre ++ rest) cur = X ++ strtokAux S rest [] := by
  induction pre generalizing cur with
  | nil => simp at hpre
  | cons c ps ih =>
    cases ps with
    | nil =>
      simp only [List.getLast?_singleton, Option.some.injEq] at hpre
      subst hpre
      rw [List.singleton_append, strtokAux_cons_mem S rest cur c hs]
      by_cases hcur : cur = []
      · exact ⟨[], by simp [hcur]⟩
      · exact ⟨[cur], by simp [hcur]⟩
    | cons c2 ps2 =>
      have hpre2 : (c2 :: ps2).getLast? = some s := by
        rw [List.getLast?_cons_cons] at hpre; exact hpre
      rw [List.cons_append]
      by_cases hc : c ∈ S
      · rw [strtokAux_cons_mem S _ cur c hc]
        obtain ⟨X, hX⟩ := ih [] hpre2
        by_cases hcur : cur = []
        · exact ⟨X, by simp only [hcur, if_true]; exact hX⟩
        · exact ⟨cur :: X, by simp only [hcur, if_false]; rw [hX]; rfl⟩
      · rw [strtokAux_cons_not_mem S _ cur c hc]
        exact ih (cur ++ [c]) hpre2

theorem strtokAux_getLast (S pre t post : CStr) (hne : t ≠ [])
    (hpre : pre = [] ∨ ∃ s ∈ S, pre.getLast? = some s) (ht : ∀ c ∈ t, c ∉ S)
    (hpost : ∀ c ∈ post, c ∈ S) :
    (strtokAux S (pre ++ t ++ post) []).getLast? = some t := by
  have htok : strtokAux S (t ++ post) [] = [t] := by
    rw [strtokAux_token S t post [] ht hpost]
    simp [hne]
  rcases hpre with h | ⟨s, hs, h⟩
  · subst h
    simp [htok]
  · obtain ⟨X, hX⟩ := strtokAux_after_sep S pre (t ++ post) [] s hs h
    rw [List.append_assoc, hX, htok]
    simp

theorem findLastNotOfFrom_spec (set cs : CStr) (i last : Int) :
    (findLastNotOfFrom set cs i last = last ∧ ∀ c ∈ cs, c ∈ set) ∨
    ∃ v x w, cs = v ++ x :: w ∧ x ∉ set ∧ (∀ c ∈ w, c ∈ set) ∧
      findLastNotOfFrom set cs i last = i + v.length := by
  induction cs generalizing i last with
  | nil => exact Or.inl ⟨rfl, by simp⟩
  | cons c cs ih =>
    by_cases hc : c ∈ set
    · simp only [findLastNotOfFrom, hc, if_true]
      rcases ih (i + 1) last with ⟨h1, h2⟩ | ⟨v, x, w, h1, h2, h3, h4⟩
      · left
        refine ⟨h1, ?_⟩
        intro y hy
        rcases List.mem_cons.mp hy with e | e
        · rw [e]; exact hc
        · exact h2 y e
      · right
        refine ⟨c :: v, x, w, by rw [h1]; rfl, h2, h3, ?_⟩
        rw [h4]
        simp only [List.length_cons, Nat.cast_add, Nat.cast_one]
        omega
    · simp only [findLastNotOfFrom, hc, if_false]
      rcases ih (i + 1) i with ⟨h1, h2⟩ | ⟨v, x, w, h1, h2, h3, h4⟩
      · right
        exact ⟨[], c, cs, rfl, hc, h2, by simp [h1]⟩
      · right
        refine ⟨c :: v, x, w, by rw [h1]; rfl, h2, h3, ?_⟩
        rw [h4]
        simp only [List.length_cons, Nat.cast_add, Nat.cast_one]
        omega

/-! ## Claims on the binutils version -/

/-- C8: `IsSupportedBinutilsVersion ( v )` returns false exactly when `v` lies
between `20040902` and `20041008`, both included, or is below `20031001`, in
the byte-wise lexicographic order of strings; for every other string it
returns true. -/
theorem MingwBackend.IsSupportedBinutilsVersion_iff (v : CStr) :
    (MingwBackend.IsSupportedBinutilsVersion v = false ↔
      ((v = "20040902".toList ∨ byteLex "20040902".toList v) ∧
        (v = "20041008".toList ∨ byteLex v "20041008".toList)) ∨
      byteLex v "20031001".toList) ∧
    (MingwBackend.IsSupportedBinutilsVersion v = true ↔
      ¬ (((v = "20040902".toList ∨ byteLex "20040902".toList v) ∧
        (v = "20041008".toList ∨ byteLex v "20041008".toList)) ∨
      byteLex v "20031001".toList)) := by
  have key : MingwBackend.IsSupportedBinutilsVersion v = false ↔
      ((v = "20040902".toList ∨ byteLex "20040902".toList v) ∧
        (v = "20041008".toList ∨ byteLex v "20041008".toList)) ∨
      byteLex v "20031001".toList := by
    rw [← strcmp_nonneg_iff, ← strcmp_nonpos_iff, ← strcmp_neg_iff_byteLex]
    unfold MingwBackend.IsSupportedBinutilsVersion
    split <;> simp_all
  refine ⟨key, ?_⟩
  rw [← key]
  cases MingwBackend.IsSupportedBinutilsVersion v <;> simp

/-- C9: `IsSupportedBinutilsVersion` rejects `20040905` and `20030915` and
accepts `20031001` and `20050101`. -/
theorem MingwBackend.IsSupportedBinutilsVersion_examples :
    MingwBackend.IsSupportedBinutilsVersion "20040905".toList = false ∧
    MingwBackend.IsSupportedBinutilsVersion "20030915".toList = false ∧
    MingwBackend.IsSupportedBinutilsVersion "20031001".toList = true ∧
    MingwBackend.IsSupportedBinutilsVersion "20050101".toList = true := by
  decide

/-- C10, the claim as it is written fails: `strtok` is given the space as its
only separator, so a tab inside the banner does not end a token and the
version returned contains a whitespace character. -/
theorem MingwBackend.GetBinutilsVersion_keeps_tab :
    MingwBackend.GetBinutilsVersion (fun _ => "GNU ld version 2.15.91\t20040904\n".toList)
        "mingw32-ld".toList = some "2.15.91\t20040904".toList ∧
    '\t' ∈ "2.15.91\t20040904".toList := by
  decide

/-- C10, amended: let `t` be the last space-delimited token of what
`GetBinutilsVersion` has read, the first 80 characters of the banner up to a
NUL: a run without a space, at the start or right after a space, with only
spaces behind it. If `t` has a character other than tab, carriage return and
newline, the version returned is `t` without its trailing tabs, carriage
returns and newlines: it does not end in one of them and contains no space. -/
theorem MingwBackend.GetBinutilsVersion_last_token (popen : CStr → CStr)
    (binutilsCommand pre t post : CStr)
    (hbuf : MingwBackend.readBuffer (popen (binutilsCommand ++ " -v".toList)) =
      pre ++ t ++ post)
    (hpre : pre = [] ∨ pre.getLast? = some ' ') (ht : ' ' ∉ t)
    (hpost : ∀ c ∈ post, c = ' ') (hstrip : ∃ c ∈ t, c ∉ "\t\r\n".toList) :
    ∃ v w, MingwBackend.GetBinutilsVersion popen binutilsCommand = some v ∧
      t = v ++ w ∧ (∀ c ∈ w, c ∈ "\t\r\n".toList) ∧
      (∃ l, v.getLast? = some l ∧ l ∉ "\t\r\n".toList) ∧ ' ' ∉ v := by
  have hne : t ≠ [] := by
    obtain ⟨c, hc, _⟩ := hstrip
    exact List.ne_nil_of_mem hc
  have hlast : (strtokAux " ".toList (pre ++ t ++ post) []).getLast? = some t := by
    apply strtokAux_getLast _ pre t post hne
    · rcases hpre with h | h
      · exact Or.inl h
      · exact Or.inr ⟨' ', by decide, h⟩
    · intro c hc hcs
      have : c = ' ' := by simpa using hcs
      exact ht (this ▸ hc)
    · intro c hc
      rw [hpost c hc]
      decide
  unfold MingwBackend.GetBinutilsVersion
  simp only [hbuf, hlast]
  unfold find_last_not_of
  rcases findLastNotOfFrom_spec "\t\r\n".toList t 0 (-1) with ⟨_, hall⟩ | ⟨v, x, w, h1, h2, h3, h4⟩
  · obtain ⟨c, hc, hcn⟩ := hstrip
    exact absurd (hall c hc) hcn
  · refine ⟨v ++ [x], w, ?_, by rw [h1]; simp, h3, ⟨x, by simp, h2⟩, ?_⟩
    · have hne1 : (0 : Int) + (v.length : Int) ≠ -1 := by omega
      rw [h4]
      simp only [hne1, ne_eq, not_false_eq_true, if_true]
      have hn : ((0 : Int) + (v.length : Int) + 1).toNat = v.length + 1 := by omega
      rw [hn, h1]
      simp [List.take_append_eq_append_take]
    · intro hsp
      apply ht
      rw [h1]
      rcases List.mem_append.mp hsp with e | e
      · exact List.mem_append_left _ e
      · exact List.mem_append_right _ (by
          have : ' ' = x := by simpa using e
          rw [this]; exact List.mem_cons_self _ _)

/-- C10, witness: the banner of a linker whose version token ends the line. -/
theorem MingwBackend.GetBinutilsVersion_last_token_witness :
    MingwBackend.readBuffer ((fun _ => "GNU ld version 2.15.91 20040904\n".toList)
        ("mingw32-ld".toList ++ " -v".toList)) =
      "GNU ld version 2.15.91 ".toList ++ "20040904\n".toList ++ [] ∧
    ∃ v w, MingwBackend.GetBinutilsVersion (fun _ => "GNU ld version 2.15.91 20040904\n".toList)
        "mingw32-ld".toList = some v ∧
      "20040904\n".toList = v ++ w ∧ (∀ c ∈ w, c ∈ "\t\r\n".toList) ∧
      (∃ l, v.getLast? = some l ∧ l ∉ "\t\r\n".toList) ∧ ' ' ∉ v :=
  ⟨by decide,
    MingwBackend.GetBinutilsVersion_last_token
      (fun _ => "GNU ld version 2.15.91 20040904\n".toList) "mingw32-ld".toList
      "GNU ld version 2.15.91 ".toList "20040904\n".toList [] (by decide)
      (Or.inr (by decide)) (by decide) (by decide) ⟨'2', by decide, by decide⟩⟩

/-! ## The toolchain probe -/

theorem DetectCompiler_spec (w : World) (b : MingwBackend) :
    (MingwBackend.DetectCompiler w b).commands =
      (probedUntilSuccess (fun c => (MingwBackend.TryToDetectThisCompiler w c).1)
        (candidateCommands w "gcc".toList "-gcc".toList)).map
        (fun c => (MingwBackend.TryToDetectThisCompiler w c).2) ∧
    (MingwBackend.DetectCompiler w b).detected =
      (candidateCommands w "gcc".toList "-gcc".toList).any
        (fun c => (MingwBackend.TryToDetectThisCompiler w c).1) ∧
    (∀ c, (candidateCommands w "gcc".toList "-gcc".toList).find?
        (fun c => (MingwBackend.TryToDetectThisCompiler w c).1) = some c →
      (MingwBackend.DetectCompiler w b).backend.compilerCommand = c) ∧
    (MingwBackend.DetectCompiler w b).exception = none := by
  unfold MingwBackend.DetectCompiler candidateCommands
  generalize w.GetVariable "ROS_PREFIX".toList = ros
  generalize MingwBackend.TryToDetectThisCompiler w = T
  generalize "-gcc".toList = sfx
  generalize "gcc".toList = plain
  generalize "mingw32".toList = mingw
  by_cases h1 : ros.length > 0 <;> cases hw : w.win32 <;>
    cases h2 : (T (ros ++ sfx)).1 <;> cases h3 : (T plain).1 <;>
    cases h4 : (T (mingw ++ sfx)).1 <;>
    simp [h1, hw, h2, h3, h4, probedUntilSuccess, List.find?]

theorem DetectBinutilsCommand_spec (w : World) (b : MingwBackend) :
    (MingwBackend.DetectBinutilsCommand w b).commands =
      (probedUntilSuccess (fun c => (MingwBackend.TryToDetectThisBinutils w c).1)
        (candidateCommands w "ld".toList "-ld".toList)).map
        (fun c => (MingwBackend.TryToDetectThisBinutils w c).2) ∧
    (MingwBackend.DetectBinutilsCommand w b).detected =
      (candidateCommands w "ld".toList "-ld".toList).any
        (fun c => (MingwBackend.TryToDetectThisBinutils w c).1) ∧
    (∀ c, (candidateCommands w "ld".toList "-ld".toList).find?
        (fun c => (MingwBackend.TryToDetectThisBinutils w c).1) = some c →
      (MingwBackend.DetectBinutilsCommand w b).backend.binutilsCommand = c) ∧
    (MingwBackend.DetectBinutilsCommand w b).exception = none := by
  unfold MingwBackend.DetectBinutilsCommand candidateCommands
  generalize w.GetVariable "ROS_PREFIX".toList = ros
  generalize MingwBackend.TryToDetectThisBinutils w = T
  generalize "-ld".toList = sfx
  generalize "ld".toList = plain
  generalize "mingw32".toList = mingw
  by_cases h1 : ros.length > 0 <;> cases hw : w.win32 <;>
    cases h2 : (T (ros ++ sfx)).1 <;> cases h3 : (T plain).1 <;>
    cases h4 : (T (mingw ++ sfx)).1 <;>
    simp [h1, hw, h2, h3, h4, probedUntilSuccess, List.find?]

theorem DetectNetwideAssembler_spec (w : World) (b : MingwBackend) :
    (MingwBackend.DetectNetwideAssembler w b).commands =
      (probedUntilSuccess (fun c => (MingwBackend.TryToDetectThisNetwideAssembler w c).1)
        (assemblerCandidates w)).map
        (fun c => (MingwBackend.TryToDetectThisNetwideAssembler w c).2) ∧
    (MingwBackend.DetectNetwideAssembler w b).detected =
      (assemblerCandidates w).any
        (fun c => (MingwBackend.TryToDetectThisNetwideAssembler w c).1) ∧
    (MingwBackend.DetectNetwideAssembler w b).exception = none := by
  unfold MingwBackend.DetectNetwideAssembler assemblerCandidates
  generalize MingwBackend.TryToDetectThisNetwideAssembler w = T
  generalize "nasm".toList = c1
  generalize "nasmw".toList = c2
  generalize "yasm".toList = c3
  cases hw : w.win32 <;>
    cases h2 : (T c1).1 <;> cases h3 : (T c2).1 <;> cases h4 : (T c3).1 <;>
    simp [hw, h2, h3, h4, probedUntilSuccess]

theorem find?_none_of_any_false {α : Type} (p : α → Bool) (l : List α) (h : l.any p = false) :
    l.find? p = none := by
  induction l with
  | nil => rfl
  | cons x xs ih =>
    simp only [List.any_cons, Bool.or_eq_false_iff] at h
    simp [List.find?, h.1, ih h.2]

/-- C12: whatever the probe commands return, `DetectCompiler` and
`DetectNetwideAssembler` return without an exception; each reports the tool as
not detected exactly when no candidate's probe succeeds. -/
theorem MingwBackend.DetectCompiler_never_raises (w : World) (b : MingwBackend) :
    (MingwBackend.DetectCompiler w b).exception = none ∧
    (MingwBackend.DetectNetwideAssembler w b).exception = none ∧
    (MingwBackend.DetectCompiler w b).detected =
      (candidateCommands w "gcc".toList "-gcc".toList).any
        (fun c => (MingwBackend.TryToDetectThisCompiler w c).1) ∧
    (MingwBackend.DetectNetwideAssembler w b).detected =
      (assemblerCandidates w).any
        (fun c => (MingwBackend.TryToDetectThisNetwideAssembler w c).1) :=
  ⟨(DetectCompiler_spec w b).2.2.2, (DetectNetwideAssembler_spec w b).2.2,
    (DetectCompiler_spec w b).2.1, (DetectNetwideAssembler_spec w b).2.1⟩

/-- C13: for the compiler and for binutils the candidates are tried in the
order of `candidateCommands`, the command built from a non-empty `ROS_PREFIX`
first: the command lines run are those of the failing candidates in front and
of the first candidate whose probe exits with status zero, and of no candidate
behind it; the tool is detected when some candidate succeeds, and the command
selected is then the first that does. -/
theorem MingwBackend.DetectCompiler_first_success (w : World) (b : MingwBackend) :
    ((MingwBackend.DetectCompiler w b).commands =
      (probedUntilSuccess (fun c => (MingwBackend.TryToDetectThisCompiler w c).1)
        (candidateCommands w "gcc".toList "-gcc".toList)).map
        (fun c => (MingwBackend.TryToDetectThisCompiler w c).2) ∧
     (MingwBackend.DetectCompiler w b).detected =
      (candidateCommands w "gcc".toList "-gcc".toList).any
        (fun c => (MingwBackend.TryToDetectThisCompiler w c).1) ∧
     ((candidateCommands w "gcc".toList "-gcc".toList).find?
        (fun c => (MingwBackend.TryToDetectThisCompiler w c).1) = none ∨
      (candidateCommands w "gcc".toList "-gcc".toList).find?
        (fun c => (MingwBackend.TryToDetectThisCompiler w c).1) =
        some (MingwBackend.DetectCompiler w b).backend.compilerCommand)) ∧
    ((MingwBackend.DetectBinutilsCommand w b).commands =
      (probedUntilSuccess (fun c => (MingwBackend.TryToDetectThisBinutils w c).1)
        (candidateCommands w "ld".toList "-ld".toList)).map
        (fun c => (MingwBackend.TryToDetectThisBinutils w c).2) ∧
     (MingwBackend.DetectBinutilsCommand w b).detected =
      (candidateCommands w "ld".toList "-ld".toList).any
        (fun c => (MingwBackend.TryToDetectThisBinutils w c).1) ∧
     ((candidateCommands w "ld".toList "-ld".toList).find?
        (fun c => (MingwBackend.TryToDetectThisBinutils w c).1) = none ∨
      (candidateCommands w "ld".toList "-ld".toList).find?
        (fun c => (MingwBackend.TryToDetectThisBinutils w c).1) =
        some (MingwBackend.DetectBinutilsCommand w b).backend.binutilsCommand)) ∧
    (candidateCommands w "gcc".toList "-gcc".toList =
      (if (w.GetVariable "ROS_PREFIX".toList).length > 0 then
        [w.GetVariable "ROS_PREFIX".toList ++ "-gcc".toList] else []) ++
      ((if w.win32 then ["gcc".toList] else []) ++ ["mingw32-gcc".toList])) ∧
    (candidateCommands w "ld".toList "-ld".toList =
      (if (w.GetVariable "ROS_PREFIX".toList).length > 0 then
        [w.GetVariable "ROS_PREFIX".toList ++ "-ld".toList] else []) ++
      ((if w.win32 then ["ld".toList] else []) ++ ["mingw32-ld".toList])) := by
  obtain ⟨c1, c2, c3, _⟩ := DetectCompiler_spec w b
  obtain ⟨b1, b2, b3, _⟩ := DetectBinutilsCommand_spec w b
  refine ⟨⟨c1, c2, ?_⟩, ⟨b1, b2, ?_⟩, ?_, ?_⟩
  · cases hf : (candidateCommands w "gcc".toList "-gcc".toList).find?
        (fun c => (MingwBackend.TryToDetectThisCompiler w c).1) with
    | none => exact Or.inl rfl
    | some c => exact Or.inr (by rw [c3 c hf])
  · cases hf : (candidateCommands w "ld".toList "-ld".toList).find?
        (fun c => (MingwBackend.TryToDetectThisBinutils w c).1) with
    | none => exact Or.inl rfl
    | some c => exact Or.inr (by rw [b3 c hf])
  · simp [candidateCommands]
  · simp [candidateCommands]

/-! ## The handlers and the aggregate targets -/

theorem InstanciateHandlers_ok (ext : External) (modules : List Project.Module)
    (h : ∀ m ∈ modules, m.enabled = true → ext.InstanciateHandler m = none) :
    MingwBackend.InstanciateHandlers ext modules =
      .ok ((modules.filter (fun m => m.enabled)).map (fun m => MingwModuleHandler.mk m)) := by
  induction modules with
  | nil => rfl
  | cons m rest ih =>
    have ih2 := ih (fun x hx => h x (List.mem_cons_of_mem _ hx))
    cases he : m.enabled with
    | false => simp [MingwBackend.InstanciateHandlers, he, ih2]
    | true =>
      have hm := h m (List.mem_cons_self _ _) he
      simp [MingwBackend.InstanciateHandlers, he, hm, ih2]

theorem InstanciateHandlers_eq_ok (ext : External) (modules : List Project.Module)
    (v : List MingwModuleHandler) (h : MingwBackend.InstanciateHandlers ext modules = .ok v) :
    v = (modules.filter (fun m => m.enabled)).map (fun m => MingwModuleHandler.mk m) := by
  induction modules generalizing v with
  | nil =>
    simp only [MingwBackend.InstanciateHandlers, Except.ok.injEq] at h
    simp [← h]
  | cons m rest ih =>
    cases he : m.enabled with
    | false =>
      simp only [MingwBackend.InstanciateHandlers, he, Bool.not_false, if_true] at h
      simp only [List.filter, he]
      exact ih v h
    | true =>
      simp only [MingwBackend.InstanciateHandlers, he, Bool.not_true, Bool.false_eq_true,
        if_false] at h
      cases hm : ext.InstanciateHandler m with
      | some e => rw [hm] at h; simp at h
      | none =>
        rw [hm] at h
        cases hr : MingwBackend.InstanciateHandlers ext rest with
        | error e => rw [hr] at h; simp at h
        | ok v2 =>
          rw [hr] at h
          simp only [Except.ok.injEq] at h
          simp only [List.filter, he, List.map_cons]
          rw [← h, ih v2 hr]

theorem GetModuleTestTargets_eq (modules : List Project.Module) (out : List CStr) :
    MingwBackend.GetModuleTestTargets modules out =
      out ++ (modules.filter
        (fun m => m.enabled && decide (m.type = ModuleType.Test))).map (fun m => m.name) := by
  induction modules generalizing out with
  | nil => simp [MingwBackend.GetModuleTestTargets]
  | cons m rest ih =>
    cases he : m.enabled with
    | false => simp [MingwBackend.GetModuleTestTargets, he, ih]
    | true =>
      by_cases ht : m.type = ModuleType.Test
      · simp [MingwBackend.GetModuleTestTargets, he, ht, ih]
      · simp [MingwBackend.GetModuleTestTargets, he, ht, ih]

theorem GetModuleInstallTargetFiles_eq (ext : External) (installDirectory : Directory)
    (modules : List Project.Module) (out : List CStr) :
    MingwBackend.GetModuleInstallTargetFiles ext installDirectory modules out =
      out ++ (modules.filter installsModule).map (fun m =>
        PassThruCacheDirectory (ext.NormalizeFilename
          (if m.installBase.length > 0 then m.installBase ++ SSEP ++ m.installName
           else m.installName)) installDirectory) := by
  induction modules generalizing out with
  | nil => simp [MingwBackend.GetModuleInstallTargetFiles]
  | cons m rest ih =>
    cases he : m.enabled with
    | false => simp [MingwBackend.GetModuleInstallTargetFiles, installsModule, he, ih]
    | true =>
      by_cases hn : m.installName.length > 0
      · simp [MingwBackend.GetModuleInstallTargetFiles, installsModule, he, hn, ih]
      · simp [MingwBackend.GetModuleInstallTargetFiles, installsModule, he, hn, ih]

theorem OutputModuleInstallTargets_eq (ext : External) (outputDirectory installDirectory : Directory)
    (modules : List Project.Module) :
    MingwBackend.OutputModuleInstallTargets ext outputDirectory installDirectory modules =
      (((modules.filter installsModule).takeWhile
          (fun m => (MingwBackend.GetAliasedModuleOrModule ext m).isSome)).flatMap
        (fun m =>
          match MingwBackend.GetAliasedModuleOrModule ext m with
          | some aliasedModule =>
            MingwBackend.moduleInstallRule ext outputDirectory installDirectory m aliasedModule
          | none => []),
       (modules.filter installsModule).all
          (fun m => (MingwBackend.GetAliasedModuleOrModule ext m).isSome)) := by
  induction modules with
  | nil => simp [MingwBackend.OutputModuleInstallTargets]
  | cons m rest ih =>
    cases he : m.enabled with
    | false => simp [MingwBackend.OutputModuleInstallTargets, installsModule, he, ih]
    | true =>
      by_cases hn : m.installName.length > 0
      · cases ha : MingwBackend.GetAliasedModuleOrModule ext m with
        | none =>
          simp [MingwBackend.OutputModuleInstallTargets, installsModule, he, hn, ha,
            List.takeWhile]
        | some am =>
          simp [MingwBackend.OutputModuleInstallTargets, installsModule, he, hn, ha, ih,
            List.takeWhile, MingwBackend.moduleInstallRule]
      · simp [MingwBackend.OutputModuleInstallTargets, installsModule, he, hn, ih]

theorem allTargetPrerequisites_append (a b : List Emit) :
    allTargetPrerequisites (a ++ b) = allTargetPrerequisites a ++ allTargetPrerequisites b := by
  induction a with
  | nil => rfl
  | cons x xs ih =>
    cases x with
    | fprintf format args =>
      simp only [List.cons_append, allTargetPrerequisites]
      split <;> simp [ih]
    | handler method module => simp [allTargetPrerequisites, ih]

theorem allTargetPrerequisites_loop (ext : External) (handlers : List MingwModuleHandler)
    (wrap_count : Int) :
    allTargetPrerequisites (MingwBackend.GenerateAllTargetLoop ext handlers wrap_count) =
      ((handlers.map (fun h => h.module)).filter
        (fun m => MingwBackend.IncludeInAllTarget ext m)).map ext.GetTargetMacro := by
  induction handlers generalizing wrap_count with
  | nil => rfl
  | cons h rest ih =>
    cases hi : MingwBackend.IncludeInAllTarget ext h.module with
    | false => simp [MingwBackend.GenerateAllTargetLoop, hi, ih]
    | true =>
      have e1 : ∀ r, allTargetPrerequisites (Emit.fprintf " \\\n\t\t".toList [] :: r) =
          allTargetPrerequisites r := by
        intro r
        have : ¬ (" \\\n\t\t".toList = " %s".toList) := by decide
        simp only [allTargetPrerequisites, this, if_false]
      have e2 : ∀ a r, allTargetPrerequisites (Emit.fprintf " %s".toList [a] :: r) =
          a :: allTargetPrerequisites r := by
        intro a r
        simp only [allTargetPrerequisites, if_true, List.singleton_append]
      by_cases hw : wrap_count = 5
      · simp only [MingwBackend.GenerateAllTargetLoop, hi, hw, if_true, e1, e2, ih,
          List.map_cons, List.filter, List.map]
      · simp only [MingwBackend.GenerateAllTargetLoop, hi, hw, if_true, if_false, e2, ih,
          List.map_cons, List.filter, List.map]

theorem allTargetPrerequisites_GenerateAllTarget (ext : External)
    (handlers : List MingwModuleHandler) :
    allTargetPrerequisites (MingwBackend.GenerateAllTarget ext handlers) =
      ((handlers.map (fun h => h.module)).filter
        (fun m => MingwBackend.IncludeInAllTarget ext m)).map ext.GetTargetMacro := by
  have e1 : allTargetPrerequisites [Emit.fprintf "all:".toList []] = [] := by decide
  have e2 : allTargetPrerequisites [Emit.fprintf "\n\t\n\n".toList []] = [] := by decide
  rw [MingwBackend.GenerateAllTarget, allTargetPrerequisites_append,
    allTargetPrerequisites_append, allTargetPrerequisites_loop, e1, e2]
  simp

theorem strtokAux_token_append (S t rest cur : CStr) (ht : ∀ c ∈ t, c ∉ S) :
    strtokAux S (t ++ rest) cur = strtokAux S rest (cur ++ t) := by
  induction t generalizing cur with
  | nil => simp
  | cons x xs ih =>
    have hx : x ∉ S := ht x (List.mem_cons_self _ _)
    have hxs : ∀ c ∈ xs, c ∉ S := fun c hc => ht c (List.mem_cons_of_mem _ hc)
    rw [List.cons_append, strtokAux_cons_not_mem S _ cur x hx, ih (cur ++ [x]) hxs]
    simp

theorem strtokAux_seps_append (S sepb rest cur : CStr) (hne : sepb ≠ [])
    (hs : ∀ c ∈ sepb, c ∈ S) :
    strtokAux S (sepb ++ rest) cur =
      (if cur = [] then [] else [cur]) ++ strtokAux S rest [] := by
  induction sepb generalizing cur with
  | nil => exact absurd rfl hne
  | cons c cs ih =>
    have hc : c ∈ S := hs c (List.mem_cons_self _ _)
    rw [List.cons_append, strtokAux_cons_mem S _ cur c hc]
    cases cs with
    | nil => by_cases hcur : cur = [] <;> simp [hcur]
    | cons c2 cs2 =>
      have h2 := ih [] (by simp) (fun x hx => hs x (List.mem_cons_of_mem _ hx))
      by_cases hcur : cur = []
      · simp only [hcur, if_true] at h2 ⊢
        rw [h2]
      · simp only [hcur, if_false] at h2 ⊢
        rw [h2]
        simp

theorem v2sLoop_append (wrap_at : Int) (rest : List CStr) (wrap_count : Int) (a s : CStr)
    (hs : s ≠ []) :
    v2sLoop wrap_at rest wrap_count (a ++ s) = a ++ v2sLoop wrap_at rest wrap_count s := by
  induction rest generalizing wrap_count s with
  | nil => simp [v2sLoop]
  | cons x xs ih =>
    have hlen : s.length > 0 := List.length_pos.mpr hs
    have hlen2 : (a ++ s).length > 0 := by simp; omega
    by_cases hx : x.length = 0
    · simp only [v2sLoop, hx, if_true]
      exact ih _ _ hs
    · by_cases hw : wrap_at > 0
      · by_cases hc : wrap_count = wrap_at
        · simp only [v2sLoop, hx, hw, hc, if_true, if_false, List.append_assoc]
          exact ih _ _ (by simp [hs])
        · simp only [v2sLoop, hx, hw, hc, hlen, hlen2, if_true, if_false, List.append_assoc]
          exact ih _ _ (by simp [hs])
      · simp only [v2sLoop, hx, hw, hlen, hlen2, if_true, if_false, List.append_assoc]
        exact ih _ _ (by simp [hs])

theorem v2sLoop_cons (wrap_at : Int) (x : CStr) (xs : List CStr) (wrap_count : Int) (s : CStr)
    (hx : x ≠ []) (hs : s ≠ []) :
    ∃ sepb wc2, sepb ≠ [] ∧ (∀ c ∈ sepb, c ∈ " \t\n\\".toList) ∧
      v2sLoop wrap_at (x :: xs) wrap_count s = (s ++ sepb) ++ v2sLoop wrap_at xs wc2 x := by
  have hlen : s.length > 0 := List.length_pos.mpr hs
  have hxl : ¬ x.length = 0 := by
    intro h; exact hx (List.length_eq_zero.mp h)
  by_cases hw : wrap_at > 0
  · by_cases hc : wrap_count = wrap_at
    · refine ⟨" \\\n\t\t".toList, wrap_count + 1, by decide, by decide, ?_⟩
      simp only [v2sLoop, hxl, hw, hc, if_true, if_false]
      rw [← v2sLoop_append _ _ _ _ _ hx]
    · refine ⟨" ".toList, wrap_count + 1, by decide, by decide, ?_⟩
      simp only [v2sLoop, hxl, hw, hc, hlen, if_true, if_false]
      rw [← v2sLoop_append _ _ _ _ _ hx]
  · refine ⟨" ".toList, wrap_count, by decide, by decide, ?_⟩
    simp only [v2sLoop, hxl, hw, hlen, if_true, if_false]
    rw [← v2sLoop_append _ _ _ _ _ hx]

theorem strtokAux_v2sLoop (wrap_at : Int) (rest : List CStr) (wrap_count : Int) (x cur : CStr)
    (hx : x ≠ []) (hxs : ∀ c ∈ x, c ∉ " \t\n\\".toList)
    (hrest : ∀ y ∈ rest, y ≠ [] ∧ ∀ c ∈ y, c ∉ " \t\n\\".toList) :
    strtokAux " \t\n\\".toList (v2sLoop wrap_at rest wrap_count x) cur = (cur ++ x) :: rest := by
  induction rest generalizing wrap_count x cur with
  | nil =>
    have := strtokAux_token_append " \t\n\\".toList x [] cur hxs
    simp only [List.append_nil] at this
    simp only [v2sLoop]
    rw [this]
    have hne : cur ++ x ≠ [] := by simp [hx]
    simp [strtokAux, hne]
  | cons y ys ih =>
    have hy := hrest y (List.mem_cons_self _ _)
    obtain ⟨sepb, wc2, hne, hsep, he⟩ := v2sLoop_cons wrap_at y ys wrap_count x hy.1 hx
    rw [he, List.append_assoc, strtokAux_token_append _ _ _ _ hxs,
      strtokAux_seps_append _ _ _ _ hne hsep,
      ih wc2 y [] hy.1 hy.2 (fun z hz => hrest z (List.mem_cons_of_mem _ hz))]
    have hne2 : cur ++ x ≠ [] := by simp [hx]
    simp [hne2]

theorem strtokAux_v2s (wrap_at : Int) (v : List CStr)
    (hv : ∀ y ∈ v, y ≠ [] ∧ ∀ c ∈ y, c ∉ " \t\n\\".toList) :
    strtokAux " \t\n\\".toList (v2s v wrap_at) [] = v := by
  cases v with
  | nil => simp [v2s, strtokAux]
  | cons x xs =>
    have hx := hv x (List.mem_cons_self _ _)
    have hxl : ¬ x.length = 0 := by
      intro h; exact hx.1 (List.length_eq_zero.mp h)
    have key : v2s (x :: xs) wrap_at = v2sLoop wrap_at xs (if wrap_at > 0 then 1 else 0) x := by
      by_cases hw : wrap_at > 0
      · have hne : ¬ (0 : Int) = wrap_at := by omega
        simp [v2s, v2sLoop, hxl, hw, hne]
      · simp [v2s, v2sLoop, hxl, hw]
    rw [key, strtokAux_v2sLoop wrap_at xs _ x [] hx.1 hx.2
      (fun z hz => hv z (List.mem_cons_of_mem _ hz))]
    simp

/-! ## The writes of `ProcessModules` -/

theorem GenerateAllTargetLoop_fprintf (ext : External) (handlers : List MingwModuleHandler)
    (wrap_count : Int) :
    ∀ e ∈ MingwBackend.GenerateAllTargetLoop ext handlers wrap_count,
      ∃ format args, e = Emit.fprintf format args := by
  induction handlers generalizing wrap_count with
  | nil => intro e he; simp [MingwBackend.GenerateAllTargetLoop] at he
  | cons h rest ih =>
    intro e he
    simp only [MingwBackend.GenerateAllTargetLoop] at he
    split at he
    · split at he
      · rcases List.mem_cons.mp he with h1 | h1
        · exact ⟨_, _, h1⟩
        · rcases List.mem_cons.mp h1 with h2 | h2
          · exact ⟨_, _, h2⟩
          · exact ih _ e h2
      · rcases List.mem_cons.mp he with h1 | h1
        · exact ⟨_, _, h1⟩
        · exact ih _ e h1
    · exact ih _ e he

theorem GenerateAllTarget_fprintf (ext : External) (handlers : List MingwModuleHandler) :
    ∀ e ∈ MingwBackend.GenerateAllTarget ext handlers,
      ∃ format args, e = Emit.fprintf format args := by
  intro e he
  simp only [MingwBackend.GenerateAllTarget, List.mem_append, List.mem_singleton] at he
  rcases he with (h1 | h1) | h1
  · exact ⟨_, _, h1⟩
  · exact GenerateAllTargetLoop_fprintf ext handlers 0 e h1
  · exact ⟨_, _, h1⟩

/-- The writes of `ProcessModules` in front of the rule blocks, for the vector
`v` of handlers. -/
theorem ProcessModules_of_ok (ext : External) (modules : List Project.Module)
    (v : List MingwModuleHandler) (hv : MingwBackend.InstanciateHandlers ext modules = .ok v) :
    MingwBackend.ProcessModules ext modules =
      ((v.map (fun h => Emit.handler HandlerMethod.GenerateObjectMacro h.module) ++
        [Emit.fprintf "\n".toList []] ++
        v.map (fun h => Emit.handler HandlerMethod.GenerateTargetMacro h.module) ++
        [Emit.fprintf "\n".toList []] ++
        MingwBackend.GenerateAllTarget ext v ++
        MingwBackend.GenerateInitTarget ext modules ++
        MingwBackend.GenerateRegTestsRunTarget ++
        v.map (fun h => Emit.handler HandlerMethod.GenerateOtherMacros h.module)) ++
        v.flatMap MingwBackend.ruleBlocks, none) := by
  simp only [MingwBackend.ProcessModules, hv]

theorem ProcessModules_front (ext : External) (modules : List Project.Module)
    (v : List MingwModuleHandler) :
    ∀ e ∈ (v.map (fun h => Emit.handler HandlerMethod.GenerateObjectMacro h.module) ++
        [Emit.fprintf "\n".toList []] ++
        v.map (fun h => Emit.handler HandlerMethod.GenerateTargetMacro h.module) ++
        [Emit.fprintf "\n".toList []] ++
        MingwBackend.GenerateAllTarget ext v ++
        MingwBackend.GenerateInitTarget ext modules ++
        MingwBackend.GenerateRegTestsRunTarget ++
        v.map (fun h => Emit.handler HandlerMethod.GenerateOtherMacros h.module)),
      e.isRuleBlock = false ∧
        ((∃ format args, e = Emit.fprintf format args) ∨
          ∃ method h, h ∈ v ∧ e = Emit.handler method h.module) := by
  intro e he
  simp only [List.mem_append, List.mem_map, List.mem_singleton] at he
  rcases he with ((((((⟨h, hh, e1⟩ | e1) | ⟨h, hh, e1⟩) | e1) | e1) | e1) | e1) | ⟨h, hh, e1⟩
  · rw [← e1]; exact ⟨rfl, Or.inr ⟨_, h, hh, rfl⟩⟩
  · rw [e1]; exact ⟨rfl, Or.inl ⟨_, _, rfl⟩⟩
  · rw [← e1]; exact ⟨rfl, Or.inr ⟨_, h, hh, rfl⟩⟩
  · rw [e1]; exact ⟨rfl, Or.inl ⟨_, _, rfl⟩⟩
  · obtain ⟨f, a, e2⟩ := GenerateAllTarget_fprintf ext v e e1
    rw [e2]; exact ⟨rfl, Or.inl ⟨_, _, rfl⟩⟩
  · simp only [MingwBackend.GenerateInitTarget, List.mem_cons, List.mem_singleton,
      List.not_mem_nil, or_false] at e1
    rcases e1 with e2 | e2 <;> (rw [e2]; exact ⟨rfl, Or.inl ⟨_, _, rfl⟩⟩)
  · simp only [MingwBackend.GenerateRegTestsRunTarget, List.mem_cons, List.mem_singleton,
      List.not_mem_nil, or_false] at e1
    rcases e1 with e2 | e2 | e2 | e2 <;> (rw [e2]; exact ⟨rfl, Or.inl ⟨_, _, rfl⟩⟩)
  · rw [← e1]; exact ⟨rfl, Or.inr ⟨_, h, hh, rfl⟩⟩

theorem flatMap_ruleBlocks_map (ms : List Project.Module) :
    (ms.map (fun m => MingwModuleHandler.mk m)).flatMap MingwBackend.ruleBlocks =
      ms.flatMap (fun m =>
        [Emit.handler HandlerMethod.GeneratePreconditionDependencies m,
         Emit.handler HandlerMethod.Process m,
         Emit.handler HandlerMethod.GenerateInvocations m,
         Emit.handler HandlerMethod.GenerateCleanTarget m,
         Emit.handler HandlerMethod.GenerateInstallTarget m,
         Emit.handler HandlerMethod.GenerateDependsTarget m]) := by
  induction ms with
  | nil => rfl
  | cons m rest ih =>
    simp only [List.map_cons, List.flatMap, List.map, List.flatten] at ih ⊢
    rw [ih]
    rfl

/-! ## Claims on the modules -/

/-- C14: when a handler can be instantiated for every enabled module,
`ProcessModules` raises nothing, and its writes are a front part followed by
the rule blocks of the enabled modules in declaration order, six per module:
precondition dependencies, main recipe, invocations, clean target, install
target, dependency target. The front part has no rule block and holds the
object macro and the target macro of every enabled module, so each of them is
written before every rule block. -/
theorem MingwBackend.ProcessModules_phases (ext : External) (modules : List Project.Module)
    (hok : ∀ m ∈ modules, m.enabled = true → ext.InstanciateHandler m = none) :
    (MingwBackend.ProcessModules ext modules).2 = none ∧
    ∃ front, (MingwBackend.ProcessModules ext modules).1 =
        front ++ (modules.filter (fun m => m.enabled)).flatMap (fun m =>
          [Emit.handler HandlerMethod.GeneratePreconditionDependencies m,
           Emit.handler HandlerMethod.Process m,
           Emit.handler HandlerMethod.GenerateInvocations m,
           Emit.handler HandlerMethod.GenerateCleanTarget m,
           Emit.handler HandlerMethod.GenerateInstallTarget m,
           Emit.handler HandlerMethod.GenerateDependsTarget m]) ∧
      (∀ e ∈ front, e.isRuleBlock = false) ∧
      ∀ a ∈ modules, a.enabled = true →
        Emit.handler HandlerMethod.GenerateObjectMacro a ∈ front ∧
        Emit.handler HandlerMethod.GenerateTargetMacro a ∈ front := by
  have hv := InstanciateHandlers_ok ext modules hok
  rw [ProcessModules_of_ok ext modules _ hv]
  refine ⟨rfl, _, ⟨by rw [flatMap_ruleBlocks_map], ?_, ?_⟩⟩
  · intro e he
    exact (ProcessModules_front ext modules _ e he).1
  · intro a ha hen
    have hmem : MingwModuleHandler.mk a ∈
        (modules.filter (fun m => m.enabled)).map (fun m => MingwModuleHandler.mk m) :=
      List.mem_map.mpr ⟨a, List.mem_filter.mpr ⟨ha, hen⟩, rfl⟩
    constructor
    · refine List.mem_append_left _ (List.mem_append_left _ (List.mem_append_left _
        (List.mem_append_left _ (List.mem_append_left _ (List.mem_append_left _
        (List.mem_append_left _ ?_))))))
      exact List.mem_map.mpr ⟨_, hmem, rfl⟩
    · refine List.mem_append_left _ (List.mem_append_left _ (List.mem_append_left _
        (List.mem_append_left _ (List.mem_append_left _ (List.mem_append_right _ ?_)))))
      exact List.mem_map.mpr ⟨_, hmem, rfl⟩

/-- C14, witness: a library, a disabled test and a test. -/
theorem MingwBackend.ProcessModules_phases_witness :
    (MingwBackend.ProcessModules External.sample
      [Project.Module.mk "foo".toList ModuleType.StaticLibrary true [] [] [],
       Project.Module.mk "off".toList ModuleType.Test false [] [] [],
       Project.Module.mk "bar".toList ModuleType.Test true [] [] []]).2 = none :=
  (MingwBackend.ProcessModules_phases External.sample _ (fun _ _ _ => rfl)).1

/-- C16: the prerequisites `GenerateAllTarget` writes behind `all:` are the
target macros of the enabled modules for which `IncludeInAllTarget` holds, in
declaration order, and `IncludeInAllTarget` is false exactly for a
reference-only module and for the types BootSector, Iso, LiveIso, Test and
Alias. -/
theorem MingwBackend.GenerateAllTarget_prerequisites (ext : External)
    (modules : List Project.Module) (v : List MingwModuleHandler)
    (hv : MingwBackend.InstanciateHandlers ext modules = .ok v) :
    allTargetPrerequisites (MingwBackend.GenerateAllTarget ext v) =
      (modules.filter (fun m => m.enabled && MingwBackend.IncludeInAllTarget ext m)).map
        ext.GetTargetMacro ∧
    ∀ m, MingwBackend.IncludeInAllTarget ext m = false ↔
      (ext.ReferenceObjects m = true ∨ m.type = ModuleType.BootSector ∨
        m.type = ModuleType.Iso ∨ m.type = ModuleType.LiveIso ∨
        m.type = ModuleType.Test ∨ m.type = ModuleType.Alias) := by
  constructor
  · rw [allTargetPrerequisites_GenerateAllTarget, InstanciateHandlers_eq_ok ext modules v hv,
      List.map_map]
    have : (MingwModuleHandler.module ∘ fun m => MingwModuleHandler.mk m) = id := by
      funext m; rfl
    simp only [this, List.map_id, List.filter_filter]
    congr 1
    apply List.filter_congr
    intro m _
    cases m.enabled <;> simp
  · intro m
    unfold MingwBackend.IncludeInAllTarget
    cases hr : ext.ReferenceObjects m <;>
      by_cases h1 : m.type = ModuleType.BootSector <;>
      by_cases h2 : m.type = ModuleType.Iso <;>
      by_cases h3 : m.type = ModuleType.LiveIso <;>
      by_cases h4 : m.type = ModuleType.Test <;>
      by_cases h5 : m.type = ModuleType.Alias <;>
      simp [h1, h2, h3, h4, h5]

/-- C16, witness: a library, a boot sector and a program. -/
theorem MingwBackend.GenerateAllTarget_prerequisites_witness :
    allTargetPrerequisites (MingwBackend.GenerateAllTarget External.sample
      [MingwModuleHandler.mk (Project.Module.mk "foo".toList ModuleType.StaticLibrary true [] [] []),
       MingwModuleHandler.mk (Project.Module.mk "boot".toList ModuleType.BootSector true [] [] []),
       MingwModuleHandler.mk (Project.Module.mk "cmd".toList ModuleType.Program true [] [] [])]) =
      ["$(foo_TARGET)".toList, "$(cmd_TARGET)".toList] :=
  (MingwBackend.GenerateAllTarget_prerequisites External.sample
    [Project.Module.mk "foo".toList ModuleType.StaticLibrary true [] [] [],
     Project.Module.mk "boot".toList ModuleType.BootSector true [] [] [],
     Project.Module.mk "cmd".toList ModuleType.Program true [] [] []] _ rfl).1

/-! ## Claims on the test and install targets -/

/-- C17: the vector `GetModuleTestTargets` fills holds the names of the
enabled modules of type Test, one entry for each, in declaration order, and
nothing for a module of another type; `GenerateTestTarget` writes it behind
`test: ` through `v2s`. When these names are not empty and have no blank, tab,
newline or backslash, the words of the written list are exactly these
names. -/
theorem MingwBackend.GenerateTestTarget_lists_tests (modules : List Project.Module) :
    MingwBackend.GetModuleTestTargets modules [] =
      (modules.filter (fun m => m.enabled && decide (m.type = ModuleType.Test))).map
        (fun m => m.name) ∧
    MingwBackend.GenerateTestTarget modules =
      [Emit.fprintf "test: %s\n".toList
         [v2s ((modules.filter
           (fun m => m.enabled && decide (m.type = ModuleType.Test))).map (fun m => m.name)) 5],
       Emit.fprintf "\n".toList []] ∧
    ((∀ m ∈ modules, m.enabled = true → m.type = ModuleType.Test →
        m.name ≠ [] ∧ ∀ c ∈ m.name, c ∉ " \t\n\\".toList) →
      strtokAux " \t\n\\".toList (v2s (MingwBackend.GetModuleTestTargets modules []) 5) [] =
        (modules.filter (fun m => m.enabled && decide (m.type = ModuleType.Test))).map
          (fun m => m.name)) := by
  have h1 := GetModuleTestTargets_eq modules []
  simp only [List.nil_append] at h1
  refine ⟨h1, ?_, ?_⟩
  · simp only [MingwBackend.GenerateTestTarget, h1]
  · intro hnames
    rw [h1]
    apply strtokAux_v2s
    intro y hy
    obtain ⟨m, hm, e⟩ := List.mem_map.mp hy
    obtain ⟨hm1, hm2⟩ := List.mem_filter.mp hm
    simp only [Bool.and_eq_true, decide_eq_true_eq] at hm2
    rw [← e]
    exact hnames m hm1 hm2.1 hm2.2

/-- C17, witness: two tests around a library and a disabled test. -/
theorem MingwBackend.GenerateTestTarget_lists_tests_witness :
    strtokAux " \t\n\\".toList (v2s (MingwBackend.GetModuleTestTargets
      [Project.Module.mk "t1".toList ModuleType.Test true [] [] [],
       Project.Module.mk "foo".toList ModuleType.StaticLibrary true [] [] [],
       Project.Module.mk "off".toList ModuleType.Test false [] [] [],
       Project.Module.mk "t2".toList ModuleType.Test true [] [] []] []) 5) [] =
      ["t1".toList, "t2".toList] :=
  (MingwBackend.GenerateTestTarget_lists_tests
    [Project.Module.mk "t1".toList ModuleType.Test true [] [] [],
     Project.Module.mk "foo".toList ModuleType.StaticLibrary true [] [] [],
     Project.Module.mk "off".toList ModuleType.Test false [] [] [],
     Project.Module.mk "t2".toList ModuleType.Test true [] [] []]).2.2 (by decide)

/-- C18, the claim as it is written fails in its last part: the `test` target
is given the name of `bar`, `GetModuleTestTargets` pushing `module.name`, and
not the target macro `GetTargetMacro` yields for it. -/
theorem MingwBackend.test_target_has_names :
    MingwBackend.GenerateTestTarget
      [Project.Module.mk "foo".toList ModuleType.StaticLibrary true [] [] [],
       Project.Module.mk "bar".toList ModuleType.Test true [] [] []] =
      [Emit.fprintf "test: %s\n".toList ["bar".toList], Emit.fprintf "\n".toList []] ∧
    External.sample.GetTargetMacro
      (Project.Module.mk "bar".toList ModuleType.Test true [] [] []) = "$(bar_TARGET)".toList ∧
    MingwBackend.GetModuleTestTargets
      [Project.Module.mk "foo".toList ModuleType.StaticLibrary true [] [] [],
       Project.Module.mk "bar".toList ModuleType.Test true [] [] []] [] ≠
      [External.sample.GetTargetMacro
        (Project.Module.mk "bar".toList ModuleType.Test true [] [] [])] := by
  decide

/-- C18, amended: for the project of an enabled library `foo` that is not
reference-only and an enabled test `bar`, the prerequisites of the `all`
target are the target macro of `foo` alone, and the `test` target lists the
name of `bar` alone, not its target macro. -/
theorem MingwBackend.all_and_test_scenario (ext : External) (foo bar : Project.Module)
    (hfe : foo.enabled = true)
    (hft : foo.type = ModuleType.StaticLibrary ∨ foo.type = ModuleType.DynamicLibrary)
    (hfr : ext.ReferenceObjects foo = false) (hfi : ext.InstanciateHandler foo = none)
    (hbe : bar.enabled = true) (hbt : bar.type = ModuleType.Test)
    (hbi : ext.InstanciateHandler bar = none) :
    MingwBackend.InstanciateHandlers ext [foo, bar] =
      .ok [MingwModuleHandler.mk foo, MingwModuleHandler.mk bar] ∧
    allTargetPrerequisites (MingwBackend.GenerateAllTarget ext
      [MingwModuleHandler.mk foo, MingwModuleHandler.mk bar]) = [ext.GetTargetMacro foo] ∧
    MingwBackend.GetModuleTestTargets [foo, bar] [] = [bar.name] ∧
    MingwBackend.GenerateTestTarget [foo, bar] =
      [Emit.fprintf "test: %s\n".toList [bar.name], Emit.fprintf "\n".toList []] := by
  have hfoo : MingwBackend.IncludeInAllTarget ext foo = true := by
    unfold MingwBackend.IncludeInAllTarget
    rcases hft with h | h <;> simp [hfr, h]
  have hbar : MingwBackend.IncludeInAllTarget ext bar = false := by
    unfold MingwBackend.IncludeInAllTarget
    cases ext.ReferenceObjects bar <;> simp [hbt]
  have hfnt : foo.type ≠ ModuleType.Test := by
    rcases hft with h | h <;> simp [h]
  have htests : MingwBackend.GetModuleTestTargets [foo, bar] [] = [bar.name] := by
    simp [MingwBackend.GetModuleTestTargets, hfe, hbe, hbt, hfnt]
  have hv2s : v2s [bar.name] 5 = bar.name := by
    by_cases hn : bar.name.length = 0
    · have : bar.name = [] := List.length_eq_zero.mp hn
      simp [v2s, v2sLoop, this]
    · simp [v2s, v2sLoop, hn]
  refine ⟨?_, ?_, htests, ?_⟩
  · simp [MingwBackend.InstanciateHandlers, hfe, hbe, hfi, hbi]
  · rw [allTargetPrerequisites_GenerateAllTarget]
    simp [List.filter, hfoo, hbar]
  · simp only [MingwBackend.GenerateTestTarget, htests, hv2s]

/-- C18, witness: `foo` a static library and `bar` a test, both enabled. -/
theorem MingwBackend.all_and_test_scenario_witness :
    allTargetPrerequisites (MingwBackend.GenerateAllTarget External.sample
      [MingwModuleHandler.mk (Project.Module.mk "foo".toList ModuleType.StaticLibrary true [] [] []),
       MingwModuleHandler.mk (Project.Module.mk "bar".toList ModuleType.Test true [] [] [])]) =
      [External.sample.GetTargetMacro
        (Project.Module.mk "foo".toList ModuleType.StaticLibrary true [] [] [])] ∧
    MingwBackend.GetModuleTestTargets
      [Project.Module.mk "foo".toList ModuleType.StaticLibrary true [] [] [],
       Project.Module.mk "bar".toList ModuleType.Test true [] [] []] [] = ["bar".toList] :=
  ⟨(MingwBackend.all_and_test_scenario External.sample
      (Project.Module.mk "foo".toList ModuleType.StaticLibrary true [] [] [])
      (Project.Module.mk "bar".toList ModuleType.Test true [] [] [])
      rfl (Or.inl rfl) rfl rfl rfl rfl rfl).2.1,
   (MingwBackend.all_and_test_scenario External.sample
      (Project.Module.mk "foo".toList ModuleType.StaticLibrary true [] [] [])
      (Project.Module.mk "bar".toList ModuleType.Test true [] [] [])
      rfl (Or.inl rfl) rfl rfl rfl rfl rfl).2.2.1⟩

/-- C19: for an enabled module with a non-empty install name and an empty
install base, the file `GetModuleInstallTargetFiles` puts into the install
prerequisite list and the target of the module's install rule are the same
path: the name of the install root, the separator and the normalized install
name, with no base segment and no further separator in front of the name. -/
theorem MingwBackend.install_path_without_base (ext : External)
    (outputDirectory installDirectory : Directory) (modules : List Project.Module)
    (m aliasedModule : Project.Module) (hm : m ∈ modules) (he : m.enabled = true)
    (hn : m.installName ≠ []) (hb : m.installBase = []) :
    installDirectory.name ++ SSEP ++ ext.NormalizeFilename m.installName ∈
      MingwBackend.GetModuleInstallTargetFiles ext installDirectory modules [] ∧
    MingwBackend.moduleInstallRule ext outputDirectory installDirectory m aliasedModule =
      [Emit.fprintf "%s: %s | %s\n".toList
         [installDirectory.name ++ SSEP ++ ext.NormalizeFilename m.installName,
          PassThruCacheDirectory (ext.NormalizeFilename (ext.GetPath aliasedModule))
            outputDirectory,
          PassThruCacheDirectory (ext.NormalizeFilename []) installDirectory],
       Emit.fprintf "\t$(ECHO_CP)\n".toList [],
       Emit.fprintf "\t$\x7bcp\x7d %s %s 1>$(NUL)\n".toList
         [PassThruCacheDirectory (ext.NormalizeFilename (ext.GetPath aliasedModule))
            outputDirectory,
          installDirectory.name ++ SSEP ++ ext.NormalizeFilename m.installName]] := by
  have hlen : m.installName.length > 0 := List.length_pos.mpr hn
  constructor
  · rw [GetModuleInstallTargetFiles_eq]
    simp only [List.nil_append]
    refine List.mem_map.mpr ⟨m, List.mem_filter.mpr ⟨hm, ?_⟩, ?_⟩
    · simp [installsModule, he, hlen]
    · simp [hb, PassThruCacheDirectory]
  · simp [MingwBackend.moduleInstallRule, MingwBackend.OutputInstallTarget, hb,
      PassThruCacheDirectory]

/-- C19, witness: a module installed as `foo.dll` with no install base. -/
theorem MingwBackend.install_path_without_base_witness :
    "$(INSTALL)/foo.dll".toList ∈
      MingwBackend.GetModuleInstallTargetFiles External.sample
        (Directory.new "$(INSTALL)".toList)
        [Project.Module.mk "foo".toList ModuleType.DynamicLibrary true "foo.dll".toList [] []]
        [] :=
  (MingwBackend.install_path_without_base External.sample (Directory.new "$(OUTPUT)".toList)
    (Directory.new "$(INSTALL)".toList)
    [Project.Module.mk "foo".toList ModuleType.DynamicLibrary true "foo.dll".toList [] []]
    (Project.Module.mk "foo".toList ModuleType.DynamicLibrary true "foo.dll".toList [] [])
    (Project.Module.mk "foo".toList ModuleType.DynamicLibrary true "foo.dll".toList [] [])
    (by decide) rfl (by decide) rfl).1

/-- C20: per-module install output is produced for exactly the enabled modules
with a non-empty install name, in declaration order: `GetModuleInstallTargetFiles`
adds one file for each of them and nothing else, and `OutputModuleInstallTargets`
writes one install rule for each of them and nothing else, up to the first
whose alias no module answers to, where the assertion ends the run; it runs to
its end exactly when every alias is resolved. -/
theorem MingwBackend.install_output_per_module (ext : External)
    (outputDirectory installDirectory : Directory) (modules : List Project.Module) :
    MingwBackend.GetModuleInstallTargetFiles ext installDirectory modules [] =
      (modules.filter (fun m => m.enabled && decide (m.installName.length > 0))).map
        (fun m => PassThruCacheDirectory (ext.NormalizeFilename
          (if m.installBase.length > 0 then m.installBase ++ SSEP ++ m.installName
           else m.installName)) installDirectory) ∧
    (MingwBackend.OutputModuleInstallTargets ext outputDirectory installDirectory modules).1 =
      ((modules.filter (fun m => m.enabled && decide (m.installName.length > 0))).takeWhile
          (fun m => (MingwBackend.GetAliasedModuleOrModule ext m).isSome)).flatMap
        (fun m =>
          match MingwBackend.GetAliasedModuleOrModule ext m with
          | some aliasedModule =>
            MingwBackend.OutputInstallTarget ext installDirectory
              (PassThruCacheDirectory (ext.NormalizeFilename (ext.GetPath aliasedModule))
                outputDirectory)
              m.installName m.installBase
          | none => []) ∧
    (MingwBackend.OutputModuleInstallTargets ext outputDirectory installDirectory modules).2 =
      (modules.filter (fun m => m.enabled && decide (m.installName.length > 0))).all
        (fun m => (MingwBackend.GetAliasedModuleOrModule ext m).isSome) := by
  have h1 := GetModuleInstallTargetFiles_eq ext installDirectory modules []
  have h2 := OutputModuleInstallTargets_eq ext outputDirectory installDirectory modules
  simp only [List.nil_append] at h1
  refine ⟨h1, ?_, ?_⟩
  · rw [h2]; rfl
  · rw [h2]; rfl

/-! ## Placeholders in paths -/

theorem stringFind_none (path name : CStr) :
    stringFind path name = none ↔ ¬ name <:+: path := by
  induction path with
  | nil =>
    cases name with
    | nil => simp [stringFind]
    | cons a as => simp [stringFind, List.isPrefixOf]
  | cons c rest ih =>
    by_cases hp : name.isPrefixOf (c :: rest) = true
    · have hp2 : name <+: c :: rest := List.isPrefixOf_iff_prefix.mp hp
      simp only [stringFind, hp, if_true]
      constructor
      · intro h; cases h
      · intro h; exact absurd hp2.isInfix h
    · have hp2 : ¬ name <+: c :: rest := fun h => hp (List.isPrefixOf_iff_prefix.mpr h)
      have hpf : name.isPrefixOf (c :: rest) = false := Bool.eq_false_iff.mpr hp
      simp only [stringFind, hpf, Bool.false_eq_true, if_false, Option.map_eq_none', ih]
      rw [List.infix_cons_iff]
      simp [hp2]

theorem stringFind_some (path name : CStr) (i : Nat) (h : stringFind path name = some i) :
    path = path.take i ++ name ++ path.drop (i + name.length) ∧
    ∀ pre post, path = pre ++ name ++ post → i ≤ pre.length := by
  induction path generalizing i with
  | nil =>
    cases name with
    | nil =>
      simp [stringFind] at h
      subst h
      simp
    | cons a as => simp [stringFind, List.isPrefixOf] at h
  | cons c rest ih =>
    by_cases hp : name.isPrefixOf (c :: rest) = true
    · have hp2 : name <+: c :: rest := List.isPrefixOf_iff_prefix.mp hp
      simp only [stringFind, hp, if_true, Option.some.injEq] at h
      subst h
      obtain ⟨t, ht⟩ := hp2
      refine ⟨?_, fun _ _ _ => Nat.zero_le _⟩
      simp only [List.take_zero, List.nil_append, Nat.zero_add]
      rw [← ht, List.drop_left]
    · have hp2 : ¬ name <+: c :: rest := fun h => hp (List.isPrefixOf_iff_prefix.mpr h)
      have hpf : name.isPrefixOf (c :: rest) = false := Bool.eq_false_iff.mpr hp
      simp only [stringFind, hpf, Bool.false_eq_true, if_false] at h
      cases hr : stringFind rest name with
      | none => simp [hr] at h
      | some j =>
        simp only [hr, Option.map_some', Option.some.injEq] at h
        subst h
        obtain ⟨e1, e2⟩ := ih j hr
        constructor
        · simp only [List.take_succ_cons, List.cons_append]
          have : j + 1 + name.length = (j + name.length) + 1 := by omega
          rw [this, List.drop_succ_cons, ← e1]
        · intro pre post hpre
          cases pre with
          | nil => exact absurd ⟨post, by simpa using hpre.symm⟩ hp2
          | cons x xs =>
            simp only [List.cons_append, List.cons.injEq] at hpre
            have := e2 xs post hpre.2
            simp only [List.length_cons]
            omega

/-! ## The walk of a tree -/

theorem Directory.name_mk (n : CStr) (m : List (CStr × Directory)) :
    (Directory.mk n m).name = n := rfl

theorem Directory.subdirs_mk (n : CStr) (m : List (CStr × Directory)) :
    (Directory.mk n m).subdirs = m := rfl

mutual
theorem CreateRule_eq_visits : ∀ (d : Directory) (parent : CStr),
    d.CreateRule parent = (d.visits parent).filterMap (fun v =>
      if v.1.length > 0 then
        some { target := Directory.EscapeSpaces v.1 ++ [CSEP] ++ Directory.EscapeSpaces v.2.name,
               prereq := Directory.EscapeSpaces v.1,
               recipe := mkdirRecipe }
      else none)
  | .mk n m, parent => by
    by_cases h : parent.length > 0
    · simp only [Directory.CreateRule, Directory.visits, h, if_true, List.filterMap_cons,
        Directory.name_mk]
      rw [CreateRuleList_eq_visits m (parent ++ SSEP ++ n)]
    · simp only [Directory.CreateRule, Directory.visits, h, if_false, List.filterMap_cons]
      rw [CreateRuleList_eq_visits m n]
theorem CreateRuleList_eq_visits : ∀ (m : List (CStr × Directory)) (path : CStr),
    CreateRuleList m path = (visitsList m path).filterMap (fun v =>
      if v.1.length > 0 then
        some { target := Directory.EscapeSpaces v.1 ++ [CSEP] ++ Directory.EscapeSpaces v.2.name,
               prereq := Directory.EscapeSpaces v.1,
               recipe := mkdirRecipe }
      else none)
  | [], _ => by simp [CreateRuleList, visitsList]
  | (k, c) :: rest, path => by
    simp only [CreateRuleList, visitsList, List.filterMap_append]
    rw [CreateRule_eq_visits c path, CreateRuleList_eq_visits rest path]
end

theorem visits_self (d : Directory) (parent : CStr) : (parent, d) ∈ d.visits parent := by
  obtain ⟨n, m⟩ := d
  rw [Directory.visits]
  exact List.mem_cons_self _ _

theorem visits_eq (d : Directory) (parent : CStr) :
    d.visits parent = (parent, d) :: visitsList d.subdirs (d.pathUnder parent) := by
  obtain ⟨n, m⟩ := d
  rw [Directory.visits]
  rfl

theorem visitsList_mem (m : List (CStr × Directory)) (path : CStr) (v : CStr × Directory) :
    v ∈ visitsList m path ↔ ∃ kc ∈ m, v ∈ kc.2.visits path := by
  induction m with
  | nil =>
    simp only [visitsList, List.not_mem_nil, false_and, exists_false]
  | cons kc rest ih =>
    obtain ⟨k, c⟩ := kc
    simp only [visitsList, List.mem_append, ih, List.mem_cons, exists_eq_or_imp]

mutual
theorem visits_children : ∀ (d : Directory) (parent : CStr) (P : CStr) (x : Directory),
    (P, x) ∈ d.visits parent → ∀ kc ∈ x.subdirs, (x.pathUnder P, kc.2) ∈ d.visits parent
  | .mk n m, parent, P, x, hv => by
    intro kc hkc
    rw [visits_eq] at hv ⊢
    rcases List.mem_cons.mp hv with e | hin
    · obtain ⟨e1, e2⟩ := Prod.mk.inj e
      subst e1; subst e2
      refine List.mem_cons_of_mem _ ((visitsList_mem _ _ _).mpr ⟨kc, hkc, visits_self _ _⟩)
    · exact List.mem_cons_of_mem _ (visitsList_children m _ P x hin kc hkc)
theorem visitsList_children : ∀ (m : List (CStr × Directory)) (path : CStr) (P : CStr)
    (x : Directory), (P, x) ∈ visitsList m path →
    ∀ kc ∈ x.subdirs, (x.pathUnder P, kc.2) ∈ visitsList m path
  | [], _, _, _, hv => by
    simp only [visitsList, List.not_mem_nil] at hv
  | (k, c) :: rest, path, P, x, hv => by
    intro kc hkc
    simp only [visitsList, List.mem_append] at hv ⊢
    rcases hv with h | h
    · exact Or.inl (visits_children c path P x h kc hkc)
    · exact Or.inr (visitsList_children rest path P x h kc hkc)
end

mutual
theorem visits_ne : ∀ (d : Directory) (parent : CStr), parent ≠ [] →
    ∀ v ∈ d.visits parent, v.1 ≠ []
  | .mk n m, parent, hp => by
    intro v hv
    have hl : parent.length > 0 := List.length_pos.mpr hp
    simp only [Directory.visits, hl, if_true, List.mem_cons] at hv
    rcases hv with e | h
    · rw [e]; exact hp
    · exact visitsList_ne m _ (by simp [SSEP]) v h
theorem visitsList_ne : ∀ (m : List (CStr × Directory)) (path : CStr), path ≠ [] →
    ∀ v ∈ visitsList m path, v.1 ≠ []
  | [], _, _ => by
    intro v hv
    simp only [visitsList, List.not_mem_nil] at hv
  | (k, c) :: rest, path, hp => by
    intro v hv
    simp only [visitsList, List.mem_append] at hv
    rcases hv with h | h
    · exact visits_ne c path hp v h
    · exact visitsList_ne rest path hp v h
end

/-! ## Directories on disk -/

theorem stringFindChar_none (path : CStr) (c : Char) (pos : Nat) :
    stringFindChar path c pos = none ↔ c ∉ path.drop pos := by
  induction path generalizing pos with
  | nil => simp [stringFindChar]
  | cons x rest ih =>
    cases pos with
    | zero =>
      by_cases hx : x = c
      · simp [stringFindChar, hx]
      · have hx2 : ¬ c = x := fun h => hx h.symm
        simp [stringFindChar, hx, hx2, ih 0]
    | succ pos => simp [stringFindChar, ih pos]

theorem stringFindChar_some (path : CStr) (c : Char) (pos n : Nat)
    (h : stringFindChar path c pos = some n) :
    ∃ tw, c ∉ tw ∧ path.drop pos = tw ++ c :: path.drop (n + 1) ∧
      path.take n = path.take pos ++ tw ∧ pos ≤ n ∧ n < path.length := by
  induction path generalizing pos n with
  | nil => simp [stringFindChar] at h
  | cons x rest ih =>
    cases pos with
    | zero =>
      by_cases hx : x = c
      · simp only [stringFindChar, hx, if_true, Option.some.injEq] at h
        subst h
        exact ⟨[], by simp, by simp [hx], by simp, Nat.le_refl _, by simp⟩
      · simp only [stringFindChar, hx, if_false] at h
        cases hr : stringFindChar rest c 0 with
        | none => simp [hr] at h
        | some j =>
          simp only [hr, Option.map_some', Option.some.injEq] at h
          subst h
          obtain ⟨tw, h1, h2, h3, _, h5⟩ := ih 0 j hr
          simp only [List.drop_zero, List.take_zero, List.nil_append] at h2 h3
          refine ⟨x :: tw, ?_, ?_, ?_, Nat.zero_le _, ?_⟩
          · intro hc
            rcases List.mem_cons.mp hc with e | e
            · exact hx e.symm
            · exact h1 e
          · simp only [List.drop_zero, List.drop_succ_cons, List.cons_append]
            rw [← h2]
          · simp only [List.take_succ_cons, List.take_zero, List.nil_append, h3]
          · simp only [List.length_cons]; omega
    | succ pos =>
      simp only [stringFindChar] at h
      cases hr : stringFindChar rest c pos with
      | none => simp [hr] at h
      | some j =>
        simp only [hr, Option.map_some', Option.some.injEq] at h
        subst h
        obtain ⟨tw, h1, h2, h3, h4, h5⟩ := ih pos j hr
        refine ⟨tw, h1, ?_, ?_, by omega, ?_⟩
        · simp only [List.drop_succ_cons]
          exact h2
        · simp only [List.take_succ_cons, List.cons_append, h3]
        · simp only [List.length_cons]; omega

theorem prefixesFrom_no_sep (pre rest : CStr) (h : CSEP ∉ rest) :
    prefixesFrom pre rest = [pre ++ rest] := by
  induction rest generalizing pre with
  | nil => simp [prefixesFrom]
  | cons c rest ih =>
    have hc : c ≠ CSEP := fun e => h (by rw [e]; exact List.mem_cons_self _ _)
    have hr : CSEP ∉ rest := fun e => h (List.mem_cons_of_mem _ e)
    simp only [prefixesFrom, hc, if_false, ih (pre ++ [c]) hr, List.append_assoc,
      List.singleton_append]

theorem prefixesFrom_sep (pre tw rest : CStr) (h : CSEP ∉ tw) :
    prefixesFrom pre (tw ++ CSEP :: rest) =
      (pre ++ tw) :: prefixesFrom (pre ++ tw ++ [CSEP]) rest := by
  induction tw generalizing pre with
  | nil => simp [prefixesFrom]
  | cons c tw ih =>
    have hc : c ≠ CSEP := fun e => h (by rw [e]; exact List.mem_cons_self _ _)
    have hr : CSEP ∉ tw := fun e => h (List.mem_cons_of_mem _ e)
    have key : prefixesFrom pre (c :: (tw ++ CSEP :: rest)) =
        prefixesFrom (pre ++ [c]) (tw ++ CSEP :: rest) := by
      simp only [prefixesFrom, hc, if_false]
    rw [List.cons_append, key, ih (pre ++ [c]) hr]
    simp only [List.append_assoc, List.singleton_append]

theorem CreateDirectoryLoop_eq (msvc : Bool) (path : CStr) :
    ∀ (fuel : Nat) (fs : FileSystem) (x index : Nat) (b : Bool),
      index ≤ path.length → path.length < fuel + index →
      ((Directory.CreateDirectoryLoop msvc path fuel fs (some x) index b).1,
        exceptionOf (Directory.CreateDirectoryLoop msvc path fuel fs (some x) index b).2) =
      mkdirAll msvc fs (prefixesFrom (path.take (index + 1)) (path.drop (index + 1))) := by
  intro fuel
  induction fuel with
  | zero => intro fs x index b h1 h2; omega
  | succ fuel ih =>
    intro fs x index b h1 h2
    cases hf : stringFindChar path CSEP (index + 1) with
    | none =>
      have hno := (stringFindChar_none path CSEP (index + 1)).mp hf
      rw [prefixesFrom_no_sep _ _ hno, List.take_append_drop]
      simp only [Directory.CreateDirectoryLoop, hf, mkdirAll]
      cases hm : Directory.mkdir_p msvc fs path with
      | mk fs2 r =>
        cases r with
        | error e => simp [exceptionOf]
        | ok c => simp [exceptionOf]
    | some n =>
      obtain ⟨tw, h3, h4, h5, h6, h7⟩ := stringFindChar_some path CSEP (index + 1) n hf
      rw [h4, prefixesFrom_sep _ _ _ h3, ← h5]
      have h8 : path.take n ++ [CSEP] = path.take (n + 1) := by
        have e1 : path.drop n = CSEP :: path.drop (n + 1) := by
          have hn : n = index + 1 + tw.length := by
            have := congrArg List.length h5
            simp only [List.length_take, List.length_append] at this
            omega
          have := congrArg (List.drop tw.length) h4
          rw [List.drop_drop, List.drop_left, ← hn] at this
          exact this
        have e2 := List.take_append_drop n path
        have e3 : path.take (n + 1) = path.take n ++ (path.drop n).take 1 := by
          rw [List.take_add]
        rw [e3, e1]
        rfl
      rw [h8]
      simp only [Directory.CreateDirectoryLoop, hf, mkdirAll]
      cases hm : Directory.mkdir_p msvc fs (path.take n) with
      | mk fs2 r =>
        cases r with
        | error e => simp [exceptionOf]
        | ok c =>
          simp only
          exact ih fs2 n n c (Nat.le_of_lt h7) (by omega)

theorem CreateDirectory_eq (msvc : Bool) (fs : FileSystem) (path : CStr) :
    ((Directory.CreateDirectory msvc fs path).1,
      exceptionOf (Directory.CreateDirectory msvc fs path).2) =
    mkdirAll msvc fs (createAttempts path) := by
  unfold Directory.CreateDirectory createAttempts
  cases hx : (if Directory.hasDrive path then stringFindChar path CSEP 3
      else stringFindChar path CSEP 0) with
  | none =>
    simp only [Option.isSome_none, Bool.false_eq_true, if_false, mkdirAll]
    simp [Directory.CreateDirectoryLoop, exceptionOf]
  | some x =>
    simp only [Option.isSome_some, if_true]
    cases path with
    | nil =>
      simp [stringFindChar] at hx
    | cons c rest =>
      have := CreateDirectoryLoop_eq msvc (c :: rest) ((c :: rest).length + 1) fs x 0 false
        (Nat.zero_le _) (by omega)
      simpa using this

theorem mkdirAll_append (msvc : Bool) (fs : FileSystem) (a b : List CStr) :
    mkdirAll msvc fs (a ++ b) =
      match mkdirAll msvc fs a with
      | (fs2, some e) => (fs2, some e)
      | (fs2, none) => mkdirAll msvc fs2 b := by
  induction a generalizing fs with
  | nil => simp [mkdirAll]
  | cons p rest ih =>
    simp only [List.cons_append, mkdirAll]
    cases hm : Directory.mkdir_p msvc fs p with
    | mk fs2 r =>
      cases r with
      | error e => rfl
      | ok c => exact ih fs2

mutual
theorem GenerateTree_eq (msvc : Bool) (env : Environment) :
    ∀ (d : Directory) (parent : CStr) (fs : FileSystem),
      (∀ v ∈ d.visits parent, v.1 ≠ [] →
        (Directory.ResolveVariablesInPath env (v.1 ++ SSEP ++ v.2.name)).isSome) →
      d.GenerateTree msvc env parent fs =
        some (mkdirAll msvc fs ((d.visits parent).flatMap (visitAttempts env)))
  | .mk n m, parent, fs, hbuf => by
    by_cases hl : parent.length > 0
    · have hself := hbuf (parent, .mk n m) (visits_self _ _) (List.length_pos.mp hl)
      have hrest : ∀ v ∈ visitsList m (parent ++ SSEP ++ n), v.1 ≠ [] →
          (Directory.ResolveVariablesInPath env (v.1 ++ SSEP ++ v.2.name)).isSome := by
        intro v hv
        apply hbuf v
        simp only [Directory.visits, hl, if_true]
        exact List.mem_cons_of_mem _ hv
      simp only [Directory.name_mk] at hself
      obtain ⟨buf, hb⟩ := Option.isSome_iff_exists.mp hself
      have hatt : visitAttempts env (parent, .mk n m) = createAttempts buf := by
        simp only [visitAttempts, hl, if_true, Directory.name_mk, hb]
      simp only [Directory.GenerateTree, Directory.visits, hl, if_true, hb, List.flatMap_cons,
        hatt]
      rw [mkdirAll_append, ← CreateDirectory_eq]
      cases hc : Directory.CreateDirectory msvc fs buf with
      | mk fs2 r =>
        cases r with
        | error e => simp [exceptionOf]
        | ok c =>
          simp only [exceptionOf]
          exact GenerateTreeList_eq msvc env m (parent ++ SSEP ++ n) fs2 hrest
    · have hrest : ∀ v ∈ visitsList m n, v.1 ≠ [] →
          (Directory.ResolveVariablesInPath env (v.1 ++ SSEP ++ v.2.name)).isSome := by
        intro v hv
        apply hbuf v
        simp only [Directory.visits, hl, if_false]
        exact List.mem_cons_of_mem _ hv
      have hatt : visitAttempts env (parent, .mk n m) = [] := by
        simp only [visitAttempts, hl, if_false]
      simp only [Directory.GenerateTree, Directory.visits, hl, if_false, List.flatMap_cons,
        hatt, List.nil_append]
      exact GenerateTreeList_eq msvc env m n fs hrest
theorem GenerateTreeList_eq (msvc : Bool) (env : Environment) :
    ∀ (m : List (CStr × Directory)) (path : CStr) (fs : FileSystem),
      (∀ v ∈ visitsList m path, v.1 ≠ [] →
        (Directory.ResolveVariablesInPath env (v.1 ++ SSEP ++ v.2.name)).isSome) →
      GenerateTreeList msvc env m path fs =
        some (mkdirAll msvc fs ((visitsList m path).flatMap (visitAttempts env)))
  | [], _, fs, _ => by
    simp only [GenerateTreeList, visitsList, List.flatMap_nil, mkdirAll]
  | (k, c) :: rest, path, fs, hbuf => by
    have h1 : ∀ v ∈ c.visits path, v.1 ≠ [] →
        (Directory.ResolveVariablesInPath env (v.1 ++ SSEP ++ v.2.name)).isSome := by
      intro v hv
      apply hbuf v
      simp only [visitsList, List.mem_append]
      exact Or.inl hv
    have h2 : ∀ v ∈ visitsList rest path, v.1 ≠ [] →
        (Directory.ResolveVariablesInPath env (v.1 ++ SSEP ++ v.2.name)).isSome := by
      intro v hv
      apply hbuf v
      simp only [visitsList, List.mem_append]
      exact Or.inr hv
    simp only [GenerateTreeList, visitsList, List.flatMap_append]
    rw [GenerateTree_eq msvc env c path fs h1, mkdirAll_append]
    cases hm : mkdirAll msvc fs ((c.visits path).flatMap (visitAttempts env)) with
    | mk fs2 r =>
      cases r with
      | some e => rfl
      | none =>
        simp only
        exact GenerateTreeList_eq msvc env rest path fs2 h2
end

theorem parentPath_no_sep (p : CStr) (h : CSEP ∉ p) : parentPath p = none := by
  simp only [parentPath, h, if_false]

theorem parentPath_sep (a t : CStr) (h : CSEP ∉ t) : parentPath (a ++ CSEP :: t) = some a := by
  have hm : CSEP ∈ a ++ CSEP :: t :=
    List.mem_append_right _ (List.mem_cons_self _ _)
  have hrev : (a ++ CSEP :: t).reverse = t.reverse ++ CSEP :: a.reverse := by
    simp only [List.reverse_append, List.reverse_cons, List.append_assoc, List.singleton_append]
  have hdw : (t.reverse ++ CSEP :: a.reverse).dropWhile (fun c => c != CSEP) =
      CSEP :: a.reverse := by
    rw [List.dropWhile_append_of_pos]
    · simp only [List.dropWhile_cons, bne_self_eq_false, Bool.false_eq_true, if_false]
    · intro c hc
      have hc2 : c ≠ CSEP := fun e => h (by rw [← e]; exact List.mem_reverse.mp hc)
      simpa using hc2
  simp only [parentPath, hm, if_true, hrev, hdw, List.drop_succ_cons, List.drop_zero,
    List.reverse_reverse]

theorem dropWhile_sep (l : CStr) (h : CSEP ∈ l) :
    ∃ t r, CSEP ∉ t ∧ l = t ++ CSEP :: r ∧ l.dropWhile (fun c => c != CSEP) = CSEP :: r := by
  induction l with
  | nil => simp at h
  | cons x rest ih =>
    by_cases hx : x = CSEP
    · refine ⟨[], rest, by simp, by simp [hx], ?_⟩
      simp [List.dropWhile_cons, hx]
    · have hr : CSEP ∈ rest := by
        rcases List.mem_cons.mp h with e | e
        · exact absurd e.symm hx
        · exact e
      obtain ⟨t, r, h1, h2, h3⟩ := ih hr
      refine ⟨x :: t, r, ?_, by rw [h2]; rfl, ?_⟩
      · intro hm
        rcases List.mem_cons.mp hm with e | e
        · exact hx e.symm
        · exact h1 e
      · have : (x != CSEP) = true := by simpa using hx
        simp only [List.dropWhile_cons, this, if_true]
        exact h3

theorem parentPath_some (a b : CStr) (h : parentPath b = some a) :
    ∃ t, CSEP ∉ t ∧ b = a ++ CSEP :: t := by
  unfold parentPath at h
  split at h
  · rename_i hm
    obtain ⟨t, r, h1, h2, h3⟩ := dropWhile_sep b.reverse (List.mem_reverse.mpr hm)
    rw [h3] at h
    simp only [List.drop_succ_cons, List.drop_zero, Option.some.injEq] at h
    refine ⟨t.reverse, fun hm2 => h1 (List.mem_reverse.mp hm2), ?_⟩
    have := congrArg List.reverse h2
    rw [List.reverse_reverse] at this
    rw [this, ← h]
    simp only [List.reverse_append, List.reverse_cons, List.append_assoc, List.singleton_append]
  · cases h

theorem pathComponentsFrom_no_sep (t : CStr) (h : CSEP ∉ t) :
    ∀ cur : CStr, pathComponentsFrom cur t = if cur ++ t = [] then [] else [cur ++ t] := by
  induction t with
  | nil => intro cur; simp [pathComponentsFrom]
  | cons c rest ih =>
    intro cur
    have hc : c ≠ CSEP := fun e => h (by rw [e]; exact List.mem_cons_self _ _)
    have hr : CSEP ∉ rest := fun e => h (List.mem_cons_of_mem _ e)
    have k : pathComponentsFrom cur (c :: rest) = pathComponentsFrom (cur ++ [c]) rest := by
      simp only [pathComponentsFrom, hc, if_false]
    rw [k, ih hr (cur ++ [c])]
    simp only [List.append_assoc, List.singleton_append]

theorem pathComponentsFrom_sep (x y : CStr) :
    ∀ cur : CStr, pathComponentsFrom cur (x ++ CSEP :: y) =
      pathComponentsFrom cur x ++ pathComponentsFrom [] y := by
  induction x with
  | nil =>
    intro cur
    by_cases hcur : cur = []
    · simp [pathComponentsFrom, hcur]
    · simp [pathComponentsFrom, hcur]
  | cons c rest ih =>
    intro cur
    by_cases hc : c = CSEP
    · by_cases hcur : cur = []
      · have k : ∀ z, pathComponentsFrom cur (c :: z) = pathComponentsFrom [] z := by
          intro z; simp only [pathComponentsFrom, hc, hcur, if_true]
        rw [List.cons_append, k, k, ih]
      · have k : ∀ z, pathComponentsFrom cur (c :: z) = cur :: pathComponentsFrom [] z := by
          intro z; simp only [pathComponentsFrom, hc, hcur, if_true, if_false]
        rw [List.cons_append, k, k, ih, List.cons_append]
    · have k : ∀ z, pathComponentsFrom cur (c :: z) = pathComponentsFrom (cur ++ [c]) z := by
        intro z; simp only [pathComponentsFrom, hc, if_false]
      rw [List.cons_append, k, k, ih]

theorem FileSystem.kind_isSome_iff (fs : FileSystem) (node : List CStr) :
    (fs.kind node).isSome = true ↔ node = [] ∨ node ∈ fs.nodes.map Prod.fst := by
  unfold FileSystem.kind
  by_cases hn : node = []
  · rw [if_pos hn]
    exact ⟨fun _ => Or.inl hn, fun _ => rfl⟩
  · rw [if_neg hn]
    cases hf : fs.nodes.find? (fun x => decide (x.1 = node)) with
    | none =>
      constructor
      · intro h; cases h
      · rintro (e | e)
        · exact absurd e hn
        · obtain ⟨x, hx, e2⟩ := List.mem_map.mp e
          have := List.find?_eq_none.mp hf x hx
          simp only [decide_eq_true_eq] at this
          exact absurd e2 this
    | some x =>
      constructor
      · intro _
        right
        have h1 := List.find?_some hf
        simp only [decide_eq_true_eq] at h1
        exact List.mem_map.mpr ⟨x, List.mem_of_find?_eq_some hf, h1⟩
      · intro _; rfl

theorem FileSystem.kind_eq_none_iff (fs : FileSystem) (node : List CStr) :
    fs.kind node = none ↔ node ≠ [] ∧ node ∉ fs.nodes.map Prod.fst := by
  have h := FileSystem.kind_isSome_iff fs node
  cases hk : fs.kind node with
  | none =>
    rw [hk] at h
    simp only [Option.isSome_none, Bool.false_eq_true, false_iff, not_or] at h
    simp [h]
  | some k =>
    rw [hk] at h
    simp only [Option.isSome_some, true_iff] at h
    simp only [false_iff, not_and, not_not, reduceCtorEq]
    intro hne
    rcases h with e | e
    · exact absurd e hne
    · exact e

theorem FileSystem.kind_append (fs : FileSystem) (more : List (List CStr × FileKind))
    (node : List CStr) (k : FileKind) (h : fs.kind node = some k) :
    FileSystem.kind { fs with nodes := fs.nodes ++ more } node = some k := by
  unfold FileSystem.kind at h ⊢
  by_cases hn : node = []
  · simpa [hn] using h
  · simp only [hn, if_false] at h ⊢
    rw [List.find?_append]
    cases hf : fs.nodes.find? (fun x => decide (x.1 = node)) with
    | none => rw [hf] at h; simp at h
    | some x => rw [hf] at h; simpa using h

theorem FileSystem.kind_grows (fs fs2 : FileSystem) (hg : fs.grows fs2) (node : List CStr)
    (k : FileKind) (h : fs.kind node = some k) : fs2.kind node = some k := by
  obtain ⟨_, _, more, hm⟩ := hg
  have := FileSystem.kind_append fs more node k h
  unfold FileSystem.kind at this ⊢
  rw [← hm]
  exact this

theorem FileSystem.grows_refl (fs : FileSystem) : fs.grows fs :=
  ⟨rfl, rfl, List.prefix_refl _⟩

theorem FileSystem.grows_trans (a b c : FileSystem) (h1 : a.grows b) (h2 : b.grows c) :
    a.grows c :=
  ⟨h2.1.trans h1.1, h2.2.1.trans h1.2.1, h1.2.2.trans h2.2.2⟩

theorem FileSystem.step_grows (fs fs2 : FileSystem) (hg : fs.grows fs2) (cur : List CStr)
    (c : CStr) (next : List CStr) (h : fs.step cur c = .ok next) :
    fs2.step cur c = .ok next := by
  unfold FileSystem.step at h ⊢
  cases hk : fs.kind cur with
  | none => rw [hk] at h; cases h
  | some k =>
    rw [FileSystem.kind_grows fs fs2 hg cur k hk]
    rw [hk] at h
    exact h

theorem FileSystem.walk_cons_ok (fs : FileSystem) (cur : List CStr) (c : CStr)
    (rest next : List CStr) (h : fs.step cur c = .ok next) :
    fs.walk cur (c :: rest) = fs.walk next rest := by
  simp only [FileSystem.walk, h]

theorem FileSystem.walk_cons_inv (fs : FileSystem) (cur : List CStr) (c : CStr)
    (rest node : List CStr) (h : fs.walk cur (c :: rest) = .ok node) :
    ∃ next, fs.step cur c = .ok next ∧ fs.walk next rest = .ok node := by
  cases hs : fs.step cur c with
  | error e => simp only [FileSystem.walk, hs] at h; cases h
  | ok next => exact ⟨next, rfl, by rw [← h, FileSystem.walk_cons_ok fs cur c rest next hs]⟩

theorem FileSystem.walk_grows (fs fs2 : FileSystem) (hg : fs.grows fs2) (comps : List CStr) :
    ∀ (cur node : List CStr), fs.walk cur comps = .ok node → fs2.walk cur comps = .ok node := by
  induction comps with
  | nil => intro cur node h; exact h
  | cons c rest ih =>
    intro cur node h
    obtain ⟨next, hs, hw⟩ := FileSystem.walk_cons_inv fs cur c rest node h
    rw [FileSystem.walk_cons_ok fs2 cur c rest next
      (FileSystem.step_grows fs fs2 hg cur c next hs)]
    exact ih next node hw

theorem FileSystem.resolve_grows (fs fs2 : FileSystem) (hg : fs.grows fs2) (path : CStr)
    (node : List CStr) (h : fs.resolve path = .ok node) : fs2.resolve path = .ok node := by
  unfold FileSystem.resolve at h ⊢
  by_cases hp : path = []
  · simp [hp] at h
  · simp only [hp, if_false] at h ⊢
    rw [hg.1]
    exact FileSystem.walk_grows fs fs2 hg _ _ _ h

theorem FileSystem.opendir_iff (fs : FileSystem) (path : CStr) :
    fs.opendir path = true ↔
      ∃ node, fs.resolve path = .ok node ∧ fs.kind node = some FileKind.directory := by
  unfold FileSystem.opendir
  cases hr : fs.resolve path with
  | error e => simp
  | ok node => simp

theorem FileSystem.opendir_grows (fs fs2 : FileSystem) (hg : fs.grows fs2) (path : CStr)
    (h : fs.opendir path = true) : fs2.opendir path = true := by
  rw [FileSystem.opendir_iff] at h ⊢
  obtain ⟨node, h1, h2⟩ := h
  exact ⟨node, FileSystem.resolve_grows fs fs2 hg path node h1,
    FileSystem.kind_grows fs fs2 hg node _ h2⟩

theorem FileSystem.walk_append (fs : FileSystem) (a b : List CStr) :
    ∀ (cur mid : List CStr), fs.walk cur a = .ok mid → fs.walk cur (a ++ b) = fs.walk mid b := by
  induction a with
  | nil =>
    intro cur mid h
    simp only [FileSystem.walk, Except.ok.injEq] at h
    rw [List.nil_append, h]
  | cons c rest ih =>
    intro cur mid h
    obtain ⟨next, hs, hw⟩ := FileSystem.walk_cons_inv fs cur c rest mid h
    rw [List.cons_append, FileSystem.walk_cons_ok fs cur c _ next hs]
    exact ih next mid hw

theorem FileSystem.step_ok (fs : FileSystem) (cur : List CStr) (c : CStr) (next : List CStr)
    (h : fs.step cur c = .ok next) :
    (fs.kind cur).isSome = true ∧
      (next = cur ∨ next = cur.dropLast ∨ next = cur ++ [c]) := by
  unfold FileSystem.step at h
  cases hk : fs.kind cur with
  | none => rw [hk] at h; cases h
  | some k =>
    rw [hk] at h
    refine ⟨rfl, ?_⟩
    cases k with
    | file => cases h
    | directory =>
      simp only at h
      split at h
      · exact Or.inl (Except.ok.inj h).symm
      · split at h
        · exact Or.inr (Or.inl (Except.ok.inj h).symm)
        · exact Or.inr (Or.inr (Except.ok.inj h).symm)
    | closedDirectory =>
      simp only at h
      split at h
      · exact Or.inl (Except.ok.inj h).symm
      · split at h
        · exact Or.inr (Or.inl (Except.ok.inj h).symm)
        · exact Or.inr (Or.inr (Except.ok.inj h).symm)

theorem FileSystem.step_directory (fs : FileSystem) (cur : List CStr) (c : CStr)
    (h : fs.kind cur = some FileKind.directory) : ∃ next, fs.step cur c = .ok next := by
  unfold FileSystem.step
  rw [h]
  simp only
  split
  · exact ⟨_, rfl⟩
  · split
    · exact ⟨_, rfl⟩
    · exact ⟨_, rfl⟩

theorem FileSystem.inOrder_kind (fs : FileSystem) (h : fs.inOrder) (node : List CStr)
    (k : FileKind) (hk : fs.kind node = some k) : k = FileKind.directory := by
  unfold FileSystem.kind at hk
  by_cases hn : node = []
  · simp only [hn, if_true, Option.some.injEq] at hk
    exact hk.symm
  · simp only [hn, if_false] at hk
    cases hf : fs.nodes.find? (fun x => decide (x.1 = node)) with
    | none => rw [hf] at hk; simp at hk
    | some x =>
      rw [hf] at hk
      simp only [Option.map_some', Option.some.injEq] at hk
      rw [← hk]
      exact h.2.1 x (List.mem_of_find?_eq_some hf)

theorem FileSystem.inOrder_parent (fs : FileSystem) (h : fs.inOrder) (node : List CStr)
    (hk : (fs.kind node).isSome = true) : (fs.kind node.dropLast).isSome = true := by
  rw [FileSystem.kind_isSome_iff] at hk ⊢
  rcases hk with e | e
  · left; rw [e]; rfl
  · obtain ⟨x, hx, e2⟩ := List.mem_map.mp e
    obtain ⟨pre, post, hsplit⟩ := List.append_of_mem hx
    rcases h.2.2.1 pre x post hsplit with e3 | e3
    · left; rw [← e2]; exact e3
    · right
      rw [← e2, hsplit, List.map_append]
      exact List.mem_append_left _ e3

theorem FileSystem.walk_new (fs : FileSystem) (h : fs.inOrder) (comps : List CStr) :
    ∀ (cur node : List CStr), (fs.kind cur).isSome = true → fs.walk cur comps = .ok node →
      fs.kind node = none → (fs.kind node.dropLast).isSome = true := by
  induction comps with
  | nil =>
    intro cur node hc hw hn
    simp only [FileSystem.walk, Except.ok.injEq] at hw
    rw [hw, hn] at hc
    cases hc
  | cons c rest ih =>
    intro cur node hc hw hn
    obtain ⟨next, hs, hw2⟩ := FileSystem.walk_cons_inv fs cur c rest node hw
    obtain ⟨_, hnext⟩ := FileSystem.step_ok fs cur c next hs
    cases rest with
    | nil =>
      simp only [FileSystem.walk, Except.ok.injEq] at hw2
      rw [← hw2] at hn ⊢
      rcases hnext with e | e | e
      · rw [← e, hn] at hc; cases hc
      · have := FileSystem.inOrder_parent fs h cur hc
        rw [← e, hn] at this
        cases this
      · rw [e, List.dropLast_concat]
        exact hc
    | cons c2 r =>
      obtain ⟨n2, hs2, _⟩ := FileSystem.walk_cons_inv fs next c2 r node hw2
      exact ih next node (FileSystem.step_ok fs next c2 n2 hs2).1 hw2 hn

theorem FileSystem.resolve_new (fs : FileSystem) (h : fs.inOrder) (path : CStr)
    (node : List CStr) (hr : fs.resolve path = .ok node) (hn : fs.kind node = none) :
    (fs.kind node.dropLast).isSome = true := by
  unfold FileSystem.resolve at hr
  by_cases hp : path = []
  · simp [hp] at hr
  · simp only [hp, if_false] at hr
    refine FileSystem.walk_new fs h _ _ node ?_ hr hn
    split
    · rfl
    · rw [h.1]; rfl

theorem FileSystem.add_grows (fs : FileSystem) (node : List CStr) : fs.grows (fs.add node) := by
  unfold FileSystem.add
  split
  · exact FileSystem.grows_refl fs
  · exact ⟨rfl, rfl, List.prefix_append _ _⟩

theorem FileSystem.add_of_some (fs : FileSystem) (node : List CStr)
    (h : (fs.kind node).isSome = true) : fs.add node = fs := by
  simp only [FileSystem.add, h, if_true]

theorem FileSystem.add_of_none (fs : FileSystem) (node : List CStr) (h : fs.kind node = none) :
    fs.add node = { fs with nodes := fs.nodes ++ [(node, FileKind.directory)] } := by
  simp only [FileSystem.add, h, Option.isSome_none, Bool.false_eq_true, if_false]

theorem FileSystem.add_kind (fs : FileSystem) (h : fs.inOrder) (node : List CStr) :
    (fs.add node).kind node = some FileKind.directory := by
  cases hk : fs.kind node with
  | some k =>
    rw [FileSystem.add_of_some fs node (by rw [hk]; rfl), hk,
      FileSystem.inOrder_kind fs h node k hk]
  | none =>
    rw [FileSystem.add_of_none fs node hk]
    have hne := ((FileSystem.kind_eq_none_iff fs node).mp hk).1
    unfold FileSystem.kind at hk ⊢
    rw [if_neg hne] at hk ⊢
    have hf : fs.nodes.find? (fun x => decide (x.1 = node)) = none := by
      cases hf : fs.nodes.find? (fun x => decide (x.1 = node)) with
      | none => rfl
      | some x => rw [hf] at hk; cases hk
    simp only [List.find?_append, hf, Option.none_or, List.find?_cons, decide_True,
      Option.map_some']

theorem FileSystem.mem_add (fs : FileSystem) (node : List CStr) (x : List CStr × FileKind)
    (h : x ∈ (fs.add node).nodes) : x ∈ fs.nodes ∨ x = (node, FileKind.directory) := by
  unfold FileSystem.add at h
  split at h
  · exact Or.inl h
  · simp only [List.mem_append, List.mem_singleton] at h
    exact h

theorem FileSystem.add_nodup (fs : FileSystem) (node : List CStr)
    (h : (fs.nodes.map Prod.fst).Nodup) : ((fs.add node).nodes.map Prod.fst).Nodup := by
  cases hk : fs.kind node with
  | some k => rw [FileSystem.add_of_some fs node (by rw [hk]; rfl)]; exact h
  | none =>
    rw [FileSystem.add_of_none fs node hk]
    have hnot := ((FileSystem.kind_eq_none_iff fs node).mp hk).2
    simp only [List.map_append, List.map_cons, List.map_nil]
    rw [List.nodup_append]
    refine ⟨h, List.nodup_singleton _, ?_⟩
    intro a ha hb
    rw [List.mem_singleton] at hb
    exact hnot (hb ▸ ha)

theorem FileSystem.add_inOrder (fs : FileSystem) (h : fs.inOrder) (node : List CStr)
    (hpar : fs.kind node = none → (fs.kind node.dropLast).isSome = true) :
    (fs.add node).inOrder := by
  cases hk : fs.kind node with
  | some k => rw [FileSystem.add_of_some fs node (by rw [hk]; rfl)]; exact h
  | none =>
    rw [FileSystem.add_of_none fs node hk]
    refine ⟨FileSystem.kind_append fs _ _ _ h.1, ?_, ?_, h.2.2.2⟩
    · intro x hx
      simp only [List.mem_append, List.mem_singleton] at hx
      rcases hx with e | e
      · exact h.2.1 x e
      · rw [e]
    · intro pre x post hsplit
      simp only at hsplit
      rcases List.eq_nil_or_concat post with e | ⟨post2, y, e⟩
      · subst e
        have hl : pre ++ [x] = fs.nodes ++ [(node, FileKind.directory)] := hsplit.symm
        have := List.append_inj' hl rfl
        rw [this.1, List.singleton_inj.mp this.2]
        exact (FileSystem.kind_isSome_iff fs _).mp (hpar hk)
      · subst e
        have hl : (pre ++ x :: post2) ++ [y] = fs.nodes ++ [(node, FileKind.directory)] := by
          rw [hsplit]
          simp only [List.concat_eq_append, List.append_assoc, List.cons_append]
        have := List.append_inj' hl rfl
        exact h.2.2.1 pre x post2 this.1.symm

theorem mkdir_p_inOrder (msvc : Bool) (fs : FileSystem) (h : fs.inOrder) (p : CStr)
    (node : List CStr) (hr : fs.resolve p = .ok node) :
    ∃ b, Directory.mkdir_p msvc fs p = (fs.add node, .ok b) := by
  cases hk : fs.kind node with
  | some k =>
    have hkd := FileSystem.inOrder_kind fs h node k hk
    subst hkd
    have hop : fs.opendir p = true := (FileSystem.opendir_iff fs p).mpr ⟨node, hr, hk⟩
    rw [FileSystem.add_of_some fs node (by rw [hk]; rfl)]
    cases msvc
    · exact ⟨false, by simp only [Directory.mkdir_p, hop, Bool.not_false, Bool.and_self, if_true]⟩
    · refine ⟨false, ?_⟩
      have hm : fs.MKDIR p = (fs, some Errno.EEXIST) := by
        simp only [FileSystem.MKDIR, hr, hk, Option.isSome_some, if_true]
      simp only [Directory.mkdir_p, hm, Bool.not_true, Bool.false_and, Bool.false_eq_true,
        if_false, decide_True, Bool.and_self, if_true]
  | none =>
    have hop : fs.opendir p = false := by
      cases ho : fs.opendir p with
      | false => rfl
      | true =>
        obtain ⟨n2, h1, h2⟩ := (FileSystem.opendir_iff fs p).mp ho
        rw [hr] at h1
        rw [← Except.ok.inj h1, hk] at h2
        cases h2
    have hm : fs.MKDIR p =
        ({ fs with nodes := fs.nodes ++ [(node, FileKind.directory)] }, none) := by
      simp only [FileSystem.MKDIR, hr, hk, Option.isSome_none, Bool.false_eq_true, if_false,
        h.2.2.2 node]
    rw [FileSystem.add_of_none fs node hk]
    refine ⟨true, ?_⟩
    cases msvc
    · simp only [Directory.mkdir_p, hop, hm, Bool.not_false, Bool.and_false, Bool.false_eq_true,
        if_false]
    · simp only [Directory.mkdir_p, hm, Bool.not_true, Bool.false_and, Bool.false_eq_true,
        if_false]

theorem FileSystem.walk_name (fs : FileSystem) (cur : List CStr) (t : CStr)
    (h : fs.kind cur = some FileKind.directory) :
    ∃ node, fs.walk cur (pathComponentsFrom [] t) = .ok node ∨ CSEP ∈ t := by
  by_cases ht : CSEP ∈ t
  · exact ⟨[], Or.inr ht⟩
  · rw [pathComponentsFrom_no_sep t ht []]
    by_cases he : [] ++ t = []
    · rw [if_pos he]
      exact ⟨cur, Or.inl rfl⟩
    · rw [if_neg he]
      obtain ⟨next, hs⟩ := FileSystem.step_directory fs cur ([] ++ t) h
      exact ⟨next, Or.inl (by rw [FileSystem.walk_cons_ok fs cur _ [] next hs]; rfl)⟩

theorem FileSystem.resolve_first (fs : FileSystem) (h : fs.inOrder) (p : CStr) (hp : p ≠ [])
    (hpar : parentPath p = none ∨ parentPath p = some []) : ∃ node, fs.resolve p = .ok node := by
  unfold FileSystem.resolve
  rw [if_neg hp]
  rcases hpar with e | e
  · have hns : CSEP ∉ p := by
      intro hm
      simp only [parentPath, hm, if_true] at e
      cases e
    have hhead : ¬ (p.head? = some CSEP) := by
      intro hh
      cases p with
      | nil => exact hp rfl
      | cons x xs =>
        simp only [List.head?_cons, Option.some.injEq] at hh
        exact hns (by rw [hh]; exact List.mem_cons_self _ _)
    rw [if_neg hhead]
    obtain ⟨node, hn | hn⟩ := FileSystem.walk_name fs fs.cwd p h.1
    · exact ⟨node, hn⟩
    · exact absurd hn hns
  · obtain ⟨t, ht, hb⟩ := parentPath_some [] p e
    rw [List.nil_append] at hb
    subst hb
    simp only [List.head?_cons, if_true, pathComponents]
    have := pathComponentsFrom_sep [] t []
    rw [List.nil_append] at this
    rw [this]
    have h0 : pathComponentsFrom [] ([] : CStr) = [] := rfl
    rw [h0, List.nil_append]
    obtain ⟨node, hn | hn⟩ := FileSystem.walk_name fs [] t rfl
    · exact ⟨node, hn⟩
    · exact absurd hn ht

theorem FileSystem.resolve_next (fs : FileSystem) (a t : CStr) (ha : fs.opendir a = true)
    (ht : CSEP ∉ t) : ∃ node, fs.resolve (a ++ CSEP :: t) = .ok node := by
  obtain ⟨na, hr, hk⟩ := (FileSystem.opendir_iff fs a).mp ha
  unfold FileSystem.resolve at hr ⊢
  by_cases hp : a = []
  · simp [hp] at hr
  · rw [if_neg hp] at hr
    have hne : a ++ CSEP :: t ≠ [] := by simp
    have hhead : (a ++ CSEP :: t).head? = a.head? := by
      cases a with
      | nil => exact absurd rfl hp
      | cons x xs => rfl
    rw [if_neg hne, hhead]
    simp only [pathComponents] at hr ⊢
    rw [pathComponentsFrom_sep a t [], FileSystem.walk_append fs _ _ _ na hr]
    obtain ⟨node, hn | hn⟩ := FileSystem.walk_name fs na t hk
    · exact ⟨node, hn⟩
    · exact absurd hn ht

theorem FileSystem.madeFrom_nil (fs : FileSystem) (h : fs.inOrder) : fs.madeFrom fs [] :=
  ⟨h, FileSystem.grows_refl fs, fun hn => hn, fun _ hq => absurd hq (List.not_mem_nil _),
    fun _ hx => Or.inl hx⟩

theorem FileSystem.madeFrom_append (fs fs1 fs2 : FileSystem) (a b : List CStr)
    (h1 : fs1.madeFrom fs a) (h2 : fs2.madeFrom fs1 b) : fs2.madeFrom fs (a ++ b) := by
  obtain ⟨_, g1, n1, o1, m1⟩ := h1
  obtain ⟨i2, g2, n2, o2, m2⟩ := h2
  refine ⟨i2, FileSystem.grows_trans fs fs1 fs2 g1 g2, fun hn => n2 (n1 hn), ?_, ?_⟩
  · intro q hq
    rcases List.mem_append.mp hq with e | e
    · exact FileSystem.opendir_grows fs1 fs2 g2 q (o1 q e)
    · exact o2 q e
  · intro x hx
    rcases m2 x hx with e | ⟨q, hq, e⟩
    · rcases m1 x e with e2 | ⟨q, hq, e2⟩
      · exact Or.inl e2
      · exact Or.inr ⟨q, List.mem_append_left _ hq,
          FileSystem.resolve_grows fs1 fs2 g2 q _ e2⟩
    · exact Or.inr ⟨q, List.mem_append_right _ hq, e⟩

theorem FileSystem.madeFrom_add (fs : FileSystem) (h : fs.inOrder) (p : CStr)
    (node : List CStr) (hr : fs.resolve p = .ok node) : (fs.add node).madeFrom fs [p] := by
  have hg := FileSystem.add_grows fs node
  have hr2 := FileSystem.resolve_grows fs (fs.add node) hg p node hr
  refine ⟨FileSystem.add_inOrder fs h node (FileSystem.resolve_new fs h p node hr), hg,
    FileSystem.add_nodup fs node, ?_, ?_⟩
  · intro q hq
    rw [List.mem_singleton] at hq
    rw [hq]
    exact (FileSystem.opendir_iff _ p).mpr ⟨node, hr2, FileSystem.add_kind fs h node⟩
  · intro x hx
    rcases FileSystem.mem_add fs node x hx with e | e
    · exact Or.inl e
    · exact Or.inr ⟨p, List.mem_singleton.mpr rfl, by rw [e]; exact hr2⟩

theorem mkdirAll_chain (msvc : Bool) (l : List CStr) :
    ∀ (fs : FileSystem), fs.inOrder →
      List.Chain' (fun a b => parentPath b = some a) l →
      (∀ h ∈ l.head?, ∃ node, fs.resolve h = .ok node) →
      ∃ fs2, mkdirAll msvc fs l = (fs2, none) ∧ fs2.madeFrom fs l := by
  induction l with
  | nil => intro fs h _ _; exact ⟨fs, rfl, FileSystem.madeFrom_nil fs h⟩
  | cons p rest ih =>
    intro fs h hch hhead
    obtain ⟨node, hr⟩ := hhead p (by simp)
    obtain ⟨b, hb⟩ := mkdir_p_inOrder msvc fs h p node hr
    have m1 := FileSystem.madeFrom_add fs h p node hr
    rw [List.chain'_cons'] at hch
    obtain ⟨fs2, hrun, m2⟩ := ih (fs.add node) m1.1 hch.2 (by
      intro q hq
      obtain ⟨t, ht, e⟩ := parentPath_some p q (hch.1 q hq)
      rw [e]
      exact FileSystem.resolve_next _ p t (m1.2.2.2.1 p (List.mem_singleton.mpr rfl)) ht)
    refine ⟨fs2, ?_, FileSystem.madeFrom_append fs _ fs2 [p] rest m1 m2⟩
    simp only [mkdirAll, hb]
    exact hrun

theorem mkdirAll_blocks {α : Type} (msvc : Bool) (f : α → List CStr) (vs : List α)
    (hgood : ∀ v ∈ vs, List.Chain' (fun a b => parentPath b = some a) (f v) ∧
      (∀ p ∈ f v, p ≠ []) ∧
      ∀ h ∈ (f v).head?, parentPath h = none ∨ parentPath h = some []) :
    ∀ (fs : FileSystem), fs.inOrder →
      ∃ fs2, mkdirAll msvc fs (vs.flatMap f) = (fs2, none) ∧ fs2.madeFrom fs (vs.flatMap f) := by
  induction vs with
  | nil => intro fs h; exact ⟨fs, rfl, FileSystem.madeFrom_nil fs h⟩
  | cons v rest ih =>
    intro fs h
    obtain ⟨h1, h2, h3⟩ := hgood v (List.mem_cons_self _ _)
    obtain ⟨fs1, hrun1, m1⟩ := mkdirAll_chain msvc (f v) fs h h1 (by
      intro q hq
      have hmem : q ∈ f v := List.mem_of_mem_head? hq
      exact FileSystem.resolve_first fs h q (h2 q hmem) (h3 q hq))
    obtain ⟨fs2, hrun2, m2⟩ := ih (fun w hw => hgood w (List.mem_cons_of_mem _ hw)) fs1 m1.1
    refine ⟨fs2, ?_, FileSystem.madeFrom_append fs fs1 fs2 _ _ m1 m2⟩
    rw [List.flatMap_cons, mkdirAll_append, hrun1]
    exact hrun2

theorem FileSystem.empty_inOrder : FileSystem.empty.inOrder := by
  refine ⟨rfl, fun x hx => absurd hx (List.not_mem_nil _), ?_, fun _ => rfl⟩
  intro pre x post h
  have : (FileSystem.empty.nodes).length = (pre ++ x :: post).length := by rw [h]
  simp only [FileSystem.empty, List.length_nil, List.length_append, List.length_cons] at this
  omega

theorem prefixesFrom_chain (rest : CStr) :
    ∀ (pre : CStr),
      List.Chain' (fun a b => parentPath b = some a) (prefixesFrom pre rest) ∧
      (prefixesFrom pre rest).head? = some (pre ++ rest.takeWhile (fun x => x != CSEP)) ∧
      (pre ≠ [] → ∀ p ∈ prefixesFrom pre rest, p ≠ []) ∧
      pre ++ rest ∈ prefixesFrom pre rest := by
  induction rest with
  | nil =>
    intro pre
    refine ⟨by simp [prefixesFrom], by simp [prefixesFrom], ?_, by simp [prefixesFrom]⟩
    intro hp p hm
    simp only [prefixesFrom, List.mem_singleton] at hm
    rw [hm]; exact hp
  | cons c rest ih =>
    intro pre
    obtain ⟨i1, i2, i3, i4⟩ := ih (pre ++ [c])
    by_cases hc : c = CSEP
    · have hl : prefixesFrom pre (c :: rest) = pre :: prefixesFrom (pre ++ [c]) rest := by
        simp only [prefixesFrom, hc, if_true]
      rw [hl]
      refine ⟨?_, ?_, ?_, ?_⟩
      · rw [List.chain'_cons']
        refine ⟨?_, i1⟩
        intro y hy
        rw [i2] at hy
        simp only [Option.mem_def, Option.some.injEq] at hy
        rw [← hy, hc, List.append_assoc, List.singleton_append]
        apply parentPath_sep
        intro hmem
        have := List.mem_takeWhile_imp hmem
        simp at this
      · simp [hc]
      · intro hp p hm
        rcases List.mem_cons.mp hm with e | e
        · rw [e]; exact hp
        · exact i3 (by simp) p e
      · apply List.mem_cons_of_mem
        simpa using i4
    · have hl : prefixesFrom pre (c :: rest) = prefixesFrom (pre ++ [c]) rest := by
        simp only [prefixesFrom, hc, if_false]
      rw [hl]
      refine ⟨i1, ?_, fun _ => i3 (by simp), by simpa using i4⟩
      rw [i2]
      have : (c != CSEP) = true := by simpa using hc
      simp [List.takeWhile_cons, this]

theorem createAttempts_good (path : CStr) :
    List.Chain' (fun a b => parentPath b = some a) (createAttempts path) ∧
    (∀ p ∈ createAttempts path, p ≠ []) ∧
    ∀ h ∈ (createAttempts path).head?, parentPath h = none ∨ parentPath h = some [] := by
  unfold createAttempts
  generalize (if Directory.hasDrive path then stringFindChar path CSEP 3
    else stringFindChar path CSEP 0).isSome = started
  cases started
  · simp
  · simp only [if_true]
    cases path with
    | nil => simp
    | cons c rest =>
      obtain ⟨i1, i2, i3, _⟩ := prefixesFrom_chain rest [c]
      refine ⟨i1, i3 (by simp), ?_⟩
      intro h hh
      simp only [i2, Option.mem_def, Option.some.injEq] at hh
      rw [← hh]
      have hns : CSEP ∉ rest.takeWhile (fun x => x != CSEP) := by
        intro hmem
        have := List.mem_takeWhile_imp hmem
        simp at this
      by_cases hc : c = CSEP
      · right
        rw [hc]
        exact parentPath_sep [] _ hns
      · left
        apply parentPath_no_sep
        intro hmem
        rcases List.mem_append.mp hmem with e | e
        · exact hc (List.mem_singleton.mp e).symm
        · exact hns e

theorem visitAttempts_good (env : Environment) (v : CStr × Directory) :
    List.Chain' (fun a b => parentPath b = some a) (visitAttempts env v) ∧
    (∀ p ∈ visitAttempts env v, p ≠ []) ∧
    ∀ h ∈ (visitAttempts env v).head?, parentPath h = none ∨ parentPath h = some [] := by
  unfold visitAttempts
  split
  · split
    · simp
    · exact createAttempts_good _
  · simp

theorem ReplaceVariable_mem (name value path : CStr) (c : Char) (hc : c ∈ path)
    (hn : c ∉ name) : c ∈ Directory.ReplaceVariable name value path := by
  unfold Directory.ReplaceVariable
  cases hf : stringFind path name with
  | none => exact hc
  | some i =>
    obtain ⟨e1, _⟩ := stringFind_some path name i hf
    simp only [stringReplace]
    rw [e1] at hc
    simp only [List.mem_append] at hc ⊢
    rcases hc with (h | h) | h
    · exact Or.inl (Or.inl h)
    · exact absurd h hn
    · exact Or.inr h

theorem ResolveVariablesInPath_sep (env : Environment) (path r : CStr) (hc : CSEP ∈ path)
    (h : Directory.ResolveVariablesInPath env path = some r) : CSEP ∈ r := by
  unfold Directory.ResolveVariablesInPath at h
  simp only at h
  split at h
  · rw [← Option.some.inj h]
    apply ReplaceVariable_mem _ _ _ _ _ (by decide)
    apply ReplaceVariable_mem _ _ _ _ _ (by decide)
    exact ReplaceVariable_mem _ _ _ _ hc (by decide)
  · cases h

theorem createAttempts_self (path : CStr) (hc : CSEP ∈ path)
    (hd : Directory.hasDrive path = false) : path ∈ createAttempts path := by
  have hsome : (stringFindChar path CSEP 0).isSome = true := by
    cases hf : stringFindChar path CSEP 0 with
    | none =>
      have := (stringFindChar_none path CSEP 0).mp hf
      exact absurd hc (by simpa using this)
    | some n => rfl
  unfold createAttempts
  simp only [hd, Bool.false_eq_true, if_false, hsome, if_true]
  cases path with
  | nil => simp at hc
  | cons c rest => exact (prefixesFrom_chain rest [c]).2.2.2

theorem prefixesFrom_getLast (rest : CStr) :
    ∀ (pre : CStr), (prefixesFrom pre rest).getLast? = some (pre ++ rest) := by
  induction rest with
  | nil => intro pre; simp [prefixesFrom]
  | cons c rest ih =>
    intro pre
    by_cases hc : c = CSEP
    · have hl : prefixesFrom pre (c :: rest) = pre :: prefixesFrom (pre ++ [c]) rest := by
        simp only [prefixesFrom, hc, if_true]
      rw [hl]
      have hh := (prefixesFrom_chain rest (pre ++ [c])).2.1
      cases hp : prefixesFrom (pre ++ [c]) rest with
      | nil => rw [hp] at hh; simp at hh
      | cons y ys =>
        rw [List.getLast?_cons_cons, ← hp, ih]
        simp
    · have hl : prefixesFrom pre (c :: rest) = prefixesFrom (pre ++ [c]) rest := by
        simp only [prefixesFrom, hc, if_false]
      rw [hl, ih]
      simp

theorem createAttempts_getLast (path : CStr) (hc : CSEP ∈ path)
    (hd : Directory.hasDrive path = false) : (createAttempts path).getLast? = some path := by
  have hsome : (stringFindChar path CSEP 0).isSome = true := by
    cases hf : stringFindChar path CSEP 0 with
    | none =>
      have := (stringFindChar_none path CSEP 0).mp hf
      exact absurd hc (by simpa using this)
    | some n => rfl
  unfold createAttempts
  simp only [hd, Bool.false_eq_true, if_false, hsome, if_true]
  cases path with
  | nil => simp at hc
  | cons c rest => exact prefixesFrom_getLast rest [c]

/-! ## Claims on the directories on disk -/

/-- C24: `ReplaceVariable` is a literal first-match replacement: when `name`
does not occur in `path` the result is `path`; otherwise `path` is cut at the
leftmost occurrence of `name` into what stands before it and what stands
behind it, and the result is the first part, `value` and the second part,
both parts as they were. `ResolveVariablesInPath` applies it for the three
root placeholders in turn. -/
theorem Directory.ReplaceVariable_first_match (name value path : CStr) :
    (¬ name <:+: path → Directory.ReplaceVariable name value path = path) ∧
    (name <:+: path → ∃ pre post, path = pre ++ name ++ post ∧
      (∀ pre2 post2, path = pre2 ++ name ++ post2 → pre.length ≤ pre2.length) ∧
      Directory.ReplaceVariable name value path = pre ++ value ++ post) ∧
    ∀ env s, Directory.ResolveVariablesInPath env path = some s →
      s = Directory.ReplaceVariable "$(INSTALL)".toList env.GetInstallPath
        (Directory.ReplaceVariable "$(OUTPUT)".toList env.GetOutputPath
          (Directory.ReplaceVariable "$(INTERMEDIATE)".toList env.GetIntermediatePath path)) := by
  refine ⟨?_, ?_, ?_⟩
  · intro h
    have := (stringFind_none path name).mpr h
    simp [Directory.ReplaceVariable, this]
  · intro h
    cases hf : stringFind path name with
    | none => exact absurd h ((stringFind_none path name).mp hf)
    | some i =>
      obtain ⟨e1, e2⟩ := stringFind_some path name i hf
      exact ⟨path.take i, path.drop (i + name.length), e1, fun pre2 post2 hp => by
        have h1 := e2 pre2 post2 hp
        have h2 := List.length_take_le i path
        omega, by simp [Directory.ReplaceVariable, hf, stringReplace]⟩
  · intro env s h
    unfold Directory.ResolveVariablesInPath at h
    simp only at h
    split at h
    · exact (Option.some.inj h).symm
    · cases h

/-- C24, witness: only the first of two occurrences is replaced. -/
theorem Directory.ReplaceVariable_first_match_witness :
    Directory.ReplaceVariable "$(OUTPUT)".toList "output-i386".toList
      "$(OUTPUT)/lib/$(OUTPUT)".toList = "output-i386/lib/$(OUTPUT)".toList ∧
    ∃ pre post, "$(OUTPUT)/lib/$(OUTPUT)".toList = pre ++ "$(OUTPUT)".toList ++ post ∧
      (∀ pre2 post2, "$(OUTPUT)/lib/$(OUTPUT)".toList = pre2 ++ "$(OUTPUT)".toList ++ post2 →
        pre.length ≤ pre2.length) ∧
      Directory.ReplaceVariable "$(OUTPUT)".toList "output-i386".toList
        "$(OUTPUT)/lib/$(OUTPUT)".toList = pre ++ "output-i386".toList ++ post :=
  ⟨by decide,
   (Directory.ReplaceVariable_first_match "$(OUTPUT)".toList "output-i386".toList
      "$(OUTPUT)/lib/$(OUTPUT)".toList).2.1 ⟨[], "/lib/$(OUTPUT)".toList, by decide⟩⟩

/-- C25, the claim as it is written fails in both builds. Without `_MSC_VER`,
for a directory `obj` that exists and that the process may not read, `opendir`
gives `NULL`, `mkdir` fails with `EEXIST`, and `mkdir_p` throws
AccessDeniedException: the existing directory is not taken for success. With
`_MSC_VER`, for a plain file `obj`, `mkdir` fails with `EEXIST` and `mkdir_p`
returns false and throws nothing, though no directory stands there. -/
theorem Directory.mkdir_p_existing_not_success :
    FileSystem.kind (FileSystem.withObj FileKind.closedDirectory) ["obj".toList] =
      some FileKind.closedDirectory ∧
    (Directory.mkdir_p false
        (FileSystem.withObj FileKind.closedDirectory) "obj".toList).2 =
      .error (Exception.AccessDeniedException "obj".toList) ∧
    (FileSystem.MKDIR (FileSystem.withObj FileKind.file) "obj".toList).2 = some Errno.EEXIST ∧
    (Directory.mkdir_p true
        (FileSystem.withObj FileKind.file) "obj".toList).2 = .ok false ∧
    (Directory.mkdir_p true
        (FileSystem.withObj FileKind.file) "obj".toList).1.nodes =
      [(["obj".toList], FileKind.file)] :=
  ⟨rfl, rfl, rfl, rfl, rfl⟩

/-- C25, amended: over the file system model, in both builds `mkdir_p` returns
false and leaves the file system as it was when the path names, under
whatever spelling, a directory that exists and can be opened, and it returns
true when `mkdir` creates the directory, which is then the newest node, at a
place where nothing was. When `mkdir` fails, the file system stays as it was:
the build without `_MSC_VER` throws AccessDeniedException for the path
whatever the `errno`, so also for a directory that cannot be opened and for a
plain file; the build with `_MSC_VER` returns false for `EEXIST`, which is the
`errno` exactly when anything exists at the place the path names, and throws
AccessDeniedException for every other `errno`. -/
theorem Directory.mkdir_p_outcomes (msvc : Bool) (fs : FileSystem) (path : CStr) :
    (fs.opendir path = true → Directory.mkdir_p msvc fs path = (fs, .ok false)) ∧
    ((fs.MKDIR path).2 = none →
      Directory.mkdir_p msvc fs path = ((fs.MKDIR path).1, .ok true) ∧
      ∃ node, fs.resolve path = .ok node ∧ fs.kind node = none ∧
        (fs.MKDIR path).1.nodes = fs.nodes ++ [(node, FileKind.directory)]) ∧
    (fs.opendir path = false → ∀ errno, (fs.MKDIR path).2 = some errno →
      Directory.mkdir_p false fs path =
        (fs, .error (Exception.AccessDeniedException path))) ∧
    ((fs.MKDIR path).2 = some Errno.EEXIST → Directory.mkdir_p true fs path = (fs, .ok false)) ∧
    (∀ errno, (fs.MKDIR path).2 = some errno → errno ≠ Errno.EEXIST →
      Directory.mkdir_p true fs path =
        (fs, .error (Exception.AccessDeniedException path))) ∧
    ((fs.MKDIR path).2 = some Errno.EEXIST ↔
      ∃ node, fs.resolve path = .ok node ∧ (fs.kind node).isSome = true) := by
  have hfail : ∀ errno, (fs.MKDIR path).2 = some errno → fs.MKDIR path = (fs, some errno) := by
    intro errno he
    unfold FileSystem.MKDIR at he ⊢
    cases hr : fs.resolve path with
    | error e =>
      rw [hr] at he
      simp only [Option.some.injEq] at he
      simp only [he]
    | ok node =>
      rw [hr] at he
      simp only at he ⊢
      cases hk : (fs.kind node).isSome with
      | true =>
        simp only [hk, if_true, Option.some.injEq] at he ⊢
        rw [he]
      | false =>
        cases hd : fs.denied node with
        | true =>
          simp only [hk, hd, Bool.false_eq_true, if_false, if_true, Option.some.injEq] at he ⊢
          rw [he]
        | false =>
          simp only [hk, hd, Bool.false_eq_true, if_false] at he
          cases he
  have hwalk : ∀ (comps cur : List CStr), fs.walk cur comps ≠ .error Errno.EEXIST := by
    intro comps
    induction comps with
    | nil => intro cur h; cases h
    | cons c rest ih =>
      intro cur h
      cases hs : fs.step cur c with
      | error e2 =>
        simp only [FileSystem.walk, hs] at h
        have he2 : e2 = Errno.EEXIST := Except.error.inj h
        subst he2
        unfold FileSystem.step at hs
        cases hk : fs.kind cur with
        | none => rw [hk] at hs; cases hs
        | some k =>
          rw [hk] at hs
          cases k with
          | file => cases hs
          | directory => simp only at hs; split at hs <;> (try split at hs) <;> cases hs
          | closedDirectory => simp only at hs; split at hs <;> (try split at hs) <;> cases hs
      | ok next =>
        rw [FileSystem.walk_cons_ok fs cur c rest next hs] at h
        exact ih next h
  have hexist : (fs.MKDIR path).2 = some Errno.EEXIST ↔
      ∃ node, fs.resolve path = .ok node ∧ (fs.kind node).isSome = true := by
    unfold FileSystem.MKDIR
    cases hr : fs.resolve path with
    | error e =>
      constructor
      · intro he
        simp only [Option.some.injEq] at he
        subst he
        unfold FileSystem.resolve at hr
        split at hr
        · cases hr
        · exact absurd hr (hwalk _ _)
      · rintro ⟨node, h1, _⟩
        cases h1
    | ok node =>
      cases hk : (fs.kind node).isSome with
      | true =>
        simp only [hk, if_true]
        exact ⟨fun _ => ⟨node, rfl, hk⟩, fun _ => trivial⟩
      | false =>
        constructor
        · intro he
          cases hd : fs.denied node with
          | true => simp only [hk, hd, Bool.false_eq_true, if_false, if_true] at he; cases he
          | false => simp only [hk, hd, Bool.false_eq_true, if_false] at he; cases he
        · rintro ⟨n2, h1, h2⟩
          rw [← Except.ok.inj h1, hk] at h2
          cases h2
  refine ⟨?_, ?_, ?_, ?_, ?_, hexist⟩
  · intro hop
    cases msvc
    · simp only [Directory.mkdir_p, hop, Bool.not_false, Bool.and_self, if_true]
    · obtain ⟨node, hr, hk⟩ := (FileSystem.opendir_iff fs path).mp hop
      have hm : fs.MKDIR path = (fs, some Errno.EEXIST) := by
        simp only [FileSystem.MKDIR, hr, hk, Option.isSome_some, if_true]
      simp only [Directory.mkdir_p, hm, Bool.not_true, Bool.false_and, Bool.false_eq_true,
        if_false, decide_True, Bool.and_self, if_true]
  · intro hmk
    have hnode : ∃ node, fs.resolve path = .ok node ∧ fs.kind node = none ∧
        (fs.MKDIR path).1.nodes = fs.nodes ++ [(node, FileKind.directory)] := by
      unfold FileSystem.MKDIR at hmk ⊢
      cases hr : fs.resolve path with
      | error e => rw [hr] at hmk; cases hmk
      | ok node =>
        rw [hr] at hmk
        simp only at hmk ⊢
        cases hk : fs.kind node with
        | some k => simp only [hk, Option.isSome_some, if_true] at hmk; cases hmk
        | none =>
          simp only [hk, Option.isSome_none, Bool.false_eq_true, if_false] at hmk ⊢
          cases hd : fs.denied node with
          | true => simp only [hd, if_true] at hmk; cases hmk
          | false => exact ⟨node, rfl, hk, by simp only [Bool.false_eq_true, if_false]⟩
    refine ⟨?_, hnode⟩
    obtain ⟨node, hr, hk, _⟩ := hnode
    have hop : fs.opendir path = false := by
      cases ho : fs.opendir path with
      | false => rfl
      | true =>
        obtain ⟨n2, h1, h2⟩ := (FileSystem.opendir_iff fs path).mp ho
        rw [hr] at h1
        rw [← Except.ok.inj h1, hk] at h2
        cases h2
    cases hm : fs.MKDIR path with
    | mk fs2 r =>
      rw [hm] at hmk
      simp only at hmk
      subst hmk
      cases msvc
      · simp only [Directory.mkdir_p, hop, hm, Bool.not_false, Bool.and_false,
          Bool.false_eq_true, if_false]
      · simp only [Directory.mkdir_p, hm, Bool.not_true, Bool.false_and, Bool.false_eq_true,
          if_false]
  · intro hop errno he
    simp only [Directory.mkdir_p, hop, hfail errno he, Bool.not_false, Bool.and_false,
      Bool.false_and, Bool.false_eq_true, if_false]
  · intro he
    simp only [Directory.mkdir_p, hfail _ he, Bool.not_true, Bool.false_and, Bool.false_eq_true,
      if_false, decide_True, Bool.and_self, if_true]
  · intro errno he hne
    simp only [Directory.mkdir_p, hfail _ he, Bool.not_true, Bool.false_and, Bool.false_eq_true,
      if_false, hne, decide_False, Bool.and_false]

/-- C25, witness: a directory that exists, named with a separator at its end;
a directory that can be created; and one whose parent is missing, in the build
without `_MSC_VER`. -/
theorem Directory.mkdir_p_outcomes_witness :
    Directory.mkdir_p false
        (FileSystem.withObj FileKind.directory)
        "obj/".toList =
      ((FileSystem.withObj FileKind.directory),
        .ok false) ∧
    (Directory.mkdir_p false
        (FileSystem.withObj FileKind.directory)
        "obj/lib".toList =
      ((FileSystem.MKDIR (FileSystem.withObj FileKind.directory) "obj/lib".toList).1, .ok true) ∧
     ∃ node, FileSystem.resolve (FileSystem.withObj FileKind.directory) "obj/lib".toList = .ok node ∧
        FileSystem.kind (FileSystem.withObj FileKind.directory) node = none ∧
        (FileSystem.MKDIR (FileSystem.withObj FileKind.directory) "obj/lib".toList).1.nodes =
          [(["obj".toList], FileKind.directory)] ++ [(node, FileKind.directory)]) ∧
    Directory.mkdir_p false
        (FileSystem.withObj FileKind.directory)
        "out/lib".toList =
      ((FileSystem.withObj FileKind.directory),
        .error (Exception.AccessDeniedException "out/lib".toList)) :=
  ⟨(Directory.mkdir_p_outcomes false
      (FileSystem.withObj FileKind.directory)
      "obj/".toList).1 (by decide),
   (Directory.mkdir_p_outcomes false
      (FileSystem.withObj FileKind.directory)
      "obj/lib".toList).2.1 (by decide),
   (Directory.mkdir_p_outcomes false
      (FileSystem.withObj FileKind.directory)
      "out/lib".toList).2.2.1 (by decide) Errno.ENOENT (by decide)⟩

/-- C28, the claim as it is written fails for the root the backend passes:
called with the empty parent path, `GenerateTree` hands no path to
`CreateDirectory` at the root, so for a root without a child no directory is
created, the resolved path of the root included. -/
theorem Directory.GenerateTree_root_not_created :
    ((Directory.new "$(INSTALL)".toList).GenerateTree false Environment.sample []
      FileSystem.empty).map (fun r => r.1.nodes) = some [] ∧
    Directory.ResolveVariablesInPath Environment.sample "$(INSTALL)".toList =
      some "reactos".toList ∧
    FileSystem.opendir FileSystem.empty "reactos".toList = false := by
  decide

/-- C28, amended: on a file system in order (everything that exists is a
directory that can be opened and came after the directory it lies in, nothing
is denied) and when every resolved path fits the buffer, `GenerateTree` raises
nothing and is the run of `mkdir_p` over the nodes of its walk, in the order
of the walk, a node before its children: at a node visited with a non-empty
parent path, over the prefixes of its resolved path `CreateDirectory` tries,
each the directory the next lies in, the resolved path last when it has no
drive letter in front. The file system left is in order again, with the old
nodes in front; no place is in it twice; every new node is a directory at the
place one of the paths tried names; every path tried names a directory that
can be opened, and so does the resolved path of every node visited with a
non-empty parent path, unless it starts with a drive letter. -/
theorem Directory.GenerateTree_creates (msvc : Bool) (env : Environment) (d : Directory)
    (parent : CStr) (fs : FileSystem) (hfs : fs.inOrder)
    (hbuf : ∀ v ∈ d.visits parent, v.1 ≠ [] →
      (Directory.ResolveVariablesInPath env (v.1 ++ SSEP ++ v.2.name)).isSome) :
    (∀ fs0 path,
      ((Directory.CreateDirectory msvc fs0 path).1,
        exceptionOf (Directory.CreateDirectory msvc fs0 path).2) =
        mkdirAll msvc fs0 (createAttempts path) ∧
      List.Chain' (fun a b => parentPath b = some a) (createAttempts path) ∧
      (CSEP ∈ path → Directory.hasDrive path = false →
        (createAttempts path).getLast? = some path)) ∧
    d.GenerateTree msvc env parent fs =
      some (mkdirAll msvc fs ((d.visits parent).flatMap (visitAttempts env))) ∧
    ∃ fs2, d.GenerateTree msvc env parent fs = some (fs2, none) ∧
      fs2.inOrder ∧ fs.nodes <+: fs2.nodes ∧
      ((fs.nodes.map Prod.fst).Nodup → (fs2.nodes.map Prod.fst).Nodup) ∧
      (∀ x ∈ fs2.nodes, x ∈ fs.nodes ∨
        x.2 = FileKind.directory ∧
          ∃ q ∈ (d.visits parent).flatMap (visitAttempts env), fs2.resolve q = .ok x.1) ∧
      (∀ q ∈ (d.visits parent).flatMap (visitAttempts env), fs2.opendir q = true) ∧
      ∀ P x r, (P, x) ∈ d.visits parent → P ≠ [] →
        Directory.ResolveVariablesInPath env (P ++ SSEP ++ x.name) = some r →
        (∀ q ∈ createAttempts r, fs2.opendir q = true) ∧
        (Directory.hasDrive r = false → fs2.opendir r = true) := by
  have hrun := GenerateTree_eq msvc env d parent fs hbuf
  obtain ⟨fs2, hall, hin, hg, hnd, hop, hmem⟩ := mkdirAll_blocks msvc (visitAttempts env)
    (d.visits parent) (fun v _ => visitAttempts_good env v) fs hfs
  refine ⟨fun fs0 path => ⟨CreateDirectory_eq msvc fs0 path, (createAttempts_good path).1,
    createAttempts_getLast path⟩, hrun, fs2, by rw [hrun, hall], hin, hg.2.2, hnd, ?_, hop, ?_⟩
  · intro x hx
    rcases hmem x hx with e | e
    · exact Or.inl e
    · exact Or.inr ⟨hin.2.1 x hx, e⟩
  · intro P x r hv hP hr
    have hl : P.length > 0 := List.length_pos.mpr hP
    have hatt : visitAttempts env (P, x) = createAttempts r := by
      simp only [visitAttempts, hl, if_true, hr]
    have hsub : ∀ q ∈ createAttempts r, fs2.opendir q = true := by
      intro q hq
      exact hop q (List.mem_flatMap.mpr ⟨(P, x), hv, by rw [hatt]; exact hq⟩)
    refine ⟨hsub, fun hd => hsub r (createAttempts_self r ?_ hd)⟩
    exact ResolveVariablesInPath_sep env _ r
      (List.mem_append_left _ (List.mem_append_right _ (by simp [SSEP]))) hr

/-- C28, witness: a root with a child, a grandchild with the empty name, as
`Add` makes it for a doubled separator, and two more nodes, on the empty file
system: four directories, each once, a parent in front of its children, and
none for the path that ends in a separator. -/
theorem Directory.GenerateTree_creates_witness :
    ∃ fs2, (Directory.mk "$(OUTPUT)".toList [("lib".toList, Directory.mk "lib".toList
        [([], Directory.mk [] [("msi".toList, Directory.new "msi".toList)]),
         ("rtl".toList, Directory.new "rtl".toList)])]).GenerateTree false Environment.sample []
        FileSystem.empty = some (fs2, none) ∧
      fs2.nodes = [(["output-i386".toList], FileKind.directory),
        (["output-i386".toList, "lib".toList], FileKind.directory),
        (["output-i386".toList, "lib".toList, "msi".toList], FileKind.directory),
        (["output-i386".toList, "lib".toList, "rtl".toList], FileKind.directory)] := by
  obtain ⟨fs2, h1, _⟩ := (Directory.GenerateTree_creates false Environment.sample
    (Directory.mk "$(OUTPUT)".toList [("lib".toList, Directory.mk "lib".toList
      [([], Directory.mk [] [("msi".toList, Directory.new "msi".toList)]),
       ("rtl".toList, Directory.new "rtl".toList)])]) [] FileSystem.empty
    FileSystem.empty_inOrder (by decide)).2.2
  refine ⟨fs2, h1, ?_⟩
  have h2 : ((Directory.mk "$(OUTPUT)".toList [("lib".toList, Directory.mk "lib".toList
      [([], Directory.mk [] [("msi".toList, Directory.new "msi".toList)]),
       ("rtl".toList, Directory.new "rtl".toList)])]).GenerateTree false Environment.sample []
      FileSystem.empty).map (fun r => r.1.nodes) =
      some [(["output-i386".toList], FileKind.directory),
        (["output-i386".toList, "lib".toList], FileKind.directory),
        (["output-i386".toList, "lib".toList, "msi".toList], FileKind.directory),
        (["output-i386".toList, "lib".toList, "rtl".toList], FileKind.directory)] := by decide
  rw [h1] at h2
  exact Option.some.inj h2

/-! ## Claims on the text of the directory rules -/

/-- C29: the rules `CreateRule` writes are those of the nodes its walk visits
with a non-empty parent path, one for each in the order of the walk, and none
for a node visited with the empty path; the text of the rule of a node named
`n` visited with the parent path `P` is the escaped `P`, the separator, the
escaped `n`, `: | `, the escaped `P`, a newline and the two recipe lines, so
the parent's path is its only prerequisite, and an order-only one. -/
theorem Directory.CreateRule_text (d : Directory) (parent : CStr) :
    d.CreateRule parent = (d.visits parent).filterMap (fun v =>
      if v.1.length > 0 then
        some { target := Directory.EscapeSpaces v.1 ++ [CSEP] ++ Directory.EscapeSpaces v.2.name,
               prereq := Directory.EscapeSpaces v.1,
               recipe := mkdirRecipe }
      else none) ∧
    (∀ P x, (P, x) ∈ d.visits parent → P ≠ [] →
      ∃ r ∈ d.CreateRule parent,
        r.text = Directory.EscapeSpaces P ++ [CSEP] ++ Directory.EscapeSpaces x.name ++
          ": | ".toList ++ Directory.EscapeSpaces P ++ "\n".toList ++
          "\t$(ECHO_MKDIR)\n".toList ++ "\t$\x7bmkdir\x7d $@\n".toList) ∧
    ∀ r ∈ d.CreateRule parent, ∃ P x, (P, x) ∈ d.visits parent ∧ P ≠ [] ∧
      r.text = Directory.EscapeSpaces P ++ [CSEP] ++ Directory.EscapeSpaces x.name ++
        ": | ".toList ++ Directory.EscapeSpaces P ++ "\n".toList ++
        "\t$(ECHO_MKDIR)\n".toList ++ "\t$\x7bmkdir\x7d $@\n".toList := by
  have htext : ∀ P n : CStr,
      Rule.text { target := Directory.EscapeSpaces P ++ [CSEP] ++ Directory.EscapeSpaces n,
                  prereq := Directory.EscapeSpaces P, recipe := mkdirRecipe } =
        Directory.EscapeSpaces P ++ [CSEP] ++ Directory.EscapeSpaces n ++
          ": | ".toList ++ Directory.EscapeSpaces P ++ "\n".toList ++
          "\t$(ECHO_MKDIR)\n".toList ++ "\t$\x7bmkdir\x7d $@\n".toList := by
    intro P n
    have hrec : mkdirRecipe.flatten =
        "\t$(ECHO_MKDIR)\n".toList ++ "\t$\x7bmkdir\x7d $@\n".toList := by decide
    simp only [Rule.text, hrec, List.append_assoc]
  refine ⟨CreateRule_eq_visits d parent, ?_, ?_⟩
  · intro P x hv hP
    refine ⟨_, ?_, htext P x.name⟩
    rw [CreateRule_eq_visits]
    refine List.mem_filterMap.mpr ⟨(P, x), hv, ?_⟩
    have hl : P.length > 0 := List.length_pos.mpr hP
    simp only [hl, if_true]
  · intro r hr
    rw [CreateRule_eq_visits] at hr
    obtain ⟨v, hv, e⟩ := List.mem_filterMap.mp hr
    by_cases hl : v.1.length > 0
    · simp only [hl, if_true, Option.some.injEq] at e
      refine ⟨v.1, v.2, hv, List.length_pos.mp hl, ?_⟩
      rw [← e]
      exact htext v.1 v.2.name
    · simp only [hl, if_false] at e
      cases e

/-- C29, witness: the text of the rule of `my dir` under `$(OUTPUT)`. -/
theorem Directory.CreateRule_text_witness :
    ∃ r ∈ (Directory.mk "$(OUTPUT)".toList
        [("my dir".toList, Directory.new "my dir".toList)]).CreateRule [],
      r.text = "$(OUTPUT)/my\\ dir: | $(OUTPUT)\n\t$(ECHO_MKDIR)\n\t$\x7bmkdir\x7d $@\n".toList :=
  (Directory.CreateRule_text
    (Directory.mk "$(OUTPUT)".toList [("my dir".toList, Directory.new "my dir".toList)])
    []).2.1 "$(OUTPUT)".toList (Directory.new "my dir".toList)
    (List.Mem.tail _ (List.Mem.head _)) (by decide)

/-- C30: `EscapeSpaces` goes through the joining of a path: the escaped
`parent + separator + name` is the escaped parent, the separator and the
escaped name. So for every node visited with a non-empty parent path, that is
every node but the root when the root has a name, and every child of it, the
rule of the child has as its prerequisite, character for character, the target
of the rule of the node, and both rules are written. -/
theorem Directory.CreateRule_prereq_is_parent_target (d : Directory) (parent : CStr) :
    (∀ P n : CStr, Directory.EscapeSpaces (P ++ SSEP ++ n) =
      Directory.EscapeSpaces P ++ SSEP ++ Directory.EscapeSpaces n) ∧
    (∀ P x, (P, x) ∈ d.visits parent → P ≠ [] → ∀ kc ∈ x.subdirs,
      ∃ rx ∈ d.CreateRule parent, ∃ rc ∈ d.CreateRule parent,
        rx.target = Directory.EscapeSpaces P ++ [CSEP] ++ Directory.EscapeSpaces x.name ∧
        rc.target = Directory.EscapeSpaces (P ++ SSEP ++ x.name) ++ [CSEP] ++
          Directory.EscapeSpaces kc.2.name ∧
        rc.prereq = rx.target) ∧
    ((parent ≠ [] ∨ d.name ≠ []) → ∀ v ∈ (d.visits parent).tail, v.1 ≠ []) := by
  have hesc : ∀ P n : CStr, Directory.EscapeSpaces (P ++ SSEP ++ n) =
      Directory.EscapeSpaces P ++ SSEP ++ Directory.EscapeSpaces n := by
    intro P n
    rw [EscapeSpaces_append, EscapeSpaces_append, EscapeSpaces_SSEP]
    rfl
  refine ⟨hesc, ?_, ?_⟩
  · intro P x hv hP kc hkc
    have hl : P.length > 0 := List.length_pos.mpr hP
    have hc := visits_children d parent P x hv kc hkc
    have hpath : x.pathUnder P = P ++ SSEP ++ x.name := by
      simp only [Directory.pathUnder, hl, if_true]
    rw [hpath] at hc
    have hl2 : (P ++ SSEP ++ x.name).length > 0 := by
      simp only [List.length_append]; omega
    refine ⟨{ target := Directory.EscapeSpaces P ++ [CSEP] ++ Directory.EscapeSpaces x.name,
              prereq := Directory.EscapeSpaces P, recipe := mkdirRecipe }, ?_,
            { target := Directory.EscapeSpaces (P ++ SSEP ++ x.name) ++ [CSEP] ++
                Directory.EscapeSpaces kc.2.name,
              prereq := Directory.EscapeSpaces (P ++ SSEP ++ x.name), recipe := mkdirRecipe },
            ?_, rfl, rfl, ?_⟩
    · rw [CreateRule_eq_visits]
      refine List.mem_filterMap.mpr ⟨(P, x), hv, ?_⟩
      simp only [hl, if_true]
    · rw [CreateRule_eq_visits]
      refine List.mem_filterMap.mpr ⟨(P ++ SSEP ++ x.name, kc.2), hc, ?_⟩
      simp only [hl2, if_true]
    · show Directory.EscapeSpaces (P ++ SSEP ++ x.name) = _
      rw [hesc]
      rfl
  · intro h v hv
    rw [visits_eq, List.tail_cons] at hv
    refine visitsList_ne d.subdirs _ ?_ v hv
    unfold Directory.pathUnder
    by_cases hl : parent.length > 0
    · simp only [hl, if_true]
      intro e
      have := congrArg List.length e
      simp [SSEP] at this
    · simp only [hl, if_false]
      rcases h with h | h
      · exact absurd (List.length_pos.mpr h) hl
      · exact h

/-- C30, witness: a name with a space, between its parent and its child. -/
theorem Directory.CreateRule_prereq_is_parent_target_witness :
    ∃ rx ∈ (Directory.mk "$(OUTPUT)".toList [("my dir".toList,
        Directory.mk "my dir".toList [("sub".toList, Directory.new "sub".toList)])]).CreateRule [],
      ∃ rc ∈ (Directory.mk "$(OUTPUT)".toList [("my dir".toList,
        Directory.mk "my dir".toList [("sub".toList, Directory.new "sub".toList)])]).CreateRule [],
        rx.target = "$(OUTPUT)/my\\ dir".toList ∧
        rc.target = "$(OUTPUT)/my\\ dir/sub".toList ∧
        rc.prereq = rx.target :=
  (Directory.CreateRule_prereq_is_parent_target
    (Directory.mk "$(OUTPUT)".toList [("my dir".toList,
      Directory.mk "my dir".toList [("sub".toList, Directory.new "sub".toList)])])
    []).2.1 "$(OUTPUT)".toList
    (Directory.mk "my dir".toList [("sub".toList, Directory.new "sub".toList)])
    (List.Mem.tail _ (List.Mem.head _)) (by decide)
    ("sub".toList, Directory.new "sub".toList) (List.Mem.head _)

/-! ## Claims on aliases and on the probe commands -/

/-- C21: `GetAliasedModuleOrModule` returns the module itself when its
aliased-module name is empty and the module `LocateModule` finds under that
name otherwise; with `LocateModule` the lookup by name among the modules of the
project, it fails exactly when the name is not empty and no module has it, and
the module it returns for a non-empty name is a module of the project with
that name. The install rule of an enabled module with an install name takes
its source path from the module so resolved, and its target name and base from
the module itself; no rule is written when the resolution fails. -/
theorem MingwBackend.GetAliasedModuleOrModule_resolves (ext : External)
    (outputDirectory installDirectory : Directory) (module : Project.Module) :
    (module.aliasedModuleName = [] →
      MingwBackend.GetAliasedModuleOrModule ext module = some module) ∧
    (module.aliasedModuleName ≠ [] →
      MingwBackend.GetAliasedModuleOrModule ext module =
        ext.LocateModule module.aliasedModuleName) ∧
    (∀ modules, ext.LocateModule = Project.LocateModule modules →
      (MingwBackend.GetAliasedModuleOrModule ext module = none ↔
        module.aliasedModuleName ≠ [] ∧ ∀ m ∈ modules, m.name ≠ module.aliasedModuleName) ∧
      (module.aliasedModuleName ≠ [] → ∀ a,
        MingwBackend.GetAliasedModuleOrModule ext module = some a →
        a ∈ modules ∧ a.name = module.aliasedModuleName)) ∧
    (module.enabled = true → module.installName ≠ [] →
      MingwBackend.OutputModuleInstallTargets ext outputDirectory installDirectory [module] =
        match MingwBackend.GetAliasedModuleOrModule ext module with
        | none => ([], false)
        | some aliasedModule =>
          (MingwBackend.OutputInstallTarget ext installDirectory
            (PassThruCacheDirectory (ext.NormalizeFilename (ext.GetPath aliasedModule))
              outputDirectory)
            module.installName module.installBase, true)) := by
  have h1 : module.aliasedModuleName = [] →
      MingwBackend.GetAliasedModuleOrModule ext module = some module := by
    intro h
    simp [MingwBackend.GetAliasedModuleOrModule, h]
  have h2 : module.aliasedModuleName ≠ [] →
      MingwBackend.GetAliasedModuleOrModule ext module =
        ext.LocateModule module.aliasedModuleName := by
    intro h
    have hl : module.aliasedModuleName.length > 0 := List.length_pos.mpr h
    simp [MingwBackend.GetAliasedModuleOrModule, hl]
  refine ⟨h1, h2, ?_, ?_⟩
  · intro modules hloc
    constructor
    · constructor
      · intro hnone
        by_cases hn : module.aliasedModuleName = []
        · rw [h1 hn] at hnone
          cases hnone
        · refine ⟨hn, ?_⟩
          rw [h2 hn, hloc] at hnone
          intro m hm
          have := List.find?_eq_none.mp hnone m hm
          simpa using this
      · rintro ⟨hn, hall⟩
        rw [h2 hn, hloc]
        apply List.find?_eq_none.mpr
        intro m hm
        simpa using hall m hm
    · intro hn a ha
      rw [h2 hn, hloc] at ha
      refine ⟨List.mem_of_find?_eq_some ha, ?_⟩
      have := List.find?_some ha
      simpa using this
  · intro he hn
    have hl : module.installName.length > 0 := List.length_pos.mpr hn
    simp only [MingwBackend.OutputModuleInstallTargets, he, Bool.not_true, Bool.false_eq_true,
      if_false, hl, if_true]
    cases MingwBackend.GetAliasedModuleOrModule ext module with
    | none => rfl
    | some a => simp

/-- C21, witness: the alias `halupalias` of `halup` is installed from the path
of `halup` under its own install name; an alias of a module that does not
exist is not resolved. -/
theorem MingwBackend.GetAliasedModuleOrModule_resolves_witness :
    MingwBackend.GetAliasedModuleOrModule External.sample
      (Project.Module.mk "hal".toList ModuleType.DynamicLibrary true "hal.dll".toList
        "system32".toList []) =
      some (Project.Module.mk "hal".toList ModuleType.DynamicLibrary true "hal.dll".toList
        "system32".toList []) ∧
    MingwBackend.GetAliasedModuleOrModule External.sample
      (Project.Module.mk "halupalias".toList ModuleType.Alias true "hal.dll".toList
        "system32".toList "halup".toList) =
      External.sample.LocateModule "halup".toList :=
  ⟨(MingwBackend.GetAliasedModuleOrModule_resolves External.sample
      (Directory.new "$(OUTPUT)".toList) (Directory.new "$(INSTALL)".toList)
      (Project.Module.mk "hal".toList ModuleType.DynamicLibrary true "hal.dll".toList
        "system32".toList [])).1 rfl,
   (MingwBackend.GetAliasedModuleOrModule_resolves External.sample
      (Directory.new "$(OUTPUT)".toList) (Directory.new "$(INSTALL)".toList)
      (Project.Module.mk "halupalias".toList ModuleType.Alias true "hal.dll".toList
        "system32".toList "halup".toList)).2.1 (by decide)⟩

/-- C27: the command line of the probe is the candidate, ` -v` (` -h` for the
assembler) and the redirections; for the compiler and the assembler both
standard output and standard error go to the null device, for binutils only
standard output does: the format of `TryToDetectThisBinutils` is
`%s -v 1>%s`, with no `2>%s` for the second `NUL` it is passed. -/
theorem MingwBackend.TryToDetectThisBinutils_command (w : World) (c : CStr) :
    (MingwBackend.TryToDetectThisCompiler w c).2 =
      c ++ " -v".toList ++ " 1>".toList ++ NUL w.win32 ++ " 2>".toList ++ NUL w.win32 ∧
    (MingwBackend.TryToDetectThisNetwideAssembler w c).2 =
      c ++ " -h".toList ++ " 1>".toList ++ NUL w.win32 ++ " 2>".toList ++ NUL w.win32 ∧
    (MingwBackend.TryToDetectThisBinutils w c).2 =
      c ++ " -v".toList ++ " 1>".toList ++ NUL w.win32 ∧
    (MingwBackend.TryToDetectThisBinutils World.sample "mingw32-ld".toList).2 =
      "mingw32-ld -v 1>/dev/null".toList ∧
    ¬ "2>".toList <:+: (MingwBackend.TryToDetectThisBinutils World.sample "mingw32-ld".toList).2 := by
  refine ⟨?_, ?_, ?_, by decide, by decide⟩
  · simp [MingwBackend.TryToDetectThisCompiler]
  · simp [MingwBackend.TryToDetectThisNetwideAssembler]
  · simp [MingwBackend.TryToDetectThisBinutils]

/-! ## Conditional blocks -/

theorem GenerateGlobalCFlagsAndPropertiesIfs_eq (gcc : GccParameters) (ifs : List If) :
    GenerateGlobalCFlagsAndPropertiesIfs gcc ifs =
      ifs.flatMap (GenerateGlobalCFlagsAndPropertiesIf gcc) := by
  induction ifs with
  | nil => rfl
  | cons rIf rest ih => simp only [GenerateGlobalCFlagsAndPropertiesIfs, List.flatMap_cons, ih]

theorem GenerateProjectGccOptionsIfs_eq (ifs : List If) :
    GenerateProjectGccOptionsIfs ifs = ifs.flatMap GenerateProjectGccOptionsIf := by
  induction ifs with
  | nil => rfl
  | cons rIf rest ih => simp only [GenerateProjectGccOptionsIfs, List.flatMap_cons, ih]

theorem GenerateGlobalCFlagsAndPropertiesIf_eq (gcc : GccParameters) (rIf : If) :
    GenerateGlobalCFlagsAndPropertiesIf gcc rIf =
      if rIf.data.defines.length > 0 ∨ rIf.data.includes.length > 0 ∨
          rIf.data.ifs.length > 0 then
        [Emit.fprintf "ifeq (\"$(%s)\",\"%s\")\n".toList [rIf.property, rIf.value]] ++
        MingwBackend.GenerateGlobalCFlagsAndProperties gcc "+=".toList rIf.data ++
        [Emit.fprintf "endif\n\n".toList []]
      else [] := by
  obtain ⟨p, v, d⟩ := rIf
  rw [GenerateGlobalCFlagsAndPropertiesIf]
  rfl

theorem GenerateProjectGccOptionsIf_eq (rIf : If) :
    GenerateProjectGccOptionsIf rIf =
      if rIf.data.compilerFlags.length > 0 ∨ rIf.data.ifs.length > 0 then
        [Emit.fprintf "ifeq (\"$(%s)\",\"%s\")\n".toList [rIf.property, rIf.value]] ++
        MingwBackend.GenerateProjectGccOptions "+=".toList rIf.data ++
        [Emit.fprintf "endif\n\n".toList []]
      else [] := by
  obtain ⟨p, v, d⟩ := rIf
  rw [GenerateProjectGccOptionsIf]
  rfl

theorem GenerateGlobalCFlagsAndProperties_eq (gcc : GccParameters) (op : CStr)
    (data : IfableData) :
    MingwBackend.GenerateGlobalCFlagsAndProperties gcc op data =
      data.properties.map
        (fun prop => Emit.fprintf "%s := %s\n".toList [prop.name, prop.value]) ++
      (if data.includes.length > 0 ∨ data.defines.length > 0 then
        MingwBackend.GenerateProjectCFlagsMacro gcc op data else []) ++
      GenerateGlobalCFlagsAndPropertiesIfs gcc data.ifs := by
  obtain ⟨i, d, p, c, f⟩ := data
  rw [MingwBackend.GenerateGlobalCFlagsAndProperties]
  rfl

theorem GenerateProjectGccOptions_eq (op : CStr) (data : IfableData) :
    MingwBackend.GenerateProjectGccOptions op data =
      (if data.compilerFlags.length > 0 then
        MingwBackend.GenerateProjectGccOptionsMacro op data else []) ++
      GenerateProjectGccOptionsIfs data.ifs := by
  obtain ⟨i, d, p, c, f⟩ := data
  rw [MingwBackend.GenerateProjectGccOptions]
  rfl

theorem blocks_eq (data : IfableData) : data.blocks = blocksList data.ifs := by
  obtain ⟨i, d, p, c, f⟩ := data
  rw [IfableData.blocks]
  rfl

theorem If_blocks_eq (rIf : If) : rIf.blocks = rIf :: rIf.data.blocks := by
  obtain ⟨p, v, d⟩ := rIf
  rw [If.blocks]
  rfl

theorem ifs_of_blocks (data : IfableData) (b : If) (h : b ∈ data.blocks) :
    data.ifs.length > 0 := by
  rw [blocks_eq] at h
  cases hf : data.ifs with
  | nil => rw [hf] at h; simp [blocksList] at h
  | cons x xs => simp

theorem exists_region_left {α : Type} (a x R : List α)
    (h : ∃ pre post, x = pre ++ R ++ post) : ∃ pre post, a ++ x = pre ++ R ++ post := by
  obtain ⟨pre, post, e⟩ := h
  exact ⟨a ++ pre, post, by rw [e]; simp only [List.append_assoc]⟩

theorem exists_region_right {α : Type} (z x R : List α)
    (h : ∃ pre post, x = pre ++ R ++ post) : ∃ pre post, x ++ z = pre ++ R ++ post := by
  obtain ⟨pre, post, e⟩ := h
  exact ⟨pre, post ++ z, by rw [e]; simp only [List.append_assoc]⟩

mutual
theorem GlobalCFlags_region (gcc : GccParameters) :
    ∀ (data : IfableData) (op : CStr) (b : If), b ∈ data.blocks →
      (b.data.defines.length > 0 ∨ b.data.includes.length > 0 ∨ b.data.ifs.length > 0) →
      ∃ pre post, MingwBackend.GenerateGlobalCFlagsAndProperties gcc op data =
        pre ++ ([Emit.fprintf "ifeq (\"$(%s)\",\"%s\")\n".toList [b.property, b.value]] ++
          MingwBackend.GenerateGlobalCFlagsAndProperties gcc "+=".toList b.data ++
          [Emit.fprintf "endif\n\n".toList []]) ++ post
  | .mk i d p c f, op, b, hb, hpass => by
    rw [blocks_eq] at hb
    rw [GenerateGlobalCFlagsAndProperties_eq]
    exact exists_region_left _ _ _ (GlobalCFlagsIfs_region gcc f b hb hpass)
theorem GlobalCFlagsIfs_region (gcc : GccParameters) :
    ∀ (ifs : List If) (b : If), b ∈ blocksList ifs →
      (b.data.defines.length > 0 ∨ b.data.includes.length > 0 ∨ b.data.ifs.length > 0) →
      ∃ pre post, GenerateGlobalCFlagsAndPropertiesIfs gcc ifs =
        pre ++ ([Emit.fprintf "ifeq (\"$(%s)\",\"%s\")\n".toList [b.property, b.value]] ++
          MingwBackend.GenerateGlobalCFlagsAndProperties gcc "+=".toList b.data ++
          [Emit.fprintf "endif\n\n".toList []]) ++ post
  | [], b, hb, _ => by simp [blocksList] at hb
  | rIf :: rest, b, hb, hpass => by
    simp only [blocksList, List.mem_append] at hb
    simp only [GenerateGlobalCFlagsAndPropertiesIfs]
    rcases hb with h | h
    · exact exists_region_right _ _ _ (GlobalCFlagsIf_region gcc rIf b h hpass)
    · exact exists_region_left _ _ _ (GlobalCFlagsIfs_region gcc rest b h hpass)
theorem GlobalCFlagsIf_region (gcc : GccParameters) :
    ∀ (rIf : If) (b : If), b ∈ rIf.blocks →
      (b.data.defines.length > 0 ∨ b.data.includes.length > 0 ∨ b.data.ifs.length > 0) →
      ∃ pre post, GenerateGlobalCFlagsAndPropertiesIf gcc rIf =
        pre ++ ([Emit.fprintf "ifeq (\"$(%s)\",\"%s\")\n".toList [b.property, b.value]] ++
          MingwBackend.GenerateGlobalCFlagsAndProperties gcc "+=".toList b.data ++
          [Emit.fprintf "endif\n\n".toList []]) ++ post
  | .mk p v d, b, hb, hpass => by
    rw [If_blocks_eq] at hb
    rw [GenerateGlobalCFlagsAndPropertiesIf_eq]
    rcases List.mem_cons.mp hb with h | h
    · subst h
      rw [if_pos hpass]
      exact ⟨[], [], by simp only [List.nil_append, List.append_nil]⟩
    · simp only [If.data] at h
      have hifs := ifs_of_blocks d b h
      have hp : (If.mk p v d).data.defines.length > 0 ∨ (If.mk p v d).data.includes.length > 0 ∨
          (If.mk p v d).data.ifs.length > 0 := Or.inr (Or.inr hifs)
      rw [if_pos hp]
      exact exists_region_right _ _ _ (exists_region_left _ _ _
        (GlobalCFlags_region gcc d "+=".toList b h hpass))
end

mutual
theorem GccOptions_region :
    ∀ (data : IfableData) (op : CStr) (b : If), b ∈ data.blocks →
      (b.data.compilerFlags.length > 0 ∨ b.data.ifs.length > 0) →
      ∃ pre post, MingwBackend.GenerateProjectGccOptions op data =
        pre ++ ([Emit.fprintf "ifeq (\"$(%s)\",\"%s\")\n".toList [b.property, b.value]] ++
          MingwBackend.GenerateProjectGccOptions "+=".toList b.data ++
          [Emit.fprintf "endif\n\n".toList []]) ++ post
  | .mk i d p c f, op, b, hb, hpass => by
    rw [blocks_eq] at hb
    rw [GenerateProjectGccOptions_eq]
    exact exists_region_left _ _ _ (GccOptionsIfs_region f b hb hpass)
theorem GccOptionsIfs_region :
    ∀ (ifs : List If) (b : If), b ∈ blocksList ifs →
      (b.data.compilerFlags.length > 0 ∨ b.data.ifs.length > 0) →
      ∃ pre post, GenerateProjectGccOptionsIfs ifs =
        pre ++ ([Emit.fprintf "ifeq (\"$(%s)\",\"%s\")\n".toList [b.property, b.value]] ++
          MingwBackend.GenerateProjectGccOptions "+=".toList b.data ++
          [Emit.fprintf "endif\n\n".toList []]) ++ post
  | [], b, hb, _ => by simp [blocksList] at hb
  | rIf :: rest, b, hb, hpass => by
    simp only [blocksList, List.mem_append] at hb
    simp only [GenerateProjectGccOptionsIfs]
    rcases hb with h | h
    · exact exists_region_right _ _ _ (GccOptionsIf_region rIf b h hpass)
    · exact exists_region_left _ _ _ (GccOptionsIfs_region rest b h hpass)
theorem GccOptionsIf_region :
    ∀ (rIf : If) (b : If), b ∈ rIf.blocks →
      (b.data.compilerFlags.length > 0 ∨ b.data.ifs.length > 0) →
      ∃ pre post, GenerateProjectGccOptionsIf rIf =
        pre ++ ([Emit.fprintf "ifeq (\"$(%s)\",\"%s\")\n".toList [b.property, b.value]] ++
          MingwBackend.GenerateProjectGccOptions "+=".toList b.data ++
          [Emit.fprintf "endif\n\n".toList []]) ++ post
  | .mk p v d, b, hb, hpass => by
    rw [If_blocks_eq] at hb
    rw [GenerateProjectGccOptionsIf_eq]
    rcases List.mem_cons.mp hb with h | h
    · subst h
      rw [if_pos hpass]
      exact ⟨[], [], by simp only [List.nil_append, List.append_nil]⟩
    · simp only [If.data] at h
      have hifs := ifs_of_blocks d b h
      have hp : (If.mk p v d).data.compilerFlags.length > 0 ∨
          (If.mk p v d).data.ifs.length > 0 := Or.inr hifs
      rw [if_pos hp]
      exact exists_region_right _ _ _ (exists_region_left _ _ _
        (GccOptions_region d "+=".toList b h hpass))
end

mutual
theorem GlobalCFlags_operator (gcc : GccParameters) :
    ∀ (data : IfableData) (op o : CStr),
      Emit.fprintf "PROJECT_CFLAGS %s".toList [o] ∈
        MingwBackend.GenerateGlobalCFlagsAndProperties gcc op data →
      o = op ∨ o = "+=".toList
  | .mk i d p c f, op, o, h => by
    rw [GenerateGlobalCFlagsAndProperties_eq] at h
    rcases List.mem_append.mp h with h1 | h1
    · rcases List.mem_append.mp h1 with h2 | h2
      · obtain ⟨prop, _, e⟩ := List.mem_map.mp h2
        have hf := (Emit.fprintf.inj e).1
        exact absurd hf (by decide)
      · split at h2
        · simp only [MingwBackend.GenerateProjectCFlagsMacro, List.mem_cons, List.mem_singleton,
            List.not_mem_nil, or_false] at h2
          rcases h2 with e | e | e
          · have ha := (Emit.fprintf.inj e).2
            exact Or.inl (List.cons.inj ha).1
          · exact absurd (Emit.fprintf.inj e).1 (by decide)
          · exact absurd (Emit.fprintf.inj e).1 (by decide)
        · cases h2
    · exact Or.inr (GlobalCFlagsIfs_operator gcc f o h1)
theorem GlobalCFlagsIfs_operator (gcc : GccParameters) :
    ∀ (ifs : List If) (o : CStr),
      Emit.fprintf "PROJECT_CFLAGS %s".toList [o] ∈ GenerateGlobalCFlagsAndPropertiesIfs gcc ifs →
      o = "+=".toList
  | [], o, h => by simp [GenerateGlobalCFlagsAndPropertiesIfs] at h
  | rIf :: rest, o, h => by
    simp only [GenerateGlobalCFlagsAndPropertiesIfs, List.mem_append] at h
    rcases h with h1 | h1
    · exact GlobalCFlagsIf_operator gcc rIf o h1
    · exact GlobalCFlagsIfs_operator gcc rest o h1
theorem GlobalCFlagsIf_operator (gcc : GccParameters) :
    ∀ (rIf : If) (o : CStr),
      Emit.fprintf "PROJECT_CFLAGS %s".toList [o] ∈ GenerateGlobalCFlagsAndPropertiesIf gcc rIf →
      o = "+=".toList
  | .mk p v d, o, h => by
    rw [GenerateGlobalCFlagsAndPropertiesIf_eq] at h
    split at h
    · rcases List.mem_append.mp h with h1 | h1
      · rcases List.mem_append.mp h1 with h2 | h2
        · rw [List.mem_singleton] at h2
          exact absurd (Emit.fprintf.inj h2).1 (by decide)
        · rcases GlobalCFlags_operator gcc d "+=".toList o h2 with e | e
          · exact e
          · exact e
      · rw [List.mem_singleton] at h1
        exact absurd (Emit.fprintf.inj h1).1 (by decide)
    · cases h
end

mutual
theorem GccOptions_operator :
    ∀ (data : IfableData) (op o : CStr),
      Emit.fprintf "PROJECT_GCCOPTIONS %s".toList [o] ∈
        MingwBackend.GenerateProjectGccOptions op data →
      o = op ∨ o = "+=".toList
  | .mk i d p c f, op, o, h => by
    rw [GenerateProjectGccOptions_eq] at h
    rcases List.mem_append.mp h with h1 | h1
    · split at h1
      · simp only [MingwBackend.GenerateProjectGccOptionsMacro, List.mem_append, List.mem_map,
          List.mem_singleton] at h1
        rcases h1 with (e | ⟨x, _, e⟩) | e
        · have ha := (Emit.fprintf.inj e).2
          exact Or.inl (List.cons.inj ha).1
        · exact absurd (Emit.fprintf.inj e).1 (by decide)
        · exact absurd (Emit.fprintf.inj e).1 (by decide)
      · cases h1
    · exact Or.inr (GccOptionsIfs_operator f o h1)
theorem GccOptionsIfs_operator :
    ∀ (ifs : List If) (o : CStr),
      Emit.fprintf "PROJECT_GCCOPTIONS %s".toList [o] ∈ GenerateProjectGccOptionsIfs ifs →
      o = "+=".toList
  | [], o, h => by simp [GenerateProjectGccOptionsIfs] at h
  | rIf :: rest, o, h => by
    simp only [GenerateProjectGccOptionsIfs, List.mem_append] at h
    rcases h with h1 | h1
    · exact GccOptionsIf_operator rIf o h1
    · exact GccOptionsIfs_operator rest o h1
theorem GccOptionsIf_operator :
    ∀ (rIf : If) (o : CStr),
      Emit.fprintf "PROJECT_GCCOPTIONS %s".toList [o] ∈ GenerateProjectGccOptionsIf rIf →
      o = "+=".toList
  | .mk p v d, o, h => by
    rw [GenerateProjectGccOptionsIf_eq] at h
    split at h
    · rcases List.mem_append.mp h with h1 | h1
      · rcases List.mem_append.mp h1 with h2 | h2
        · rw [List.mem_singleton] at h2
          exact absurd (Emit.fprintf.inj h2).1 (by decide)
        · rcases GccOptions_operator d "+=".toList o h2 with e | e
          · exact e
          · exact e
      · rw [List.mem_singleton] at h1
        exact absurd (Emit.fprintf.inj h1).1 (by decide)
    · cases h
end

/-! ## Claims on the global variables -/

/-- C23, the claim as it is written fails for a conditional block that holds
properties only: `GenerateGlobalCFlagsAndProperties` writes nothing for it,
neither a guard nor the property; and inside a guarded region a property is
written with `:=`, only `PROJECT_CFLAGS` with `+=`. -/
theorem MingwBackend.GenerateGlobalCFlagsAndProperties_drops_block :
    MingwBackend.GenerateGlobalCFlagsAndProperties GccParameters.sample "=".toList
      (IfableData.mk [] [] [] []
        [If.mk "ARCH".toList "i386".toList
          (IfableData.mk [] [] [Property.mk "CPU".toList "pentium".toList] [] [])]) = [] ∧
    MingwBackend.GenerateGlobalCFlagsAndProperties GccParameters.sample "=".toList
      (IfableData.mk [] [] [] []
        [If.mk "ARCH".toList "i386".toList
          (IfableData.mk [] [Define.mk "_X86_".toList []]
            [Property.mk "CPU".toList "pentium".toList] [] [])]) =
      [Emit.fprintf "ifeq (\"$(%s)\",\"%s\")\n".toList ["ARCH".toList, "i386".toList],
       Emit.fprintf "%s := %s\n".toList ["CPU".toList, "pentium".toList],
       Emit.fprintf "PROJECT_CFLAGS %s".toList ["+=".toList],
       Emit.fprintf " %s".toList ["  -D_X86_".toList],
       Emit.fprintf "\n".toList [],
       Emit.fprintf "endif\n\n".toList []] := by
  decide

/-- C23, amended: each function writes the content of a data block in
declaration order, the flat entries first and the conditional blocks of `ifs`
after them, and for a conditional block, at any depth, that holds what the
function looks for (a define, an include or a nested block for
`GenerateGlobalCFlagsAndProperties`, a compiler flag or a nested block for
`GenerateProjectGccOptions`) the output has the guard line of the block's
property and value, the output for the block's data with `+=` passed down, and
`endif`, one after the other; a block that holds nothing of that is left
out. Under a guard every `PROJECT_CFLAGS` and `PROJECT_GCCOPTIONS` assignment
has the operator `+=`. -/
theorem MingwBackend.GenerateGlobalCFlagsAndProperties_guards (gcc : GccParameters)
    (assignmentOperation : CStr) (data : IfableData) :
    MingwBackend.GenerateGlobalCFlagsAndProperties gcc assignmentOperation data =
      data.properties.map
        (fun prop => Emit.fprintf "%s := %s\n".toList [prop.name, prop.value]) ++
      (if data.includes.length > 0 ∨ data.defines.length > 0 then
        MingwBackend.GenerateProjectCFlagsMacro gcc assignmentOperation data else []) ++
      data.ifs.flatMap (fun rIf =>
        if rIf.data.defines.length > 0 ∨ rIf.data.includes.length > 0 ∨
            rIf.data.ifs.length > 0 then
          [Emit.fprintf "ifeq (\"$(%s)\",\"%s\")\n".toList [rIf.property, rIf.value]] ++
          MingwBackend.GenerateGlobalCFlagsAndProperties gcc "+=".toList rIf.data ++
          [Emit.fprintf "endif\n\n".toList []]
        else []) ∧
    MingwBackend.GenerateProjectGccOptions assignmentOperation data =
      (if data.compilerFlags.length > 0 then
        MingwBackend.GenerateProjectGccOptionsMacro assignmentOperation data else []) ++
      data.ifs.flatMap (fun rIf =>
        if rIf.data.compilerFlags.length > 0 ∨ rIf.data.ifs.length > 0 then
          [Emit.fprintf "ifeq (\"$(%s)\",\"%s\")\n".toList [rIf.property, rIf.value]] ++
          MingwBackend.GenerateProjectGccOptions "+=".toList rIf.data ++
          [Emit.fprintf "endif\n\n".toList []]
        else []) ∧
    (∀ b ∈ data.blocks,
      (b.data.defines.length > 0 ∨ b.data.includes.length > 0 ∨ b.data.ifs.length > 0) →
      ∃ pre post, MingwBackend.GenerateGlobalCFlagsAndProperties gcc assignmentOperation data =
        pre ++ ([Emit.fprintf "ifeq (\"$(%s)\",\"%s\")\n".toList [b.property, b.value]] ++
          MingwBackend.GenerateGlobalCFlagsAndProperties gcc "+=".toList b.data ++
          [Emit.fprintf "endif\n\n".toList []]) ++ post) ∧
    (∀ b ∈ data.blocks, (b.data.compilerFlags.length > 0 ∨ b.data.ifs.length > 0) →
      ∃ pre post, MingwBackend.GenerateProjectGccOptions assignmentOperation data =
        pre ++ ([Emit.fprintf "ifeq (\"$(%s)\",\"%s\")\n".toList [b.property, b.value]] ++
          MingwBackend.GenerateProjectGccOptions "+=".toList b.data ++
          [Emit.fprintf "endif\n\n".toList []]) ++ post) ∧
    (∀ (d : IfableData) (o : CStr),
      Emit.fprintf "PROJECT_CFLAGS %s".toList [o] ∈
        MingwBackend.GenerateGlobalCFlagsAndProperties gcc "+=".toList d → o = "+=".toList) ∧
    (∀ (d : IfableData) (o : CStr),
      Emit.fprintf "PROJECT_GCCOPTIONS %s".toList [o] ∈
        MingwBackend.GenerateProjectGccOptions "+=".toList d → o = "+=".toList) := by
  refine ⟨?_, ?_, fun b hb hp => GlobalCFlags_region gcc data assignmentOperation b hb hp,
    fun b hb hp => GccOptions_region data assignmentOperation b hb hp, ?_, ?_⟩
  · rw [GenerateGlobalCFlagsAndProperties_eq, GenerateGlobalCFlagsAndPropertiesIfs_eq]
    congr 1
    apply List.flatMap_congr
    intro rIf _
    exact GenerateGlobalCFlagsAndPropertiesIf_eq gcc rIf
  · rw [GenerateProjectGccOptions_eq, GenerateProjectGccOptionsIfs_eq]
    congr 1
    apply List.flatMap_congr
    intro rIf _
    exact GenerateProjectGccOptionsIf_eq rIf
  · intro d o h
    rcases GlobalCFlags_operator gcc d "+=".toList o h with e | e <;> exact e
  · intro d o h
    rcases GccOptions_operator d "+=".toList o h with e | e <;> exact e

/-- C23, witness: a block with a compiler flag, nested in a block without
one. -/
theorem MingwBackend.GenerateGlobalCFlagsAndProperties_guards_witness :
    ∃ pre post, MingwBackend.GenerateProjectGccOptions "=".toList
        (IfableData.mk [] [] [] [CompilerFlag.mk "-Wall".toList]
          [If.mk "ARCH".toList "i386".toList (IfableData.mk [] [] [] []
            [If.mk "DBG".toList "1".toList
              (IfableData.mk [] [] [] [CompilerFlag.mk "-g".toList] [])])]) =
      pre ++ ([Emit.fprintf "ifeq (\"$(%s)\",\"%s\")\n".toList
          [(If.mk "DBG".toList "1".toList
              (IfableData.mk [] [] [] [CompilerFlag.mk "-g".toList] [])).property,
           (If.mk "DBG".toList "1".toList
              (IfableData.mk [] [] [] [CompilerFlag.mk "-g".toList] [])).value]] ++
        MingwBackend.GenerateProjectGccOptions "+=".toList
          (If.mk "DBG".toList "1".toList
            (IfableData.mk [] [] [] [CompilerFlag.mk "-g".toList] [])).data ++
        [Emit.fprintf "endif\n\n".toList []]) ++ post :=
  (MingwBackend.GenerateGlobalCFlagsAndProperties_guards GccParameters.sample "=".toList
    (IfableData.mk [] [] [] [CompilerFlag.mk "-Wall".toList]
      [If.mk "ARCH".toList "i386".toList (IfableData.mk [] [] [] []
        [If.mk "DBG".toList "1".toList
          (IfableData.mk [] [] [] [CompilerFlag.mk "-g".toList] [])])])).2.2.2.1
    (If.mk "DBG".toList "1".toList (IfableData.mk [] [] [] [CompilerFlag.mk "-g".toList] []))
    (List.Mem.tail _ (List.Mem.head _)) (Or.inl (by decide))

/-! ## Trees of the same paths -/

theorem foldl_insertPath_mem (x : List CStr) (l : List (List CStr)) (h : x ∈ l) :
    ∀ d : Directory, List.foldl Directory.insertPath (d.insertPath x) l =
      List.foldl Directory.insertPath d l := by
  induction l with
  | nil => cases h
  | cons y r ih =>
    intro d
    simp only [List.foldl_cons]
    by_cases hxy : x = y
    · subst hxy
      rw [insertPath_idem]
    · have hr : x ∈ r := by
        rcases List.mem_cons.mp h with e | e
        · exact absurd e hxy
        · exact e
      rw [insertPath_comm, ih hr]

theorem foldl_insertPath_dedup (l : List (List CStr)) :
    ∀ d : Directory, List.foldl Directory.insertPath d l =
      List.foldl Directory.insertPath d l.dedup := by
  induction l with
  | nil => intro d; rfl
  | cons x r ih =>
    intro d
    by_cases hx : x ∈ r
    · rw [List.dedup_cons_of_mem hx, List.foldl_cons, foldl_insertPath_mem x r hx, ih]
    · rw [List.dedup_cons_of_not_mem hx, List.foldl_cons, List.foldl_cons, ih]

theorem foldl_insertPath_same (d : Directory) (l1 l2 : List (List CStr))
    (h : ∀ x, x ∈ l1 ↔ x ∈ l2) :
    List.foldl Directory.insertPath d l1 = List.foldl Directory.insertPath d l2 := by
  rw [foldl_insertPath_dedup l1, foldl_insertPath_dedup l2]
  apply foldl_insertPath_perm
  rw [List.perm_ext_iff_of_nodup (List.nodup_dedup _) (List.nodup_dedup _)]
  intro x
  rw [List.mem_dedup, List.mem_dedup]
  exact h x

theorem AddAll_same (d : Directory) (ps qs : List CStr)
    (h : (∀ p ∈ ps, p ∈ qs) ∧ (∀ p ∈ qs, p ∈ ps)) (hd : ∀ p ∈ ps, '$' ∉ p) :
    d.AddAll ps = d.AddAll qs ∧ (d.AddAll ps).2 = none := by
  have hq : ∀ p ∈ qs, '$' ∉ p := fun p hp => hd p (h.2 p hp)
  rw [AddAll_eq_foldl d ps hd, AddAll_eq_foldl d qs hq]
  refine ⟨?_, rfl⟩
  congr 1
  apply foldl_insertPath_same
  intro x
  simp only [List.mem_map]
  constructor
  · rintro ⟨p, hp, e⟩; exact ⟨p, h.1 p hp, e⟩
  · rintro ⟨p, hp, e⟩; exact ⟨p, h.2 p hp, e⟩

/-! ## Claims on the whole run -/

/-- C22: when the run of `ProcessNormal` comes to its end (the binutils found
are supported or none is found, the makefile can be opened, a handler is made
for every enabled module, every alias is resolved and the directories can be
created), the text of the makefile is, in this order: the header comment; the
global variables; the XML build files macro; the object macros of the modules;
their target macros; the `all` target; the `INIT` target and the regression
test target; the other macros of the modules; their rule blocks; the install
target, with the rules of the install files, then those of the modules, then
the registry block; the test target; the directory rules. The steps that
follow, in their order, are the creation of the directories, the unpacking of
resources, the test support code, the proxy makefiles, the check of the
automatic dependencies when it is configured, and the closing of the file;
none of them is a write to the makefile. -/
theorem MingwBackend.ProcessNormal_sections (s : Setting) (b : MingwBackend) (fs fs2 : FileSystem)
    (d2 : Detection)
    (hbin : MingwBackend.DetectBinutils s.world (MingwBackend.DetectCompiler s.world b).backend =
      some d2)
    (hsup : d2.exception = none)
    (hopen : s.fopen s.ProjectNode.makefile = true)
    (hinst : ∀ m ∈ s.ProjectNode.modules, m.enabled = true → s.ext.InstanciateHandler m = none)
    (halias : (MingwBackend.OutputModuleInstallTargets s.ext s.outputDirectory
      s.installDirectory s.ProjectNode.modules).2 = true)
    (hdirs : MingwBackend.GenerateDirectories s.msvc s.env s.configuration
      s.intermediateDirectory s.outputDirectory s.installDirectory fs = some (fs2, none)) :
    (MingwBackend.ProcessNormal s b fs).log =
      (MingwBackend.GenerateHeader ++
        MingwBackend.GenerateGlobalVariables s.gcc
          (MingwBackend.DetectNetwideAssembler s.world d2.backend).backend s.ProjectNode ++
        MingwBackend.GenerateXmlBuildFilesMacro s.ext s.ProjectNode ++
        ((s.ProjectNode.modules.filter (fun m => m.enabled)).map
          (fun m => Emit.handler HandlerMethod.GenerateObjectMacro m) ++
         [Emit.fprintf "\n".toList []] ++
         (s.ProjectNode.modules.filter (fun m => m.enabled)).map
          (fun m => Emit.handler HandlerMethod.GenerateTargetMacro m) ++
         [Emit.fprintf "\n".toList []] ++
         MingwBackend.GenerateAllTarget s.ext
          ((s.ProjectNode.modules.filter (fun m => m.enabled)).map
            (fun m => MingwModuleHandler.mk m)) ++
         MingwBackend.GenerateInitTarget s.ext s.ProjectNode.modules ++
         MingwBackend.GenerateRegTestsRunTarget ++
         (s.ProjectNode.modules.filter (fun m => m.enabled)).map
          (fun m => Emit.handler HandlerMethod.GenerateOtherMacros m) ++
         (s.ProjectNode.modules.filter (fun m => m.enabled)).flatMap
          (fun m => MingwBackend.ruleBlocks (MingwModuleHandler.mk m))) ++
        ([Emit.fprintf "install: %s %s\n".toList
            [v2s (MingwBackend.GetInstallTargetFiles s.ext s.installDirectory s.ProjectNode []) 5,
             MingwBackend.GetRegistryTargetFiles s.ext s.installDirectory]] ++
         MingwBackend.OutputNonModuleInstallTargets s.ext s.installDirectory
          s.ProjectNode.installfiles ++
         (MingwBackend.OutputModuleInstallTargets s.ext s.outputDirectory s.installDirectory
          s.ProjectNode.modules).1 ++
         MingwBackend.OutputRegistryInstallTarget s.ext s.installDirectory ++
         [Emit.fprintf "\n".toList []]) ++
        MingwBackend.GenerateTestTarget s.ProjectNode.modules).map Step.write ++
      (s.intermediateDirectory.CreateRule [] ++ s.outputDirectory.CreateRule [] ++
        s.installDirectory.CreateRule []).map Step.rule ++
      ([Step.GenerateDirectories, Step.UnpackWineResources, Step.GenerateTestSupportCode,
        Step.GenerateProxyMakefiles] ++
       (if s.configuration.AutomaticDependencies then [Step.CheckAutomaticDependencies]
        else []) ++
       [Step.CloseMakefile]) ∧
    (∀ a ∈ [Step.GenerateDirectories, Step.UnpackWineResources, Step.GenerateTestSupportCode,
        Step.GenerateProxyMakefiles] ++
       (if s.configuration.AutomaticDependencies then [Step.CheckAutomaticDependencies]
        else []) ++ [Step.CloseMakefile], a.isWrite = false) ∧
    (MingwBackend.ProcessNormal s b fs).fs = fs2 ∧
    (MingwBackend.ProcessNormal s b fs).outcome = Outcome.returned := by
  have hmod := ProcessModules_of_ok s.ext s.ProjectNode.modules _
    (InstanciateHandlers_ok s.ext s.ProjectNode.modules hinst)
  have hinstall : MingwBackend.GenerateInstallTarget s.ext s.outputDirectory s.installDirectory
      s.ProjectNode =
      ([Emit.fprintf "install: %s %s\n".toList
            [v2s (MingwBackend.GetInstallTargetFiles s.ext s.installDirectory s.ProjectNode []) 5,
             MingwBackend.GetRegistryTargetFiles s.ext s.installDirectory]] ++
         MingwBackend.OutputNonModuleInstallTargets s.ext s.installDirectory
          s.ProjectNode.installfiles ++
         (MingwBackend.OutputModuleInstallTargets s.ext s.outputDirectory s.installDirectory
          s.ProjectNode.modules).1 ++
         MingwBackend.OutputRegistryInstallTarget s.ext s.installDirectory ++
         [Emit.fprintf "\n".toList []], true) := by
    cases hm : MingwBackend.OutputModuleInstallTargets s.ext s.outputDirectory
        s.installDirectory s.ProjectNode.modules with
    | mk rules done =>
      rw [hm] at halias
      simp only at halias
      subst halias
      simp only [MingwBackend.GenerateInstallTarget, hm, List.append_assoc]
  refine ⟨?_, ?_, ?_, ?_⟩
  · simp only [MingwBackend.ProcessNormal, hbin, hsup, hopen, hmod, hinstall, hdirs,
      MingwBackend.GenerateDirectoryTargets, Bool.not_true, Bool.false_eq_true, if_false,
      List.map_map, List.flatMap_map, List.append_assoc, List.map_append]
    rfl
  · intro a ha
    cases hc : s.configuration.AutomaticDependencies
    · simp only [hc, Bool.false_eq_true, if_false, List.append_nil, List.cons_append,
        List.nil_append, List.mem_cons, List.mem_singleton, List.not_mem_nil, or_false] at ha
      rcases ha with e | e | e | e | e <;> subst e <;> rfl
    · simp only [hc, if_true, List.cons_append, List.nil_append, List.mem_cons,
        List.mem_singleton, List.not_mem_nil, or_false] at ha
      rcases ha with e | e | e | e | e | e <;> subst e <;> rfl
  · simp only [MingwBackend.ProcessNormal, hbin, hsup, hopen, hmod, hinstall, hdirs,
      Bool.not_true, Bool.false_eq_true, if_false]
  · simp only [MingwBackend.ProcessNormal, hbin, hsup, hopen, hmod, hinstall, hdirs,
      Bool.not_true, Bool.false_eq_true, if_false]

/-- C22, witness: the run on the sample project returns, with the directories
of the intermediate and of the install tree created. -/
theorem MingwBackend.ProcessNormal_sections_witness :
    (MingwBackend.ProcessNormal Setting.sample (MingwBackend.mk [] [] [] [] [])
      FileSystem.empty).fs =
      { cwd := [],
        nodes := [(["obj-i386".toList], FileKind.directory),
          (["obj-i386".toList, "lib".toList], FileKind.directory),
          (["reactos".toList], FileKind.directory),
          (["reactos".toList, "system32".toList], FileKind.directory)],
        denied := fun _ => false } ∧
    (MingwBackend.ProcessNormal Setting.sample (MingwBackend.mk [] [] [] [] [])
      FileSystem.empty).outcome = Outcome.returned :=
  (MingwBackend.ProcessNormal_sections Setting.sample (MingwBackend.mk [] [] [] [] [])
    FileSystem.empty
    { cwd := [],
      nodes := [(["obj-i386".toList], FileKind.directory),
        (["obj-i386".toList, "lib".toList], FileKind.directory),
        (["reactos".toList], FileKind.directory),
        (["reactos".toList, "system32".toList], FileKind.directory)],
      denied := fun _ => false }
    (MingwBackend.DetectBinutilsCommand World.sample
      (MingwBackend.DetectCompiler World.sample (MingwBackend.mk [] [] [] [] [])).backend)
    rfl rfl rfl (fun _ _ _ => rfl) rfl rfl).2.2

/-- C26: the run is a function of the project, the probe results and the
environment, and of the three directory trees; a tree is the same for every
order in which, and however often, the paths of one set were added to it, so
the rules `CreateRule` writes, and with them the whole run, the text of the
makefile included, are the same for two insertion orders of the same paths. -/
theorem MingwBackend.ProcessNormal_insertion_order (s : Setting) (b : MingwBackend)
    (fs : FileSystem) (ps1 qs1 ps2 qs2 ps3 qs3 : List CStr)
    (h1 : (∀ p ∈ ps1, p ∈ qs1) ∧ (∀ p ∈ qs1, p ∈ ps1)) (hd1 : ∀ p ∈ ps1, '$' ∉ p)
    (h2 : (∀ p ∈ ps2, p ∈ qs2) ∧ (∀ p ∈ qs2, p ∈ ps2)) (hd2 : ∀ p ∈ ps2, '$' ∉ p)
    (h3 : (∀ p ∈ ps3, p ∈ qs3) ∧ (∀ p ∈ qs3, p ∈ ps3)) (hd3 : ∀ p ∈ ps3, '$' ∉ p) :
    (∀ (d : Directory) (parent : CStr),
      (d.AddAll ps1).1.CreateRule parent = (d.AddAll qs1).1.CreateRule parent) ∧
    MingwBackend.GenerateDirectoryTargets (s.intermediateDirectory.AddAll ps1).1
        (s.outputDirectory.AddAll ps2).1 (s.installDirectory.AddAll ps3).1 =
      MingwBackend.GenerateDirectoryTargets (s.intermediateDirectory.AddAll qs1).1
        (s.outputDirectory.AddAll qs2).1 (s.installDirectory.AddAll qs3).1 ∧
    MingwBackend.ProcessNormal
        { s with
          intermediateDirectory := (s.intermediateDirectory.AddAll ps1).1,
          outputDirectory := (s.outputDirectory.AddAll ps2).1,
          installDirectory := (s.installDirectory.AddAll ps3).1 } b fs =
      MingwBackend.ProcessNormal
        { s with
          intermediateDirectory := (s.intermediateDirectory.AddAll qs1).1,
          outputDirectory := (s.outputDirectory.AddAll qs2).1,
          installDirectory := (s.installDirectory.AddAll qs3).1 } b fs := by
  have e1 := fun d => (AddAll_same d ps1 qs1 h1 hd1).1
  have e2 := (AddAll_same s.outputDirectory ps2 qs2 h2 hd2).1
  have e3 := (AddAll_same s.installDirectory ps3 qs3 h3 hd3).1
  refine ⟨fun d parent => by rw [e1 d], by rw [e1, e2, e3], by rw [e1, e2, e3]⟩

/-- C26, witness: two paths added in two orders, one of them twice. -/
theorem MingwBackend.ProcessNormal_insertion_order_witness :
    ((Directory.new "$(INTERMEDIATE)".toList).AddAll
        ["lib/msi".toList, "drivers".toList, "lib/msi".toList]).1.CreateRule [] =
      ((Directory.new "$(INTERMEDIATE)".toList).AddAll
        ["drivers".toList, "lib/msi".toList]).1.CreateRule [] :=
  (MingwBackend.ProcessNormal_insertion_order Setting.sample (MingwBackend.mk [] [] [] [] [])
    FileSystem.empty ["lib/msi".toList, "drivers".toList, "lib/msi".toList]
    ["drivers".toList, "lib/msi".toList] [] [] [] []
    (by decide) (by decide) (by decide) (by decide) (by decide) (by decide)).1
    (Directory.new "$(INTERMEDIATE)".toList) []

/-! ## Tools that are not detected -/

theorem DetectCompiler_undetected (w : World) (b : MingwBackend)
    (h : (MingwBackend.DetectCompiler w b).detected = false) :
    (MingwBackend.DetectCompiler w b).backend.compilerPrefix = "mingw32".toList ∧
    (MingwBackend.DetectCompiler w b).backend.compilerCommand =
      "mingw32".toList ++ "-gcc".toList := by
  revert h
  unfold MingwBackend.DetectCompiler
  generalize w.GetVariable "ROS_PREFIX".toList = ros
  generalize MingwBackend.TryToDetectThisCompiler w = T
  generalize "-gcc".toList = sfx
  generalize "gcc".toList = plain
  generalize "mingw32".toList = mingw
  by_cases h1 : ros.length > 0 <;> cases hw : w.win32 <;>
    cases h2 : (T (ros ++ sfx)).1 <;> cases h3 : (T plain).1 <;>
    cases h4 : (T (mingw ++ sfx)).1 <;>
    simp [h1, hw, h2, h3, h4]

theorem DetectNetwideAssembler_undetected (w : World) (b : MingwBackend)
    (h : (MingwBackend.DetectNetwideAssembler w b).detected = false) :
    (MingwBackend.DetectNetwideAssembler w b).backend.nasmCommand = "yasm".toList := by
  revert h
  unfold MingwBackend.DetectNetwideAssembler
  generalize MingwBackend.TryToDetectThisNetwideAssembler w = T
  generalize "nasm".toList = c1
  generalize "nasmw".toList = c2
  generalize "yasm".toList = c3
  cases hw : w.win32 <;>
    cases h2 : (T c1).1 <;> cases h3 : (T c2).1 <;> cases h4 : (T c3).1 <;>
    simp [hw, h2, h3, h4]

theorem DetectNetwideAssembler_keeps (w : World) (b : MingwBackend) :
    (MingwBackend.DetectNetwideAssembler w b).backend.compilerPrefix = b.compilerPrefix ∧
    (MingwBackend.DetectNetwideAssembler w b).backend.compilerCommand = b.compilerCommand := by
  unfold MingwBackend.DetectNetwideAssembler
  generalize MingwBackend.TryToDetectThisNetwideAssembler w = T
  generalize "nasm".toList = c1
  generalize "nasmw".toList = c2
  generalize "yasm".toList = c3
  cases hw : w.win32 <;>
    cases h2 : (T c1).1 <;> cases h3 : (T c2).1 <;> cases h4 : (T c3).1 <;>
    simp [hw, h2, h3, h4]

/-! ## Claims on what the makefile says of the tools -/

/-- C35: when no compiler candidate is detected `DetectCompiler` leaves
`compilerPrefix` equal to `mingw32` and `compilerCommand` equal to
`mingw32-gcc`, and when no assembler is detected `DetectNetwideAssembler`
leaves `nasmCommand` equal to `yasm`. `GenerateGlobalVariables` starts with the
lines `PREFIX := ` and `nasm := ` of these two members, so with
`PREFIX := mingw32` and `nasm := yasm` for tools that are not detected, and
what it writes depends on the backend through these two members alone: the
flags that tell whether a tool was detected do not enter it. -/
theorem MingwBackend.undetected_tools_are_written (w : World) (b : MingwBackend)
    (gcc : GccParameters) (ProjectNode : Project) :
    ((MingwBackend.DetectCompiler w b).detected = false →
      (MingwBackend.DetectCompiler w b).backend.compilerPrefix = "mingw32".toList ∧
      (MingwBackend.DetectCompiler w b).backend.compilerCommand = "mingw32-gcc".toList) ∧
    ((MingwBackend.DetectNetwideAssembler w b).detected = false →
      (MingwBackend.DetectNetwideAssembler w b).backend.nasmCommand = "yasm".toList) ∧
    (∀ b1 : MingwBackend, (MingwBackend.GenerateGlobalVariables gcc b1 ProjectNode).take 2 =
      [Emit.fprintf "PREFIX := %s\n".toList [b1.compilerPrefix],
       Emit.fprintf "nasm := %s\n".toList [b1.nasmCommand]]) ∧
    (∀ b1 b2 : MingwBackend, b1.compilerPrefix = b2.compilerPrefix →
      b1.nasmCommand = b2.nasmCommand →
      MingwBackend.GenerateGlobalVariables gcc b1 ProjectNode =
        MingwBackend.GenerateGlobalVariables gcc b2 ProjectNode) ∧
    ((MingwBackend.DetectCompiler w b).detected = false →
      (MingwBackend.DetectNetwideAssembler w (MingwBackend.DetectCompiler w b).backend).detected
        = false →
      ((MingwBackend.GenerateGlobalVariables gcc
          (MingwBackend.DetectNetwideAssembler w (MingwBackend.DetectCompiler w b).backend).backend
          ProjectNode).take 2).map (Emit.text (fun _ _ => [])) =
        ["PREFIX := mingw32\n".toList, "nasm := yasm\n".toList]) := by
  have hc : (MingwBackend.DetectCompiler w b).detected = false →
      (MingwBackend.DetectCompiler w b).backend.compilerPrefix = "mingw32".toList ∧
      (MingwBackend.DetectCompiler w b).backend.compilerCommand = "mingw32-gcc".toList := by
    intro h
    obtain ⟨h1, h2⟩ := DetectCompiler_undetected w b h
    exact ⟨h1, by rw [h2]; decide⟩
  refine ⟨hc, DetectNetwideAssembler_undetected w b, ?_, ?_, ?_⟩
  · intro b1
    simp only [MingwBackend.GenerateGlobalVariables, List.cons_append, List.nil_append]
    rfl
  · intro b1 b2 e1 e2
    simp only [MingwBackend.GenerateGlobalVariables, e1, e2]
  · intro h1 h2
    have e1 := (hc h1).1
    have e2 := DetectNetwideAssembler_undetected w _ h2
    have e3 := (DetectNetwideAssembler_keeps w (MingwBackend.DetectCompiler w b).backend).1
    simp only [MingwBackend.GenerateGlobalVariables, List.cons_append, List.nil_append,
      e2, e3, e1]
    rfl

/-- C35, witness: on a machine where every probe fails. -/
theorem MingwBackend.undetected_tools_are_written_witness :
    (MingwBackend.DetectCompiler World.sample (MingwBackend.mk [] [] [] [] [])).backend.compilerPrefix
      = "mingw32".toList ∧
    (MingwBackend.DetectCompiler World.sample (MingwBackend.mk [] [] [] [] [])).backend.compilerCommand
      = "mingw32-gcc".toList :=
  (MingwBackend.undetected_tools_are_written World.sample (MingwBackend.mk [] [] [] [] [])
    GccParameters.sample Setting.sample.ProjectNode).1 rfl

/-! ## Guards and properties of the conditional blocks -/

theorem guardsBalanced_nil : guardsBalanced [] := by
  constructor
  · rfl
  · intro n; simp

theorem guardsBalanced_append (a b : List Emit) (ha : guardsBalanced a)
    (hb : guardsBalanced b) : guardsBalanced (a ++ b) := by
  constructor
  · simp only [List.countP_append, ha.1, hb.1]
  · intro n
    rw [List.take_append_eq_append_take, List.countP_append, List.countP_append]
    by_cases hn : n ≤ a.length
    · have : n - a.length = 0 := by omega
      simp only [this, List.take_zero, List.countP_nil, Nat.add_zero]
      exact ha.2 n
    · have : a.take n = a := List.take_of_length_le (by omega)
      rw [this, ha.1]
      have := hb.2 (n - a.length)
      omega

theorem guardsBalanced_plain (l : List Emit)
    (h : ∀ e ∈ l, e.isIfeq = false ∧ e.isEndif = false) : guardsBalanced l := by
  have h1 : ∀ m : List Emit, (∀ e ∈ m, e.isIfeq = false ∧ e.isEndif = false) →
      m.countP Emit.isEndif = 0 ∧ m.countP Emit.isIfeq = 0 := by
    intro m hm
    constructor
    · rw [List.countP_eq_zero]
      intro e he
      simp [(hm e he).2]
    · rw [List.countP_eq_zero]
      intro e he
      simp [(hm e he).1]
  constructor
  · rw [(h1 l h).1, (h1 l h).2]
  · intro n
    have := h1 (l.take n) (fun e he => h e (List.mem_of_mem_take he))
    rw [this.1]
    exact Nat.zero_le _

theorem guardsBalanced_wrap (l : List Emit) (args : List CStr) (h : guardsBalanced l) :
    guardsBalanced ([Emit.fprintf "ifeq (\"$(%s)\",\"%s\")\n".toList args] ++ l ++
      [Emit.fprintf "endif\n\n".toList []]) := by
  have e1 : (Emit.fprintf "ifeq (\"$(%s)\",\"%s\")\n".toList args).isIfeq = true := by
    simp only [Emit.isIfeq, decide_True]
  have e2 : (Emit.fprintf "ifeq (\"$(%s)\",\"%s\")\n".toList args).isEndif = false := by
    simp only [Emit.isEndif]
    decide
  have e3 : (Emit.fprintf "endif\n\n".toList []).isIfeq = false := by
    simp only [Emit.isIfeq]
    decide
  have e4 : (Emit.fprintf "endif\n\n".toList []).isEndif = true := by
    simp only [Emit.isEndif, decide_True]
  constructor
  · simp only [List.countP_append, List.countP_cons, List.countP_nil, e1, e2, e3, e4, h.1,
      if_true, Bool.false_eq_true, if_false]
    omega
  · intro n
    cases n with
    | zero => simp
    | succ m =>
      simp only [List.singleton_append, List.cons_append, List.nil_append, List.take_succ_cons,
        List.countP_cons, e1, e2, if_true, Bool.false_eq_true, if_false]
      rw [List.take_append_eq_append_take, List.countP_append, List.countP_append]
      have h1 := h.2 m
      have h2 : (List.take (m - l.length) [Emit.fprintf "endif\n\n".toList []]).countP
          Emit.isEndif ≤ 1 := by
        calc _ ≤ (List.take (m - l.length) [Emit.fprintf "endif\n\n".toList []]).length :=
              List.countP_le_length _
          _ ≤ 1 := by
              rw [List.length_take]
              exact Nat.min_le_right _ _
      omega

mutual
theorem GlobalCFlags_balanced (gcc : GccParameters) :
    ∀ (data : IfableData) (op : CStr),
      guardsBalanced (MingwBackend.GenerateGlobalCFlagsAndProperties gcc op data)
  | .mk i d p c f, op => by
    rw [GenerateGlobalCFlagsAndProperties_eq]
    apply guardsBalanced_append
    · apply guardsBalanced_append
      · apply guardsBalanced_plain
        intro e he
        obtain ⟨prop, _, e0⟩ := List.mem_map.mp he
        rw [← e0]
        exact ⟨by simp only [Emit.isIfeq]; decide, by simp only [Emit.isEndif]; decide⟩
      · apply guardsBalanced_plain
        intro e he
        split at he
        · simp only [MingwBackend.GenerateProjectCFlagsMacro, List.mem_cons, List.mem_singleton,
            List.not_mem_nil, or_false] at he
          rcases he with e0 | e0 | e0 <;> rw [e0] <;>
            exact ⟨by simp only [Emit.isIfeq]; decide, by simp only [Emit.isEndif]; decide⟩
        · cases he
    · exact GlobalCFlagsIfs_balanced gcc f
theorem GlobalCFlagsIfs_balanced (gcc : GccParameters) :
    ∀ (ifs : List If), guardsBalanced (GenerateGlobalCFlagsAndPropertiesIfs gcc ifs)
  | [] => by
    simp only [GenerateGlobalCFlagsAndPropertiesIfs]
    exact guardsBalanced_nil
  | rIf :: rest => by
    simp only [GenerateGlobalCFlagsAndPropertiesIfs]
    exact guardsBalanced_append _ _ (GlobalCFlagsIf_balanced gcc rIf)
      (GlobalCFlagsIfs_balanced gcc rest)
theorem GlobalCFlagsIf_balanced (gcc : GccParameters) :
    ∀ (rIf : If), guardsBalanced (GenerateGlobalCFlagsAndPropertiesIf gcc rIf)
  | .mk p v d => by
    rw [GenerateGlobalCFlagsAndPropertiesIf_eq]
    split
    · exact guardsBalanced_wrap _ _ (GlobalCFlags_balanced gcc d "+=".toList)
    · exact guardsBalanced_nil
end

mutual
theorem GccOptions_balanced :
    ∀ (data : IfableData) (op : CStr),
      guardsBalanced (MingwBackend.GenerateProjectGccOptions op data)
  | .mk i d p c f, op => by
    rw [GenerateProjectGccOptions_eq]
    apply guardsBalanced_append
    · apply guardsBalanced_plain
      intro e he
      split at he
      · simp only [MingwBackend.GenerateProjectGccOptionsMacro, List.mem_append, List.mem_map,
          List.mem_singleton] at he
        rcases he with (e0 | ⟨x, _, e0⟩) | e0
        · rw [e0]
          exact ⟨by simp only [Emit.isIfeq]; decide, by simp only [Emit.isEndif]; decide⟩
        · rw [← e0]
          exact ⟨by simp only [Emit.isIfeq]; decide, by simp only [Emit.isEndif]; decide⟩
        · rw [e0]
          exact ⟨by simp only [Emit.isIfeq]; decide, by simp only [Emit.isEndif]; decide⟩
      · cases he
    · exact GccOptionsIfs_balanced f
theorem GccOptionsIfs_balanced :
    ∀ (ifs : List If), guardsBalanced (GenerateProjectGccOptionsIfs ifs)
  | [] => by
    simp only [GenerateProjectGccOptionsIfs]
    exact guardsBalanced_nil
  | rIf :: rest => by
    simp only [GenerateProjectGccOptionsIfs]
    exact guardsBalanced_append _ _ (GccOptionsIf_balanced rIf) (GccOptionsIfs_balanced rest)
theorem GccOptionsIf_balanced :
    ∀ (rIf : If), guardsBalanced (GenerateProjectGccOptionsIf rIf)
  | .mk p v d => by
    rw [GenerateProjectGccOptionsIf_eq]
    split
    · exact guardsBalanced_wrap _ _ (GccOptions_balanced d "+=".toList)
    · exact guardsBalanced_nil
end

mutual
theorem GlobalCFlags_property (gcc : GccParameters) :
    ∀ (data : IfableData) (op n v : CStr),
      Emit.fprintf "%s := %s\n".toList [n, v] ∈
        MingwBackend.GenerateGlobalCFlagsAndProperties gcc op data →
      (∃ p ∈ data.properties, p.name = n ∧ p.value = v) ∨
      ∃ b ∈ data.blocks,
        (b.data.defines.length > 0 ∨ b.data.includes.length > 0 ∨ b.data.ifs.length > 0) ∧
        ∃ p ∈ b.data.properties, p.name = n ∧ p.value = v
  | .mk i d p c f, op, n, v, h => by
    rw [GenerateGlobalCFlagsAndProperties_eq] at h
    rcases List.mem_append.mp h with h1 | h1
    · rcases List.mem_append.mp h1 with h2 | h2
      · obtain ⟨prop, hp, e⟩ := List.mem_map.mp h2
        have ha := (Emit.fprintf.inj e).2
        simp only [List.cons.injEq, and_true] at ha
        exact Or.inl ⟨prop, hp, ha.1, ha.2⟩
      · split at h2
        · simp only [MingwBackend.GenerateProjectCFlagsMacro, List.mem_cons, List.mem_singleton,
            List.not_mem_nil, or_false] at h2
          rcases h2 with e | e | e <;> exact absurd (Emit.fprintf.inj e).1 (by decide)
        · cases h2
    · right
      rw [blocks_eq]
      exact GlobalCFlagsIfs_property gcc f n v h1
theorem GlobalCFlagsIfs_property (gcc : GccParameters) :
    ∀ (ifs : List If) (n v : CStr),
      Emit.fprintf "%s := %s\n".toList [n, v] ∈ GenerateGlobalCFlagsAndPropertiesIfs gcc ifs →
      ∃ b ∈ blocksList ifs,
        (b.data.defines.length > 0 ∨ b.data.includes.length > 0 ∨ b.data.ifs.length > 0) ∧
        ∃ p ∈ b.data.properties, p.name = n ∧ p.value = v
  | [], n, v, h => by simp [GenerateGlobalCFlagsAndPropertiesIfs] at h
  | rIf :: rest, n, v, h => by
    simp only [GenerateGlobalCFlagsAndPropertiesIfs, List.mem_append] at h
    rcases h with h1 | h1
    · obtain ⟨b, hb, r⟩ := GlobalCFlagsIf_property gcc rIf n v h1
      exact ⟨b, by simp only [blocksList, List.mem_append]; exact Or.inl hb, r⟩
    · obtain ⟨b, hb, r⟩ := GlobalCFlagsIfs_property gcc rest n v h1
      exact ⟨b, by simp only [blocksList, List.mem_append]; exact Or.inr hb, r⟩
theorem GlobalCFlagsIf_property (gcc : GccParameters) :
    ∀ (rIf : If) (n v : CStr),
      Emit.fprintf "%s := %s\n".toList [n, v] ∈ GenerateGlobalCFlagsAndPropertiesIf gcc rIf →
      ∃ b ∈ rIf.blocks,
        (b.data.defines.length > 0 ∨ b.data.includes.length > 0 ∨ b.data.ifs.length > 0) ∧
        ∃ p ∈ b.data.properties, p.name = n ∧ p.value = v
  | .mk p0 v0 d, n, v, h => by
    rw [GenerateGlobalCFlagsAndPropertiesIf_eq] at h
    rw [If_blocks_eq]
    split at h
    · rename_i hpass
      rcases List.mem_append.mp h with h1 | h1
      · rcases List.mem_append.mp h1 with h2 | h2
        · rw [List.mem_singleton] at h2
          exact absurd (Emit.fprintf.inj h2).1 (by decide)
        · rcases GlobalCFlags_property gcc d "+=".toList n v h2 with r | ⟨b, hb, r⟩
          · exact ⟨If.mk p0 v0 d, List.mem_cons_self _ _, hpass, r⟩
          · exact ⟨b, List.mem_cons_of_mem _ hb, r⟩
      · rw [List.mem_singleton] at h1
        exact absurd (Emit.fprintf.inj h1).1 (by decide)
    · cases h
end

/-! ## Claims on the conditional blocks -/

/-- C32: in what `GenerateGlobalCFlagsAndProperties` writes, and in what
`GenerateProjectGccOptions` writes, the guard lines are balanced and properly
nested: there are as many `endif` lines as `ifeq` lines, and no front part of
the output has more `endif` lines than `ifeq` lines. -/
theorem MingwBackend.guards_are_balanced (gcc : GccParameters) (assignmentOperation : CStr)
    (data : IfableData) :
    ((MingwBackend.GenerateGlobalCFlagsAndProperties gcc assignmentOperation data).countP
        Emit.isEndif =
      (MingwBackend.GenerateGlobalCFlagsAndProperties gcc assignmentOperation data).countP
        Emit.isIfeq ∧
     ∀ n,
      ((MingwBackend.GenerateGlobalCFlagsAndProperties gcc assignmentOperation data).take
        n).countP Emit.isEndif ≤
      ((MingwBackend.GenerateGlobalCFlagsAndProperties gcc assignmentOperation data).take
        n).countP Emit.isIfeq) ∧
    ((MingwBackend.GenerateProjectGccOptions assignmentOperation data).countP Emit.isEndif =
      (MingwBackend.GenerateProjectGccOptions assignmentOperation data).countP Emit.isIfeq ∧
     ∀ n,
      ((MingwBackend.GenerateProjectGccOptions assignmentOperation data).take n).countP
        Emit.isEndif ≤
      ((MingwBackend.GenerateProjectGccOptions assignmentOperation data).take n).countP
        Emit.isIfeq) :=
  ⟨GlobalCFlags_balanced gcc data assignmentOperation, GccOptions_balanced data assignmentOperation⟩

/-- C33: `GenerateGlobalCFlagsAndProperties` writes nothing for a conditional
block whose data has no include, no define and no nested block, whatever
properties it declares. A line `name := value` is written only for a property
of the data the function is called with or of a block, at any depth, that has
an include, a define or a nested block; and for every such property the line
is written. -/
theorem MingwBackend.property_lines (gcc : GccParameters) (assignmentOperation : CStr)
    (data : IfableData) :
    (∀ rIf : If, rIf.data.includes = [] → rIf.data.defines = [] → rIf.data.ifs = [] →
      GenerateGlobalCFlagsAndPropertiesIf gcc rIf = []) ∧
    (∀ n v : CStr,
      Emit.fprintf "%s := %s\n".toList [n, v] ∈
        MingwBackend.GenerateGlobalCFlagsAndProperties gcc assignmentOperation data →
      (∃ p ∈ data.properties, p.name = n ∧ p.value = v) ∨
      ∃ b ∈ data.blocks,
        (b.data.defines.length > 0 ∨ b.data.includes.length > 0 ∨ b.data.ifs.length > 0) ∧
        ∃ p ∈ b.data.properties, p.name = n ∧ p.value = v) ∧
    (∀ p ∈ data.properties,
      Emit.fprintf "%s := %s\n".toList [p.name, p.value] ∈
        MingwBackend.GenerateGlobalCFlagsAndProperties gcc assignmentOperation data) ∧
    (∀ b ∈ data.blocks,
      (b.data.defines.length > 0 ∨ b.data.includes.length > 0 ∨ b.data.ifs.length > 0) →
      ∀ p ∈ b.data.properties,
        Emit.fprintf "%s := %s\n".toList [p.name, p.value] ∈
          MingwBackend.GenerateGlobalCFlagsAndProperties gcc assignmentOperation data) := by
  have htop : ∀ (op : CStr) (d : IfableData), ∀ p ∈ d.properties,
      Emit.fprintf "%s := %s\n".toList [p.name, p.value] ∈
        MingwBackend.GenerateGlobalCFlagsAndProperties gcc op d := by
    intro op d p hp
    rw [GenerateGlobalCFlagsAndProperties_eq]
    exact List.mem_append_left _ (List.mem_append_left _ (List.mem_map.mpr ⟨p, hp, rfl⟩))
  refine ⟨?_, GlobalCFlags_property gcc data assignmentOperation, htop assignmentOperation data,
    ?_⟩
  · intro rIf h1 h2 h3
    rw [GenerateGlobalCFlagsAndPropertiesIf_eq, h1, h2, h3]
    simp
  · intro b hb hpass p hp
    obtain ⟨pre, post, e⟩ := GlobalCFlags_region gcc data assignmentOperation b hb hpass
    rw [e]
    apply List.mem_append_left
    apply List.mem_append_right
    apply List.mem_append_left
    apply List.mem_append_right
    exact htop _ _ p hp

/-- C33, witness: a block with properties only writes nothing. -/
theorem MingwBackend.property_lines_witness :
    GenerateGlobalCFlagsAndPropertiesIf GccParameters.sample
      (If.mk "ARCH".toList "i386".toList
        (IfableData.mk [] [] [Property.mk "CPU".toList "pentium".toList] [] [])) = [] :=
  (MingwBackend.property_lines GccParameters.sample "=".toList (IfableData.mk [] [] [] [] [])).1
    (If.mk "ARCH".toList "i386".toList
      (IfableData.mk [] [] [Property.mk "CPU".toList "pentium".toList] [] [])) rfl rfl rfl

/-! ## The install target and its rules -/

theorem installRuleTargets_other (format : CStr) (args : List CStr) (rest : List Emit)
    (h : format ≠ "%s: %s | %s\n".toList) :
    installRuleTargets (Emit.fprintf format args :: rest) = installRuleTargets rest := by
  simp only [installRuleTargets, h, if_false]

theorem installRuleTargets_rule (t : CStr) (ts : List CStr) (rest : List Emit) :
    installRuleTargets (Emit.fprintf "%s: %s | %s\n".toList (t :: ts) :: rest) =
      t :: installRuleTargets rest := by
  simp only [installRuleTargets, if_true]

theorem installRuleTargets_rule_nil (rest : List Emit) :
    installRuleTargets (Emit.fprintf "%s: %s | %s\n".toList [] :: rest) =
      installRuleTargets rest := by
  simp only [installRuleTargets, if_true]

theorem installRuleTargets_handler (method : HandlerMethod) (module : Project.Module)
    (rest : List Emit) :
    installRuleTargets (Emit.handler method module :: rest) = installRuleTargets rest := by
  simp only [installRuleTargets]

theorem installRuleTargets_append (a b : List Emit) :
    installRuleTargets (a ++ b) = installRuleTargets a ++ installRuleTargets b := by
  induction a with
  | nil => rfl
  | cons x xs ih =>
    rw [List.cons_append]
    cases x with
    | fprintf format args =>
      by_cases hf : format = "%s: %s | %s\n".toList
      · subst hf
        cases args with
        | nil => rw [installRuleTargets_rule_nil, installRuleTargets_rule_nil, ih]
        | cons t ts => rw [installRuleTargets_rule, installRuleTargets_rule, ih, List.cons_append]
      · rw [installRuleTargets_other _ _ _ hf, installRuleTargets_other _ _ _ hf, ih]
    | handler method module => rw [installRuleTargets_handler, installRuleTargets_handler, ih]

theorem installRuleTargets_OutputInstallTarget (ext : External) (installDirectory : Directory)
    (sourceFilename targetFilename targetDirectory : CStr) :
    installRuleTargets (MingwBackend.OutputInstallTarget ext installDirectory sourceFilename
      targetFilename targetDirectory) =
      [PassThruCacheDirectory (ext.NormalizeFilename
        (if targetDirectory.length > 0 then targetDirectory ++ SSEP ++ targetFilename
         else targetFilename)) installDirectory] := by
  simp only [MingwBackend.OutputInstallTarget]
  rw [installRuleTargets_rule, installRuleTargets_other _ _ _ (by decide),
    installRuleTargets_other _ _ _ (by decide)]
  rfl

theorem GetNonModuleInstallTargetFiles_eq (ext : External) (installDirectory : Directory)
    (installfiles : List InstallFile) (out : List CStr) :
    MingwBackend.GetNonModuleInstallTargetFiles ext installDirectory installfiles out =
      out ++ installfiles.map (fun f =>
        PassThruCacheDirectory (ext.NormalizeFilename (f.base ++ SSEP ++ f.newname))
          installDirectory) := by
  induction installfiles generalizing out with
  | nil => simp [MingwBackend.GetNonModuleInstallTargetFiles]
  | cons f rest ih =>
    simp only [MingwBackend.GetNonModuleInstallTargetFiles, ih, List.map_cons, List.append_assoc,
      List.singleton_append]

theorem installRuleTargets_OutputNonModule (ext : External) (installDirectory : Directory)
    (installfiles : List InstallFile) :
    installRuleTargets
        (MingwBackend.OutputNonModuleInstallTargets ext installDirectory installfiles) =
      installfiles.map (fun f =>
        PassThruCacheDirectory (ext.NormalizeFilename
          (if f.base.length > 0 then f.base ++ SSEP ++ f.newname else f.newname))
          installDirectory) := by
  induction installfiles with
  | nil => rfl
  | cons f rest ih =>
    simp only [MingwBackend.OutputNonModuleInstallTargets, installRuleTargets_append,
      installRuleTargets_OutputInstallTarget, ih, List.map_cons, List.singleton_append]

theorem installRuleTargets_flatMap (ext : External) (outputDirectory installDirectory : Directory)
    (ms : List Project.Module)
    (h : ∀ m ∈ ms, (MingwBackend.GetAliasedModuleOrModule ext m).isSome = true) :
    installRuleTargets (ms.flatMap (fun m =>
        match MingwBackend.GetAliasedModuleOrModule ext m with
        | some aliasedModule =>
          MingwBackend.moduleInstallRule ext outputDirectory installDirectory m aliasedModule
        | none => [])) =
      ms.map (fun m => PassThruCacheDirectory (ext.NormalizeFilename
          (if m.installBase.length > 0 then m.installBase ++ SSEP ++ m.installName
           else m.installName)) installDirectory) := by
  induction ms with
  | nil => rfl
  | cons m rest ih =>
    have hm := h m (List.mem_cons_self _ _)
    obtain ⟨a, ha⟩ := Option.isSome_iff_exists.mp hm
    rw [List.flatMap_cons, installRuleTargets_append,
      ih (fun x hx => h x (List.mem_cons_of_mem _ hx)), List.map_cons]
    simp only [ha, MingwBackend.moduleInstallRule, installRuleTargets_OutputInstallTarget,
      List.singleton_append]

/-! ## Claims on the install target -/

/-- C31: when every install file has a non-empty base, the targets of the
rules `OutputNonModuleInstallTargets` and `OutputModuleInstallTargets` write
are, one by one and in order, the front part of the list
`GetInstallTargetFiles` returns, and the whole list when
`OutputModuleInstallTargets` runs to its end; so every file the `install`
target names has a rule with that very target. For an install file with an
empty base the file named is built from the base, the separator and the name,
and the target of its rule from the name alone. -/
theorem MingwBackend.install_files_have_rules (ext : External)
    (outputDirectory installDirectory : Directory) (ProjectNode : Project)
    (hbase : ∀ f ∈ ProjectNode.installfiles, f.base ≠ []) :
    installRuleTargets
        (MingwBackend.OutputNonModuleInstallTargets ext installDirectory
          ProjectNode.installfiles ++
         (MingwBackend.OutputModuleInstallTargets ext outputDirectory installDirectory
          ProjectNode.modules).1) <+:
      MingwBackend.GetInstallTargetFiles ext installDirectory ProjectNode [] ∧
    ((MingwBackend.OutputModuleInstallTargets ext outputDirectory installDirectory
        ProjectNode.modules).2 = true →
      MingwBackend.GetInstallTargetFiles ext installDirectory ProjectNode [] =
        installRuleTargets
          (MingwBackend.OutputNonModuleInstallTargets ext installDirectory
            ProjectNode.installfiles ++
           (MingwBackend.OutputModuleInstallTargets ext outputDirectory installDirectory
            ProjectNode.modules).1)) ∧
    (∀ f : InstallFile, f.base = [] →
      MingwBackend.GetNonModuleInstallTargetFiles ext installDirectory [f] [] =
        [PassThruCacheDirectory (ext.NormalizeFilename (SSEP ++ f.newname)) installDirectory] ∧
      installRuleTargets (MingwBackend.OutputNonModuleInstallTargets ext installDirectory [f]) =
        [PassThruCacheDirectory (ext.NormalizeFilename f.newname) installDirectory]) := by
  have hfiles : ProjectNode.installfiles.map (fun f =>
        PassThruCacheDirectory (ext.NormalizeFilename
          (if f.base.length > 0 then f.base ++ SSEP ++ f.newname else f.newname))
          installDirectory) =
      ProjectNode.installfiles.map (fun f =>
        PassThruCacheDirectory (ext.NormalizeFilename (f.base ++ SSEP ++ f.newname))
          installDirectory) := by
    apply List.map_congr_left
    intro f hf
    have : f.base.length > 0 := List.length_pos.mpr (hbase f hf)
    simp only [this, if_true]
  have hlist : MingwBackend.GetInstallTargetFiles ext installDirectory ProjectNode [] =
      ProjectNode.installfiles.map (fun f =>
        PassThruCacheDirectory (ext.NormalizeFilename (f.base ++ SSEP ++ f.newname))
          installDirectory) ++
      (ProjectNode.modules.filter installsModule).map (fun m =>
        PassThruCacheDirectory (ext.NormalizeFilename
          (if m.installBase.length > 0 then m.installBase ++ SSEP ++ m.installName
           else m.installName)) installDirectory) := by
    simp only [MingwBackend.GetInstallTargetFiles, GetModuleInstallTargetFiles_eq,
      GetNonModuleInstallTargetFiles_eq, List.nil_append]
  have hrules : installRuleTargets
        (MingwBackend.OutputNonModuleInstallTargets ext installDirectory
          ProjectNode.installfiles ++
         (MingwBackend.OutputModuleInstallTargets ext outputDirectory installDirectory
          ProjectNode.modules).1) =
      ProjectNode.installfiles.map (fun f =>
        PassThruCacheDirectory (ext.NormalizeFilename (f.base ++ SSEP ++ f.newname))
          installDirectory) ++
      ((ProjectNode.modules.filter installsModule).takeWhile
        (fun m => (MingwBackend.GetAliasedModuleOrModule ext m).isSome)).map (fun m =>
        PassThruCacheDirectory (ext.NormalizeFilename
          (if m.installBase.length > 0 then m.installBase ++ SSEP ++ m.installName
           else m.installName)) installDirectory) := by
    rw [installRuleTargets_append, installRuleTargets_OutputNonModule, hfiles,
      OutputModuleInstallTargets_eq]
    simp only
    rw [installRuleTargets_flatMap]
    intro m hm
    exact List.mem_takeWhile_imp
      (p := fun m => (MingwBackend.GetAliasedModuleOrModule ext m).isSome) hm
  refine ⟨?_, ?_, ?_⟩
  · rw [hrules, hlist]
    apply List.prefix_append_right_inj _ |>.mpr
    exact (List.takeWhile_prefix _).map _
  · intro hdone
    rw [hrules, hlist]
    congr 2
    rw [OutputModuleInstallTargets_eq] at hdone
    simp only at hdone
    symm
    rw [List.takeWhile_eq_self_iff]
    intro m hm
    exact List.all_eq_true.mp hdone m hm
  · intro f hf
    constructor
    · simp [MingwBackend.GetNonModuleInstallTargetFiles, hf]
    · rw [installRuleTargets_OutputNonModule]
      simp [hf]

/-- C31, witness: the install file and the two modules of the sample
project. -/
theorem MingwBackend.install_files_have_rules_witness :
    MingwBackend.GetInstallTargetFiles Setting.sample.ext Setting.sample.installDirectory
        Setting.sample.ProjectNode [] =
      installRuleTargets
        (MingwBackend.OutputNonModuleInstallTargets Setting.sample.ext
          Setting.sample.installDirectory Setting.sample.ProjectNode.installfiles ++
         (MingwBackend.OutputModuleInstallTargets Setting.sample.ext
          Setting.sample.outputDirectory Setting.sample.installDirectory
          Setting.sample.ProjectNode.modules).1) :=
  (MingwBackend.install_files_have_rules Setting.sample.ext Setting.sample.outputDirectory
    Setting.sample.installDirectory Setting.sample.ProjectNode (by decide)).2.1 (by decide)

/-! ## The XML build files macro -/

theorem spaceJoin_snoc (pend : List CStr) (x : CStr) :
    spaceJoin (pend ++ [x]) =
      (if (spaceJoin pend).length > 0 then spaceJoin pend ++ " ".toList else spaceJoin pend) ++
        x := by
  simp only [spaceJoin, List.foldl_append, List.foldl_cons, List.foldl_nil]

theorem XmlLoop_nil (ext : External) (size i : Nat) (s : CStr) (n : Int) :
    MingwBackend.GenerateXmlBuildFilesMacroLoop ext size [] i s n = [] := by
  simp only [MingwBackend.GenerateXmlBuildFilesMacroLoop]

theorem XmlLoop_skip (ext : External) (size i : Nat) (s : CStr) (n : Int) (f : XMLInclude)
    (rest : List XMLInclude) (hf : f.fileExists = false) :
    MingwBackend.GenerateXmlBuildFilesMacroLoop ext size (f :: rest) i s n =
      MingwBackend.GenerateXmlBuildFilesMacroLoop ext size rest (i + 1) s n := by
  simp only [MingwBackend.GenerateXmlBuildFilesMacroLoop, hf, Bool.not_false, if_true]

theorem XmlLoop_flush (ext : External) (size i : Nat) (s : CStr) (n : Int) (f : XMLInclude)
    (rest : List XMLInclude) (hf : f.fileExists = true)
    (hc : (n + 1) % 5 = 4 ∨ i = size - 1) :
    MingwBackend.GenerateXmlBuildFilesMacroLoop ext size (f :: rest) i s n =
      [Emit.fprintf "\t%s".toList
        [(if s.length > 0 then s ++ " ".toList else s) ++
          ext.NormalizeFilename f.topIncludeFilename]] ++
      (if i = size - 1 then [Emit.fprintf "\n".toList []]
       else [Emit.fprintf " \\\n".toList []]) ++
      MingwBackend.GenerateXmlBuildFilesMacroLoop ext size rest (i + 1) [] (n + 1 + 1) := by
  simp only [MingwBackend.GenerateXmlBuildFilesMacroLoop, hf, Bool.not_true, Bool.false_eq_true,
    if_false, hc, if_true]

theorem XmlLoop_keep (ext : External) (size i : Nat) (s : CStr) (n : Int) (f : XMLInclude)
    (rest : List XMLInclude) (hf : f.fileExists = true)
    (hc : ¬ ((n + 1) % 5 = 4 ∨ i = size - 1)) :
    MingwBackend.GenerateXmlBuildFilesMacroLoop ext size (f :: rest) i s n =
      MingwBackend.GenerateXmlBuildFilesMacroLoop ext size rest (i + 1)
        ((if s.length > 0 then s ++ " ".toList else s) ++
          ext.NormalizeFilename f.topIncludeFilename) (n + 1 + 1) := by
  simp only [MingwBackend.GenerateXmlBuildFilesMacroLoop, hf, Bool.not_true, Bool.false_eq_true,
    if_false, hc]

theorem flushedNames_flush (x : CStr) (i size : Nat) (rest : List Emit) :
    flushedNames ([Emit.fprintf "\t%s".toList [x]] ++
      (if i = size - 1 then [Emit.fprintf "\n".toList []]
       else [Emit.fprintf " \\\n".toList []]) ++ rest) = x :: flushedNames rest := by
  have e1 : ¬ ("\n".toList = "\t%s".toList) := by decide
  have e2 : ¬ (" \\\n".toList = "\t%s".toList) := by decide
  by_cases h : i = size - 1
  · simp only [h, if_true, List.singleton_append, List.cons_append, List.nil_append,
      flushedNames, e1, if_false]
    rfl
  · simp only [h, if_false, List.singleton_append, List.cons_append, List.nil_append,
      flushedNames, if_true, e2]
    rfl

theorem XmlLoop_groups (ext : External) (size : Nat) :
    ∀ (rest : List XMLInclude) (i : Nat) (pend : List CStr) (n : Int),
      i + rest.length = size → n % 10 = 2 * (pend.length : Int) → pend.length < 5 →
      (∀ f, rest.getLast? = some f → f.fileExists = true) → (rest = [] → pend = []) →
      ∃ groups : List (List CStr),
        groups.flatten = pend ++ (rest.filter (fun f => f.fileExists)).map
          (fun f => ext.NormalizeFilename f.topIncludeFilename) ∧
        flushedNames (MingwBackend.GenerateXmlBuildFilesMacroLoop ext size rest i
          (spaceJoin pend) n) = groups.map spaceJoin ∧
        (∀ g ∈ groups, 0 < g.length ∧ g.length ≤ 5) ∧
        ∀ g ∈ groups.dropLast, g.length = 5 := by
  intro rest
  induction rest with
  | nil =>
    intro i pend n _ _ _ _ hp
    refine ⟨[], ?_, ?_, ?_, ?_⟩
    · simp [hp rfl]
    · rw [XmlLoop_nil]; rfl
    · intro g hg; cases hg
    · intro g hg; simp at hg
  | cons f rest ih =>
    intro i pend n hi hn hlen hlast _
    have hsize : i = size - 1 ↔ rest = [] := by
      simp only [List.length_cons] at hi
      constructor
      · intro h
        apply List.length_eq_zero.mp
        omega
      · intro h
        rw [h] at hi
        simp only [List.length_nil] at hi
        omega
    cases hf : f.fileExists with
    | false =>
      have hne : rest ≠ [] := by
        intro e
        rw [e] at hlast
        have := hlast f rfl
        rw [hf] at this
        cases this
      have hlast2 : ∀ g, rest.getLast? = some g → g.fileExists = true := by
        intro g hg
        apply hlast g
        cases rest with
        | nil => exact absurd rfl hne
        | cons y ys => rw [List.getLast?_cons_cons]; exact hg
      obtain ⟨G, h1, h2, h3, h4⟩ := ih (i + 1) pend n
        (by simp only [List.length_cons] at hi; omega) hn hlen hlast2
        (fun e => absurd e hne)
      refine ⟨G, ?_, ?_, h3, h4⟩
      · rw [h1]
        simp [List.filter, hf]
      · rw [XmlLoop_skip ext size i _ n f rest hf]
        exact h2
    | true =>
      have hnames : pend ++ ((f :: rest).filter (fun f => f.fileExists)).map
          (fun f => ext.NormalizeFilename f.topIncludeFilename) =
          (pend ++ [ext.NormalizeFilename f.topIncludeFilename]) ++
            (rest.filter (fun f => f.fileExists)).map
              (fun f => ext.NormalizeFilename f.topIncludeFilename) := by
        simp [List.filter, hf]
      have hmod : (n + 1) % 5 = 4 ↔ pend.length = 4 := by
        constructor
        · intro h; omega
        · intro h; omega
      by_cases hc : (n + 1) % 5 = 4 ∨ i = size - 1
      · rw [XmlLoop_flush ext size i _ n f rest hf hc, flushedNames_flush, ← spaceJoin_snoc]
        cases rest with
        | nil =>
          refine ⟨[pend ++ [ext.NormalizeFilename f.topIncludeFilename]], ?_, ?_, ?_, ?_⟩
          · rw [hnames]; simp
          · rw [XmlLoop_nil]; rfl
          · intro g hg
            rw [List.mem_singleton] at hg
            rw [hg]
            simp only [List.length_append, List.length_singleton]
            omega
          · intro g hg; simp at hg
        | cons y ys =>
          have hne : (y :: ys) ≠ [] := by simp
          have hnl : ¬ i = size - 1 := fun e => hne (hsize.mp e)
          have h4 : pend.length = 4 := by
            rcases hc with h | h
            · exact hmod.mp h
            · exact absurd h hnl
          have hlast2 : ∀ g, (y :: ys).getLast? = some g → g.fileExists = true := by
            intro g hg
            apply hlast g
            rw [List.getLast?_cons_cons]; exact hg
          obtain ⟨G, h1, h2, h3, h5⟩ := ih (i + 1) [] (n + 1 + 1)
            (by simp only [List.length_cons] at hi ⊢; omega)
            (by simp only [List.length_nil]; omega) (by simp) hlast2
            (fun e => absurd e hne)
          have hG : G ≠ [] := by
            intro e
            rw [e] at h1
            simp only [List.flatten_nil, List.nil_append] at h1
            have hex : ∃ z, (y :: ys).getLast? = some z := by
              cases hz : (y :: ys).getLast? with
              | none => simp at hz
              | some z => exact ⟨z, rfl⟩
            obtain ⟨z, hz⟩ := hex
            have hzm : z ∈ (y :: ys).filter (fun f => f.fileExists) :=
              List.mem_filter.mpr ⟨List.mem_of_getLast?_eq_some hz, hlast2 z hz⟩
            have : (List.map (fun f => ext.NormalizeFilename f.topIncludeFilename)
                ((y :: ys).filter (fun f => f.fileExists))).length = 0 := by
              rw [← h1]; rfl
            rw [List.length_map] at this
            rw [List.length_eq_zero.mp this] at hzm
            cases hzm
          refine ⟨(pend ++ [ext.NormalizeFilename f.topIncludeFilename]) :: G, ?_, ?_, ?_, ?_⟩
          · rw [hnames, List.flatten_cons, h1, List.nil_append]
          · have e0 : spaceJoin [] = ([] : CStr) := rfl
            rw [e0] at h2
            rw [h2]
            rfl
          · intro g hg
            rcases List.mem_cons.mp hg with e | e
            · rw [e]
              simp only [List.length_append, List.length_singleton]
              omega
            · exact h3 g e
          · intro g hg
            cases G with
            | nil => exact absurd rfl hG
            | cons g1 Gs =>
              rw [List.dropLast_cons₂] at hg
              rcases List.mem_cons.mp hg with e | e
              · rw [e]
                simp only [List.length_append, List.length_singleton]
                omega
              · exact h5 g e
      · rw [XmlLoop_keep ext size i _ n f rest hf hc, ← spaceJoin_snoc]
        have hc1 : ¬ (n + 1) % 5 = 4 := fun h => hc (Or.inl h)
        have hc2 : ¬ i = size - 1 := fun h => hc (Or.inr h)
        have hne : rest ≠ [] := fun e => hc2 (hsize.mpr e)
        have h4 : pend.length ≠ 4 := fun h => hc1 (hmod.mpr h)
        have hlast2 : ∀ g, rest.getLast? = some g → g.fileExists = true := by
          intro g hg
          apply hlast g
          cases rest with
          | nil => exact absurd rfl hne
          | cons y ys => rw [List.getLast?_cons_cons]; exact hg
        obtain ⟨G, h1, h2, h3, h5⟩ := ih (i + 1)
          (pend ++ [ext.NormalizeFilename f.topIncludeFilename]) (n + 1 + 1)
          (by simp only [List.length_cons] at hi; omega)
          (by simp only [List.length_append, List.length_singleton]; push_cast; omega)
          (by simp only [List.length_append, List.length_singleton]; omega) hlast2
          (fun e => absurd e hne)
        exact ⟨G, by rw [hnames, h1], h2, h3, h5⟩

theorem flushedNames_append (a b : List Emit) :
    flushedNames (a ++ b) = flushedNames a ++ flushedNames b := by
  induction a with
  | nil => rfl
  | cons x xs ih =>
    rw [List.cons_append]
    cases x with
    | fprintf format args =>
      by_cases hf : format = "\t%s".toList
      · have k : ∀ r, flushedNames (Emit.fprintf format args :: r) = args ++ flushedNames r := by
          intro r; simp only [flushedNames, hf, if_true]
        rw [k, k, ih, List.append_assoc]
      · have k : ∀ r, flushedNames (Emit.fprintf format args :: r) = flushedNames r := by
          intro r; simp only [flushedNames, hf, if_false]
        rw [k, k, ih]
    | handler method module =>
      have k : ∀ r, flushedNames (Emit.handler method module :: r) = flushedNames r := by
        intro r; simp only [flushedNames]
      rw [k, k, ih]

/-! ## Claims on the XML build files macro -/

/-- C34: when the last entry of the XML build file list exists, the groups of
names `GenerateXmlBuildFilesMacro` writes into the `XMLBUILDFILES` macro hold,
put one after the other, the normalized names of the files that exist, each
once and in declaration order, and no other name; every group but the last
has five names and the last has one to five. When the last entry does not
exist, the names collected since the last full group are not written: of an
existing file followed by a missing one nothing is written. -/
theorem MingwBackend.GenerateXmlBuildFilesMacro_names (ext : External) (ProjectNode : Project)
    (hlast : ∀ f, ProjectNode.xmlbuildfiles.getLast? = some f → f.fileExists = true) :
    (∃ groups : List (List CStr),
      groups.flatten = (ProjectNode.xmlbuildfiles.filter (fun f => f.fileExists)).map
        (fun f => ext.NormalizeFilename f.topIncludeFilename) ∧
      flushedNames (MingwBackend.GenerateXmlBuildFilesMacro ext ProjectNode) =
        groups.map spaceJoin ∧
      (∀ g ∈ groups, 0 < g.length ∧ g.length ≤ 5) ∧
      ∀ g ∈ groups.dropLast, g.length = 5) ∧
    flushedNames (MingwBackend.GenerateXmlBuildFilesMacro External.sample
      { Setting.sample.ProjectNode with
        xmlbuildfiles := [XMLInclude.mk true "lib/lib.xml".toList,
          XMLInclude.mk false "apps/apps.xml".toList] }) = [] := by
  constructor
  · obtain ⟨G, h1, h2, h3, h4⟩ := XmlLoop_groups ext ProjectNode.xmlbuildfiles.length
      ProjectNode.xmlbuildfiles 0 [] 0 (by omega) (by simp) (by simp) hlast (fun _ => rfl)
    refine ⟨G, by rw [h1, List.nil_append], ?_, h3, h4⟩
    have e0 : spaceJoin [] = ([] : CStr) := rfl
    rw [e0] at h2
    simp only [MingwBackend.GenerateXmlBuildFilesMacro, flushedNames_append, h2]
    have f1 : flushedNames [Emit.fprintf "XMLBUILDFILES = %s \\\n".toList
        [ProjectNode.GetProjectFilename]] = [] := by
      have : ¬ ("XMLBUILDFILES = %s \\\n".toList = "\t%s".toList) := by decide
      simp only [flushedNames, this, if_false]
    have f2 : flushedNames [Emit.fprintf "\n".toList []] = [] := by
      have : ¬ ("\n".toList = "\t%s".toList) := by decide
      simp only [flushedNames, this, if_false]
    rw [f1, f2, List.nil_append, List.append_nil]
  · decide

/-- C34, witness: six files of which the third is missing: a group of five
names and a group of one. -/
theorem MingwBackend.GenerateXmlBuildFilesMacro_names_witness :
    ∃ groups : List (List CStr),
      groups.flatten = (([XMLInclude.mk true "a.xml".toList, XMLInclude.mk true "b.xml".toList,
          XMLInclude.mk false "c.xml".toList, XMLInclude.mk true "d.xml".toList,
          XMLInclude.mk true "e.xml".toList, XMLInclude.mk true "f.xml".toList,
          XMLInclude.mk true "g.xml".toList] : List XMLInclude).filter
            (fun f => f.fileExists)).map
        (fun f => External.sample.NormalizeFilename f.topIncludeFilename) ∧
      flushedNames (MingwBackend.GenerateXmlBuildFilesMacro External.sample
        { Setting.sample.ProjectNode with
          xmlbuildfiles := [XMLInclude.mk true "a.xml".toList, XMLInclude.mk true "b.xml".toList,
            XMLInclude.mk false "c.xml".toList, XMLInclude.mk true "d.xml".toList,
            XMLInclude.mk true "e.xml".toList, XMLInclude.mk true "f.xml".toList,
            XMLInclude.mk true "g.xml".toList] }) = groups.map spaceJoin ∧
      (∀ g ∈ groups, 0 < g.length ∧ g.length ≤ 5) ∧
      ∀ g ∈ groups.dropLast, g.length = 5 :=
  (MingwBackend.GenerateXmlBuildFilesMacro_names External.sample
    { Setting.sample.ProjectNode with
      xmlbuildfiles := [XMLInclude.mk true "a.xml".toList, XMLInclude.mk true "b.xml".toList,
        XMLInclude.mk false "c.xml".toList, XMLInclude.mk true "d.xml".toList,
        XMLInclude.mk true "e.xml".toList, XMLInclude.mk true "f.xml".toList,
        XMLInclude.mk true "g.xml".toList] }
    (by decide)).1

/-! ## Lemmas on `v2s` and its separators -/

theorem v2sLoop_joined (wrap_at : Int) :
    ∀ (rest : List CStr) (c : Nat) (wrap_count : Int) (s : CStr),
      (wrap_at > 0 → wrap_count = c) → (s.length > 0 ↔ c > 0) →
      v2sLoop wrap_at rest wrap_count s =
        s ++ (((rest.filter (fun x => !x.isEmpty)).enumFrom c).map
          (fun kx => v2sSeparator wrap_at kx.1 ++ kx.2)).flatten := by
  intro rest
  induction rest with
  | nil => intro c wc s _ _; simp [v2sLoop]
  | cons x xs ih =>
    intro c wc s hwc hs
    by_cases hx : x.length = 0
    · have hx2 : x = [] := List.length_eq_zero.mp hx
      have k : v2sLoop wrap_at (x :: xs) wc s = v2sLoop wrap_at xs wc s := by
        simp only [v2sLoop, hx, if_true]
      rw [k, ih c wc s hwc hs]
      subst hx2
      simp
    · have hx2 : x ≠ [] := fun h => hx (by rw [h]; rfl)
      have hxe : x.isEmpty = false := by
        cases x with
        | nil => exact absurd rfl hx2
        | cons a l => rfl
      have hf : (x :: xs).filter (fun x => !x.isEmpty) =
          x :: xs.filter (fun x => !x.isEmpty) := by
        simp [List.filter_cons, hxe]
      rw [hf, List.enumFrom_cons, List.map_cons, List.flatten_cons]
      have hpos : ∀ t : CStr, (t ++ x).length > 0 ↔ c + 1 > 0 := by
        intro t
        have : 0 < x.length := Nat.pos_of_ne_zero hx
        simp only [List.length_append]
        omega
      by_cases hw : wrap_at > 0
      · have hwc2 := hwc hw
        by_cases hc : wc = wrap_at
        · have hsep : v2sSeparator wrap_at c = " \\\n\t\t".toList := by
            have hc0 : c ≠ 0 := by omega
            have hcw : (c : Int) = wrap_at := by omega
            simp only [v2sSeparator, hc0, hw, hcw, if_false, true_and, if_true]
          have k : v2sLoop wrap_at (x :: xs) wc s =
              v2sLoop wrap_at xs (wc + 1) (s ++ " \\\n\t\t".toList ++ x) := by
            simp only [v2sLoop, hx, hw, hc, if_true, if_false]
          rw [k, ih (c + 1) (wc + 1) _ (fun _ => by rw [hwc2]; push_cast; rfl) (hpos _), hsep]
          simp only [List.append_assoc]
        · by_cases hs0 : s.length > 0
          · have hsep : v2sSeparator wrap_at c = " ".toList := by
              have hc0 : c ≠ 0 := by have := hs.mp hs0; omega
              have hcw : ¬ ((c : Int) = wrap_at) := by omega
              simp only [v2sSeparator, hc0, hcw, if_false, and_false]
            have k : v2sLoop wrap_at (x :: xs) wc s =
                v2sLoop wrap_at xs (wc + 1) (s ++ " ".toList ++ x) := by
              simp only [v2sLoop, hx, hw, hc, hs0, if_true, if_false]
            rw [k, ih (c + 1) (wc + 1) _ (fun _ => by rw [hwc2]; push_cast; rfl) (hpos _), hsep]
            simp only [List.append_assoc]
          · have hc0 : c = 0 := by
              by_contra h
              exact hs0 (hs.mpr (Nat.pos_of_ne_zero h))
            have hsep : v2sSeparator wrap_at c = [] := by
              simp only [v2sSeparator, hc0, if_true]
            have k : v2sLoop wrap_at (x :: xs) wc s =
                v2sLoop wrap_at xs (wc + 1) (s ++ x) := by
              simp only [v2sLoop, hx, hw, hc, hs0, if_true, if_false]
            rw [k, ih (c + 1) (wc + 1) _ (fun _ => by rw [hwc2]; push_cast; rfl) (hpos _), hsep]
            simp only [List.append_assoc, List.nil_append]
      · by_cases hs0 : s.length > 0
        · have hsep : v2sSeparator wrap_at c = " ".toList := by
            have hc0 : c ≠ 0 := by have := hs.mp hs0; omega
            simp only [v2sSeparator, hc0, hw, if_false, false_and]
          have k : v2sLoop wrap_at (x :: xs) wc s =
              v2sLoop wrap_at xs wc (s ++ " ".toList ++ x) := by
            simp only [v2sLoop, hx, hw, hs0, if_true, if_false]
          rw [k, ih (c + 1) wc _ (fun h => absurd h hw) (hpos _), hsep]
          simp only [List.append_assoc]
        · have hc0 : c = 0 := by
            by_contra h
            exact hs0 (hs.mpr (Nat.pos_of_ne_zero h))
          have hsep : v2sSeparator wrap_at c = [] := by
            simp only [v2sSeparator, hc0, if_true]
          have k : v2sLoop wrap_at (x :: xs) wc s =
              v2sLoop wrap_at xs wc (s ++ x) := by
            simp only [v2sLoop, hx, hw, hs0, if_true, if_false]
          rw [k, ih (c + 1) wc _ (fun h => absurd h hw) (hpos _), hsep]
          simp only [List.append_assoc, List.nil_append]

theorem v2s_eq_joined (v : List CStr) (wrap_at : Int) : v2s v wrap_at = v2sJoined v wrap_at := by
  by_cases hv : v.length = 0
  · have : v = [] := List.length_eq_zero.mp hv
    subst this
    rfl
  · simp only [v2s, hv, if_false, v2sJoined, List.enum]
    rw [v2sLoop_joined wrap_at v 0 0 [] (fun _ => rfl) (by simp), List.nil_append]

/-! ## Claims on `v2s` -/

/-- C38: for every string list `v` and every `wrap_at`, `v2s v wrap_at` is the
concatenation of the non-empty elements of `v` in order, each after its
separator: nothing before the first, and before a non-empty element that has
`k > 0` non-empty elements before it the line-continuation sequence (space,
backslash, newline, two tabs) when `wrap_at > 0` and `k = wrap_at` (the
element number `wrap_at + 1`), and one space otherwise. So the continuation
sequence is the separator at one position at most, and the result is empty
when `v` has no non-empty element. -/
theorem v2s_is_joined (v : List CStr) (wrap_at : Int) :
    v2s v wrap_at =
      (((v.filter (fun x => !x.isEmpty)).enum).map
        (fun kx => v2sSeparator wrap_at kx.1 ++ kx.2)).flatten ∧
    v2sSeparator wrap_at 0 = [] ∧
    (∀ k : Nat, 0 < k →
      v2sSeparator wrap_at k =
        if wrap_at > 0 ∧ (k : Int) = wrap_at then " \\\n\t\t".toList else " ".toList) ∧
    (∀ j k : Nat, v2sSeparator wrap_at j = " \\\n\t\t".toList →
      v2sSeparator wrap_at k = " \\\n\t\t".toList → j = k) ∧
    ((∀ x ∈ v, x = []) → v2s v wrap_at = []) ∧
    v2s ["a".toList, [], "b".toList, "c".toList, "d".toList] 2 = "a b \\\n\t\tc d".toList := by
  have hsep : ∀ k : Nat, v2sSeparator wrap_at k = " \\\n\t\t".toList →
      wrap_at > 0 ∧ (k : Int) = wrap_at := by
    intro k h
    by_cases hk : k = 0
    · rw [v2sSeparator, if_pos hk] at h
      exact absurd h (by decide)
    · by_cases hc : wrap_at > 0 ∧ (k : Int) = wrap_at
      · exact hc
      · rw [v2sSeparator, if_neg hk, if_neg hc] at h
        exact absurd h (by decide)
  refine ⟨v2s_eq_joined v wrap_at, rfl, ?_, ?_, ?_, by decide⟩
  · intro k hk
    have hk0 : k ≠ 0 := by omega
    rw [v2sSeparator, if_neg hk0]
  · intro j k hj hk
    have h1 := (hsep j hj).2
    have h2 := (hsep k hk).2
    omega
  · intro hall
    rw [v2s_eq_joined, v2sJoined]
    have : v.filter (fun x => !x.isEmpty) = [] := by
      rw [List.filter_eq_nil_iff]
      intro x hx
      rw [hall x hx]
      decide
    rw [this]
    rfl

/-- C38, witness: a list of two empty strings gives the empty string. -/
theorem v2s_is_joined_witness :
    v2s [[], []] 3 = [] :=
  (v2s_is_joined [[], []] 3).2.2.2.2.1 (by decide)

/-! ## Claims on the physical connection registration -/

/-- C36: when the device object or one of the two endpoint arguments is null,
each of `PcRegisterPhysicalConnection`,
`PcRegisterPhysicalConnectionFromExternal` and
`PcRegisterPhysicalConnectionToExternal` (past its assertion on the IRQL) and
each of the three `CUnregisterPhysicalConnection` methods returns
`STATUS_INVALID_PARAMETER` and calls neither `RegisterConnection` nor
`UnRegisterConnection`. With the three non-null, the three unregister methods
return `STATUS_NOT_IMPLEMENTED`, from one call of `UnRegisterConnection`, and
the three register functions return what their one call of
`RegisterConnection` returns. -/
theorem PhysicalConnection_null_guards (status : ConnectionArguments → NTSTATUS)
    (DeviceObject : PDEVICE_OBJECT) (From To : Option Nat) (FromPin ToPin : Nat) :
    ((DeviceObject = none ∨ From = none ∨ To = none) →
      PcRegisterPhysicalConnection status true DeviceObject From FromPin To ToPin =
        some (NTSTATUS.STATUS_INVALID_PARAMETER, []) ∧
      PcRegisterPhysicalConnectionFromExternal status true DeviceObject From FromPin To ToPin =
        some (NTSTATUS.STATUS_INVALID_PARAMETER, []) ∧
      PcRegisterPhysicalConnectionToExternal status true DeviceObject From FromPin To ToPin =
        some (NTSTATUS.STATUS_INVALID_PARAMETER, []) ∧
      CUnregisterPhysicalConnection.UnregisterPhysicalConnection
        DeviceObject From FromPin To ToPin = (NTSTATUS.STATUS_INVALID_PARAMETER, []) ∧
      CUnregisterPhysicalConnection.UnregisterPhysicalConnectionToExternal
        DeviceObject From FromPin To ToPin = (NTSTATUS.STATUS_INVALID_PARAMETER, []) ∧
      CUnregisterPhysicalConnection.UnregisterPhysicalConnectionFromExternal
        DeviceObject From FromPin To ToPin = (NTSTATUS.STATUS_INVALID_PARAMETER, [])) ∧
    ((DeviceObject ≠ none ∧ From ≠ none ∧ To ≠ none) →
      CUnregisterPhysicalConnection.UnregisterPhysicalConnection
        DeviceObject From FromPin To ToPin =
        (NTSTATUS.STATUS_NOT_IMPLEMENTED,
         [ConnectionCall.UnRegisterConnection
           ⟨DeviceObject, From, none, FromPin, To, none, ToPin⟩]) ∧
      CUnregisterPhysicalConnection.UnregisterPhysicalConnectionToExternal
        DeviceObject From FromPin To ToPin =
        (NTSTATUS.STATUS_NOT_IMPLEMENTED,
         [ConnectionCall.UnRegisterConnection
           ⟨DeviceObject, From, none, FromPin, none, To, ToPin⟩]) ∧
      CUnregisterPhysicalConnection.UnregisterPhysicalConnectionFromExternal
        DeviceObject From FromPin To ToPin =
        (NTSTATUS.STATUS_NOT_IMPLEMENTED,
         [ConnectionCall.UnRegisterConnection
           ⟨DeviceObject, none, From, FromPin, To, none, ToPin⟩]) ∧
      PcRegisterPhysicalConnection status true DeviceObject From FromPin To ToPin =
        some (status ⟨DeviceObject, From, none, FromPin, To, none, ToPin⟩,
         [ConnectionCall.RegisterConnection
           ⟨DeviceObject, From, none, FromPin, To, none, ToPin⟩]) ∧
      PcRegisterPhysicalConnectionFromExternal status true DeviceObject From FromPin To ToPin =
        some (status ⟨DeviceObject, none, From, FromPin, To, none, ToPin⟩,
         [ConnectionCall.RegisterConnection
           ⟨DeviceObject, none, From, FromPin, To, none, ToPin⟩]) ∧
      PcRegisterPhysicalConnectionToExternal status true DeviceObject From FromPin To ToPin =
        some (status ⟨DeviceObject, From, none, FromPin, none, To, ToPin⟩,
         [ConnectionCall.RegisterConnection
           ⟨DeviceObject, From, none, FromPin, none, To, ToPin⟩])) := by
  constructor
  · intro h
    cases DeviceObject <;> cases From <;> cases To <;>
      first
      | (exact ⟨rfl, rfl, rfl, rfl, rfl, rfl⟩)
      | (rcases h with h | h | h <;> exact absurd h (by simp))
  · rintro ⟨h1, h2, h3⟩
    cases DeviceObject with
    | none => exact absurd rfl h1
    | some d =>
      cases From with
      | none => exact absurd rfl h2
      | some f =>
        cases To with
        | none => exact absurd rfl h3
        | some t => exact ⟨rfl, rfl, rfl, rfl, rfl, rfl⟩

/-- C36, witness: a null source endpoint is refused by all six, and three
non-null arguments reach `UnRegisterConnection`. -/
theorem PhysicalConnection_null_guards_witness :
    (PcRegisterPhysicalConnection (fun _ => NTSTATUS.STATUS_SUCCESS) true (some 1) none 0
        (some 2) 1 = some (NTSTATUS.STATUS_INVALID_PARAMETER, []) ∧
      PcRegisterPhysicalConnectionFromExternal (fun _ => NTSTATUS.STATUS_SUCCESS) true (some 1)
        none 0 (some 2) 1 = some (NTSTATUS.STATUS_INVALID_PARAMETER, []) ∧
      PcRegisterPhysicalConnectionToExternal (fun _ => NTSTATUS.STATUS_SUCCESS) true (some 1)
        none 0 (some 2) 1 = some (NTSTATUS.STATUS_INVALID_PARAMETER, []) ∧
      CUnregisterPhysicalConnection.UnregisterPhysicalConnection
        (some 1) none 0 (some 2) 1 = (NTSTATUS.STATUS_INVALID_PARAMETER, []) ∧
      CUnregisterPhysicalConnection.UnregisterPhysicalConnectionToExternal
        (some 1) none 0 (some 2) 1 = (NTSTATUS.STATUS_INVALID_PARAMETER, []) ∧
      CUnregisterPhysicalConnection.UnregisterPhysicalConnectionFromExternal
        (some 1) none 0 (some 2) 1 = (NTSTATUS.STATUS_INVALID_PARAMETER, [])) ∧
    CUnregisterPhysicalConnection.UnregisterPhysicalConnection (some 1) (some 3) 0 (some 2) 1 =
      (NTSTATUS.STATUS_NOT_IMPLEMENTED,
       [ConnectionCall.UnRegisterConnection ⟨some 1, some 3, none, 0, some 2, none, 1⟩]) :=
  ⟨(PhysicalConnection_null_guards (fun _ => NTSTATUS.STATUS_SUCCESS) (some 1) none (some 2)
      0 1).1 (Or.inr (Or.inl rfl)),
   ((PhysicalConnection_null_guards (fun _ => NTSTATUS.STATUS_SUCCESS) (some 1) (some 3) (some 2)
      0 1).2 ⟨by decide, by decide, by decide⟩).1⟩

/-! ## Lemmas on `SQL_MarkPrimaryKeys` -/

theorem keyMarked_refl (msi : Msi) (c : column_info) : keyMarked msi c c :=
  ⟨rfl, Or.inl rfl⟩

theorem keyMarked_trans (msi : Msi) (a b c : column_info) (h1 : keyMarked msi a b)
    (h2 : keyMarked msi b c) : keyMarked msi a c := by
  obtain ⟨n1, t1⟩ := h1
  obtain ⟨n2, t2⟩ := h2
  refine ⟨n2.trans n1, ?_⟩
  rcases t1 with t1 | t1 <;> rcases t2 with t2 | t2
  · exact Or.inl (t2.trans t1)
  · exact Or.inr (by rw [t2, t1])
  · exact Or.inr (by rw [t2, t1])
  · refine Or.inr ?_
    rw [t2, t1, Nat.lor_assoc, Nat.or_self]

theorem forall₂_keyMarked_refl (msi : Msi) (cols : List column_info) :
    List.Forall₂ (keyMarked msi) cols cols := by
  induction cols with
  | nil => exact List.Forall₂.nil
  | cons c rest ih => exact List.Forall₂.cons (keyMarked_refl msi c) ih

theorem forall₂_keyMarked_trans (msi : Msi) :
    ∀ (a b c : List column_info), List.Forall₂ (keyMarked msi) a b →
      List.Forall₂ (keyMarked msi) b c → List.Forall₂ (keyMarked msi) a c := by
  intro a b c h1
  induction h1 generalizing c with
  | nil => intro h2; cases h2; exact List.Forall₂.nil
  | cons h t ih =>
    intro h2
    cases h2 with
    | cons h3 t3 => exact List.Forall₂.cons (keyMarked_trans msi _ _ _ h h3) (ih _ t3)

theorem forall₂_keyMarked_match (msi : Msi) (k : column_info) :
    ∀ (a b : List column_info), List.Forall₂ (keyMarked msi) a b →
      ((∃ c ∈ b, msi.lstrcmpW k.column c.column = 0) ↔
        ∃ c ∈ a, msi.lstrcmpW k.column c.column = 0) := by
  intro a b h
  induction h with
  | nil => simp
  | cons h t ih =>
    simp only [List.exists_mem_cons_iff, ih, h.1]

theorem SQL_MarkPrimaryKeysColumns_cons_ne (msi : Msi) (k c : column_info)
    (rest : List column_info) (h : msi.lstrcmpW k.column c.column ≠ 0) :
    SQL_MarkPrimaryKeysColumns msi k (c :: rest) =
      ((SQL_MarkPrimaryKeysColumns msi k rest).1,
       c :: (SQL_MarkPrimaryKeysColumns msi k rest).2) := by
  simp only [SQL_MarkPrimaryKeysColumns, h, ne_eq, not_false_eq_true, if_true]

theorem SQL_MarkPrimaryKeysColumns_cons_eq (msi : Msi) (k c : column_info)
    (rest : List column_info) (h : msi.lstrcmpW k.column c.column = 0) :
    SQL_MarkPrimaryKeysColumns msi k (c :: rest) =
      (true, { c with type := c.type ||| msi.MSITYPE_KEY } :: rest) := by
  simp only [SQL_MarkPrimaryKeysColumns, h, ne_eq, not_true_eq_false, if_false]

theorem SQL_MarkPrimaryKeysColumns_found (msi : Msi) (k : column_info)
    (cols : List column_info) :
    (SQL_MarkPrimaryKeysColumns msi k cols).1 = true ↔
      ∃ c ∈ cols, msi.lstrcmpW k.column c.column = 0 := by
  induction cols with
  | nil => simp [SQL_MarkPrimaryKeysColumns]
  | cons c rest ih =>
    by_cases h : msi.lstrcmpW k.column c.column = 0
    · rw [SQL_MarkPrimaryKeysColumns_cons_eq msi k c rest h]
      simp only [List.exists_mem_cons_iff, h, true_or]
    · rw [SQL_MarkPrimaryKeysColumns_cons_ne msi k c rest h]
      simp only [List.exists_mem_cons_iff, h, false_or, ih]

theorem SQL_MarkPrimaryKeysColumns_marked (msi : Msi) (k : column_info)
    (cols : List column_info) :
    List.Forall₂ (keyMarked msi) cols (SQL_MarkPrimaryKeysColumns msi k cols).2 := by
  induction cols with
  | nil => exact List.Forall₂.nil
  | cons c rest ih =>
    by_cases h : msi.lstrcmpW k.column c.column = 0
    · rw [SQL_MarkPrimaryKeysColumns_cons_eq msi k c rest h]
      exact List.Forall₂.cons ⟨rfl, Or.inr rfl⟩ (forall₂_keyMarked_refl msi rest)
    · rw [SQL_MarkPrimaryKeysColumns_cons_ne msi k c rest h]
      exact List.Forall₂.cons (keyMarked_refl msi c) ih

theorem SQL_MarkPrimaryKeysColumns_first (msi : Msi) (k c : column_info)
    (pre post : List column_info)
    (hpre : ∀ p ∈ pre, msi.lstrcmpW k.column p.column ≠ 0)
    (hc : msi.lstrcmpW k.column c.column = 0) :
    SQL_MarkPrimaryKeysColumns msi k (pre ++ c :: post) =
      (true, pre ++ { c with type := c.type ||| msi.MSITYPE_KEY } :: post) := by
  induction pre with
  | nil => exact SQL_MarkPrimaryKeysColumns_cons_eq msi k c post hc
  | cons p ps ih =>
    rw [List.cons_append, SQL_MarkPrimaryKeysColumns_cons_ne msi k p _
      (hpre p (List.mem_cons_self _ _)), ih (fun q hq => hpre q (List.mem_cons_of_mem _ hq))]
    rfl

theorem SQL_MarkPrimaryKeysColumns_none (msi : Msi) (k : column_info)
    (cols : List column_info) (h : ∀ c ∈ cols, msi.lstrcmpW k.column c.column ≠ 0) :
    SQL_MarkPrimaryKeysColumns msi k cols = (false, cols) := by
  induction cols with
  | nil => rfl
  | cons c rest ih =>
    rw [SQL_MarkPrimaryKeysColumns_cons_ne msi k c rest (h c (List.mem_cons_self _ _)),
      ih (fun q hq => h q (List.mem_cons_of_mem _ hq))]

theorem SQL_MarkPrimaryKeysLoop_false (msi : Msi) (keys cols : List column_info) :
    SQL_MarkPrimaryKeysLoop msi keys false cols = (false, cols) := by
  cases keys <;> rfl

theorem SQL_MarkPrimaryKeysLoop_cons (msi : Msi) (k : column_info)
    (keys cols : List column_info) :
    SQL_MarkPrimaryKeysLoop msi (k :: keys) true cols =
      SQL_MarkPrimaryKeysLoop msi keys (SQL_MarkPrimaryKeysColumns msi k cols).1
        (SQL_MarkPrimaryKeysColumns msi k cols).2 := rfl

theorem SQL_MarkPrimaryKeysLoop_append (msi : Msi) (a b : List column_info) :
    ∀ (found : Bool) (cols : List column_info),
      SQL_MarkPrimaryKeysLoop msi (a ++ b) found cols =
        SQL_MarkPrimaryKeysLoop msi b (SQL_MarkPrimaryKeysLoop msi a found cols).1
          (SQL_MarkPrimaryKeysLoop msi a found cols).2 := by
  induction a with
  | nil => intro found cols; rfl
  | cons k ks ih =>
    intro found cols
    cases found with
    | false =>
      rw [SQL_MarkPrimaryKeysLoop_false, SQL_MarkPrimaryKeysLoop_false,
        SQL_MarkPrimaryKeysLoop_false]
    | true =>
      rw [List.cons_append, SQL_MarkPrimaryKeysLoop_cons, SQL_MarkPrimaryKeysLoop_cons, ih]

theorem SQL_MarkPrimaryKeysLoop_marked (msi : Msi) (keys : List column_info) :
    ∀ (found : Bool) (cols : List column_info),
      List.Forall₂ (keyMarked msi) cols (SQL_MarkPrimaryKeysLoop msi keys found cols).2 := by
  induction keys with
  | nil => intro found cols; exact forall₂_keyMarked_refl msi cols
  | cons k ks ih =>
    intro found cols
    cases found with
    | false =>
      rw [SQL_MarkPrimaryKeysLoop_false]
      exact forall₂_keyMarked_refl msi cols
    | true =>
      rw [SQL_MarkPrimaryKeysLoop_cons]
      exact forall₂_keyMarked_trans msi _ _ _ (SQL_MarkPrimaryKeysColumns_marked msi k cols)
        (ih _ _)

theorem SQL_MarkPrimaryKeysLoop_found (msi : Msi) (keys : List column_info) :
    ∀ (cols : List column_info),
      (SQL_MarkPrimaryKeysLoop msi keys true cols).1 = true ↔
        ∀ k ∈ keys, ∃ c ∈ cols, msi.lstrcmpW k.column c.column = 0 := by
  induction keys with
  | nil => intro cols; simp [SQL_MarkPrimaryKeysLoop]
  | cons k ks ih =>
    intro cols
    rw [SQL_MarkPrimaryKeysLoop_cons, List.forall_mem_cons]
    cases hf : (SQL_MarkPrimaryKeysColumns msi k cols).1 with
    | false =>
      rw [SQL_MarkPrimaryKeysLoop_false]
      have := (SQL_MarkPrimaryKeysColumns_found msi k cols).not.mp (by rw [hf]; simp)
      simp only [Bool.false_eq_true, false_iff, not_and]
      intro h
      exact absurd h this
    | true =>
      rw [ih]
      have h1 := (SQL_MarkPrimaryKeysColumns_found msi k cols).mp hf
      constructor
      · intro h
        refine ⟨h1, fun k2 hk2 => ?_⟩
        exact (forall₂_keyMarked_match msi k2 _ _
          (SQL_MarkPrimaryKeysColumns_marked msi k cols)).mp (h k2 hk2)
      · intro h k2 hk2
        exact (forall₂_keyMarked_match msi k2 _ _
          (SQL_MarkPrimaryKeysColumns_marked msi k cols)).mpr (h.2 k2 hk2)

/-! ## Claims on the SQL parser helpers -/

/-- C37: `SQL_MarkPrimaryKeys( cols, keys )` returns TRUE exactly when every
key has a column that `lstrcmpW` finds equal to it (so TRUE for no key at
all). Every column keeps its place and its name, and its type is left alone or
gets the bits of `MSITYPE_KEY`. One more key after keys that were all found
marks the first column equal to it and nothing else; a key with no column
equal to it ends the call with FALSE, and the columns are then as the keys
before it left them, whatever keys follow. -/
theorem SQL_MarkPrimaryKeys_marks (msi : Msi) (cols keys : List column_info) :
    ((SQL_MarkPrimaryKeys msi cols keys).1 = true ↔
      ∀ k ∈ keys, ∃ c ∈ cols, msi.lstrcmpW k.column c.column = 0) ∧
    (SQL_MarkPrimaryKeys msi cols []).1 = true ∧
    List.Forall₂ (keyMarked msi) cols (SQL_MarkPrimaryKeys msi cols keys).2 ∧
    (∀ (k c : column_info) (pre post : List column_info),
      (SQL_MarkPrimaryKeys msi cols keys).1 = true →
      (SQL_MarkPrimaryKeys msi cols keys).2 = pre ++ c :: post →
      (∀ p ∈ pre, msi.lstrcmpW k.column p.column ≠ 0) →
      msi.lstrcmpW k.column c.column = 0 →
      SQL_MarkPrimaryKeys msi cols (keys ++ [k]) =
        (true, pre ++ { c with type := c.type ||| msi.MSITYPE_KEY } :: post)) ∧
    (∀ (k : column_info) (rest : List column_info),
      (∀ c ∈ cols, msi.lstrcmpW k.column c.column ≠ 0) →
      SQL_MarkPrimaryKeys msi cols (keys ++ k :: rest) =
        (false, (SQL_MarkPrimaryKeys msi cols keys).2)) := by
  refine ⟨SQL_MarkPrimaryKeysLoop_found msi keys cols, rfl,
    SQL_MarkPrimaryKeysLoop_marked msi keys true cols, ?_, ?_⟩
  · intro k c pre post hfound hsplit hpre hc
    simp only [SQL_MarkPrimaryKeys] at hfound hsplit ⊢
    rw [SQL_MarkPrimaryKeysLoop_append, hfound, hsplit, SQL_MarkPrimaryKeysLoop_cons,
      SQL_MarkPrimaryKeysColumns_first msi k c pre post hpre hc]
    rfl
  · intro k rest hnone
    simp only [SQL_MarkPrimaryKeys]
    rw [SQL_MarkPrimaryKeysLoop_append]
    cases hf : (SQL_MarkPrimaryKeysLoop msi keys true cols).1 with
    | false => rw [SQL_MarkPrimaryKeysLoop_false]
    | true =>
      have hnone2 : ∀ c ∈ (SQL_MarkPrimaryKeysLoop msi keys true cols).2,
          msi.lstrcmpW k.column c.column ≠ 0 := by
        intro c hc h0
        obtain ⟨c0, hc0, h00⟩ := (forall₂_keyMarked_match msi k _ _
          (SQL_MarkPrimaryKeysLoop_marked msi keys true cols)).mp ⟨c, hc, h0⟩
        exact hnone c0 hc0 h00
      rw [SQL_MarkPrimaryKeysLoop_cons, SQL_MarkPrimaryKeysColumns_none msi k _ hnone2,
        SQL_MarkPrimaryKeysLoop_false]

/-- C37, witness: columns `a`, `b`, `a` and the key `b` after the key `a`: the
first `a` and then `b` get the key bit; a key `z` after them ends the call
with FALSE and leaves both marked. -/
theorem SQL_MarkPrimaryKeys_marks_witness :
    SQL_MarkPrimaryKeys Msi.sample [⟨[97], 1⟩, ⟨[98], 2⟩, ⟨[97], 4⟩] ([⟨[97], 0⟩] ++ [⟨[98], 0⟩]) =
      (true, [⟨[97], 0x2001⟩] ++ { (⟨[98], 2⟩ : column_info) with type := 2 ||| 0x2000 } ::
        [⟨[97], 4⟩]) ∧
    SQL_MarkPrimaryKeys Msi.sample [⟨[97], 1⟩, ⟨[98], 2⟩, ⟨[97], 4⟩]
        ([⟨[97], 0⟩, ⟨[98], 0⟩] ++ ⟨[122], 0⟩ :: [⟨[97], 0⟩]) =
      (false, [⟨[97], 0x2001⟩, ⟨[98], 0x2002⟩, ⟨[97], 4⟩]) :=
  ⟨(SQL_MarkPrimaryKeys_marks Msi.sample [⟨[97], 1⟩, ⟨[98], 2⟩, ⟨[97], 4⟩]
      [⟨[97], 0⟩]).2.2.2.1 ⟨[98], 0⟩ ⟨[98], 2⟩ [⟨[97], 0x2001⟩] [⟨[97], 4⟩]
      (by decide) (by decide) (by decide) (by decide),
   (SQL_MarkPrimaryKeys_marks Msi.sample [⟨[97], 1⟩, ⟨[98], 2⟩, ⟨[97], 4⟩]
      [⟨[97], 0⟩, ⟨[98], 0⟩]).2.2.2.2 ⟨[122], 0⟩ [⟨[97], 0⟩] (by decide)⟩

/-! ## Lemmas on `SQL_getint` -/

theorem wrapInt32_step (d r : Int) :
    wrapInt32 (d + wrapInt32 (wrapInt32 r * 10)) = wrapInt32 (d + r * 10) := by
  have h31 : (2 : Int) ^ 31 = 2147483648 := by norm_num
  have h32 : (2 : Int) ^ 32 = 4294967296 := by norm_num
  simp only [wrapInt32, h31, h32]
  omega

theorem wrapInt32_range (x : Int) : -2 ^ 31 ≤ wrapInt32 x ∧ wrapInt32 x < 2 ^ 31 := by
  have h31 : (2 : Int) ^ 31 = 2147483648 := by norm_num
  have h32 : (2 : Int) ^ 32 = 4294967296 := by norm_num
  simp only [wrapInt32, h31, h32]
  omega

theorem wrapInt32_congruent (x : Int) : (wrapInt32 x - x) % 2 ^ 32 = 0 := by
  have h31 : (2 : Int) ^ 31 = 2147483648 := by norm_num
  have h32 : (2 : Int) ^ 32 = 4294967296 := by norm_num
  simp only [wrapInt32, h31, h32]
  omega

theorem wrapInt32_fits (x : Int) (h1 : -2 ^ 31 ≤ x) (h2 : x < 2 ^ 31) : wrapInt32 x = x := by
  have h31 : (2 : Int) ^ 31 = 2147483648 := by norm_num
  have h32 : (2 : Int) ^ 32 = 4294967296 := by norm_num
  simp only [wrapInt32, h31, h32] at h1 h2 ⊢
  omega

theorem SQL_getintLoop_value (p : Nat → Nat) :
    ∀ (remaining i : Nat) (v : Nat) (l : List Nat), (∀ j, p (i + j) = l.getD j 0) →
      SQL_getintLoop p remaining i (wrapInt32 v) =
        wrapInt32 ((((l.take remaining).takeWhile isDecimalDigit).foldl
          (fun v c => 10 * v + (c - 48)) v : Nat) : Int) := by
  intro remaining
  induction remaining with
  | zero => intro i v l _; simp [SQL_getintLoop]
  | succ k ih =>
    intro i v l hl
    cases l with
    | nil =>
      have h0 : p i = 0 := by simpa using hl 0
      simp [SQL_getintLoop, h0]
    | cons c cs =>
      have h0 : p i = c := by simpa using hl 0
      have hcs : ∀ j, p (i + 1 + j) = cs.getD j 0 := by
        intro j
        have := hl (j + 1)
        rw [List.getD_cons_succ] at this
        rw [← this]
        congr 1
        omega
      by_cases hd : 48 > c ∨ 57 < c
      · have hnd : isDecimalDigit c = false := by
          simp only [isDecimalDigit, decide_eq_false_iff_not]
          omega
        simp only [SQL_getintLoop, h0, hd, if_true, List.take_succ_cons,
          List.takeWhile_cons, hnd]
        rfl
      · have hdd : isDecimalDigit c = true := by
          simp only [isDecimalDigit, decide_eq_true_eq]
          omega
        have hstep : wrapInt32 (((c : Int) - 48) + wrapInt32 (wrapInt32 (v : Int) * 10)) =
            wrapInt32 ((10 * v + (c - 48) : Nat) : Int) := by
          rw [wrapInt32_step]
          congr 1
          omega
        simp only [SQL_getintLoop, h0, hd, if_false, List.take_succ_cons,
          List.takeWhile_cons, hdd, if_true, List.foldl_cons]
        rw [hstep]
        exact ih (i + 1) _ cs hcs

theorem SQL_getint_eq (sql : SQL_input) :
    SQL_getint sql =
      wrapInt32 (decimalValue (sql.token.takeWhile isDecimalDigit) : Nat) := by
  have h := SQL_getintLoop_value (fun i => sql.command.getD (sql.n + i) 0) sql.len 0 0
    (sql.command.drop sql.n) (by
      intro j
      simp only [Nat.zero_add, List.getD_eq_getElem?_getD, List.getElem?_drop])
  have hz : wrapInt32 ((0 : Nat) : Int) = 0 := by decide
  rw [hz] at h
  exact h

/-- C39: `SQL_getint` returns the decimal value of the digits the current
token starts with, computed as `r = digit + 10 * r` from left to right and
held in a signed 32-bit `INT`: a value between `-2^31` and `2^31 - 1` that
differs from the decimal value by a multiple of `2^32`, so the decimal value
itself when that is below `2^31`. For a token of digits only this is the
value of the whole token; a token that starts with a non-digit gives 0. -/
theorem SQL_getint_value (sql : SQL_input) :
    SQL_getint sql = wrapInt32 (decimalValue (sql.token.takeWhile isDecimalDigit) : Nat) ∧
    (SQL_getint sql - (decimalValue (sql.token.takeWhile isDecimalDigit) : Nat)) % 2 ^ 32 = 0 ∧
    -2 ^ 31 ≤ SQL_getint sql ∧ SQL_getint sql < 2 ^ 31 ∧
    (decimalValue (sql.token.takeWhile isDecimalDigit) < 2 ^ 31 →
      SQL_getint sql = (decimalValue (sql.token.takeWhile isDecimalDigit) : Nat)) ∧
    ((∀ c ∈ sql.token, 48 ≤ c ∧ c ≤ 57) →
      SQL_getint sql = wrapInt32 (decimalValue sql.token : Nat)) ∧
    (∀ c rest, sql.token = c :: rest → (48 > c ∨ 57 < c) → SQL_getint sql = 0) ∧
    (∀ (digits : List Nat) (c : Nat), decimalValue (digits ++ [c]) =
      10 * decimalValue digits + (c - 48)) := by
  have he := SQL_getint_eq sql
  refine ⟨he, ?_, ?_, ?_, ?_, ?_, ?_, ?_⟩
  · rw [he]
    exact wrapInt32_congruent _
  · rw [he]
    exact (wrapInt32_range _).1
  · rw [he]
    exact (wrapInt32_range _).2
  · intro hfit
    rw [he]
    apply wrapInt32_fits
    · have : (0 : Int) ≤ (decimalValue (sql.token.takeWhile isDecimalDigit) : Nat) :=
        Int.ofNat_nonneg _
      have h31 : (2 : Int) ^ 31 = 2147483648 := by norm_num
      rw [h31]
      omega
    · exact_mod_cast hfit
  · intro hall
    have : sql.token.takeWhile isDecimalDigit = sql.token := by
      rw [List.takeWhile_eq_self_iff]
      intro c hc
      simp only [isDecimalDigit, decide_eq_true_eq]
      exact hall c hc
    rw [he, this]
  · intro c rest htok hnd
    have hndd : isDecimalDigit c = false := by
      simp only [isDecimalDigit, decide_eq_false_iff_not]
      omega
    rw [he, htok, List.takeWhile_cons, hndd]
    exact wrapInt32_fits 0 (by norm_num) (by norm_num)
  · intro digits c
    simp only [decimalValue, List.foldl_append, List.foldl_cons, List.foldl_nil]

/-- C39, witness: the token `123` inside `A123 ` gives 123, and the token
`12a4` gives 12. -/
theorem SQL_getint_value_witness :
    SQL_getint ⟨[65, 49, 50, 51, 32], 1, 3⟩ = ((123 : Nat) : Int) ∧
    SQL_getint ⟨[120, 49], 0, 2⟩ = 0 :=
  ⟨(SQL_getint_value ⟨[65, 49, 50, 51, 32], 1, 3⟩).2.2.2.2.1 (by decide),
   (SQL_getint_value ⟨[120, 49], 0, 2⟩).2.2.2.2.2.2.1 120 [49] (by decide) (by decide)⟩
